import Mathlib

/-!
# Minimax graph engine (`Minimax.hpp`) and its Connect-4 client

A shallow embedding of the search engine `dhlib::minimax::minimax` and of the
properties its specification states about it.

## Memory model

* Nodes live in a heap `Nat → node`; an address is a natural number and fresh
  addresses are handed out by the counter `next` (`make_shared`, `new node`).
* `std::shared_ptr<node>` is an address; the strong count of its control block is
  the field `rc` of the node.  A `std::weak_ptr<node>` is an address as well, and it
  is expired exactly when `rc = 0`.  Destroyed nodes stay in the heap with `rc = 0`.
* `std::vector<node_ptr>::iterator` is the pair of the node owning the vector and
  a position in it.  An iterator is invalidated when its vector is reallocated;
  the traversal of `compute` keeps a flag for every iterator on its path, and a
  call that reads an invalidated iterator or writes through a dangling reference
  ends with the error `undefined_behaviour`.
* `size_t` is `Nat` below `2 ^ 64`; sums and differences are reduced modulo `2 ^ 64`.
* `Score` is instantiated with `int` (as in `Connect4.h`), so the two sentinels
  `numeric_limits<Score>::min()` and `max()` are `-2 ^ 31` and `2 ^ 31 - 1`.
* The template arguments `Heuristic` and `GetChoices` are passed as functions.
-/

namespace Minimax

/-! ## Constants and machine arithmetic -/

/-- The constant `MAX` of the source. -/
def MAX : Bool := true

/-- The constant `MIN` of the source. -/
def MIN : Bool := false

/-- The value `std::numeric_limits<size_t>::max()`, used as the unknown height. -/
def infinity : Nat := 2 ^ 64 - 1

/-- The value `std::numeric_limits<Score>::min()` for `Score = int`. -/
def scoreMin : Int := -2 ^ 31

/-- The value `std::numeric_limits<Score>::max()` for `Score = int`. -/
def scoreMax : Int := 2 ^ 31 - 1

/-- The value of `max_size()` of the vector `path` of `compute`: an iterator takes
8 bytes, and libstdc++ on a 64-bit target allows `PTRDIFF_MAX / 8` of them.  The call
`path.reserve(n)` throws `std::length_error` for a larger `n`. -/
def max_size : Nat := (2 ^ 63 - 1) / 8

/-- Addition of two `size_t` values. -/
def usize_add (a b : Nat) : Nat := (a + b) % 2 ^ 64

/-- Subtraction of two `size_t` values. -/
def usize_sub (a b : Nat) : Nat := (a + 2 ^ 64 - b % 2 ^ 64) % 2 ^ 64

/-- The seed `type ? numeric_limits<Score>::min() : numeric_limits<Score>::max()`. -/
def seed (type : Bool) : Int := if type then scoreMin else scoreMax

/-- Conversion of a `bool` to `int`, as done by `score == parentType`. -/
def boolInt (b : Bool) : Int := if b then 1 else 0

/-! ## Data model -/

/-- The class `minimax::node`.  The field `rc` is the strong count of the
`shared_ptr` control block owning the node. -/
structure node (State Choice : Type) where
  mark : Bool
  state : State
  score : Int
  height : Nat
  children : List Nat
  choices : List Choice
  rc : Nat

/-- The constructor `node(minimax, state, type)`, wrapped in a `shared_ptr`. -/
def node.mk_shared {State Choice : Type} (stateA : State) (type : Bool) : node State Choice :=
  { mark := false, state := stateA, score := seed type, height := 0,
    children := [], choices := [], rc := 1 }

/-- The class `minimax`: the heap of nodes, the table `nodes`, `root` and `type_`. -/
structure minimax (State Choice : Type) where
  heap : Nat → node State Choice
  next : Nat
  nodes : List (State × Nat)
  root : Nat
  type_ : Bool

/-- The ways a call can fail.  The first four are the exceptions of the source; an
exception that leaves a function declared `noexcept` (`compute(size_t)`,
`collect_garbage`) ends the program.  The last two belong to the model only:
`undefined_behaviour` says that the call used an invalidated iterator or reference,
after which the program has no defined behaviour, and `out_of_fuel` that the loop
budget of the model was used up. -/
inductive Error where
  | logic_error
  | invalid_argument
  | bad_weak_ptr
  | length_error
  | undefined_behaviour
  | out_of_fuel
  deriving DecidableEq, Repr

variable {State Choice : Type}

/-- Overwrite the node stored at an address. -/
def store (hp : Nat → node State Choice) (p : Nat) (n : node State Choice) :
    Nat → node State Choice :=
  fun q => if q = p then n else hp q

/-- The constructor `minimax(start, isMax)`: the root is a new node, which is not
entered in the table. -/
def minimax.new (start : State) (isMax : Bool) : minimax State Choice :=
  { heap := fun _ => node.mk_shared start isMax, next := 1, nodes := [], root := 0,
    type_ := isMax }

/-- The method `score()`. -/
def minimax.score (e : minimax State Choice) : Int := (e.heap e.root).score

/-- The method `state()`. -/
def minimax.state (e : minimax State Choice) : State := (e.heap e.root).state

/-- The method `type()`. -/
def minimax.type (e : minimax State Choice) : Bool := e.type_

/-- The test `weak_ptr::expired()`. -/
def expired (hp : Nat → node State Choice) (p : Nat) : Bool := (hp p).rc == 0

/-- The lookup `nodes.find(key)`. -/
def find [DecidableEq State] (tbl : List (State × Nat)) (key : State) : Option Nat :=
  match tbl with
  | [] => none
  | (k, p) :: rest => if k = key then some p else find rest key

/-! ## `choose` -/

/-- The comparison `type_ ? (a > b) : (a < b)` of `choose`. -/
def better (type : Bool) (a b : Int) : Bool :=
  if type then decide (a > b) else decide (a < b)

/-- The loop of `choose`: `child` runs over the children, `choice` in step with it. -/
def choose_loop (hp : Nat → node State Choice) (type : Bool) :
    List Nat → List Choice → Int → Choice → Choice
  | child :: children, choice :: choices, best, bestChoice =>
      if better type (hp child).score best then
        choose_loop hp type children choices (hp child).score choice
      else
        choose_loop hp type children choices best bestChoice
  | _, _, _, bestChoice => bestChoice

/-- The method `choose(def)`. -/
def choose (e : minimax State Choice) (dflt : Choice) : Choice :=
  choose_loop e.heap e.type_ (e.heap e.root).children (e.heap e.root).choices
    (seed e.type_) dflt

/-! ## `update_score` -/

/-- The two-node overload `update_score(child, parent, parentType)`. -/
def update_score (hp : Nat → node State Choice) (child parent : Nat) (parentType : Bool) :
    Nat → node State Choice :=
  if parentType = MAX then
    store hp parent { hp parent with score := max (hp parent).score (hp child).score }
  else
    store hp parent { hp parent with score := min (hp parent).score (hp child).score }

/-- The three-node overload `update_score(child, parent, gParent, parentType)`; the
Boolean tells whether the parent can be pruned. -/
def update_score_gp (hp : Nat → node State Choice) (child parent gParent : Nat)
    (parentType : Bool) : Bool × (Nat → node State Choice) :=
  let hp1 := update_score hp child parent parentType
  if parentType = MAX then
    (decide ((hp1 parent).score > (hp1 gParent).score) &&
      decide (child ≠ ((hp1 parent).children).getLastD 0), hp1)
  else
    (decide ((hp1 parent).score < (hp1 gParent).score) &&
      decide (child ≠ ((hp1 parent).children).getLastD 0), hp1)

/-! ## `next_node` and `compute` -/

/-- An iterator of type `child_iter`: a position in the `children` of `owner`. -/
structure child_iter where
  owner : Nat
  idx : Nat
  deriving DecidableEq, Repr

/-- Dereference an iterator. -/
def deref (hp : Nat → node State Choice) (it : child_iter) : Nat :=
  ((hp it.owner).children).getD it.idx 0

/-- The places at which the traversal of `compute` can stand between two steps. -/
inductive PC where
  | descend
  | construct
  | backtrack
  | finished
  deriving DecidableEq, Repr

/-- The engine together with the local variables of `compute`: `path` (its back
is the head of the list), `nodeType` and `at`. -/
structure Frame (State Choice : Type) where
  mm : minimax State Choice
  path : List child_iter
  nodeType : Bool
  cur : Nat
  pc : PC

/-- The loop `while(++*iter != parent->children.end())` run when a parent is pruned:
`siblings` are the children after the one that triggered the pruning. -/
def prune_heights (parent : Nat) (parentType : Bool) :
    List Nat → (Nat → node State Choice) → (Nat → node State Choice)
  | [], hp => hp
  | sib :: siblings, hp =>
      if (if (hp sib).score = boolInt parentType then scoreMax else scoreMin) ≠ 0 then
        let hp1 := store hp parent { hp parent with height := min (hp parent).height (hp sib).height }
        if (hp1 parent).height = 0 then hp1 else prune_heights parent parentType siblings hp1
      else if (hp sib).height ≠ infinity then
        prune_heights parent parentType siblings
          (store hp parent
            { hp parent with height := min (hp parent).height (usize_add (hp sib).height 1) })
      else
        prune_heights parent parentType siblings hp

/-- The statement `parent.height = min(childHeight + k, parent.height)` guarded by
`childHeight != infinity`. -/
def lower_height (hp : Nat → node State Choice) (p childHeight k : Nat) :
    Nat → node State Choice :=
  if childHeight ≠ infinity then
    store hp p { hp p with height := min (usize_add childHeight k) (hp p).height }
  else hp

/-- The node whose children the iterator on top of `path` runs over. -/
def parent_of (hp : Nat → node State Choice) (startNode : Nat) : List child_iter → Nat
  | _ :: it :: _ => deref hp it
  | _ => startNode

/-- The end of `next_node` and the test of the `do`-`while` loop of `compute`. -/
def resume (startNode : Nat) (f : Frame State Choice) (nxt : Nat) : Frame State Choice :=
  { f with cur := nxt, pc := if startNode = nxt then PC.finished else PC.descend }

/-- The body of the inner loop of `next_node` up to and including `++*iter`: the
child under `iter` is accounted for in its parent, and the parent is pruned when
`update_score` says so.  Here `it` is the back of `path` and `rest` the path
below it. -/
def merge_child (startNode : Nat) (f : Frame State Choice) (it : child_iter)
    (rest : List child_iter) : Frame State Choice :=
  let hp := f.mm.heap
  let parent := parent_of hp startNode (it :: rest)
  let parentType := !f.nodeType
  let child := deref hp it
  let childHeight := (hp child).height
  match rest with
  | [] =>
    let hp1 := update_score hp child parent parentType
    let hp2 := lower_height hp1 parent childHeight 1
    { f with mm := { f.mm with heap := hp2 }, path := [{ it with idx := it.idx + 1 }] }
  | it2 :: rest2 =>
    let gParent := parent_of hp startNode rest
    let r := update_score_gp hp child parent gParent parentType
    if r.1 then
      let hp2 := prune_heights parent parentType (((r.2 parent).children).drop (it.idx + 1)) r.2
      let hp3 := lower_height hp2 gParent childHeight 2
      { f with mm := { f.mm with heap := hp3 }, nodeType := parentType,
               path := { it2 with idx := it2.idx + 1 } :: rest2 }
    else
      let hp2 := lower_height r.2 parent childHeight 1
      { f with mm := { f.mm with heap := hp2 },
               path := { it with idx := it.idx + 1 } :: rest }

/-- The test `*iter != parent->children.end() && (**iter)->height <= depth - path.size()`
after `++*iter`, with the `return ***iter` it guards. -/
def return_check (depth startNode : Nat) (f : Frame State Choice) : Frame State Choice :=
  match f.path with
  | [] => f
  | it :: _ =>
    let parent := parent_of f.mm.heap startNode f.path
    if it.idx ≠ ((f.mm.heap parent).children).length ∧
        (f.mm.heap (deref f.mm.heap it)).height ≤ usize_sub depth f.path.length then
      resume startNode f (deref f.mm.heap it)
    else f

/-- One turn of the loops of `next_node`.  At the head of the inner and of the outer
loop `iter` is the back of `path`, `parent` is the node before it on the path (or
`startNode`) and `parentType` is `!nodeType`; so both loops are run by one function:
an empty path ends `next_node` with `startNode`, an iterator at the end of its vector
ends the inner loop (`path.pop_back(); nodeType = parentType;`), and otherwise the
body of the inner loop is run once. -/
def next_node_step (depth startNode : Nat) (f : Frame State Choice) : Frame State Choice :=
  match f.path with
  | [] => resume startNode f startNode
  | it :: rest =>
    if it.idx = ((f.mm.heap (parent_of f.mm.heap startNode f.path)).children).length then
      { f with path := rest, nodeType := !f.nodeType }
    else
      return_check depth startNode (merge_child startNode f it rest)

/-- The loop `for(auto &child : getChoices(at->state))` of `compute`. -/
def expand [DecidableEq State] (cur : Nat) (childType : Bool) :
    List (Choice × State) → minimax State Choice → Except Error (minimax State Choice)
  | [], e => Except.ok e
  | (c, s) :: more, e =>
    match find e.nodes s with
    | some p =>
      if expired e.heap p then Except.error Error.bad_weak_ptr
      else
        let hp1 := store e.heap p { e.heap p with rc := (e.heap p).rc + 1 }
        let hp2 := store hp1 cur { hp1 cur with
          children := (hp1 cur).children ++ [p], choices := (hp1 cur).choices ++ [c] }
        expand cur childType more { e with heap := hp2 }
    | none =>
      let p := e.next
      let hp1 := store e.heap p (node.mk_shared s childType)
      let hp2 := store hp1 cur { hp1 cur with
        children := (hp1 cur).children ++ [p], choices := (hp1 cur).choices ++ [c] }
      expand cur childType more { e with heap := hp2, next := p + 1, nodes := e.nodes ++ [(s, p)] }

/-- The statements `path.emplace_back(at->children.begin()); at = at->children.front().get();
nodeType = !nodeType;`. -/
def go_down (f : Frame State Choice) (pc : PC) : Frame State Choice :=
  { f with path := { owner := f.cur, idx := 0 } :: f.path,
           cur := ((f.mm.heap f.cur).children).headD 0,
           nodeType := !f.nodeType, pc := pc }

/-- The statement `if(at->children.empty()) at->score = heuristic(at->state);`. -/
def evaluate_leaf (heuristic : State → Int) (hp : Nat → node State Choice) (cur : Nat) :
    Nat → node State Choice :=
  if (hp cur).children = [] then
    store hp cur { hp cur with score := heuristic (hp cur).state }
  else hp

/-- The statements `at->height = infinity; at->score = nodeType ? min : max;` at the
head of the descent. -/
def reset_node (hp : Nat → node State Choice) (cur : Nat) (nodeType : Bool) :
    Nat → node State Choice :=
  store hp cur { hp cur with height := infinity, score := seed nodeType }

/-- The statement `at->height = infinity;` after the expansion. -/
def mark_visited (hp : Nat → node State Choice) (cur : Nat) : Nat → node State Choice :=
  store hp cur { hp cur with height := infinity }

/-- One step of the body of the `do`-`while` loop of `compute`. -/
def step [DecidableEq State] (heuristic : State → Int) (getChoices : State → List (Choice × State))
    (depth startNode : Nat) (f : Frame State Choice) : Except Error (Frame State Choice) :=
  match f.pc with
  | PC.descend =>
    if (f.mm.heap f.cur).height < usize_sub depth f.path.length then
      let f1 : Frame State Choice :=
        { f with mm := { f.mm with heap := reset_node f.mm.heap f.cur f.nodeType } }
      if (f1.mm.heap f.cur).children ≠ [] then Except.ok (go_down f1 PC.descend)
      else Except.ok { f1 with pc := PC.construct }
    else
      Except.ok { f with mm := { f.mm with heap := evaluate_leaf heuristic f.mm.heap f.cur },
                         pc := PC.backtrack }
  | PC.construct =>
    if depth > f.path.length then
      match expand f.cur (!f.nodeType) (getChoices (f.mm.heap f.cur).state) f.mm with
      | Except.error err => Except.error err
      | Except.ok e1 =>
        let f1 : Frame State Choice := { f with mm := { e1 with heap := mark_visited e1.heap f.cur } }
        if (f1.mm.heap f.cur).children = [] then Except.ok { f1 with pc := PC.descend }
        else Except.ok (go_down f1 PC.construct)
    else Except.ok { f with pc := PC.descend }
  | PC.backtrack => Except.ok (next_node_step depth startNode f)
  | PC.finished => Except.ok f

/-- The flags of the iterators on the path (the back first) after the node `cur` got
new children: every iterator into the children of `cur` is invalidated. -/
def invalidate (cur : Nat) : List child_iter → List Bool → List Bool
  | it :: path, s :: stale => (s || decide (it.owner = cur)) :: invalidate cur path stale
  | _, _ => []

/-- The validity of the iterators on the path after the step from `f` to `f1`; `stale`
holds one flag for every iterator on the path of `f`, the back first, which is `true`
when the iterator was invalidated.  The construction loop invalidates the iterators
into the children of `at` when it adds children to a vector that is not empty: that
vector is full, since every expansion ends with `shrink_to_fit()`, so `emplace_back`
reallocates it.  An iterator pushed by the step is valid, and the flags of popped
iterators are dropped. -/
def stale_next (getChoices : State → List (Choice × State)) (depth : Nat)
    (f f1 : Frame State Choice) (stale : List Bool) : List Bool :=
  let marked :=
    if f.pc = PC.construct ∧ depth > f.path.length ∧ (f.mm.heap f.cur).children ≠ [] ∧
        (getChoices (f.mm.heap f.cur).state).isEmpty = false then
      invalidate f.cur f.path stale
    else stale
  if f1.path.length = f.path.length + 1 then false :: marked
  else marked.drop (f.path.length - f1.path.length)

/-- Whether the step from `f` reads an invalidated iterator.  Only `next_node` reads
the iterators on the path: `*iter` for the back of the path, `path[path.size() - 2]`
for the parent, and `path[path.size() - 3]` for the grandparent when the back is not
at its end. -/
def uses_stale (startNode : Nat) (f : Frame State Choice) (stale : List Bool) : Bool :=
  match f.pc, f.path with
  | PC.backtrack, it :: _ =>
    stale.getD 0 false || stale.getD 1 false ||
      (decide (it.idx ≠ ((f.mm.heap (parent_of f.mm.heap startNode f.path)).children).length) &&
        stale.getD 2 false)
  | _, _ => false

/-- Run the traversal for at most `fuel` steps; `stale` tells which iterators on the
path are invalidated.  A step that reads an invalidated iterator has undefined
behaviour. -/
def run [DecidableEq State] (heuristic : State → Int) (getChoices : State → List (Choice × State))
    (depth startNode : Nat) :
    Nat → List Bool → Frame State Choice → Except Error (minimax State Choice)
  | 0, _, f => if f.pc = PC.finished then Except.ok f.mm else Except.error Error.out_of_fuel
  | fuel + 1, stale, f =>
    if f.pc = PC.finished then Except.ok f.mm
    else if uses_stale startNode f stale = true then Except.error Error.undefined_behaviour
    else
      match step heuristic getChoices depth startNode f with
      | Except.error err => Except.error err
      | Except.ok f1 =>
        run heuristic getChoices depth startNode fuel (stale_next getChoices depth f f1 stale) f1

/-- The frame after `n` steps of the traversal. -/
def steps [DecidableEq State] (heuristic : State → Int)
    (getChoices : State → List (Choice × State)) (depth startNode : Nat) :
    Nat → Frame State Choice → Except Error (Frame State Choice)
  | 0, f => Except.ok f
  | n + 1, f =>
    match step heuristic getChoices depth startNode f with
    | Except.error err => Except.error err
    | Except.ok f1 => steps heuristic getChoices depth startNode n f1

/-- The step from `f` does not add children to a node that has children: the
construction loop stands at a node without children. -/
def safe (depth : Nat) (f : Frame State Choice) : Prop :=
  f.pc = PC.construct → depth > f.path.length → (f.mm.heap f.cur).children = []

/-- Each of the first `n` steps from `f` is safe. -/
def safe_steps [DecidableEq State] (heuristic : State → Int)
    (getChoices : State → List (Choice × State)) (depth startNode : Nat) :
    Nat → Frame State Choice → Prop
  | 0, _ => True
  | n + 1, f =>
    safe depth f ∧
      match step heuristic getChoices depth startNode f with
      | Except.error _ => True
      | Except.ok f1 => safe_steps heuristic getChoices depth startNode n f1

/-- The frame in which `compute(depth)` starts its loop. -/
def first_frame (e : minimax State Choice) : Frame State Choice :=
  { mm := e, path := [], nodeType := decide ((1 &&& 1 : Nat) = (boolInt e.type_).toNat),
    cur := e.root, pc := PC.descend }

/-- The method `compute(depth)`, which is `compute(depth, marker(*this))`.  The marker
is built from `root` inside the call, so its path has the single entry `root`, it is
not expired, `startNode` is the root and `(start.path().size() & 1) == type_`
compares `1 & 1` with `type_`.  The statement `path.reserve(depth)` throws
`std::length_error` when `depth` exceeds `max_size()`; otherwise the allocation is
taken to succeed, as every allocation of the model is, and the path, which never
holds more than `depth` iterators, is not reallocated.  The method is `noexcept`: an
error of the model stands for the end of the program. -/
def compute [DecidableEq State] (heuristic : State → Int)
    (getChoices : State → List (Choice × State)) (fuel depth : Nat)
    (e : minimax State Choice) : Except Error (minimax State Choice) :=
  if (e.heap e.root).height ≥ depth ∨ (e.heap e.root).height = infinity then Except.ok e
  else if depth > max_size then Except.error Error.length_error
  else
    run heuristic getChoices depth e.root fuel [] (first_frame e)

/-! ## `progress` -/

/-- The release of strong references (`~shared_ptr`): every address of the work list
loses one reference, and a node whose count reaches zero is destroyed, which
releases its children in turn. -/
def release : Nat → List Nat → (Nat → node State Choice) → (Nat → node State Choice)
  | 0, _, hp => hp
  | _, [], hp => hp
  | fuel + 1, p :: work, hp =>
    if (hp p).rc = 0 then release fuel work hp
    else
      let hp1 := store hp p { hp p with rc := (hp p).rc - 1 }
      if (hp1 p).rc = 0 then release fuel ((hp p).children ++ work) hp1
      else release fuel work hp1

/-- A bound on the number of references a release can drop: one for the released
owner and one for every child link of an allocated node. -/
def release_budget (e : minimax State Choice) : Nat :=
  1 + ((List.range e.next).map (fun p => ((e.heap p).children).length + 1)).sum

/-- The loop of `progress` that looks for the child stored under `choice`:
`childChoice` runs over the choices, `child` in step with it. -/
def progress_loop [DecidableEq Choice] (choice : Choice) :
    List Choice → List Nat → Option Nat → Option Nat
  | childChoice :: choices, child :: children, newRoot =>
      progress_loop choice choices children
        (if childChoice = choice ∧ newRoot = none then some child else newRoot)
  | _, _, newRoot => newRoot

/-- The end of `progress`: `root = newRoot;`, which releases the old root, and the
loop that erases the expired entries of the table. -/
def swap_root (e : minimax State Choice) (newRoot : Nat) : minimax State Choice :=
  let hp1 := store e.heap newRoot { e.heap newRoot with rc := (e.heap newRoot).rc + 1 }
  let hp2 := release (release_budget e) [e.root] hp1
  { e with heap := hp2, root := newRoot,
           nodes := e.nodes.filter (fun entry => !expired hp2 entry.2) }

/-- The method `progress(choice)`.  The first component is the returned state or the
exception thrown, the second the engine after the call. -/
def progress [DecidableEq State] [DecidableEq Choice] (heuristic : State → Int)
    (getChoices : State → List (Choice × State)) (fuel : Nat) (choice : Choice)
    (e : minimax State Choice) : Except Error State × minimax State Choice :=
  let e1 : minimax State Choice := { e with type_ := !e.type_ }
  let expanded : Except Error (minimax State Choice) :=
    if (e1.heap e1.root).children = [] then compute heuristic getChoices fuel 1 e1
    else Except.ok e1
  match expanded with
  | Except.error err => (Except.error err, e1)
  | Except.ok e2 =>
    if (e2.heap e2.root).children = [] then (Except.error Error.logic_error, e2)
    else
      match progress_loop choice (e2.heap e2.root).choices (e2.heap e2.root).children none with
      | none => (Except.error Error.invalid_argument, e2)
      | some newRoot =>
        (Except.ok ((swap_root e2 newRoot).heap newRoot).state, swap_root e2 newRoot)

/-! ## Predicates used in the statements -/

/-- The choice `choice` is stored at the first position whose child has the extreme
score for the type of the root: no child beats that child, and the child beats every
child before it. -/
def is_first_extreme (e : minimax State Choice) (choice : Choice) : Prop :=
  ∃ i child, ((e.heap e.root).children)[i]? = some child ∧
    ((e.heap e.root).choices)[i]? = some choice ∧
    (∀ c ∈ (e.heap e.root).children,
      better e.type_ (e.heap c).score (e.heap child).score = false) ∧
    (∀ (j c : Nat), j < i → ((e.heap e.root).children)[j]? = some c →
      better e.type_ (e.heap child).score (e.heap c).score = true)

/-- Two nodes agree in every field but the count `rc`. -/
def same_but_rc (a b : node State Choice) : Prop :=
  a.mark = b.mark ∧ a.state = b.state ∧ a.score = b.score ∧ a.height = b.height ∧
    a.children = b.children ∧ a.choices = b.choices

/-! ## Example games -/

/-- A generator with the single move `0` from state `0` to state `1`. -/
def one_move : Nat → List (Nat × Nat)
  | 0 => [(0, 1)]
  | _ => []

/-- A heuristic that gives every state the least score. -/
def least_score : Nat → Int := fun _ => scoreMin

/-- A generator with two moves from state `0` and none elsewhere. -/
def two_moves : Nat → List (Nat × Nat)
  | 0 => [(4, 1), (6, 2)]
  | _ => []

/-- A heuristic that scores a state by its number. -/
def by_number : Nat → Int := fun s => (s : Int)

/-- The engine after `compute(1)` on a new engine, or the new engine when that fails. -/
def searched_once (heuristic : Nat → Int) (getChoices : Nat → List (Nat × Nat))
    (isMax : Bool) : minimax Nat Nat :=
  match compute heuristic getChoices 16 1 (minimax.new 0 isMax) with
  | Except.ok e => e
  | Except.error _ => minimax.new 0 isMax

/-- The outcome of `progress` is a returned state. -/
def succeeded {α : Type} (r : Except Error α) : Bool :=
  match r with
  | Except.ok _ => true
  | Except.error _ => false

/-- Two nodes agree in every field but `score` and `height`. -/
def same_links (a b : node State Choice) : Prop :=
  a.mark = b.mark ∧ a.state = b.state ∧ a.children = b.children ∧ a.choices = b.choices ∧
    a.rc = b.rc

/-- The choices of the root once it has been expanded by one ply: the stored ones if
the root has children, otherwise the moves of the generator. -/
def expanded_choices (getChoices : State → List (Choice × State))
    (e : minimax State Choice) : List Choice :=
  if (e.heap e.root).children = [] then (getChoices (e.heap e.root).state).map Prod.fst
  else (e.heap e.root).choices

/-- Two engines agree in everything but the scores and heights of their nodes. -/
def same_graph (a b : minimax State Choice) : Prop :=
  a.root = b.root ∧ a.type_ = b.type_ ∧ a.nodes = b.nodes ∧ a.next = b.next ∧
    ∀ q, same_links (a.heap q) (b.heap q)

/-- The statement of `sweep_one_ply` for a frame that backtracks. -/
def sweeps_back [DecidableEq State] (heuristic : State → Int)
    (getChoices : State → List (Choice × State)) (r m : Nat) : Prop :=
  ∀ (f : Frame State Choice) (it : child_iter), f.path = [it] →
    it.idx + m = ((f.mm.heap r).children).length → f.pc = PC.backtrack →
    ∃ k f1, k ≤ 2 * m + 2 ∧ steps heuristic getChoices 1 r k f = Except.ok f1 ∧
      safe_steps heuristic getChoices 1 r k f ∧
      f1.pc = PC.finished ∧ same_graph f1.mm f.mm

/-- The statement of `sweep_one_ply` for a frame at the head of the descent. -/
def sweeps_down [DecidableEq State] (heuristic : State → Int)
    (getChoices : State → List (Choice × State)) (r m : Nat) : Prop :=
  ∀ (f : Frame State Choice) (it : child_iter), f.path = [it] →
    it.idx + m = ((f.mm.heap r).children).length → f.pc = PC.descend →
    ∃ k f1, k ≤ 2 * m + 3 ∧ steps heuristic getChoices 1 r k f = Except.ok f1 ∧
      safe_steps heuristic getChoices 1 r k f ∧
      f1.pc = PC.finished ∧ same_graph f1.mm f.mm

/-- The structural invariant of an engine under the generator `getChoices`: every node
has as many choices as children; a node without children has height 0 unless the
generator has no move for its state; every child link and every table entry is an
allocated address, no table entry is expired, and the root is allocated. -/
def well_formed (getChoices : State → List (Choice × State)) (e : minimax State Choice) :
    Prop :=
  (∀ p, ((e.heap p).children).length = ((e.heap p).choices).length) ∧
  (∀ p, (e.heap p).children = [] → (e.heap p).height = 0 ∨ getChoices (e.heap p).state = []) ∧
  (∀ p, ∀ c ∈ (e.heap p).children, c < e.next) ∧
  (∀ entry ∈ e.nodes, entry.2 < e.next ∧ expired e.heap entry.2 = false) ∧
  e.root < e.next

/-- The exception a call ended with, if any. -/
def thrown {α : Type} (r : Except Error α) : Option Error :=
  match r with
  | Except.ok _ => none
  | Except.error err => some err

/-- A node without children has height 0 unless the generator has no move for it. -/
def leaf_ok (getChoices : State → List (Choice × State)) (n : node State Choice) : Prop :=
  n.children = [] → n.height = 0 ∨ getChoices n.state = []

/-- The part of `well_formed` that does not speak of heights. -/
def linked (e : minimax State Choice) : Prop :=
  (∀ p, ((e.heap p).children).length = ((e.heap p).choices).length) ∧
  (∀ p, ∀ c ∈ (e.heap p).children, c < e.next) ∧
  (∀ entry ∈ e.nodes, entry.2 < e.next ∧ expired e.heap entry.2 = false) ∧
  e.root < e.next

/-- The invariant of the traversal of `compute(depth)`: the engine is well formed,
except that the node under construction may already carry the unknown height, and
the path is no longer than `depth`. -/
def frame_ok (getChoices : State → List (Choice × State)) (depth : Nat)
    (f : Frame State Choice) : Prop :=
  linked f.mm ∧
  (∀ p, leaf_ok getChoices (f.mm.heap p) ∨
    (f.pc = PC.construct ∧ p = f.cur ∧ f.path.length < depth)) ∧
  f.path.length ≤ depth

/-- The node `a` has the links of `b`, and height 0 if `b` has. -/
def same_links_low (a b : node State Choice) : Prop :=
  same_links a b ∧ (b.height = 0 → a.height = 0)

/-- The engines that a new engine can become by calls of `compute` (with a depth that
fits `size_t`) and of `progress`, successful or not. -/
inductive reachable [DecidableEq State] [DecidableEq Choice] (heuristic : State → Int)
    (getChoices : State → List (Choice × State)) : minimax State Choice → Prop where
  | new (start : State) (isMax : Bool) : reachable heuristic getChoices (minimax.new start isMax)
  | compute (e e1 : minimax State Choice) (fuel depth : Nat) :
      reachable heuristic getChoices e → depth < 2 ^ 64 →
      compute heuristic getChoices fuel depth e = Except.ok e1 →
      reachable heuristic getChoices e1
  | progress (e : minimax State Choice) (fuel : Nat) (choice : Choice) :
      reachable heuristic getChoices e →
      reachable heuristic getChoices (progress heuristic getChoices fuel choice e).2

/-- The depth-limited minimax value of a state, as the claims word it: the heuristic
at a state without moves or at depth 0, otherwise the greatest (maximizing node) or
least (minimizing node) value of the children, whose types alternate. -/
def minimax_value (heuristic : State → Int) (getChoices : State → List (Choice × State)) :
    Nat → Bool → State → Int
  | 0, _, s => heuristic s
  | d + 1, type, s =>
    match (getChoices s).map (fun c => minimax_value heuristic getChoices d (!type) c.2) with
    | [] => heuristic s
    | v :: vs => vs.foldl (fun a b => if type then max a b else min a b) v

/-- The score of the root after a call, if the call returned. -/
def score_after (r : Except Error (minimax State Choice)) : Option Int :=
  match r with
  | Except.ok e => some e.score
  | Except.error _ => none

/-- A tree-shaped game whose states are the move sequences.  The root has the children
`[0]` and `[1]`; below `[0]` there is a single line of play; `[1]` has the children
`[1, 0]`, which starts a single line of play, and `[1, 1]`, which has no moves. -/
def deepening_moves : List Nat → List (Nat × List Nat)
  | [] => [(0, [0]), (1, [1])]
  | [0] => [(0, [0, 0])]
  | [0, 0] => [(0, [0, 0, 0])]
  | [0, 0, 0] => [(0, [0, 0, 0, 0])]
  | [0, 0, 0, 0] => [(0, [0, 0, 0, 0, 0])]
  | [1] => [(0, [1, 0]), (1, [1, 1])]
  | [1, 0] => [(0, [1, 0, 0])]
  | [1, 0, 0] => [(0, [1, 0, 0, 0])]
  | [1, 0, 0, 0] => [(0, [1, 0, 0, 0, 0])]
  | _ => []

/-- The heuristic of the game `deepening_moves`. -/
def deepening_score : List Nat → Int
  | [0, 0, 0] => 100
  | [0, 0, 0, 0] => 3
  | [0, 0, 0, 0, 0] => 10
  | [1, 0, 0] => 5
  | [1, 0, 0, 0] => 5
  | [1, 0, 0, 0, 0] => 20
  | _ => 0

/-- A game with transpositions: state 5 is reached from 1 and from 2, state 7 from 4
and from 5; every state is reached by move sequences of one length only. -/
def shared_moves : Nat → List (Nat × Nat)
  | 0 => [(0, 1), (1, 2)]
  | 1 => [(0, 3), (1, 4), (2, 5)]
  | 2 => [(0, 6), (1, 5)]
  | 4 => [(0, 7)]
  | 5 => [(0, 8), (1, 7)]
  | 8 => [(0, 9)]
  | _ => []

/-- The heuristic of the game `shared_moves`. -/
def shared_score : Nat → Int
  | 6 => 20
  | 7 => 10
  | 9 => 5
  | _ => 0

/-- The score and the height of the node at address `p` after a call, if the call
returned. -/
def node_after (r : Except Error (minimax State Choice)) (p : Nat) : Option (Int × Nat) :=
  match r with
  | Except.ok e => some ((e.heap p).score, (e.heap p).height)
  | Except.error _ => none

/-! ## The search as a recursive function -/

/-- What the traversal finds out about a node: its exact score, or that it is pruned. -/
inductive Outcome where
  | exact (v : Int)
  | cut
  deriving DecidableEq, Repr

/-- The assignment `parent.score = parentType ? max(parent.score, child.score) :
min(parent.score, child.score)` of `update_score`. -/
def merge (type : Bool) (a b : Int) : Int := if type then max a b else min a b

/-- The test `parent.score > gParent.score` (maximizing parent) or
`parent.score < gParent.score` (minimizing parent) of `update_score`, where `bound` is
the score of the grandparent, if there is one. -/
def crosses (type : Bool) (bound : Option Int) (acc : Int) : Bool :=
  match bound with
  | none => false
  | some b => better type acc b

/-- The traversal of the remaining children `cs` of a node of type `type` whose score
is `acc` so far; `child` searches one child under the score of its parent. -/
def solve_children (child : Option Int → State → Outcome) (type : Bool) (bound : Option Int) :
    List State → Int → Outcome
  | [], acc => Outcome.exact acc
  | c :: cs, acc =>
    match child (some acc) c with
    | Outcome.cut => solve_children child type bound cs acc
    | Outcome.exact v =>
      if crosses type bound (merge type acc v) && !cs.isEmpty then Outcome.cut
      else solve_children child type bound cs (merge type acc v)

/-- The traversal of `compute` below a new node of state `s` and type `type`, with
`k` plies left, under the score `bound` of its parent. -/
def solve (heuristic : State → Int) (getChoices : State → List (Choice × State)) :
    Nat → Bool → Option Int → State → Outcome
  | 0, _, _, s => Outcome.exact (heuristic s)
  | k + 1, type, bound, s =>
    match getChoices s with
    | [] => Outcome.exact (heuristic s)
    | c :: cs =>
      solve_children (solve heuristic getChoices k (!type)) type bound
        ((c :: cs).map Prod.snd) (seed type)

/-- The states produced by the moves `moves` and below them, where `below` lists the
states produced below a state. -/
def produced_list (below : State → List State) : List (Choice × State) → List State
  | [] => []
  | c :: cs => c.2 :: (below c.2 ++ produced_list below cs)

/-- The states the generator produces within `d` plies of the state `s`, one entry for
every time a state is produced. -/
def produced (getChoices : State → List (Choice × State)) : Nat → State → List State
  | 0, _ => []
  | d + 1, s => produced_list (produced getChoices d) (getChoices s)

/-! ## Notions for the traversal of a tree-shaped game -/

/-- The node the back of the path points at, or `startNode` when the path is empty. -/
def target (hp : Nat → node State Choice) (startNode : Nat) : List child_iter → Nat
  | [] => startNode
  | it :: _ => deref hp it

/-- The score of the node whose children the back of the path iterates over, if the
path is not empty: the bound under which the node the path leads to is searched. -/
def bound_of (hp : Nat → node State Choice) : List child_iter → Option Int
  | [] => none
  | it :: _ => some (hp it.owner).score

/-- The node whose children the back of the path iterates over, or `startNode`. -/
def top_owner (startNode : Nat) : List child_iter → Nat
  | [] => startNode
  | it :: _ => it.owner

/-- The path after `++*iter` on its back. -/
def advance : List child_iter → List child_iter
  | [] => []
  | it :: rest => { it with idx := it.idx + 1 } :: rest

/-- Below the address `n` the heap `hp1` is the heap `hp`, except at the node `x`, and
except for the height of the node `w`. -/
def kept (n x w : Nat) (hp hp1 : Nat → node State Choice) : Prop :=
  ∀ q, q < n → q ≠ x →
    (q ≠ w → hp1 q = hp q) ∧ hp1 q = { hp q with height := (hp1 q).height }

/-- The frame `f1` is reached from the frame `f` by steps of the traversal, none of
which adds children to a node that has children. -/
def reaches [DecidableEq State] (heuristic : State → Int)
    (getChoices : State → List (Choice × State)) (depth startNode : Nat)
    (f f1 : Frame State Choice) : Prop :=
  ∃ n, steps heuristic getChoices depth startNode n f = Except.ok f1 ∧
    safe_steps heuristic getChoices depth startNode n f

/-- The node `x` is the one the path leads to: the back of the path points at `x`,
the owners of the iterators on the path have smaller addresses than `x`, and the back
of the path iterates over the children of the node the rest of the path leads to. -/
def on_path (hp : Nat → node State Choice) (startNode x : Nat) (path : List child_iter) :
    Prop :=
  x = target hp startNode path ∧ (∀ it ∈ path, it.owner < x) ∧
    (match path with
     | [] => True
     | it :: rest => it.owner = target hp startNode rest)

/-- The heap `hp1` is the heap `hp` except for the height of the node `p`. -/
def height_only (p : Nat) (hp hp1 : Nat → node State Choice) : Prop :=
  ∀ q, (q ≠ p → hp1 q = hp q) ∧ hp1 q = { hp q with height := (hp1 q).height }

/-- What the traversal reports for the node `x` reached by the path `path`: with an
exact score the traversal backtracks with the path unchanged and the score stored in
`x`; for a pruned node the traversal has left the node, the iterator over the
children of the parent has moved on, and the test for the next sibling was made. -/
def search_done (depth startNode : Nat) (f1 : Frame State Choice) (x : Nat)
    (path : List child_iter) (type : Bool) (out : Outcome) : Prop :=
  match out with
  | Outcome.exact v =>
    f1.pc = PC.backtrack ∧ f1.path = path ∧ f1.nodeType = type ∧ (f1.mm.heap x).score = v
  | Outcome.cut =>
    ∃ f0, f1 = return_check depth startNode f0 ∧ f0.pc = PC.backtrack ∧
      f0.path = advance path ∧ f0.nodeType = type

/-- The traversal of a new node with `k` plies left: started at a node `f.cur` that was
just made for the state `s`, with a table that holds none of the states produced
below `s`, the traversal reaches a frame that reports what `solve` says, and below
the old allocation mark it changed only that node and the height of its parent. -/
def searches [DecidableEq State] (heuristic : State → Int)
    (getChoices : State → List (Choice × State)) (depth startNode k : Nat) : Prop :=
  ∀ (f : Frame State Choice) (s : State) (type : Bool),
    (f.pc = PC.descend ∨ f.pc = PC.construct) →
    f.path.length + k = depth →
    f.nodeType = type →
    f.mm.heap f.cur = node.mk_shared s type →
    on_path f.mm.heap startNode f.cur f.path →
    f.cur < f.mm.next → startNode < f.mm.next →
    (produced getChoices k s).Nodup →
    (∀ t ∈ produced getChoices k s, t ∉ f.mm.nodes.map Prod.fst) →
    ∃ f1, reaches heuristic getChoices depth startNode f f1 ∧
      f.mm.next ≤ f1.mm.next ∧
      (∀ key ∈ f1.mm.nodes.map Prod.fst,
        key ∈ f.mm.nodes.map Prod.fst ∨ key ∈ produced getChoices k s) ∧
      kept f.mm.next f.cur (top_owner startNode f.path) f.mm.heap f1.mm.heap ∧
      search_done depth startNode f1 f.cur f.path type
        (solve heuristic getChoices k type (bound_of f.mm.heap f.path) s)

/-- The traversal of the children of an expanded node `x` from the child number `j`
on, the children being new nodes at the addresses from `n0` on, for the moves `rest`
that are left, each child having `k` plies left. -/
def searches_children [DecidableEq State] (heuristic : State → Int)
    (getChoices : State → List (Choice × State)) (depth startNode k : Nat)
    (rest : List (Choice × State)) : Prop :=
  ∀ (f : Frame State Choice) (x n0 j : Nat) (path : List child_iter) (type : Bool) (acc : Int),
    f.path = ⟨x, j⟩ :: path →
    path.length + 1 + k = depth →
    f.nodeType = (!type) →
    on_path f.mm.heap startNode x path →
    x < n0 → startNode < n0 → n0 + j + rest.length ≤ f.mm.next →
    (f.mm.heap x).children = List.range' n0 (j + rest.length) →
    (f.mm.heap x).score = acc →
    (∀ (i : Nat) (c : Choice × State), rest[i]? = some c →
      f.mm.heap (n0 + j + i) = node.mk_shared c.2 (!type)) →
    (produced_list (produced getChoices k) rest).Nodup →
    (∀ c ∈ rest, ∀ t ∈ produced getChoices k c.2, t ∉ f.mm.nodes.map Prod.fst) →
    ((rest = [] ∧ f.pc = PC.backtrack) ∨
      (rest ≠ [] ∧ (f.pc = PC.descend ∨ f.pc = PC.construct) ∧ f.cur = n0 + j)) →
    ∃ f1, reaches heuristic getChoices depth startNode f f1 ∧
      f.mm.next ≤ f1.mm.next ∧
      (∀ key ∈ f1.mm.nodes.map Prod.fst,
        key ∈ f.mm.nodes.map Prod.fst ∨ key ∈ produced_list (produced getChoices k) rest) ∧
      kept n0 x (top_owner startNode path) f.mm.heap f1.mm.heap ∧
      search_done depth startNode f1 x path type
        (solve_children (solve heuristic getChoices k (!type)) type (bound_of f.mm.heap path)
          (rest.map Prod.snd) acc)

/-! ## Notions for a second search of a searched tree -/

/-- The plies `K` at which the score of a node searched with `k` plies left is
known: `k` itself, and every larger number when the height `ht` of the node is the
unknown height. -/
def known (ht k K : Nat) : Prop := K = k ∨ (ht = infinity ∧ k ≤ K)

/-- The height `new` is the height `old`, or it was lowered to at most `bound`. -/
def lowered_to (bound old new : Nat) : Prop := new = old ∨ new ≤ bound

/-- A node without children that the search has not expanded: it is as the
constructor made it, but for its score and its count, and the table holds none of
the states produced below its state within `k + e` plies. -/
def unexpanded (getChoices : State → List (Choice × State)) (e : Nat) (keys : List State)
    (hp : Nat → node State Choice) (k x : Nat) (s : State) (type : Bool) : Prop :=
  (∃ (sc : Int) (r : Nat), hp x = { node.mk_shared s type with score := sc, rc := r }) ∧
    ∀ t ∈ produced getChoices (k + e) s, t ∉ keys

/-- A visited node whose state has no moves. -/
def dead_end (heuristic : State → Int) (getChoices : State → List (Choice × State))
    (hp : Nat → node State Choice) (x : Nat) : Prop :=
  getChoices (hp x).state = [] ∧ (hp x).children = [] ∧ (hp x).height = infinity ∧
    (hp x).score = heuristic (hp x).state

/-- An expanded node searched with `k` plies left: its children are new nodes for
the moves of its state, in order, each satisfying `child`; with the unknown height
its score is the minimax value for `k` plies and more, and another height is at
most `k`. -/
def expanded (heuristic : State → Int) (getChoices : State → List (Choice × State))
    (hp : Nat → node State Choice) (child : Nat → State → Prop) (k x : Nat) (s : State)
    (type : Bool) : Prop :=
  getChoices s ≠ [] ∧ (hp x).choices = (getChoices s).map Prod.fst ∧
    ∃ n0, x < n0 ∧ (hp x).children = List.range' n0 (getChoices s).length ∧
      (∀ (i : Nat) (c : Choice × State), (getChoices s)[i]? = some c → child (n0 + i) c.2) ∧
      ((hp x).height = infinity →
        ∀ K, k ≤ K → minimax_value heuristic getChoices K type s = (hp x).score) ∧
      ((hp x).height ≠ infinity → (hp x).height ≤ k)

/-- The part of the heap below the node `x` of state `s` after a search of a new
tree that came to `x` with `k` plies left. -/
def cached (heuristic : State → Int) (getChoices : State → List (Choice × State)) (e : Nat)
    (keys : List State) (nx : Nat) (hp : Nat → node State Choice) :
    Nat → Nat → State → Bool → Prop
  | 0, x, s, type =>
    x < nx ∧ (hp x).state = s ∧
      (unexpanded getChoices e keys hp 0 x s type ∨ dead_end heuristic getChoices hp x)
  | k + 1, x, s, type =>
    x < nx ∧ (hp x).state = s ∧
      (unexpanded getChoices e keys hp (k + 1) x s type ∨ dead_end heuristic getChoices hp x ∨
        expanded heuristic getChoices hp
          (fun a t => cached heuristic getChoices e keys nx hp k a t (!type)) (k + 1) x s type)

/-- Below the address `n` the heap `hp1` is the heap `hp`, except at the node `x`, at
the addresses from `lo` up to `hi`, and except for the height of the node `w`. -/
def kept_out (n x w lo hi : Nat) (hp hp1 : Nat → node State Choice) : Prop :=
  ∀ q, q < n → q ≠ x → ¬ (lo ≤ q ∧ q < hi) →
    (q ≠ w → hp1 q = hp q) ∧ hp1 q = { hp q with height := (hp1 q).height }

/-- The way a new node is entered: in the construction loop as the constructor made
it, or at the head of the descent, where its score and its count may differ. -/
def entered (f : Frame State Choice) (s : State) (type : Bool) : Prop :=
  (f.pc = PC.construct ∧ f.mm.heap f.cur = node.mk_shared s type) ∨
    (f.pc = PC.descend ∧
      ∃ (sc : Int) (r : Nat), f.mm.heap f.cur = { node.mk_shared s type with score := sc, rc := r })

/-- The report of the first search of the node `f.cur` of state `s`, entered in the
frame `f` with `k` plies left and left in the frame `f1`: either the traversal
backtracks with the score of the node, which is the minimax value at the plies at
which it is known, and the parent is unchanged; or the node is pruned, its parent's
height is lowered to at most `k + 1`, and the minimax value of the node crosses the
score of the parent. -/
def first_done (heuristic : State → Int) (getChoices : State → List (Choice × State))
    (depth startNode k : Nat) (f f1 : Frame State Choice) (s : State) (type : Bool) : Prop :=
  (f1.pc = PC.backtrack ∧ f1.path = f.path ∧ f1.nodeType = type ∧
      (scoreMin ≤ (f1.mm.heap f.cur).score ∧ (f1.mm.heap f.cur).score ≤ scoreMax) ∧
      (f.path ≠ [] →
        f1.mm.heap (top_owner startNode f.path) = f.mm.heap (top_owner startNode f.path)) ∧
      ∀ K, known (f1.mm.heap f.cur).height k K →
        minimax_value heuristic getChoices K type s = (f1.mm.heap f.cur).score) ∨
    ((∃ f0, f1 = return_check depth startNode f0 ∧ f0.pc = PC.backtrack ∧
        f0.path = advance f.path ∧ f0.nodeType = type) ∧
      ∃ b, bound_of f.mm.heap f.path = some b ∧
        lowered_to (k + 1) (f.mm.heap (top_owner startNode f.path)).height
          (f1.mm.heap (top_owner startNode f.path)).height ∧
        ∀ K, known (f1.mm.heap (top_owner startNode f.path)).height k K →
          better type (minimax_value heuristic getChoices K type s) b = true)

/-- The first search of a new node with `k` plies left, in a game that produces no
state twice within `k + e` plies of the state of the node: the traversal reaches a
frame that reports the result, below the old allocation mark it changed only the
node and the height of its parent, and the heap below the node is as `cached` says. -/
def searches_first [DecidableEq State] (heuristic : State → Int)
    (getChoices : State → List (Choice × State)) (depth startNode e k : Nat) : Prop :=
  ∀ (f : Frame State Choice) (s : State) (type : Bool),
    entered f s type →
    f.path.length + k = depth →
    f.nodeType = type →
    on_path f.mm.heap startNode f.cur f.path →
    f.cur < f.mm.next → startNode < f.mm.next →
    (produced getChoices (k + e) s).Nodup →
    (∀ t ∈ produced getChoices (k + e) s, t ∉ f.mm.nodes.map Prod.fst) →
    (∀ b, bound_of f.mm.heap f.path = some b → scoreMin ≤ b ∧ b ≤ scoreMax) →
    ∃ f1, reaches heuristic getChoices depth startNode f f1 ∧
      f.mm.next ≤ f1.mm.next ∧
      (∀ key ∈ f1.mm.nodes.map Prod.fst,
        key ∈ f.mm.nodes.map Prod.fst ∨ key ∈ produced getChoices (k + e) s) ∧
      kept f.mm.next f.cur (top_owner startNode f.path) f.mm.heap f1.mm.heap ∧
      cached heuristic getChoices e (f1.mm.nodes.map Prod.fst) f1.mm.next f1.mm.heap k f.cur s
        type ∧
      first_done heuristic getChoices depth startNode k f f1 s type

/-- The report of the first search of the children of the node `x` for the moves
`rest`: either the traversal backtracks from `x`, whose score is its score before
merged with the minimax values of the children at the plies at which the score is
known; or `x` is pruned with the height 0, the height of its parent is lowered to
at most `k + 2`, and a minimax value among the children crosses the parent's score. -/
def first_children_done (heuristic : State → Int)
    (getChoices : State → List (Choice × State)) (depth startNode k : Nat)
    (f f1 : Frame State Choice) (x : Nat) (path : List child_iter) (type : Bool)
    (rest : List (Choice × State)) : Prop :=
  (f1.pc = PC.backtrack ∧ f1.path = path ∧ f1.nodeType = type ∧
      (scoreMin ≤ (f1.mm.heap x).score ∧ (f1.mm.heap x).score ≤ scoreMax) ∧
      (path ≠ [] →
        f1.mm.heap (top_owner startNode path) = f.mm.heap (top_owner startNode path)) ∧
      ∀ K, known (f1.mm.heap x).height k K →
        (f1.mm.heap x).score
          = (rest.map (fun c => minimax_value heuristic getChoices K (!type) c.2)).foldl
              (merge type) (f.mm.heap x).score) ∨
    ((∃ f0, f1 = return_check depth startNode f0 ∧ f0.pc = PC.backtrack ∧
        f0.path = advance path ∧ f0.nodeType = type) ∧
      (f1.mm.heap x).height = 0 ∧
      ∃ b, bound_of f.mm.heap path = some b ∧
        lowered_to (k + 2) (f.mm.heap (top_owner startNode path)).height
          (f1.mm.heap (top_owner startNode path)).height ∧
        ∀ K, known (f1.mm.heap (top_owner startNode path)).height k K →
          ∀ a0, better type
            ((rest.map (fun c => minimax_value heuristic getChoices K (!type) c.2)).foldl
              (merge type) a0) b = true)

/-- The first search of the children of an expanded node `x` from the child number
`j` on, for the moves `rest` that are left, each child having `k` plies left. -/
def searches_first_children [DecidableEq State] (heuristic : State → Int)
    (getChoices : State → List (Choice × State)) (depth startNode e k : Nat)
    (rest : List (Choice × State)) : Prop :=
  ∀ (f : Frame State Choice) (x n0 j : Nat) (path : List child_iter) (type : Bool),
    f.path = ⟨x, j⟩ :: path →
    path.length + 1 + k = depth →
    f.nodeType = (!type) →
    on_path f.mm.heap startNode x path →
    x < n0 → startNode < n0 → n0 + j + rest.length ≤ f.mm.next →
    (f.mm.heap x).children = List.range' n0 (j + rest.length) →
    (∀ (i : Nat) (c : Choice × State), rest[i]? = some c →
      f.mm.heap (n0 + j + i) = node.mk_shared c.2 (!type)) →
    (produced_list (produced getChoices (k + e)) rest).Nodup →
    (∀ c ∈ rest, ∀ t ∈ produced getChoices (k + e) c.2, t ∉ f.mm.nodes.map Prod.fst) →
    ((rest = [] ∧ f.pc = PC.backtrack) ∨
      (rest ≠ [] ∧ (f.pc = PC.descend ∨ f.pc = PC.construct) ∧ f.cur = n0 + j)) →
    (scoreMin ≤ (f.mm.heap x).score ∧ (f.mm.heap x).score ≤ scoreMax) →
    (∀ b, bound_of f.mm.heap path = some b → scoreMin ≤ b ∧ b ≤ scoreMax) →
    (rest ≠ [] → crosses type (bound_of f.mm.heap path) (f.mm.heap x).score = false) →
    ∃ f1, reaches heuristic getChoices depth startNode f f1 ∧
      f.mm.next ≤ f1.mm.next ∧
      (∀ key ∈ f1.mm.nodes.map Prod.fst,
        key ∈ f.mm.nodes.map Prod.fst ∨
          key ∈ produced_list (produced getChoices (k + e)) rest) ∧
      kept_out f.mm.next x (top_owner startNode path) (n0 + j) (n0 + j + rest.length)
        f.mm.heap f1.mm.heap ∧
      f1.mm.heap x = { f.mm.heap x with
        height := (f1.mm.heap x).height, score := (f1.mm.heap x).score } ∧
      (∀ (i : Nat) (c : Choice × State), rest[i]? = some c →
        cached heuristic getChoices e (f1.mm.nodes.map Prod.fst) f1.mm.next f1.mm.heap k
          (n0 + j + i) c.2 (!type)) ∧
      lowered_to (k + 1) (f.mm.heap x).height (f1.mm.heap x).height ∧
      first_children_done heuristic getChoices depth startNode k f f1 x path type rest

/-! ## `compute(depth, marker)` -/

/-- The constructor `Marker(mm)`: the path of weak pointers holds the root. -/
def Marker.new (e : minimax State Choice) : List Nat := [e.root]

/-- The method `Marker::expired()`: the expired entries are popped off the front of
the path; the result is `false` at the first entry that is not expired and `true`
when the path runs empty.  The second component is the path that is left. -/
def Marker.expired (hp : Nat → node State Choice) : List Nat → Bool × List Nat
  | [] => (true, [])
  | front :: rest =>
    if Minimax.expired hp front then Marker.expired hp rest else (false, front :: rest)

/-- The method `compute(depth, start)`.  The first component is the outcome of the
call, the second the engine after it.  A marker made by `Marker(mm)` has one entry,
so the entry `node()` returns is the one `expired()` found alive.  When the traversal
itself fails the second component is the engine before the traversal. -/
def compute_at [DecidableEq State] (heuristic : State → Int)
    (getChoices : State → List (Choice × State)) (fuel depth : Nat) (start : List Nat)
    (e : minimax State Choice) : Except Error Unit × minimax State Choice :=
  match Marker.expired e.heap start with
  | (true, _) => (Except.error Error.invalid_argument, e)
  | (false, path) =>
    let startNode := path.getLastD 0
    if (e.heap startNode).height ≥ depth ∨ (e.heap startNode).height = infinity then
      (Except.ok (), e)
    else if depth > max_size then (Except.error Error.length_error, e)
    else
      match run heuristic getChoices depth startNode fuel []
          ⟨e, [], decide ((path.length &&& 1) = (boolInt e.type_).toNat), startNode,
            PC.descend⟩ with
      | Except.ok e1 => (Except.ok (), e1)
      | Except.error err => (Except.error err, e)

/-! ## `verify` -/

/-- The assertions of `verifyNode` about scores, and its recursion into the children
whose score is the best one: `true` when no such assertion fails within `fuel`
levels below the node `p`. -/
def verifyNode (heuristic : State → Int) (hp : Nat → node State Choice) :
    Nat → Nat → Bool → Bool
  | 0, _, _ => true
  | fuel + 1, p, type =>
    let best := ((hp p).children).foldl (fun b c => merge type b (hp c).score) (seed type)
    ((hp p).children).all (fun c =>
        if type then decide ((hp c).score ≤ (hp p).score)
        else decide ((hp c).score ≥ (hp p).score)) &&
      (if (hp p).children ≠ [] then decide ((hp p).score = best)
        else decide ((hp p).score = heuristic (hp p).state)) &&
      ((hp p).children).all (fun c =>
        if (hp c).score = best then verifyNode heuristic hp fuel c (!type) else true)

/-- The method `verify()`, for the assertions about scores, after a call that
returned. -/
def verify_after (heuristic : State → Int) (fuel : Nat)
    (r : Except Error (minimax State Choice)) : Option Bool :=
  match r with
  | Except.ok e => some (verifyNode heuristic e.heap fuel e.root e.type_)
  | Except.error _ => none

/-- The state and the children of the node at address `p` after a call, if the call
returned. -/
def links_after (r : Except Error (minimax State Choice)) (p : Nat) :
    Option (State × List Nat) :=
  match r with
  | Except.ok e => some ((e.heap p).state, (e.heap p).children)
  | Except.error _ => none

/-- The height of the root after a call, if the call returned. -/
def height_after (r : Except Error (minimax State Choice)) : Option Nat :=
  match r with
  | Except.ok e => some (e.heap e.root).height
  | Except.error _ => none

/-- A game in which the move from state 1 leads back to the start state 0. -/
def back_moves : Nat → List (Nat × Nat)
  | 0 => [(0, 1)]
  | 1 => [(0, 0)]
  | _ => []

/-- A game with a cycle: state 0 has one move, to state 1; state 1 has the moves to
state 2 and to state 9; the states 2 and 3 have one move each, to 3 and to 4; state 4
has two moves, both back to state 1; state 9 has no moves. -/
def echo_moves : Nat → List (Nat × Nat)
  | 0 => [(0, 1)]
  | 1 => [(0, 2), (1, 9)]
  | 2 => [(0, 3)]
  | 3 => [(0, 4)]
  | 4 => [(0, 1), (1, 1)]
  | _ => []

/-- The engine after `progress(0)` on a new engine for `echo_moves`: its root is the
node of state 1, which has an entry in the table. -/
def echo_engine : minimax Nat Nat :=
  (progress by_number echo_moves 64 0 (minimax.new 0 true)).2

/-- The path (owner and index of each iterator, back first) and the node `at` of a
frame, if the traversal got there. -/
def path_after (r : Except Error (Frame State Choice)) : Option (List (Nat × Nat) × Nat) :=
  match r with
  | Except.ok f => some (f.path.map fun it => (it.owner, it.idx), f.cur)
  | Except.error _ => none

/-- A tree-shaped game whose states are the move sequences: the root has the
children `[0]`, without moves, and `[1]`; `[1]` has the children `[1, 0]`, which has
one child, and `[1, 1]`, without moves. -/
def pruned_moves : List Nat → List (Nat × List Nat)
  | [] => [(0, [0]), (1, [1])]
  | [1] => [(0, [1, 0]), (1, [1, 1])]
  | [1, 0] => [(0, [1, 0, 0])]
  | _ => []

/-- The heuristic of the game `pruned_moves`. -/
def pruned_score : List Nat → Int
  | [0] => -2
  | [1, 0] => -1
  | [1, 0, 0] => -3
  | [1, 1] => -1
  | _ => 0

/-! ## The game of `Connect4.cpp` -/

/-- The struct `state`: whose turn it is, whether the game has ended, and the pieces
of the two players as bitboards (`players[0]`, `players[1]`), the cell of column
`col` and row `row` being bit `col + 7 * row`. -/
structure state where
  turn : Bool
  end_ : Bool
  players0 : Nat
  players1 : Nat
deriving DecidableEq

/-- The element `players[i]` of a state, `i` being a `bool` used as an index. -/
def state.players (s : state) (i : Bool) : Nat := if i then s.players1 else s.players0

/-- The assignment `players[i] = pieces`. -/
def state.set_players (s : state) (i : Bool) (pieces : Nat) : state :=
  if i then { s with players1 := pieces } else { s with players0 := pieces }

/-- The function `makeBoard`: the bits of the list, the first one the most
significant. -/
def makeBoard (mask : List Nat) : Nat :=
  mask.foldl (fun uint bit => ((uint <<< 1) % 2 ^ 64) ||| bit) 0

/-- The constant `ROW_MASK`. -/
def ROW_MASK : Nat := makeBoard [1, 1, 1, 1]

/-- The constant `COLUMN_MASK`. -/
def COLUMN_MASK : Nat := makeBoard (
  [0, 0, 0, 0, 0, 0, 1] ++
  [0, 0, 0, 0, 0, 0, 1] ++
  [0, 0, 0, 0, 0, 0, 1] ++
  [0, 0, 0, 0, 0, 0, 1])

/-- The constant `BACKWARD_DIAG_MASK`. -/
def BACKWARD_DIAG_MASK : Nat := makeBoard (
  [0, 0, 0, 0, 0, 0, 1] ++
  [0, 0, 0, 0, 0, 1, 0] ++
  [0, 0, 0, 0, 1, 0, 0] ++
  [0, 0, 0, 1, 0, 0, 0])

/-- The constant `FORWARD_DIAG_MASK`. -/
def FORWARD_DIAG_MASK : Nat := makeBoard (
  [0, 0, 0, 1, 0, 0, 0] ++
  [0, 0, 0, 0, 1, 0, 0] ++
  [0, 0, 0, 0, 0, 1, 0] ++
  [0, 0, 0, 0, 0, 0, 1])

/-- The function `check_winner(board, row, col)`.  Its five loops return `true` at the
first window that equals its mask: four windows of the row `row`, three windows of
the column `col`, three windows of `BACKWARD_DIAG_MASK` on `board >> col`, and the
windows of the two diagonal masks on `board >> i` for `i <= min(3, col)` and the rows
`j <= min(2, row)`. -/
def check_winner (board row col : Nat) : Bool :=
  (List.range 4).any (fun i =>
      (((board >>> (7 * row)) >>> i) &&& ROW_MASK) % 2 ^ 32 == ROW_MASK) ||
    (List.range 3).any (fun j =>
      ((board >>> col) >>> (7 * j)) &&& COLUMN_MASK == COLUMN_MASK) ||
    (List.range 3).any (fun j =>
      ((board >>> col) >>> (7 * j)) &&& BACKWARD_DIAG_MASK == BACKWARD_DIAG_MASK) ||
    (List.range (min 3 col + 1)).any (fun i => (List.range (min 2 row + 1)).any (fun j =>
      ((board >>> i) >>> (7 * j)) &&& FORWARD_DIAG_MASK == FORWARD_DIAG_MASK)) ||
    (List.range (min 3 col + 1)).any (fun i => (List.range (min 2 row + 1)).any (fun j =>
      ((board >>> i) >>> (7 * j)) &&& BACKWARD_DIAG_MASK == BACKWARD_DIAG_MASK))

/-- The loop `while(shift & 1){ shift >>= 7; row++; }` of `get_choices`.  A 64-bit
value is zero after ten shifts by 7, so ten rounds are enough. -/
def open_row : Nat → Nat → Nat → Nat
  | 0, _, row => row
  | fuel + 1, shift, row =>
    if shift &&& 1 = 1 then open_row fuel (shift >>> 7) (row + 1) else row

/-- The loop of `get_choices` over the columns that are left, with the local `next`
and the vector `children`.  The first component is the winning pair, if the loop
returned one. -/
def get_choices_loop (s : state) :
    List Nat → state → List (Nat × state) → Option (Nat × state) × List (Nat × state)
  | [], _, children => (none, children)
  | nextChoice :: rest, next, children =>
    let oldPieces := s.players s.turn
    let board := s.players0 ||| s.players1
    let row := open_row 10 (board >>> nextChoice) 0
    if row > 5 then get_choices_loop s rest next children
    else
      let newPieces := oldPieces ||| ((1 <<< (nextChoice + row * 7)) % 2 ^ 64)
      let next1 := next.set_players s.turn newPieces
      if check_winner newPieces row nextChoice then
        (some (nextChoice, { next1 with end_ := true }), children)
      else
        get_choices_loop s rest { next1 with end_ := false } (children ++ [(nextChoice, next1)])

/-- The functor `get_choices`.  The call of `std::shuffle` with the random engine is
the parameter `shuffle`. -/
def get_choices (shuffle : List (Nat × state) → List (Nat × state)) (s : state) :
    List (Nat × state) :=
  if s.end_ then []
  else
    match get_choices_loop s (List.range 7) ⟨!s.turn, s.end_, s.players0, s.players1⟩ [] with
    | (some won, _) => [won]
    | (none, children) => shuffle children

/-! ### Lines of four, as the rules of the game have them -/

/-- The four-cell lines of the board with 7 columns and 6 rows, as lists of (column,
row): horizontal, vertical, and the two diagonals. -/
def lines : List (List (Nat × Nat)) :=
  ((List.range 4).flatMap (fun c => (List.range 6).map (fun r =>
      [(c, r), (c + 1, r), (c + 2, r), (c + 3, r)]))) ++
    ((List.range 7).flatMap (fun c => (List.range 3).map (fun r =>
      [(c, r), (c, r + 1), (c, r + 2), (c, r + 3)]))) ++
    ((List.range 4).flatMap (fun c => (List.range 3).map (fun r =>
      [(c, r), (c + 1, r + 1), (c + 2, r + 2), (c + 3, r + 3)]))) ++
    ((List.range 4).flatMap (fun c => (List.range 3).map (fun r =>
      [(c, r + 3), (c + 1, r + 2), (c + 2, r + 1), (c + 3, r)])))

/-- The pieces `pieces` occupy every cell of the line. -/
def on_line (pieces : Nat) (line : List (Nat × Nat)) : Bool :=
  line.all (fun cell => pieces.testBit (cell.1 + 7 * cell.2))

/-- The pieces hold four in a line. -/
def has_four (pieces : Nat) : Bool := lines.any (on_line pieces)

/-- The lowest empty row of column `col` on the board of both players, if the column
is not full. -/
def lowest_empty (board col : Nat) : Option Nat :=
  (List.range 6).find? (fun r => !board.testBit (col + 7 * r))

/-- A drop in column `col` by the player to move completes four of their pieces in
a line through the new piece. -/
def completes_four (s : state) (col : Nat) : Bool :=
  match lowest_empty (s.players0 ||| s.players1) col with
  | none => false
  | some row =>
    lines.any (fun line => line.contains (col, row) &&
      on_line (s.players s.turn ||| 2 ^ (col + 7 * row)) line)

/-- A position in which the first player, to move, has three pieces in column 5 and
the pieces of the cells (0, 1), (6, 1) and (5, 2); the second player has three pieces
in column 4. -/
def wrapped_position : state := ⟨false, false, 536736, 264273⟩

/-- The state after the moves `cols`, each taken from the pairs that `get_choices`
returns for the state before it; `none` if a move is not among them. -/
def play (shuffle : List (Nat × state) → List (Nat × state)) : List Nat → state → Option state
  | [], s => some s
  | col :: cols, s =>
    match (get_choices shuffle s).find? (fun pair => pair.1 == col) with
    | none => none
    | some pair => play shuffle cols pair.2

/-- The state after the player to move has put a piece on the cell of column `col` and
row `row`: the turn is flipped, `end` is false, and the bit `col + 7 * row` is added to
the bitboard of the player who moved. -/
def dropped (s : state) (col row : Nat) : state :=
  if s.turn then ⟨false, false, s.players0, s.players1 + 2 ^ (col + 7 * row)⟩
  else ⟨true, false, s.players0 + 2 ^ (col + 7 * row), s.players1⟩

/-- One pair for every column that is not full, in the order of the columns: the
column, and the state after a drop on its lowest empty row. -/
def open_columns (s : state) : List (Nat × state) :=
  (List.range 7).filterMap (fun col =>
    (lowest_empty (s.players0 ||| s.players1) col).map (fun row => (col, dropped s col row)))

/-! ## Strong counts and reachability -/

/-- The number of child links to `p` held by the live nodes among the first `n`
addresses. -/
def indeg (hp : Nat → node State Choice) (n p : Nat) : Nat :=
  ((List.range n).map (fun q => if (hp q).rc = 0 then 0 else ((hp q).children).count p)).sum

/-- The strong counts cover the references: every node among the first `n` addresses
has at least as many strong references as the live nodes have child links to it, plus
one for every occurrence among the `owners` (pointers held outside the nodes). -/
def covered (hp : Nat → node State Choice) (n : Nat) (owners : List Nat) : Prop :=
  ∀ p, p < n → indeg hp n p + owners.count p ≤ (hp p).rc

/-- The strong counts of an engine cover its child links and its `root`. -/
def counted (e : minimax State Choice) : Prop := covered e.heap e.next [e.root]

/-- The node `c` is a child of the node `q`. -/
def child_link (hp : Nat → node State Choice) (q c : Nat) : Prop := c ∈ (hp q).children

/-- The node `p` is reachable from the node `r` through child links. -/
def reach (hp : Nat → node State Choice) (r p : Nat) : Prop :=
  Relation.ReflTransGen (child_link hp) r p

/-- The engine after `compute(depth)` on a new engine, or the new engine when the
budget of the call does not suffice. -/
def searched [DecidableEq State] (heuristic : State → Int)
    (getChoices : State → List (Choice × State)) (fuel depth : Nat) (start : State)
    (isMax : Bool) : minimax State Choice :=
  match compute heuristic getChoices fuel depth (minimax.new start isMax) with
  | Except.ok e => e
  | Except.error _ => minimax.new start isMax

/-- The strong counts are exact: every node among the first `n` addresses has as
many strong references as the live nodes have child links to it, plus one for every
occurrence among the `owners`. -/
def balanced (hp : Nat → node State Choice) (n : Nat) (owners : List Nat) : Prop :=
  ∀ p, p < n → (hp p).rc = indeg hp n p + owners.count p

/-- The strong counts of an engine are exact: they count the child links of the live
nodes and the pointer `root`. -/
def exact (e : minimax State Choice) : Prop := balanced e.heap e.next [e.root]

/-- The graph of an engine is acyclic: the nodes can be numbered so that the numbers
increase along every child link. -/
def acyclic (e : minimax State Choice) : Prop :=
  ∃ rank : Nat → Nat, ∀ q, q < e.next → ∀ c ∈ (e.heap q).children, rank q < rank c

/-- The number of child links held by the live nodes among the first `n` addresses. -/
def live_links (hp : Nat → node State Choice) (n : Nat) : Nat :=
  ((List.range n).map (fun q => if (hp q).rc = 0 then 0 else ((hp q).children).length)).sum

/-! ## The path of the traversal in a graph -/

/-- Each iterator of the path runs over the children of the node that the rest of the
path leads to. -/
def chained (hp : Nat → node State Choice) (startNode : Nat) : List child_iter → Prop
  | [] => True
  | it :: rest => it.owner = target hp startNode rest ∧ chained hp startNode rest

/-- The iterator points at a child of its owner. -/
def inside (hp : Nat → node State Choice) (it : child_iter) : Prop :=
  it.idx < ((hp it.owner).children).length

/-- Among the first `n` addresses the nodes of `hp1` have the children of the nodes of
`hp`, possibly followed by more. -/
def grown (n : Nat) (hp hp1 : Nat → node State Choice) : Prop :=
  ∀ q, q < n → (hp q).children <+: (hp1 q).children

/-- The invariant of the traversal about its path: the path is chained, every iterator
below its back points at a child, and so does the back while the traversal descends
or constructs, when `at` is the node the path leads to; while the traversal backtracks
the back of the path may stand at the end of the children. -/
def walk_ok (startNode : Nat) (f : Frame State Choice) : Prop :=
  chained f.mm.heap startNode f.path ∧ (∀ it ∈ f.path.tail, inside f.mm.heap it) ∧
    (f.pc = PC.descend ∨ f.pc = PC.construct →
      f.cur = target f.mm.heap startNode f.path ∧ ∀ it ∈ f.path.head?, inside f.mm.heap it) ∧
    (f.pc = PC.backtrack →
      ∀ it ∈ f.path.head?, it.idx ≤ ((f.mm.heap it.owner).children).length)

/-! ## `collect_garbage` -/

/-- The capacity of a `std::vector` after `emplace_back` on a vector that holds `size`
elements and has the capacity `cap`: a full vector is reallocated, and the vector of
libstdc++ then makes room for `size + max(size, 1)` elements. -/
def capacity_after (cap size : Nat) : Nat := if size < cap then cap else size + max size 1

/-- The marking loop of `collect_garbage`.  An entry of `path` (its back is the head of
the list) is the range of children of `owner` from position `idx` to the end, and `cap`
is the capacity of `path`.  The reference `begin` points into `path.back()`; when
`path.emplace_back` finds the vector full it reallocates it, and the `++begin` that
follows goes through a dangling reference, which is undefined behaviour.  When there
is room, `++begin` moves the range of the parent. -/
def mark_loop : Nat → Nat → (Nat → node State Choice) → List child_iter →
    Except Error (Nat → node State Choice)
  | _, _, hp, [] => Except.ok hp
  | 0, _, _, _ :: _ => Except.error Error.out_of_fuel
  | fuel + 1, cap, hp, range :: path =>
    if range.idx = ((hp range.owner).children).length then mark_loop fuel cap hp path
    else
      let child := deref hp range
      if (hp child).mark then mark_loop fuel cap hp ({ range with idx := range.idx + 1 } :: path)
      else if (range :: path).length < cap then
        mark_loop fuel (capacity_after cap (range :: path).length)
          (store hp child { hp child with mark := true })
          ({ owner := child, idx := 0 } :: { range with idx := range.idx + 1 } :: path)
      else Except.error Error.undefined_behaviour

/-- The statement `node_ptr node = entry->second.lock();`: one more strong reference to
the node `p`. -/
def lock (hp : Nat → node State Choice) (p : Nat) : Nat → node State Choice :=
  store hp p { hp p with rc := (hp p).rc + 1 }

/-- The statement `node->children.clear();`: the vector becomes empty and the pointers it
held are released. -/
def clear_children (budget : Nat) (hp : Nat → node State Choice) (p : Nat) :
    Nat → node State Choice :=
  release budget (hp p).children (store hp p { hp p with children := [] })

/-- The sweeping loop of `collect_garbage` over the entries of the table, in the order
of the list.  The first component is the heap after the loop, the second the entries
that are left.  `node` holds a strong reference during one turn, which is released at
the end of the turn. -/
def sweep (budget : Nat) :
    List (State × Nat) → (Nat → node State Choice) →
      (Nat → node State Choice) × List (State × Nat)
  | [], hp => (hp, [])
  | entry :: rest, hp =>
    if expired hp entry.2 then sweep budget rest hp
    else if (lock hp entry.2 entry.2).mark = false then
      sweep budget rest
        (release budget [entry.2] (clear_children budget (lock hp entry.2) entry.2))
    else
      let r := sweep budget rest
        (release budget [entry.2]
          (store (lock hp entry.2) entry.2 { lock hp entry.2 entry.2 with mark := false }))
      (r.1, entry :: r.2)

/-- The method `collect_garbage()`.  The vector `path` is new and no capacity is
reserved for it, so it has the capacity `capacity_after 0 0` after the range of the root is
pushed.  The method is `noexcept`. -/
def collect_garbage (e : minimax State Choice) : Except Error (minimax State Choice) :=
  let hp0 := store e.heap e.root { e.heap e.root with mark := true }
  match mark_loop (release_budget e) (capacity_after 0 0) hp0 [{ owner := e.root, idx := 0 }] with
  | Except.error err => Except.error err
  | Except.ok hp1 =>
    let r := sweep (release_budget e) e.nodes hp1
    Except.ok { e with heap := r.1, nodes := r.2 }

/-- A game with a cycle: the states 1 and 2 lead to each other, and the start state 0
leads to the state 1 and to the state 3, which has no moves. -/
def cycle_moves : Nat → List (Nat × Nat)
  | 0 => [(0, 1), (1, 3)]
  | 1 => [(0, 2)]
  | 2 => [(0, 1)]
  | _ => []

/-- No node of the engine is marked, and the table has one entry for a node at most. -/
def clean (e : minimax State Choice) : Prop :=
  (∀ p, (e.heap p).mark = false) ∧ (e.nodes.map Prod.snd).Nodup

/-! ### The heuristic `score_board` -/

/-- The constant `infinity` of `Connect4.cpp`. -/
def Connect4.infinity : Int := 20000

/-- The constant `threshhold` of `Connect4.cpp`. -/
def Connect4.threshhold : Int := Connect4.infinity / 2

/-- The function `bit_count` (`__builtin_popcountll`): the number of set bits of a 64-bit
value. -/
def bit_count (x : Nat) : Nat := ((List.range 64).filter (fun i => x.testBit i)).length

/-- The function `square`. -/
def square (x : Int) : Int := x * x

/-- The conversion of a value to `unsigned`. -/
def to_unsigned (x : Int) : Nat := (x % 2 ^ 32).toNat

/-- The conversion of an `unsigned` value to `int`. -/
def to_int (u : Nat) : Int := if u < 2 ^ 31 then (u : Int) else (u : Int) - 2 ^ 32

/-- The locals `score`, `won` and `lost` of `score_board`. -/
structure tally where
  score : Int
  won : Bool
  lost : Bool
deriving DecidableEq

/-- The body of each of the four loops of `score_board`, for one window of the two
players and the mask of the loop. -/
def count_window (mask mwindow twindow : Nat) (t : tally) : tally :=
  if mwindow = mask then { t with won := true }
  else if twindow = mask then { t with lost := true }
  else
    let t1 : tally :=
      if mwindow = 0 then { t with score := t.score - square (bit_count twindow) } else t
    if twindow = 0 then { t1 with score := t1.score + square (bit_count mwindow) } else t1

/-- The first loop of `score_board`, over the rows: it runs while `mRow` is not zero,
with `mRow >>= 7, tRow >>= 7` after each turn.  A 64-bit value is zero after ten shifts
by 7, so ten rounds are enough. -/
def count_rows : Nat → Nat → Nat → tally → tally
  | 0, _, _, t => t
  | fuel + 1, mRow, tRow, t =>
    if mRow = 0 then t
    else
      count_rows fuel (mRow >>> 7) (tRow >>> 7)
        ((List.range 4).foldl (fun t1 i =>
          count_window ROW_MASK (((mRow >>> i) &&& ROW_MASK) % 2 ^ 32)
            (((tRow >>> i) &&& ROW_MASK) % 2 ^ 32) t1) t)

/-- The second loop of `score_board`, over the 21 windows of `COLUMN_MASK`. -/
def count_columns (mine theirs : Nat) (t : tally) : tally :=
  (List.range 21).foldl (fun t1 i =>
    count_window COLUMN_MASK ((mine >>> i) &&& COLUMN_MASK) ((theirs >>> i) &&& COLUMN_MASK)
      t1) t

/-- The third and the fourth loop of `score_board`, over the 4 times 3 windows of a
diagonal mask. -/
def count_diagonals (mask mine theirs : Nat) (t : tally) : tally :=
  (List.range 4).foldl (fun t1 i =>
    (List.range 3).foldl (fun t2 j =>
      count_window mask (((mine >>> i) >>> (7 * j)) &&& mask)
        (((theirs >>> i) >>> (7 * j)) &&& mask) t2) t1) t

/-- The locals of `score_board` after its four loops. -/
def count_board (board : state) : tally :=
  count_diagonals FORWARD_DIAG_MASK board.players0 board.players1
    (count_diagonals BACKWARD_DIAG_MASK board.players0 board.players1
      (count_columns board.players0 board.players1
        (count_rows 10 board.players0 board.players1 ⟨0, false, false⟩)))

/-- The function `score_board`.  The two `return` statements with `bit_count` are
computed in `unsigned`, as the operand of type `unsigned` makes them, and converted to
`int`. -/
def score_board (board : state) : Except Error Int :=
  let t := count_board board
  if t.won && t.lost then Except.error Error.invalid_argument
  else if t.won then
    Except.ok (to_int (to_unsigned (Connect4.infinity - bit_count board.players1)))
  else if t.lost then
    Except.ok (to_int (to_unsigned
      (100 * (bit_count board.players0 : Int) - Connect4.infinity + t.score)))
  else Except.ok t.score

/-- The value a call returned, if it returned. -/
def returned {α : Type} (r : Except Error α) : Option α :=
  match r with
  | Except.ok a => some a
  | Except.error _ => none

/-- The assertions of `verifyNode` about heights, and its recursion into the children
whose score is the best one: `true` when no such assertion fails within `fuel` levels
below the node `p`. -/
def verifyNode_heights (hp : Nat → node State Choice) : Nat → Nat → Bool → Bool
  | 0, _, _ => true
  | fuel + 1, p, type =>
    let best := ((hp p).children).foldl (fun b c => merge type b (hp c).score) (seed type)
    let allInf := ((hp p).children).all (fun c =>
      if (hp c).score = best then decide ((hp c).height = infinity) else true)
    ((hp p).children).all (fun c =>
        if (hp c).score = best then
          decide ((hp c).height = infinity ∨ usize_add (hp c).height 1 = (hp p).height)
        else true) &&
      (decide ((hp p).height ≠ infinity) || allInf) &&
      ((hp p).children).all (fun c =>
        if (hp c).score = best then verifyNode_heights hp fuel c (!type) else true)

/-- The method `verify()`, for the assertions about heights, after a call that
returned. -/
def verify_heights_after (fuel : Nat) (r : Except Error (minimax State Choice)) : Option Bool :=
  match r with
  | Except.ok e => some (verifyNode_heights e.heap fuel e.root e.type_)
  | Except.error _ => none

/-- The engine after `compute(3)` on a new maximizing engine for `pruned_moves` and the
move `progress(1)` to the state `[1]`, whose node was pruned. -/
def pruned_engine : minimax (List Nat) Nat :=
  (progress pruned_score pruned_moves 64 1 (searched pruned_score pruned_moves 64 3 [] true)).2

/-- The node `p` is the node `at` of the frame, which is about to reset, expand or
evaluate it. -/
def pending (f : Frame State Choice) (p : Nat) : Prop :=
  f.cur = p ∧ (f.pc = PC.descend ∨ f.pc = PC.construct)

/-- The node `p` is the node `at` of the frame, which is about to expand it. -/
def expanding (depth : Nat) (f : Frame State Choice) (p : Nat) : Prop :=
  f.cur = p ∧ f.pc = PC.construct ∧ f.path.length < depth

/-- What the traversal keeps about a node `p` without children, for a set `V` of visited
and a set `X` of expanded nodes: if visited, it holds the heuristic of its state unless
it is the node `at` and not yet evaluated; if expanded, it has the unknown height; if not,
it has height 0 unless it is about to be expanded. -/
def leaf_at (heuristic : State → Int) (depth : Nat) (V X : Nat → Prop)
    (f : Frame State Choice) (p : Nat) : Prop :=
  (V p → (f.mm.heap p).score = heuristic (f.mm.heap p).state ∨ pending f p) ∧
    (X p → (f.mm.heap p).height = infinity) ∧
    (¬ X p → (f.mm.heap p).height = 0 ∨ expanding depth f p)

/-- The invariant of the traversal about the nodes without children: visited and
expanded nodes are allocated, the node `at` is visited, and `leaf_at` holds for every
node without children. -/
def leaf_inv (heuristic : State → Int) (depth : Nat) (V X : Nat → Prop)
    (f : Frame State Choice) : Prop :=
  (∀ p, V p → p < f.mm.next) ∧ (∀ p, X p → p < f.mm.next) ∧ V f.cur ∧
    ∀ p, (f.mm.heap p).children = [] → leaf_at heuristic depth V X f p

/-- Below the address `n` the heap `hp1` is the heap `hp`, except at the node `x`, at
the nodes whose states are in the list `below`, and except for the height of the
node `w`. -/
def kept_off (n x w : Nat) (below : List State) (hp hp1 : Nat → node State Choice) : Prop :=
  ∀ q, q < n → q ≠ x → (hp q).state ∉ below →
    (q ≠ w → hp1 q = hp q) ∧ hp1 q = { hp q with height := (hp1 q).height }

/-- The report of a later search of the node `f.cur` of state `s`, entered in the
frame `f` with `K` plies left and left in the frame `f1`: either the traversal
backtracks with the score of the node, which is its minimax value for `K` plies, and
the parent is unchanged; or the node is pruned and its minimax value crosses the
score of the parent. -/
def again_done (heuristic : State → Int) (getChoices : State → List (Choice × State))
    (depth startNode K : Nat) (f f1 : Frame State Choice) (s : State) (type : Bool) : Prop :=
  (f1.pc = PC.backtrack ∧ f1.path = f.path ∧ f1.nodeType = type ∧
      (f.path ≠ [] →
        f1.mm.heap (top_owner startNode f.path) = f.mm.heap (top_owner startNode f.path)) ∧
      (f1.mm.heap f.cur).score = minimax_value heuristic getChoices K type s) ∨
    ((∃ f0, f1 = return_check depth startNode f0 ∧ f0.pc = PC.backtrack ∧
        f0.path = advance f.path ∧ f0.nodeType = type) ∧
      ∃ b, bound_of f.mm.heap f.path = some b ∧
        better type (minimax_value heuristic getChoices K type s) b = true)

/-- A later search of a node that the first search came to with `k` plies left, now
with `k + e` plies left, in a game that produces no state twice within `k + e` plies
of the state of the node, and not the state itself nor the states of the nodes on the
path: the traversal reaches a frame that reports the result, and below the old
allocation mark it changed only the node, the nodes of the states produced below it
and the height of its parent. -/
def searches_again [DecidableEq State] (heuristic : State → Int)
    (getChoices : State → List (Choice × State)) (depth startNode e k : Nat) : Prop :=
  ∀ (f : Frame State Choice) (s : State) (type : Bool),
    f.pc = PC.descend →
    f.path.length + (k + e) = depth →
    f.nodeType = type →
    on_path f.mm.heap startNode f.cur f.path →
    startNode ≤ f.cur →
    cached heuristic getChoices e (f.mm.nodes.map Prod.fst) f.mm.next f.mm.heap k f.cur s type →
    (produced getChoices (k + e) s).Nodup →
    s ∉ produced getChoices (k + e) s →
    (∀ it ∈ f.path, (f.mm.heap it.owner).state ≠ s ∧
      (f.mm.heap it.owner).state ∉ produced getChoices (k + e) s) →
    (∀ b, bound_of f.mm.heap f.path = some b → scoreMin ≤ b ∧ b ≤ scoreMax) →
    ∃ f1, reaches heuristic getChoices depth startNode f f1 ∧
      f.mm.next ≤ f1.mm.next ∧
      (∀ key ∈ f1.mm.nodes.map Prod.fst,
        key ∈ f.mm.nodes.map Prod.fst ∨ key ∈ produced getChoices (k + e) s) ∧
      kept_off f.mm.next f.cur (top_owner startNode f.path) (produced getChoices (k + e) s)
        f.mm.heap f1.mm.heap ∧
      again_done heuristic getChoices depth startNode (k + e) f f1 s type

/-- The report of a later search of the children of the node `x` for the moves
`rest`, each child with `K` plies left: either the traversal backtracks from `x`,
whose score is its score before merged with the minimax values of the children; or
`x` is pruned, and a minimax value among the children crosses the parent's score. -/
def again_children_done (heuristic : State → Int)
    (getChoices : State → List (Choice × State)) (depth startNode K : Nat)
    (f f1 : Frame State Choice) (x : Nat) (path : List child_iter) (type : Bool)
    (rest : List (Choice × State)) : Prop :=
  (f1.pc = PC.backtrack ∧ f1.path = path ∧ f1.nodeType = type ∧
      (path ≠ [] →
        f1.mm.heap (top_owner startNode path) = f.mm.heap (top_owner startNode path)) ∧
      (f1.mm.heap x).score
        = (rest.map (fun c => minimax_value heuristic getChoices K (!type) c.2)).foldl
            (merge type) (f.mm.heap x).score) ∨
    ((∃ f0, f1 = return_check depth startNode f0 ∧ f0.pc = PC.backtrack ∧
        f0.path = advance path ∧ f0.nodeType = type) ∧
      ∃ b, bound_of f.mm.heap path = some b ∧
        ∀ a0, better type
          ((rest.map (fun c => minimax_value heuristic getChoices K (!type) c.2)).foldl
            (merge type) a0) b = true)

/-- A later search of the children of the node `x` from the child number `j` on, for
the moves `rest` that are left, each child having `k + e` plies left: the traversal
stands at the child number `j`, which is still to be searched, or it backtracks with
the iterator at that child, whose score is then its minimax value. -/
def searches_again_children [DecidableEq State] (heuristic : State → Int)
    (getChoices : State → List (Choice × State)) (depth startNode e k : Nat)
    (rest : List (Choice × State)) : Prop :=
  ∀ (f : Frame State Choice) (x n0 j : Nat) (path : List child_iter) (type : Bool),
    f.path = ⟨x, j⟩ :: path →
    path.length + 1 + (k + e) = depth →
    f.nodeType = (!type) →
    on_path f.mm.heap startNode x path →
    x < n0 → startNode ≤ x → n0 + j + rest.length ≤ f.mm.next →
    (f.mm.heap x).children = List.range' n0 (j + rest.length) →
    (produced_list (produced getChoices (k + e)) rest).Nodup →
    (∀ it ∈ f.path,
      (f.mm.heap it.owner).state ∉ produced_list (produced getChoices (k + e)) rest) →
    (∀ (i : Nat) (c : Choice × State), rest[i]? = some c → (i = 0 → f.pc = PC.descend) →
      cached heuristic getChoices e (f.mm.nodes.map Prod.fst) f.mm.next f.mm.heap k
        (n0 + j + i) c.2 (!type)) →
    (∀ c, rest[0]? = some c → f.pc = PC.backtrack →
      (f.mm.heap (n0 + j)).score = minimax_value heuristic getChoices (k + e) (!type) c.2) →
    (f.pc = PC.backtrack ∨ (rest ≠ [] ∧ f.pc = PC.descend ∧ f.cur = n0 + j)) →
    (scoreMin ≤ (f.mm.heap x).score ∧ (f.mm.heap x).score ≤ scoreMax) →
    (∀ b, bound_of f.mm.heap path = some b → scoreMin ≤ b ∧ b ≤ scoreMax) →
    (rest ≠ [] → crosses type (bound_of f.mm.heap path) (f.mm.heap x).score = false) →
    ∃ f1, reaches heuristic getChoices depth startNode f f1 ∧
      f.mm.next ≤ f1.mm.next ∧
      (∀ key ∈ f1.mm.nodes.map Prod.fst,
        key ∈ f.mm.nodes.map Prod.fst ∨
          key ∈ produced_list (produced getChoices (k + e)) rest) ∧
      kept_off f.mm.next x (top_owner startNode path)
        (produced_list (produced getChoices (k + e)) rest) f.mm.heap f1.mm.heap ∧
      f1.mm.heap x = { f.mm.heap x with
        height := (f1.mm.heap x).height, score := (f1.mm.heap x).score } ∧
      again_children_done heuristic getChoices depth startNode (k + e) f f1 x path type rest

/-! # Theorems -/

/-! ## Facts about `choose` -/

theorem choose_loop_nil_left (hp : Nat → node State Choice) (type : Bool)
    (choices : List Choice) (best : Int) (bestChoice : Choice) :
    choose_loop hp type [] choices best bestChoice = bestChoice := by
  cases choices <;> rfl

theorem better_trans {type : Bool} {a b c : Int} (hab : better type a b = true)
    (hbc : better type b c = true) : better type a c = true := by
  cases type <;> simp [better] at * <;> omega

theorem not_better_of_better {type : Bool} {a b c : Int} (hab : better type a b = false)
    (hcb : better type c b = true) : better type c a = true := by
  cases type <;> simp [better] at * <;> omega

theorem better_irrefl (type : Bool) (a : Int) : better type a a = false := by
  cases type <;> simp [better]

/-- The loop of `choose` either keeps its accumulator, when no remaining child beats
`best`, or ends at the first remaining child whose score no other child beats. -/
theorem choose_loop_spec (hp : Nat → node State Choice) (type : Bool) :
    ∀ (children : List Nat) (choices : List Choice) (best : Int) (bestChoice : Choice),
      children.length = choices.length →
      ((∀ c ∈ children, better type (hp c).score best = false) ∧
          choose_loop hp type children choices best bestChoice = bestChoice) ∨
      (∃ i child, children[i]? = some child ∧
          choices[i]? = some (choose_loop hp type children choices best bestChoice) ∧
          better type (hp child).score best = true ∧
          (∀ c ∈ children, better type (hp c).score (hp child).score = false) ∧
          (∀ (j c : Nat), j < i → children[j]? = some c →
            better type (hp child).score (hp c).score = true)) := by
  intro children
  induction children with
  | nil =>
    intro choices best bestChoice _
    left
    exact ⟨by simp, choose_loop_nil_left hp type choices best bestChoice⟩
  | cons child children ih =>
    intro choices best bestChoice hlen
    cases choices with
    | nil => simp at hlen
    | cons choice choices =>
      have hlen1 : children.length = choices.length := by simpa using hlen
      by_cases hb : better type (hp child).score best = true
      · have hstep : choose_loop hp type (child :: children) (choice :: choices) best bestChoice
            = choose_loop hp type children choices (hp child).score choice := by
          simp [choose_loop, hb]
        rw [hstep]
        right
        rcases ih choices (hp child).score choice hlen1 with ⟨hnone, heq⟩ | ⟨i, c1, hi, hch, hbt, hmax, hfirst⟩
        · refine ⟨0, child, by simp, by simp [heq], hb, ?_, ?_⟩
          · intro c hc
            rcases List.mem_cons.mp hc with rfl | hc
            · exact better_irrefl type _
            · exact hnone c hc
          · intro j c hj
            omega
        · refine ⟨i + 1, c1, by simpa using hi, by simpa using hch, better_trans hbt hb, ?_, ?_⟩
          · intro c hc
            rcases List.mem_cons.mp hc with rfl | hc
            · cases hx : better type (hp c).score (hp c1).score with
              | false => rfl
              | true => have := better_trans hx hbt; rw [better_irrefl] at this; cases this
            · exact hmax c hc
          · intro j c hj hjc
            cases j with
            | zero =>
              simp at hjc
              subst hjc
              exact hbt
            | succ j =>
              simp at hjc
              exact hfirst j c (by omega) hjc
      · have hb1 : better type (hp child).score best = false := by
          cases h : better type (hp child).score best
          · rfl
          · exact absurd h hb
        have hstep : choose_loop hp type (child :: children) (choice :: choices) best bestChoice
            = choose_loop hp type children choices best bestChoice := by
          simp [choose_loop, hb1]
        rw [hstep]
        rcases ih choices best bestChoice hlen1 with ⟨hnone, heq⟩ | ⟨i, c1, hi, hch, hbt, hmax, hfirst⟩
        · left
          refine ⟨?_, heq⟩
          intro c hc
          rcases List.mem_cons.mp hc with rfl | hc
          · exact hb1
          · exact hnone c hc
        · right
          refine ⟨i + 1, c1, by simpa using hi, by simpa using hch, hbt, ?_, ?_⟩
          · intro c hc
            rcases List.mem_cons.mp hc with rfl | hc
            · cases hx : better type (hp c).score (hp c1).score with
              | false => rfl
              | true =>
                have h1 := not_better_of_better hb1 hbt
                have h2 := better_trans hx h1
                rw [better_irrefl] at h2
                cases h2
            · exact hmax c hc
          · intro j c hj hjc
            cases j with
            | zero =>
              simp at hjc
              subst hjc
              exact not_better_of_better hb1 hbt
            | succ j =>
              simp at hjc
              exact hfirst j c (by omega) hjc

/-! ## Facts about `progress` -/

theorem progress_loop_some [DecidableEq Choice] (choice : Choice) :
    ∀ (choices : List Choice) (children : List Nat) (q : Nat),
      progress_loop choice choices children (some q) = some q := by
  intro choices
  induction choices with
  | nil => intro children q; cases children <;> rfl
  | cons ch choices ih =>
    intro children q
    cases children with
    | nil => rfl
    | cons p children => simp [progress_loop, ih]

/-- The loop of `progress` finds the child at the first position holding `choice`. -/
theorem progress_loop_none [DecidableEq Choice] (choice : Choice) :
    ∀ (choices : List Choice) (children : List Nat), children.length = choices.length →
      (choice ∉ choices → progress_loop choice choices children none = none) ∧
      (choice ∈ choices → ∃ (i p : Nat), choices[i]? = some choice ∧
        (∀ j, j < i → choices[j]? ≠ some choice) ∧ children[i]? = some p ∧
        progress_loop choice choices children none = some p) := by
  intro choices
  induction choices with
  | nil =>
    intro children _
    cases children <;> simp [progress_loop]
  | cons ch choices ih =>
    intro children hlen
    cases children with
    | nil => simp at hlen
    | cons p children =>
      have hlen1 : children.length = choices.length := by simpa using hlen
      by_cases hch : ch = choice
      · subst hch
        refine ⟨by simp, fun _ => ⟨0, p, by simp, by intro j hj; omega, by simp, ?_⟩⟩
        simp [progress_loop, progress_loop_some]
      · have hstep : progress_loop choice (ch :: choices) (p :: children) none
            = progress_loop choice choices children none := by
          simp [progress_loop, hch]
        rw [hstep]
        obtain ⟨ih1, ih2⟩ := ih children hlen1
        constructor
        · intro hnot
          exact ih1 (fun hmem => hnot (List.mem_cons_of_mem _ hmem))
        · intro hmem
          have hmem1 : choice ∈ choices := by
            rcases List.mem_cons.mp hmem with h | h
            · exact absurd h.symm hch
            · exact h
          obtain ⟨i, q, h1, h2, h3, h4⟩ := ih2 hmem1
          refine ⟨i + 1, q, by simpa using h1, ?_, by simpa using h3, h4⟩
          intro j hj
          cases j with
          | zero => simpa using hch
          | succ j => simpa using h2 j (by omega)

theorem same_but_rc_refl (a : node State Choice) : same_but_rc a a :=
  ⟨rfl, rfl, rfl, rfl, rfl, rfl⟩

theorem same_but_rc_trans {a b c : node State Choice} (hab : same_but_rc a b)
    (hbc : same_but_rc b c) : same_but_rc a c := by
  obtain ⟨h1, h2, h3, h4, h5, h6⟩ := hab
  obtain ⟨k1, k2, k3, k4, k5, k6⟩ := hbc
  exact ⟨h1.trans k1, h2.trans k2, h3.trans k3, h4.trans k4, h5.trans k5, h6.trans k6⟩

theorem same_but_rc_store (hp : Nat → node State Choice) (p r q : Nat) :
    same_but_rc (store hp p { hp p with rc := r } q) (hp q) := by
  by_cases hq : q = p
  · subst hq
    simp [store, same_but_rc]
  · simp [store, hq, same_but_rc]

/-- Releasing references changes no field of any node but its count `rc`. -/
theorem release_fields :
    ∀ (fuel : Nat) (work : List Nat) (hp : Nat → node State Choice) (q : Nat),
      same_but_rc (release fuel work hp q) (hp q) := by
  intro fuel
  induction fuel with
  | zero => intro work hp q; cases work <;> exact same_but_rc_refl _
  | succ fuel ih =>
    intro work hp q
    cases work with
    | nil => exact same_but_rc_refl _
    | cons p work =>
      simp only [release]
      split
      · exact ih work hp q
      · split
        · exact same_but_rc_trans (ih _ _ q) (same_but_rc_store hp p _ q)
        · exact same_but_rc_trans (ih _ _ q) (same_but_rc_store hp p _ q)

/-! ## Claims about `choose` -/

/-- C9: when the root has no children, `choose(def)` returns `def`. -/
theorem choose_no_children (e : minimax State Choice) (dflt : Choice)
    (hroot : (e.heap e.root).children = []) : choose e dflt = dflt := by
  unfold choose
  rw [hroot]
  exact choose_loop_nil_left _ _ _ _ _

/-- The claim C9 at a new engine, whose root has not been expanded. -/
theorem choose_no_children_witness :
    ((minimax.new 0 true : minimax Nat Nat).heap (minimax.new 0 true : minimax Nat Nat).root).children
        = [] ∧
      choose (minimax.new 0 true : minimax Nat Nat) 5 = 5 :=
  ⟨rfl, choose_no_children (minimax.new 0 true) 5 rfl⟩

/-- C5, as stated, fails: after `compute(1)` on a new maximizing engine whose only
leaf is scored `numeric_limits<int>::min()`, the root has the single child `1` under
choice `0`, that child has the greatest score of all children, and `choose(7)`
returns `7`. -/
theorem choose_default_at_seed :
    ((searched_once least_score one_move true).heap
        (searched_once least_score one_move true).root).children = [1] ∧
      ((searched_once least_score one_move true).heap
        (searched_once least_score one_move true).root).choices = [0] ∧
      ((searched_once least_score one_move true).heap 1).score = scoreMin ∧
      choose (searched_once least_score one_move true) 7 = 7 := by
  decide!

/-- C5 (amended): let the root have as many choices as children.  If some child of
the root has a score strictly better than the seed of the root's type (greater than
`numeric_limits<int>::min()` for a maximizing root, less than `max()` for a
minimizing one), `choose(def)` returns the choice stored at the first position whose
child has the extreme score; if no child has, it returns `def`. -/
theorem choose_first_extreme (e : minimax State Choice) (dflt : Choice)
    (hlen : ((e.heap e.root).children).length = ((e.heap e.root).choices).length) :
    ((∃ c ∈ (e.heap e.root).children, better e.type_ (e.heap c).score (seed e.type_) = true) →
        is_first_extreme e (choose e dflt)) ∧
      ((∀ c ∈ (e.heap e.root).children, better e.type_ (e.heap c).score (seed e.type_) = false) →
        choose e dflt = dflt) := by
  rcases choose_loop_spec e.heap e.type_ (e.heap e.root).children (e.heap e.root).choices
      (seed e.type_) dflt hlen with ⟨hnone, heq⟩ | ⟨i, child, hi, hch, hbt, hmax, hfirst⟩
  · refine ⟨?_, fun _ => heq⟩
    rintro ⟨c, hc, hb⟩
    rw [hnone c hc] at hb
    cases hb
  · refine ⟨fun _ => ⟨i, child, hi, hch, hmax, hfirst⟩, ?_⟩
    intro hall
    have hmem : child ∈ (e.heap e.root).children := List.getElem?_mem hi
    rw [hall child hmem] at hbt
    cases hbt

/-- The amended claim C5 after `compute(1)` on a maximizing engine with two moves:
the children are scored `1` and `2`, and `choose` returns the second choice, `6`. -/
theorem choose_first_extreme_witness :
    (((searched_once by_number two_moves true).heap
        (searched_once by_number two_moves true).root).children).length =
      (((searched_once by_number two_moves true).heap
        (searched_once by_number two_moves true).root).choices).length ∧
    choose (searched_once by_number two_moves true) 9 = 6 ∧
    is_first_extreme (searched_once by_number two_moves true)
      (choose (searched_once by_number two_moves true) 9) :=
  ⟨by decide!, by decide!,
    (choose_first_extreme (searched_once by_number two_moves true) 9 (by decide!)).1
      ⟨1, by decide!, by decide!⟩⟩

/-! ## Claims about `progress` -/

/-- C6: if the root has children (as many as choices) and one of them is stored under
`choice`, then `progress(choice)` returns normally, the new root is the child at the
first position holding `choice`, `type()` is negated, and the returned state and
`state()` are the state of that child. -/
theorem progress_to_child [DecidableEq State] [DecidableEq Choice] (heuristic : State → Int)
    (getChoices : State → List (Choice × State)) (fuel : Nat) (choice : Choice)
    (e : minimax State Choice)
    (hchildren : (e.heap e.root).children ≠ [])
    (hlen : ((e.heap e.root).children).length = ((e.heap e.root).choices).length)
    (hmem : choice ∈ (e.heap e.root).choices) :
    ∃ (i p : Nat), ((e.heap e.root).choices)[i]? = some choice ∧
      (∀ j, j < i → ((e.heap e.root).choices)[j]? ≠ some choice) ∧
      ((e.heap e.root).children)[i]? = some p ∧
      (progress heuristic getChoices fuel choice e).1 = Except.ok (e.heap p).state ∧
      (progress heuristic getChoices fuel choice e).2.root = p ∧
      (progress heuristic getChoices fuel choice e).2.type = !e.type ∧
      (progress heuristic getChoices fuel choice e).2.state = (e.heap p).state := by
  obtain ⟨i, p, h1, h2, h3, h4⟩ := (progress_loop_none choice _ _ hlen).2 hmem
  refine ⟨i, p, h1, h2, h3, ?_⟩
  have hst : ((swap_root ({ e with type_ := !e.type_ } : minimax State Choice) p).heap p).state
      = (e.heap p).state := by
    have ha := (release_fields (release_budget ({ e with type_ := !e.type_ } :
      minimax State Choice)) [e.root]
      (store e.heap p { e.heap p with rc := (e.heap p).rc + 1 }) p).2.1
    have hb := (same_but_rc_store e.heap p ((e.heap p).rc + 1) p).2.1
    exact ha.trans hb
  simp only [progress, hchildren, if_false, h4]
  exact ⟨congrArg Except.ok hst, rfl, rfl, hst⟩

/-- The claim C6 after `compute(1)` on an engine with two moves: `progress(6)` moves
the root to the second child. -/
theorem progress_to_child_witness :
    ((searched_once by_number two_moves true).heap
        (searched_once by_number two_moves true).root).children ≠ [] ∧
    (6 : Nat) ∈ ((searched_once by_number two_moves true).heap
        (searched_once by_number two_moves true).root).choices ∧
    ∃ (i p : Nat), (((searched_once by_number two_moves true).heap
        (searched_once by_number two_moves true).root).choices)[i]? = some 6 ∧
      (∀ j, j < i → (((searched_once by_number two_moves true).heap
        (searched_once by_number two_moves true).root).choices)[j]? ≠ some 6) ∧
      (((searched_once by_number two_moves true).heap
        (searched_once by_number two_moves true).root).children)[i]? = some p ∧
      (progress by_number two_moves 16 6 (searched_once by_number two_moves true)).1
        = Except.ok ((searched_once by_number two_moves true).heap p).state ∧
      (progress by_number two_moves 16 6 (searched_once by_number two_moves true)).2.root = p ∧
      (progress by_number two_moves 16 6 (searched_once by_number two_moves true)).2.type
        = !(searched_once by_number two_moves true).type ∧
      (progress by_number two_moves 16 6 (searched_once by_number two_moves true)).2.state
        = ((searched_once by_number two_moves true).heap p).state :=
  ⟨by decide!, by decide!,
    progress_to_child by_number two_moves 16 6 (searched_once by_number two_moves true)
      (by decide!) (by decide!) (by decide!)⟩

/-! ## Running the traversal -/

section traversal

variable [DecidableEq State] (heuristic : State → Int)
  (getChoices : State → List (Choice × State)) (depth startNode : Nat)

theorem step_finished (f : Frame State Choice) (hf : f.pc = PC.finished) :
    step heuristic getChoices depth startNode f = Except.ok f := by
  unfold step
  rw [hf]

theorem steps_finished (n : Nat) (f : Frame State Choice) (hf : f.pc = PC.finished) :
    steps heuristic getChoices depth startNode n f = Except.ok f := by
  induction n with
  | zero => rfl
  | succ n ih => simp [steps, step_finished, hf, ih]

theorem steps_add (n m : Nat) :
    ∀ (f f1 f2 : Frame State Choice),
      steps heuristic getChoices depth startNode n f = Except.ok f1 →
      steps heuristic getChoices depth startNode m f1 = Except.ok f2 →
      steps heuristic getChoices depth startNode (n + m) f = Except.ok f2 := by
  induction n with
  | zero =>
    intro f f1 f2 h1 h2
    simp only [steps] at h1
    cases h1
    simpa using h2
  | succ n ih =>
    intro f f1 f2 h1 h2
    have hnm : n + 1 + m = (n + m) + 1 := by omega
    rw [hnm]
    simp only [steps] at h1 ⊢
    cases hs : step heuristic getChoices depth startNode f with
    | error err => rw [hs] at h1; cases h1
    | ok g1 =>
      rw [hs] at h1
      exact ih g1 f1 f2 h1 h2

theorem steps_cons (n : Nat) (f f1 f2 : Frame State Choice)
    (h1 : step heuristic getChoices depth startNode f = Except.ok f1)
    (h2 : steps heuristic getChoices depth startNode n f1 = Except.ok f2) :
    steps heuristic getChoices depth startNode (n + 1) f = Except.ok f2 := by
  simp only [steps, h1]
  exact h2

theorem safe_of_pc (f : Frame State Choice) (hpc : f.pc ≠ PC.construct) : safe depth f :=
  fun h => absurd h hpc

theorem safe_steps_cons (n : Nat) (f f1 : Frame State Choice) (hs : safe depth f)
    (h1 : step heuristic getChoices depth startNode f = Except.ok f1)
    (h2 : safe_steps heuristic getChoices depth startNode n f1) :
    safe_steps heuristic getChoices depth startNode (n + 1) f := by
  simp only [safe_steps, h1]
  exact ⟨hs, h2⟩

theorem getD_clear (stale : List Bool) (h : ∀ b ∈ stale, b = false) (i : Nat) :
    stale.getD i false = false := by
  rw [List.getD_eq_getElem?_getD]
  cases hi : stale[i]? with
  | none => rfl
  | some b =>
    simp only [Option.getD_some]
    exact h b (List.getElem?_mem hi)

/-- While no iterator on the path is invalidated, no step reads an invalidated one. -/
theorem uses_stale_clear (f : Frame State Choice) (stale : List Bool)
    (h : ∀ b ∈ stale, b = false) : uses_stale startNode f stale = false := by
  unfold uses_stale
  split
  · rw [getD_clear stale h 0, getD_clear stale h 1, getD_clear stale h 2]
    simp
  · rfl

/-- A safe step invalidates no iterator on the path. -/
theorem stale_next_clear (f f1 : Frame State Choice) (stale : List Bool)
    (h : ∀ b ∈ stale, b = false) (hs : safe depth f) :
    ∀ b ∈ stale_next getChoices depth f f1 stale, b = false := by
  have hcond : ¬ (f.pc = PC.construct ∧ depth > f.path.length ∧
      (f.mm.heap f.cur).children ≠ [] ∧
      (getChoices (f.mm.heap f.cur).state).isEmpty = false) :=
    fun hc => hc.2.2.1 (hs hc.1 hc.2.1)
  unfold stale_next
  simp only [if_neg hcond]
  intro b hb
  split at hb
  · rcases List.mem_cons.mp hb with hb | hb
    · exact hb
    · exact h b hb
  · exact h b (List.mem_of_mem_drop hb)

/-- A traversal that reaches a finished frame within `n` safe steps is what `run`
returns for every budget of at least `n`, when no iterator is invalidated at its
start. -/
theorem run_of_steps (n : Nat) :
    ∀ (f f1 : Frame State Choice) (stale : List Bool),
      steps heuristic getChoices depth startNode n f = Except.ok f1 →
      safe_steps heuristic getChoices depth startNode n f →
      (∀ b ∈ stale, b = false) → f1.pc = PC.finished →
      ∀ fuel, n ≤ fuel →
        run heuristic getChoices depth startNode fuel stale f = Except.ok f1.mm := by
  induction n with
  | zero =>
    intro f f1 stale h1 _ _ hfin fuel _
    simp only [steps] at h1
    cases h1
    cases fuel <;> simp [run, hfin]
  | succ n ih =>
    intro f f1 stale h1 hsafe hclear hfin fuel hle
    obtain ⟨m, rfl⟩ : ∃ m, fuel = m + 1 := ⟨fuel - 1, by omega⟩
    by_cases hf : f.pc = PC.finished
    · rw [steps_finished _ _ _ _ _ _ hf] at h1
      cases h1
      simp [run, hf]
    · simp only [steps] at h1
      simp only [safe_steps] at hsafe
      simp only [run, hf, if_false]
      rw [uses_stale_clear startNode f stale hclear]
      simp only [Bool.false_eq_true, if_false]
      cases hs : step heuristic getChoices depth startNode f with
      | error err => rw [hs] at h1; cases h1
      | ok g1 =>
        rw [hs] at h1 hsafe
        exact ih g1 f1 _ h1 hsafe.2
          (stale_next_clear getChoices depth f g1 stale hclear hsafe.1) hfin m (by omega)

end traversal

/-! ## Facts about `expand` -/

theorem find_mem [DecidableEq State] (key : State) :
    ∀ (tbl : List (State × Nat)) (p : Nat), find tbl key = some p → (key, p) ∈ tbl := by
  intro tbl
  induction tbl with
  | nil => intro p h; simp [find] at h
  | cons kp tbl ih =>
    intro p h
    obtain ⟨k, q⟩ := kp
    by_cases hk : k = key
    · subst hk
      simp [find] at h
      subst h
      exact List.mem_cons_self _ _
    · simp [find, hk] at h
      exact List.mem_cons_of_mem _ (ih p h)

/-- The expansion of the node `cur`: when no table entry is expired and `cur` is an
allocated address, the loop ends normally, appends one choice and one child per move
to `cur` and keeps the other fields of `cur`. -/
theorem expand_spec [DecidableEq State] (cur : Nat) (childType : Bool) :
    ∀ (moves : List (Choice × State)) (e : minimax State Choice),
      (∀ entry ∈ e.nodes, expired e.heap entry.2 = false) → cur < e.next →
      ∃ e1, expand cur childType moves e = Except.ok e1 ∧
        e1.root = e.root ∧ e1.type_ = e.type_ ∧ e.next ≤ e1.next ∧
        (e1.heap cur).choices = (e.heap cur).choices ++ moves.map Prod.fst ∧
        ((e1.heap cur).children).length = ((e.heap cur).children).length + moves.length ∧
        (e1.heap cur).height = (e.heap cur).height ∧
        (e1.heap cur).score = (e.heap cur).score ∧
        (e1.heap cur).state = (e.heap cur).state ∧
        (∀ entry ∈ e1.nodes, expired e1.heap entry.2 = false) := by
  intro moves
  induction moves with
  | nil =>
    intro e htbl hcur
    exact ⟨e, rfl, rfl, rfl, le_refl _, by simp, by simp, rfl, rfl, rfl, htbl⟩
  | cons mv moves ih =>
    intro e htbl hcur
    obtain ⟨c, s⟩ := mv
    cases hfind : find e.nodes s with
    | some p =>
      have hp : expired e.heap p = false := htbl (s, p) (find_mem s _ p hfind)
      have hrc : (e.heap p).rc ≠ 0 := by simpa [expired] using hp
      let hp1 := store e.heap p { e.heap p with rc := (e.heap p).rc + 1 }
      let hp2 := store hp1 cur { hp1 cur with
        children := (hp1 cur).children ++ [p], choices := (hp1 cur).choices ++ [c] }
      have htbl2 : ∀ entry ∈ e.nodes, expired hp2 entry.2 = false := by
        intro entry hmem
        have h0 : (e.heap entry.2).rc ≠ 0 := by simpa [expired] using htbl entry hmem
        by_cases h1 : entry.2 = cur <;> by_cases h2 : entry.2 = p <;>
          simp [expired, hp2, hp1, store, h1, h2] <;> simp_all
      obtain ⟨e1, he1, hr, ht, hn, hch, hlen, hh, hsc, hst, htb⟩ :=
        ih { e with heap := hp2 } htbl2 hcur
      refine ⟨e1, ?_, hr, ht, hn, ?_, ?_, ?_, ?_, ?_, htb⟩
      · simp only [expand, hfind, hp]
        exact he1
      · rw [hch]
        by_cases h1 : cur = p <;> simp [hp2, hp1, store, h1]
      · rw [hlen]
        by_cases h1 : cur = p <;> simp [hp2, hp1, store, h1] <;> omega
      · rw [hh]
        by_cases h1 : cur = p <;> simp [hp2, hp1, store, h1]
      · rw [hsc]
        by_cases h1 : cur = p <;> simp [hp2, hp1, store, h1]
      · rw [hst]
        by_cases h1 : cur = p <;> simp [hp2, hp1, store, h1]
    | none =>
      let hp1 := store e.heap e.next (node.mk_shared s childType)
      let hp2 := store hp1 cur { hp1 cur with
        children := (hp1 cur).children ++ [e.next], choices := (hp1 cur).choices ++ [c] }
      have hne : cur ≠ e.next := by omega
      have htbl2 : ∀ entry ∈ e.nodes ++ [(s, e.next)], expired hp2 entry.2 = false := by
        intro entry hmem
        rcases List.mem_append.mp hmem with hmem | hmem
        · have h0 : (e.heap entry.2).rc ≠ 0 := by simpa [expired] using htbl entry hmem
          by_cases h1 : entry.2 = cur <;> by_cases h2 : entry.2 = e.next <;>
            simp [expired, hp2, hp1, store, h1, h2, node.mk_shared] <;> simp_all
        · simp at hmem
          subst hmem
          have h3 : e.next ≠ cur := fun h => hne h.symm
          simp [expired, hp2, hp1, store, h3, node.mk_shared]
      obtain ⟨e1, he1, hr, ht, hn, hch, hlen, hh, hsc, hst, htb⟩ :=
        ih { e with heap := hp2, next := e.next + 1, nodes := e.nodes ++ [(s, e.next)] } htbl2
          (by simp; omega)
      refine ⟨e1, ?_, hr, ht, ?_, ?_, ?_, ?_, ?_, ?_, htb⟩
      · simp only [expand, hfind]
        exact he1
      · simp at hn
        omega
      · rw [hch]
        simp [hp2, hp1, store, hne]
      · rw [hlen]
        simp [hp2, hp1, store, hne]
        omega
      · rw [hh]
        simp [hp2, hp1, store, hne]
      · rw [hsc]
        simp [hp2, hp1, store, hne]
      · rw [hst]
        simp [hp2, hp1, store, hne]

/-! ## Single steps of the traversal -/

theorem same_links_refl (a : node State Choice) : same_links a a :=
  ⟨rfl, rfl, rfl, rfl, rfl⟩

theorem same_links_trans {a b c : node State Choice} (hab : same_links a b)
    (hbc : same_links b c) : same_links a c := by
  obtain ⟨h1, h2, h3, h4, h5⟩ := hab
  obtain ⟨k1, k2, k3, k4, k5⟩ := hbc
  exact ⟨h1.trans k1, h2.trans k2, h3.trans k3, h4.trans k4, h5.trans k5⟩

theorem same_links_store (hp : Nat → node State Choice) (p : Nat) (s : Int) (ht : Nat)
    (q : Nat) : same_links (store hp p { hp p with score := s, height := ht } q) (hp q) := by
  by_cases hq : q = p
  · subst hq
    simp [store, same_links]
  · simp [store, hq, same_links]

theorem same_links_update_score (hp : Nat → node State Choice) (child parent : Nat)
    (parentType : Bool) (q : Nat) :
    same_links (update_score hp child parent parentType q) (hp q) := by
  unfold update_score
  split
  · exact same_links_store hp parent _ (hp parent).height q
  · exact same_links_store hp parent _ (hp parent).height q

theorem same_links_lower_height (hp : Nat → node State Choice) (p childHeight k q : Nat) :
    same_links (lower_height hp p childHeight k q) (hp q) := by
  unfold lower_height
  split
  · exact same_links_store hp p (hp p).score _ q
  · exact same_links_refl _

theorem same_links_prune_heights (parent : Nat) (parentType : Bool) :
    ∀ (siblings : List Nat) (hp : Nat → node State Choice) (q : Nat),
      same_links (prune_heights parent parentType siblings hp q) (hp q) := by
  intro siblings
  induction siblings with
  | nil => intro hp q; exact same_links_refl _
  | cons sib siblings ih =>
    intro hp q
    simp only [prune_heights]
    split_ifs <;>
      first
      | exact same_links_store hp parent (hp parent).score _ q
      | exact same_links_trans (ih _ q) (same_links_store hp parent (hp parent).score _ q)
      | exact ih hp q

theorem next_node_step_nil (depth startNode : Nat) (f : Frame State Choice) (hpath : f.path = []) :
    next_node_step depth startNode f = resume startNode f startNode := by
  unfold next_node_step
  rw [hpath]

theorem next_node_step_end (depth startNode : Nat) (f : Frame State Choice) (it : child_iter) (rest : List child_iter)
    (hpath : f.path = it :: rest)
    (hend : it.idx = ((f.mm.heap (parent_of f.mm.heap startNode (it :: rest))).children).length) :
    next_node_step depth startNode f = { f with path := rest, nodeType := !f.nodeType } := by
  unfold next_node_step
  rw [hpath]
  simp [hend]

theorem next_node_step_child (depth startNode : Nat) (f : Frame State Choice) (it : child_iter)
    (rest : List child_iter) (hpath : f.path = it :: rest)
    (hne : it.idx ≠ ((f.mm.heap (parent_of f.mm.heap startNode (it :: rest))).children).length) :
    next_node_step depth startNode f
      = return_check depth startNode (merge_child startNode f it rest) := by
  unfold next_node_step
  rw [hpath]
  simp [hne]

section single_steps

variable [DecidableEq State] (heuristic : State → Int)
  (getChoices : State → List (Choice × State)) (depth startNode : Nat)

theorem step_backtrack (f : Frame State Choice) (hpc : f.pc = PC.backtrack) :
    step heuristic getChoices depth startNode f
      = Except.ok (next_node_step depth startNode f) := by
  unfold step
  rw [hpc]

/-- The step taken at the head of the descent when the node needs no further search:
a node without children is scored by the heuristic and the traversal backtracks. -/
theorem step_descend_stay (f : Frame State Choice) (hpc : f.pc = PC.descend)
    (hnot : ¬ (f.mm.heap f.cur).height < usize_sub depth f.path.length) :
    step heuristic getChoices depth startNode f = Except.ok
      { f with mm := { f.mm with heap := evaluate_leaf heuristic f.mm.heap f.cur },
               pc := PC.backtrack } := by
  unfold step
  rw [hpc]
  simp [hnot]

/-- The step taken at the head of the descent when the node has to be searched: the
node is reset, and the traversal goes to its first child or starts constructing. -/
theorem step_descend_fire (f : Frame State Choice) (hpc : f.pc = PC.descend)
    (hlt : (f.mm.heap f.cur).height < usize_sub depth f.path.length) :
    step heuristic getChoices depth startNode f = Except.ok
      (if (reset_node f.mm.heap f.cur f.nodeType f.cur).children ≠ [] then
        go_down { f with mm := { f.mm with heap := reset_node f.mm.heap f.cur f.nodeType } }
          PC.descend
      else
        { f with mm := { f.mm with heap := reset_node f.mm.heap f.cur f.nodeType },
                 pc := PC.construct }) := by
  unfold step
  rw [hpc]
  simp only [hlt, if_true]
  split <;> rfl

/-- The step of the construction loop that expands the current node. -/
theorem step_construct_expand (f : Frame State Choice) (hpc : f.pc = PC.construct)
    (hgt : depth > f.path.length) (e1 : minimax State Choice)
    (hexp : expand f.cur (!f.nodeType) (getChoices (f.mm.heap f.cur).state) f.mm
      = Except.ok e1) :
    step heuristic getChoices depth startNode f = Except.ok
      (if (mark_visited e1.heap f.cur f.cur).children = [] then
        { f with mm := { e1 with heap := mark_visited e1.heap f.cur }, pc := PC.descend }
      else
        go_down { f with mm := { e1 with heap := mark_visited e1.heap f.cur } }
          PC.construct) := by
  unfold step
  rw [hpc]
  simp only [hgt, if_true, hexp]
  split <;> rfl

/-- The step that leaves the construction loop at the depth limit. -/
theorem step_construct_stop (f : Frame State Choice) (hpc : f.pc = PC.construct)
    (hle : ¬ depth > f.path.length) :
    step heuristic getChoices depth startNode f = Except.ok { f with pc := PC.descend } := by
  unfold step
  rw [hpc]
  simp only [hle, if_false]

end single_steps

/-! ## The search of one ply -/

theorem same_graph_refl (a : minimax State Choice) : same_graph a a :=
  ⟨rfl, rfl, rfl, rfl, fun _ => same_links_refl _⟩

theorem same_graph_trans {a b c : minimax State Choice} (hab : same_graph a b)
    (hbc : same_graph b c) : same_graph a c := by
  obtain ⟨h1, h2, h3, h4, h5⟩ := hab
  obtain ⟨k1, k2, k3, k4, k5⟩ := hbc
  exact ⟨h1.trans k1, h2.trans k2, h3.trans k3, h4.trans k4,
    fun q => same_links_trans (h5 q) (k5 q)⟩

theorem same_links_evaluate_leaf (heuristic : State → Int) (hp : Nat → node State Choice)
    (cur q : Nat) : same_links (evaluate_leaf heuristic hp cur q) (hp q) := by
  unfold evaluate_leaf
  split
  · exact same_links_store hp cur _ (hp cur).height q
  · exact same_links_refl _

theorem return_check_cases (depth startNode : Nat) (f : Frame State Choice) :
    return_check depth startNode f = f ∨
      ∃ c, return_check depth startNode f = resume startNode f c := by
  unfold return_check
  cases hpath : f.path with
  | nil => left; rfl
  | cons it rest =>
    simp only
    split
    · right; exact ⟨_, rfl⟩
    · left; rfl

/-- With a path of one iterator, the body of the loop of `next_node` moves the iterator
forward and changes scores and heights only. -/
theorem merge_child_single (startNode : Nat) (f : Frame State Choice) (it : child_iter) :
    (merge_child startNode f it []).path = [{ it with idx := it.idx + 1 }] ∧
      (merge_child startNode f it []).pc = f.pc ∧
      same_graph (merge_child startNode f it []).mm f.mm := by
  refine ⟨rfl, rfl, rfl, rfl, rfl, rfl, ?_⟩
  intro q
  exact same_links_trans (same_links_lower_height _ _ _ _ q) (same_links_update_score _ _ _ _ q)

theorem usize_sub_one_one : usize_sub 1 1 = 0 := by decide

theorem sweeps_down_of_back [DecidableEq State] (heuristic : State → Int)
    (getChoices : State → List (Choice × State)) (r m : Nat)
    (hB : sweeps_back heuristic getChoices r m) : sweeps_down heuristic getChoices r m := by
  intro f it hpath hidx hpc
  have hnot : ¬ (f.mm.heap f.cur).height < usize_sub 1 f.path.length := by
    rw [hpath]
    simp [usize_sub_one_one]
  have hs := step_descend_stay heuristic getChoices 1 r f hpc hnot
  have hg : same_graph
      ({ f.mm with heap := evaluate_leaf heuristic f.mm.heap f.cur } : minimax State Choice)
      f.mm :=
    ⟨rfl, rfl, rfl, rfl, fun q => same_links_evaluate_leaf heuristic f.mm.heap f.cur q⟩
  obtain ⟨k, f1, hk, hsteps, hsafe, hfin, hsame⟩ :=
    hB { f with mm := { f.mm with heap := evaluate_leaf heuristic f.mm.heap f.cur },
                pc := PC.backtrack } it hpath
      (by
        have := (hg.2.2.2.2 r).2.2.1
        simp only at this ⊢
        rw [this]
        exact hidx) rfl
  exact ⟨k + 1, f1, by omega, steps_cons _ _ _ _ k _ _ _ hs hsteps,
    safe_steps_cons _ _ _ _ k _ _ (safe_of_pc 1 f (by rw [hpc]; decide)) hs hsafe, hfin,
    same_graph_trans hsame hg⟩

theorem sweeps_back_all [DecidableEq State] (heuristic : State → Int)
    (getChoices : State → List (Choice × State)) (r : Nat) :
    ∀ m, sweeps_back heuristic getChoices r m := by
  intro m
  induction m with
  | zero =>
    intro f it hpath hidx hpc
    have hend : it.idx = ((f.mm.heap (parent_of f.mm.heap r (it :: []))).children).length := by
      simp [parent_of]; omega
    have hs1 : step heuristic getChoices 1 r f
        = Except.ok { f with path := [], nodeType := !f.nodeType } := by
      rw [step_backtrack _ _ _ _ f hpc, next_node_step_end 1 r f it [] hpath hend]
    have hs2 : step heuristic getChoices 1 r { f with path := [], nodeType := !f.nodeType }
        = Except.ok (resume r { f with path := [], nodeType := !f.nodeType } r) := by
      have hpcA : ({ f with path := [], nodeType := !f.nodeType } : Frame State Choice).pc
          = PC.backtrack := hpc
      rw [step_backtrack _ _ _ _ _ hpcA, next_node_step_nil 1 r _ rfl]
    have hpcA : ({ f with path := [], nodeType := !f.nodeType } : Frame State Choice).pc
        = PC.backtrack := hpc
    exact ⟨2, _, le_refl _, steps_cons _ _ _ _ 1 _ _ _ hs1 (steps_cons _ _ _ _ 0 _ _ _ hs2 rfl),
      safe_steps_cons _ _ _ _ 1 _ _ (safe_of_pc 1 f (by rw [hpc]; decide)) hs1
        (safe_steps_cons _ _ _ _ 0 _ _ (safe_of_pc 1 _ (by rw [hpcA]; decide)) hs2 trivial),
      by simp [resume], same_graph_refl _⟩
  | succ m ih =>
    intro f it hpath hidx hpc
    have hne : it.idx ≠ ((f.mm.heap (parent_of f.mm.heap r (it :: []))).children).length := by
      simp [parent_of]; omega
    have hs1 : step heuristic getChoices 1 r f
        = Except.ok (return_check 1 r (merge_child r f it [])) := by
      rw [step_backtrack _ _ _ _ f hpc, next_node_step_child 1 r f it [] hpath hne]
    obtain ⟨hmp, hmpc, hmg⟩ := merge_child_single r f it
    have hlen : ({ it with idx := it.idx + 1 } : child_iter).idx + m
        = (((merge_child r f it []).mm.heap r).children).length := by
      rw [(hmg.2.2.2.2 r).2.2.1]
      simp only
      omega
    rcases return_check_cases 1 r (merge_child r f it []) with heq | ⟨c, heq⟩
    · rw [heq] at hs1
      obtain ⟨k, f1, hk, hsteps, hsafe, hfin, hsame⟩ :=
        ih (merge_child r f it []) _ hmp hlen (hmpc.trans hpc)
      exact ⟨k + 1, f1, by omega, steps_cons _ _ _ _ k _ _ _ hs1 hsteps,
        safe_steps_cons _ _ _ _ k _ _ (safe_of_pc 1 f (by rw [hpc]; decide)) hs1 hsafe, hfin,
        same_graph_trans hsame hmg⟩
    · rw [heq] at hs1
      by_cases hrc : r = c
      · refine ⟨1, _, by omega, steps_cons _ _ _ _ 0 _ _ _ hs1 rfl,
          safe_steps_cons _ _ _ _ 0 _ _ (safe_of_pc 1 f (by rw [hpc]; decide)) hs1 trivial,
          ?_, hmg⟩
        simp [resume, hrc]
      · obtain ⟨k, f1, hk, hsteps, hsafe, hfin, hsame⟩ :=
          sweeps_down_of_back heuristic getChoices r m ih
            (resume r (merge_child r f it []) c) _ hmp hlen (by simp [resume, hrc])
        exact ⟨k + 1, f1, by omega, steps_cons _ _ _ _ k _ _ _ hs1 hsteps,
          safe_steps_cons _ _ _ _ k _ _ (safe_of_pc 1 f (by rw [hpc]; decide)) hs1 hsafe, hfin,
          same_graph_trans hsame hmg⟩

theorem usize_sub_one_zero : usize_sub 1 0 = 1 := by decide

theorem infinity_pos : 0 < infinity := by decide

theorem mark_visited_links (hp : Nat → node State Choice) (cur q : Nat) :
    same_links (mark_visited hp cur q) (hp q) :=
  same_links_store hp cur (hp cur).score infinity q

theorem reset_node_links (hp : Nat → node State Choice) (cur : Nat) (nodeType : Bool)
    (q : Nat) : same_links (reset_node hp cur nodeType q) (hp q) :=
  same_links_store hp cur (seed nodeType) infinity q

/-- The call `compute(1)` on an engine whose root has no children and height 0 (the
root is an allocated address and no table entry is expired): for every large enough
budget the call returns, the root and the type flag stay, and the root gets one
choice and one child for every move of the generator. -/
theorem compute_one_ply [DecidableEq State] (heuristic : State → Int)
    (getChoices : State → List (Choice × State)) (e : minimax State Choice)
    (hchild : (e.heap e.root).children = []) (hheight : (e.heap e.root).height = 0)
    (hroot : e.root < e.next)
    (htable : ∀ entry ∈ e.nodes, expired e.heap entry.2 = false) :
    ∃ N e1, (∀ fuel, N ≤ fuel → compute heuristic getChoices fuel 1 e = Except.ok e1) ∧
      e1.root = e.root ∧ e1.type_ = e.type_ ∧
      (e1.heap e.root).choices
        = (e.heap e.root).choices ++ (getChoices (e.heap e.root).state).map Prod.fst ∧
      ((e1.heap e.root).children).length = (getChoices (e.heap e.root).state).length := by
  -- first step: the root is reset and the construction starts
  have hs1 : step heuristic getChoices 1 e.root (first_frame e) = Except.ok
      { first_frame e with
        mm := { e with heap := reset_node e.heap e.root (first_frame e).nodeType },
        pc := PC.construct } := by
    have hcond : ¬ ((reset_node (first_frame e).mm.heap (first_frame e).cur
        (first_frame e).nodeType (first_frame e).cur).children ≠ []) := by
      intro h
      exact h ((reset_node_links e.heap e.root _ e.root).2.2.1.trans hchild)
    rw [step_descend_fire heuristic getChoices 1 e.root (first_frame e) rfl
      (by simp [first_frame, hheight, usize_sub_one_zero]), if_neg hcond]
    rfl
  -- second step: the root is expanded
  obtain ⟨e1, hexp, hr1, ht1, hn1, hch1, hlen1, hh1, hsc1, hst1, htb1⟩ :=
    expand_spec e.root (!(first_frame e).nodeType) (getChoices (e.heap e.root).state)
      ({ e with heap := reset_node e.heap e.root (first_frame e).nodeType } :
        minimax State Choice)
      (by
        intro entry hmem
        have := htable entry hmem
        simp only [expired] at this ⊢
        rw [(reset_node_links e.heap e.root _ entry.2).2.2.2.2]
        exact this)
      hroot
  have hstate : (reset_node e.heap e.root (first_frame e).nodeType e.root).state
      = (e.heap e.root).state := (reset_node_links e.heap e.root _ e.root).2.1
  have hrchild : (reset_node e.heap e.root (first_frame e).nodeType e.root).children = [] :=
    (reset_node_links e.heap e.root _ e.root).2.2.1.trans hchild
  have hrchoices : (reset_node e.heap e.root (first_frame e).nodeType e.root).choices
      = (e.heap e.root).choices := (reset_node_links e.heap e.root _ e.root).2.2.2.1
  have hs2 := step_construct_expand heuristic getChoices 1 e.root
    { first_frame e with
      mm := { e with heap := reset_node e.heap e.root (first_frame e).nodeType },
      pc := PC.construct } rfl (by simp [first_frame]) e1
    (by
      show expand e.root (!(first_frame e).nodeType)
        (getChoices (reset_node e.heap e.root (first_frame e).nodeType e.root).state) _ = _
      rw [hstate]
      exact hexp)
  have hmchild : (mark_visited e1.heap e.root e.root).children = (e1.heap e.root).children :=
    (mark_visited_links e1.heap e.root e.root).2.2.1
  have hmchoices : (mark_visited e1.heap e.root e.root).choices = (e1.heap e.root).choices :=
    (mark_visited_links e1.heap e.root e.root).2.2.2.1
  rw [hrchild] at hlen1
  rw [hrchoices] at hch1
  simp only [List.length_nil, Nat.zero_add] at hlen1
  by_cases hmoves : (mark_visited e1.heap e.root e.root).children = []
  · -- no move: the root is a dead end
    simp only [first_frame] at hs2
    rw [if_pos hmoves] at hs2
    have hs3 := step_descend_stay heuristic getChoices 1 e.root
      ({ mm := { e1 with heap := mark_visited e1.heap e.root }, path := [],
         nodeType := (first_frame e).nodeType, cur := e.root, pc := PC.descend } :
        Frame State Choice) rfl
      (by simp [mark_visited, store, usize_sub_one_zero, infinity])
    have hs4 : step heuristic getChoices 1 e.root
        ({ mm := { e1 with heap :=
              evaluate_leaf heuristic (mark_visited e1.heap e.root) e.root },
           path := [], nodeType := (first_frame e).nodeType, cur := e.root,
           pc := PC.backtrack } : Frame State Choice)
        = Except.ok (resume e.root
          ({ mm := { e1 with heap :=
                evaluate_leaf heuristic (mark_visited e1.heap e.root) e.root },
             path := [], nodeType := (first_frame e).nodeType, cur := e.root,
             pc := PC.backtrack } : Frame State Choice) e.root) := by
      rw [step_backtrack _ _ _ _ _ rfl, next_node_step_nil 1 e.root _ rfl]
    have hall := steps_cons heuristic getChoices 1 e.root 3 _ _ _ hs1
      (steps_cons heuristic getChoices 1 e.root 2 _ _ _ hs2
        (steps_cons heuristic getChoices 1 e.root 1 _ _ _ hs3
          (steps_cons heuristic getChoices 1 e.root 0 _ _ _ hs4 rfl)))
    have hsafe := safe_steps_cons heuristic getChoices 1 e.root 3 _ _
      (fun h => PC.noConfusion h) hs1
      (safe_steps_cons heuristic getChoices 1 e.root 2 _ _ (fun _ _ => hrchild) hs2
        (safe_steps_cons heuristic getChoices 1 e.root 1 _ _ (fun h => PC.noConfusion h) hs3
          (safe_steps_cons heuristic getChoices 1 e.root 0 _ _ (fun h => PC.noConfusion h) hs4
            trivial)))
    refine ⟨4, { e1 with heap := evaluate_leaf heuristic (mark_visited e1.heap e.root) e.root },
      ?_, hr1, ht1, ?_, ?_⟩
    · intro fuel hfuel
      unfold compute
      rw [if_neg (by rw [hheight]; simp [infinity]), if_neg (by decide)]
      exact run_of_steps heuristic getChoices 1 e.root 4 _ _ [] hall hsafe
        (fun b hb => (List.not_mem_nil b hb).elim) (by simp [resume]) fuel hfuel
    · show (evaluate_leaf heuristic (mark_visited e1.heap e.root) e.root e.root).choices = _
      rw [(same_links_evaluate_leaf heuristic _ e.root e.root).2.2.2.1, hmchoices, hch1]
    · show ((evaluate_leaf heuristic (mark_visited e1.heap e.root) e.root e.root).children).length
        = _
      rw [(same_links_evaluate_leaf heuristic _ e.root e.root).2.2.1, hmchild, hlen1]
  · -- some moves: the children are visited one after the other
    simp only [first_frame] at hs2
    rw [if_neg hmoves] at hs2
    let fB : Frame State Choice :=
      ⟨{ e1 with heap := mark_visited e1.heap e.root }, [],
        decide ((1 &&& 1 : Nat) = (boolInt e.type_).toNat), e.root, PC.construct⟩
    have hs3 := step_construct_stop heuristic getChoices 1 e.root
      (go_down fB PC.construct) rfl (by simp [go_down, fB])
    obtain ⟨k, f1, hk, hsteps, hsafe3, hfin, hsame⟩ :=
      sweeps_down_of_back heuristic getChoices e.root _
        (sweeps_back_all heuristic getChoices e.root
          (((mark_visited e1.heap e.root e.root).children).length))
        { go_down fB PC.construct with pc := PC.descend }
        { owner := e.root, idx := 0 } rfl (by simp [go_down, fB]) rfl
    have hall := steps_cons heuristic getChoices 1 e.root (k + 2) _ _ _ hs1
      (steps_cons heuristic getChoices 1 e.root (k + 1) _ _ _ hs2
        (steps_cons heuristic getChoices 1 e.root k _ _ _ hs3 hsteps))
    have hsafe := safe_steps_cons heuristic getChoices 1 e.root (k + 2) _ _
      (fun h => PC.noConfusion h) hs1
      (safe_steps_cons heuristic getChoices 1 e.root (k + 1) _ _ (fun _ _ => hrchild) hs2
        (safe_steps_cons heuristic getChoices 1 e.root k _ _
          (fun _ h => absurd h (by simp [go_down, fB])) hs3 hsafe3))
    obtain ⟨g1, g2, g3, g4, g5⟩ := hsame
    refine ⟨k + 3, f1.mm, ?_, g1.trans hr1, g2.trans ht1, ?_, ?_⟩
    · intro fuel hfuel
      unfold compute
      rw [if_neg (by rw [hheight]; simp [infinity]), if_neg (by decide)]
      exact run_of_steps heuristic getChoices 1 e.root (k + 3) _ _ [] hall hsafe
        (fun b hb => (List.not_mem_nil b hb).elim) hfin fuel hfuel
    · rw [(g5 e.root).2.2.2.1]
      show (mark_visited e1.heap e.root e.root).choices = _
      rw [hmchoices, hch1]
    · rw [(g5 e.root).2.2.1]
      show ((mark_visited e1.heap e.root e.root).children).length = _
      rw [hmchild, hlen1]

/-! ## The outcome of `progress` -/

theorem succeeded_ok {α : Type} (a : α) : succeeded (Except.ok a : Except Error α) = true := rfl

theorem succeeded_error {α : Type} (err : Error) :
    succeeded (Except.error err : Except Error α) = false := rfl

/-- The result of `progress` when the root has children before the call. -/
theorem progress_of_children [DecidableEq State] [DecidableEq Choice] (heuristic : State → Int)
    (getChoices : State → List (Choice × State)) (fuel : Nat) (choice : Choice)
    (e : minimax State Choice) (hchildren : (e.heap e.root).children ≠ []) :
    progress heuristic getChoices fuel choice e =
      match progress_loop choice (e.heap e.root).choices (e.heap e.root).children none with
      | none => (Except.error Error.invalid_argument, { e with type_ := !e.type_ })
      | some newRoot =>
        (Except.ok ((swap_root { e with type_ := !e.type_ } newRoot).heap newRoot).state,
          swap_root { e with type_ := !e.type_ } newRoot) := by
  simp only [progress, hchildren, if_false]

/-- The result of `progress` when the one-ply search of a root without children
returns the engine `e2`. -/
theorem progress_of_search [DecidableEq State] [DecidableEq Choice] (heuristic : State → Int)
    (getChoices : State → List (Choice × State)) (fuel : Nat) (choice : Choice)
    (e e2 : minimax State Choice) (hchildren : (e.heap e.root).children = [])
    (hsearch : compute heuristic getChoices fuel 1 { e with type_ := !e.type_ } = Except.ok e2) :
    ((e2.heap e2.root).children = [] →
        progress heuristic getChoices fuel choice e = (Except.error Error.logic_error, e2)) ∧
      ((e2.heap e2.root).children ≠ [] →
        progress_loop choice (e2.heap e2.root).choices (e2.heap e2.root).children none = none →
        progress heuristic getChoices fuel choice e
          = (Except.error Error.invalid_argument, e2)) ∧
      ((e2.heap e2.root).children ≠ [] →
        progress_loop choice (e2.heap e2.root).choices (e2.heap e2.root).children none ≠ none →
        succeeded (progress heuristic getChoices fuel choice e).1 = true) := by
  refine ⟨?_, ?_, ?_⟩
  · intro h2
    simp only [progress, hchildren, if_true, hsearch, h2]
  · intro h2 hloop
    simp only [progress, hchildren, if_true, hsearch, h2, if_false, hloop]
  · intro h2 hloop
    cases hl : progress_loop choice (e2.heap e2.root).choices (e2.heap e2.root).children none with
    | none => exact absurd hl hloop
    | some newRoot =>
      simp only [progress, hchildren, if_true, hsearch, h2, if_false, hl]
      rfl

/-! ## The root and the type flag during a search -/

theorem expand_root [DecidableEq State] (cur : Nat) (childType : Bool) :
    ∀ (moves : List (Choice × State)) (e e1 : minimax State Choice),
      expand cur childType moves e = Except.ok e1 → e1.root = e.root ∧ e1.type_ = e.type_ := by
  intro moves
  induction moves with
  | nil =>
    intro e e1 h
    simp only [expand] at h
    cases h
    exact ⟨rfl, rfl⟩
  | cons mv moves ih =>
    intro e e1 h
    obtain ⟨c, s⟩ := mv
    simp only [expand] at h
    split at h
    · split at h
      · cases h
      · have hi := ih _ e1 h
        exact hi
    · have hi := ih _ e1 h
      exact hi

theorem return_check_root (depth startNode : Nat) (f : Frame State Choice) :
    (return_check depth startNode f).mm = f.mm := by
  rcases return_check_cases depth startNode f with h | ⟨c, h⟩ <;> rw [h]
  rfl

theorem merge_child_root (startNode : Nat) (f : Frame State Choice) (it : child_iter)
    (rest : List child_iter) :
    (merge_child startNode f it rest).mm.root = f.mm.root ∧
      (merge_child startNode f it rest).mm.type_ = f.mm.type_ := by
  unfold merge_child
  cases rest with
  | nil => exact ⟨rfl, rfl⟩
  | cons it2 rest2 =>
    simp only
    split <;> exact ⟨rfl, rfl⟩

theorem next_node_step_root (depth startNode : Nat) (f : Frame State Choice) :
    (next_node_step depth startNode f).mm.root = f.mm.root ∧
      (next_node_step depth startNode f).mm.type_ = f.mm.type_ := by
  unfold next_node_step
  cases hpath : f.path with
  | nil => exact ⟨rfl, rfl⟩
  | cons it rest =>
    simp only
    split
    · exact ⟨rfl, rfl⟩
    · rw [return_check_root]
      exact merge_child_root startNode f it rest

theorem step_root [DecidableEq State] (heuristic : State → Int)
    (getChoices : State → List (Choice × State)) (depth startNode : Nat)
    (f f1 : Frame State Choice)
    (h : step heuristic getChoices depth startNode f = Except.ok f1) :
    f1.mm.root = f.mm.root ∧ f1.mm.type_ = f.mm.type_ := by
  unfold step at h
  split at h
  · split at h
    · dsimp only at h
      split at h <;> cases h <;> exact ⟨rfl, rfl⟩
    · cases h
      exact ⟨rfl, rfl⟩
  · split at h
    · split at h
      · cases h
      · rename_i e1 hexp
        have hr := expand_root _ _ _ _ _ hexp
        dsimp only at h
        split at h <;> cases h <;> exact hr
    · cases h
      exact ⟨rfl, rfl⟩
  · cases h
    exact next_node_step_root depth startNode f
  · cases h
    exact ⟨rfl, rfl⟩

theorem run_root [DecidableEq State] (heuristic : State → Int)
    (getChoices : State → List (Choice × State)) (depth startNode : Nat) :
    ∀ (fuel : Nat) (stale : List Bool) (f : Frame State Choice)
      (e1 : minimax State Choice),
      run heuristic getChoices depth startNode fuel stale f = Except.ok e1 →
      e1.root = f.mm.root ∧ e1.type_ = f.mm.type_ := by
  intro fuel
  induction fuel with
  | zero =>
    intro stale f e1 h
    simp only [run] at h
    split at h
    · cases h
      exact ⟨rfl, rfl⟩
    · cases h
  | succ fuel ih =>
    intro stale f e1 h
    simp only [run] at h
    split at h
    · cases h
      exact ⟨rfl, rfl⟩
    · split at h
      · cases h
      · split at h
        · cases h
        · rename_i f1 hs
          obtain ⟨h1, h2⟩ := ih _ f1 e1 h
          obtain ⟨k1, k2⟩ := step_root heuristic getChoices depth startNode f f1 hs
          exact ⟨h1.trans k1, h2.trans k2⟩

/-- A search keeps the root and the type flag of the engine. -/
theorem compute_root [DecidableEq State] (heuristic : State → Int)
    (getChoices : State → List (Choice × State)) (fuel depth : Nat)
    (e e1 : minimax State Choice)
    (h : compute heuristic getChoices fuel depth e = Except.ok e1) :
    e1.root = e.root ∧ e1.type_ = e.type_ := by
  unfold compute at h
  split at h
  · cases h
    exact ⟨rfl, rfl⟩
  · split at h
    · cases h
    · exact run_root heuristic getChoices depth e.root fuel _ _ e1 h

theorem expanded_choices_of_children (getChoices : State → List (Choice × State))
    (e : minimax State Choice) (h : (e.heap e.root).children ≠ []) :
    expanded_choices getChoices e = (e.heap e.root).choices := by
  simp [expanded_choices, h]

theorem expanded_choices_of_leaf (getChoices : State → List (Choice × State))
    (e : minimax State Choice) (h : (e.heap e.root).children = []) :
    expanded_choices getChoices e = (getChoices (e.heap e.root).state).map Prod.fst := by
  simp [expanded_choices, h]

/-- The outcome of `progress(choice)` on a well-formed engine, for every large enough
budget: a logic error when the root has no choice after one ply of expansion, an
invalid-argument error when it has choices but not `choice`, success when `choice` is
among them; and a failing call keeps the root. -/
theorem progress_outcome [DecidableEq State] [DecidableEq Choice] (heuristic : State → Int)
    (getChoices : State → List (Choice × State)) (choice : Choice) (e : minimax State Choice)
    (hwf : well_formed getChoices e) :
    ∃ N, ∀ fuel, N ≤ fuel →
      (expanded_choices getChoices e = [] →
        (progress heuristic getChoices fuel choice e).1 = Except.error Error.logic_error) ∧
      (expanded_choices getChoices e ≠ [] → choice ∉ expanded_choices getChoices e →
        (progress heuristic getChoices fuel choice e).1 = Except.error Error.invalid_argument) ∧
      (choice ∈ expanded_choices getChoices e →
        succeeded (progress heuristic getChoices fuel choice e).1 = true) ∧
      (succeeded (progress heuristic getChoices fuel choice e).1 = false →
        (progress heuristic getChoices fuel choice e).2.root = e.root) := by
  obtain ⟨hlen, hleaf, hlinks, htable, hroot⟩ := hwf
  by_cases hchildren : (e.heap e.root).children = []
  · have hchoices : (e.heap e.root).choices = [] := by
      have := hlen e.root
      rw [hchildren] at this
      exact List.length_eq_zero.mp this.symm
    rw [expanded_choices_of_leaf getChoices e hchildren]
    by_cases hheight : (e.heap e.root).height = 0
    · obtain ⟨N, e2, hcomp, hr2, ht2, hch2, hlen2⟩ :=
        compute_one_ply heuristic getChoices ({ e with type_ := !e.type_ } : minimax State Choice)
          hchildren hheight hroot (fun entry hmem => (htable entry hmem).2)
      have hch2a : (e2.heap e2.root).choices
          = (getChoices (e.heap e.root).state).map Prod.fst := by
        rw [hr2]
        show (e2.heap e.root).choices = _
        rw [hch2]
        show (e.heap e.root).choices ++ _ = _
        rw [hchoices, List.nil_append]
      have hlen2a : ((e2.heap e2.root).children).length
          = (getChoices (e.heap e.root).state).length := by
        rw [hr2]
        exact hlen2
      refine ⟨N, fun fuel hfuel => ?_⟩
      obtain ⟨p1, p2, p3⟩ := progress_of_search heuristic getChoices fuel choice e e2 hchildren
        (hcomp fuel hfuel)
      have hloop := progress_loop_none choice (e2.heap e2.root).choices
        (e2.heap e2.root).children (by rw [hlen2a, hch2a, List.length_map])
      rw [hch2a] at hloop
      by_cases hmoves : getChoices (e.heap e.root).state = []
      · have hnil : (e2.heap e2.root).children = [] := by
          apply List.length_eq_zero.mp
          rw [hlen2a, hmoves]
          rfl
        rw [p1 hnil]
        refine ⟨fun _ => rfl, ?_, ?_, fun _ => hr2⟩
        · intro hne
          simp [hmoves] at hne
        · intro hmem
          simp [hmoves] at hmem
      · have hcons : (e2.heap e2.root).children ≠ [] := by
          intro hnil
          rw [hnil] at hlen2a
          exact hmoves (List.length_eq_zero.mp hlen2a.symm)
        have hne : (getChoices (e.heap e.root).state).map Prod.fst ≠ [] := by
          simpa using hmoves
        refine ⟨fun h => absurd h hne, ?_, ?_, ?_⟩
        · intro _ hnot
          have hl := hloop.1 hnot
          rw [← hch2a] at hl
          rw [p2 hcons hl]
        · intro hmem
          obtain ⟨i, p, _, _, _, hl⟩ := hloop.2 hmem
          rw [← hch2a] at hl
          exact p3 hcons (by rw [hl]; simp)
        · intro hfail
          by_cases hmem : choice ∈ (getChoices (e.heap e.root).state).map Prod.fst
          · obtain ⟨i, p, _, _, _, hl⟩ := hloop.2 hmem
            rw [← hch2a] at hl
            have := p3 hcons (by rw [hl]; simp)
            rw [this] at hfail
            cases hfail
          · have hl := hloop.1 hmem
            rw [← hch2a] at hl
            rw [p2 hcons hl]
            exact hr2
    · have hdead : getChoices (e.heap e.root).state = [] := by
        rcases hleaf e.root hchildren with h | h
        · exact absurd h hheight
        · exact h
      have hcomp : ∀ fuel, compute heuristic getChoices fuel 1
          ({ e with type_ := !e.type_ } : minimax State Choice)
          = Except.ok { e with type_ := !e.type_ } := by
        intro fuel
        unfold compute
        rw [if_pos]
        left
        show (e.heap e.root).height ≥ 1
        omega
      refine ⟨0, fun fuel _ => ?_⟩
      obtain ⟨p1, -, -⟩ := progress_of_search heuristic getChoices fuel choice e _ hchildren
        (hcomp fuel)
      rw [p1 hchildren]
      refine ⟨fun _ => rfl, ?_, ?_, fun _ => rfl⟩
      · intro hne
        simp [hdead] at hne
      · intro hmem
        simp [hdead] at hmem
  · rw [expanded_choices_of_children getChoices e hchildren]
    have hne : (e.heap e.root).choices ≠ [] := by
      intro hnil
      have := hlen e.root
      rw [hnil] at this
      exact hchildren (List.length_eq_zero.mp this)
    have hloop := progress_loop_none choice (e.heap e.root).choices
      (e.heap e.root).children (hlen e.root)
    refine ⟨0, fun fuel _ => ?_⟩
    rw [progress_of_children heuristic getChoices fuel choice e hchildren]
    refine ⟨fun h => absurd h hne, ?_, ?_, ?_⟩
    · intro _ hnot
      rw [hloop.1 hnot]
    · intro hmem
      obtain ⟨i, p, _, _, _, hl⟩ := hloop.2 hmem
      rw [hl]
      rfl
    · intro hfail
      by_cases hmem : choice ∈ (e.heap e.root).choices
      · obtain ⟨i, p, _, _, _, hl⟩ := hloop.2 hmem
        rw [hl] at hfail
        cases hfail
      · rw [hloop.1 hmem]

/-- A new engine is well formed. -/
theorem well_formed_new (getChoices : State → List (Choice × State)) (start : State)
    (isMax : Bool) : well_formed getChoices (minimax.new start isMax : minimax State Choice) := by
  refine ⟨fun _ => rfl, fun _ _ => Or.inl rfl, ?_, ?_, ?_⟩
  · intro p c hc
    simp [minimax.new, node.mk_shared] at hc
  · intro entry hmem
    simp [minimax.new] at hmem
  · simp [minimax.new]

/-- C7: on a well-formed engine and for every large enough budget, `progress(choice)`
succeeds if and only if `choice` is among the choices of the root once the root is
expanded by one ply (its stored choices if it has children, otherwise the moves of the
generator for its state); and when it fails the root is the same node as before. -/
theorem progress_legal [DecidableEq State] [DecidableEq Choice] (heuristic : State → Int)
    (getChoices : State → List (Choice × State)) (choice : Choice) (e : minimax State Choice)
    (hwf : well_formed getChoices e) :
    ∃ N, ∀ fuel, N ≤ fuel →
      (succeeded (progress heuristic getChoices fuel choice e).1 = true ↔
        choice ∈ expanded_choices getChoices e) ∧
      (succeeded (progress heuristic getChoices fuel choice e).1 = false →
        (progress heuristic getChoices fuel choice e).2.root = e.root) := by
  obtain ⟨N, hN⟩ := progress_outcome heuristic getChoices choice e hwf
  refine ⟨N, fun fuel hfuel => ?_⟩
  obtain ⟨h1, h2, h3, h4⟩ := hN fuel hfuel
  refine ⟨⟨?_, h3⟩, h4⟩
  intro hok
  by_contra hnot
  by_cases hnil : expanded_choices getChoices e = []
  · rw [h1 hnil] at hok
    cases hok
  · rw [h2 hnil hnot] at hok
    cases hok

/-- The claim C7 at a new engine with the moves `4` and `6`: with a budget of 16 steps
`progress(6)` succeeds and `progress(5)` fails. -/
theorem progress_legal_witness :
    well_formed two_moves (minimax.new 0 true : minimax Nat Nat) ∧
      succeeded (progress by_number two_moves 16 6 (minimax.new 0 true)).1 = true ∧
      succeeded (progress by_number two_moves 16 5 (minimax.new 0 true)).1 = false ∧
      ∃ N, ∀ fuel, N ≤ fuel →
        (succeeded (progress by_number two_moves fuel 6 (minimax.new 0 true)).1 = true ↔
          6 ∈ expanded_choices two_moves (minimax.new 0 true : minimax Nat Nat)) ∧
        (succeeded (progress by_number two_moves fuel 6 (minimax.new 0 true)).1 = false →
          (progress by_number two_moves fuel 6 (minimax.new 0 true)).2.root
            = (minimax.new 0 true : minimax Nat Nat).root) :=
  ⟨well_formed_new two_moves 0 true, by decide!, by decide!,
    progress_legal by_number two_moves 6 (minimax.new 0 true) (well_formed_new two_moves 0 true)⟩

/-- C8, as stated, fails: on a new engine whose generator offers the single move `0`,
`progress(5)` throws the invalid-argument error, and yet the root, which had no
children, has the child `1` afterwards and the table, which was empty, has an entry. -/
theorem progress_failure_expands :
    thrown (progress by_number one_move 16 5 (minimax.new 0 true)).1
        = some Error.invalid_argument ∧
      ((minimax.new 0 true : minimax Nat Nat).heap 0).children = [] ∧
      ((progress by_number one_move 16 5 (minimax.new 0 true)).2.heap 0).children = [1] ∧
      (minimax.new 0 true : minimax Nat Nat).nodes = [] ∧
      (progress by_number one_move 16 5 (minimax.new 0 true)).2.nodes = [(1, 1)] := by
  decide!

/-- C8 (amended): whenever `progress(choice)` fails, the root is the same node as
before the call; and if the root had children before the call, the heap (every field
of every node), the table and the allocation counter are unchanged as well. -/
theorem progress_failure_frame [DecidableEq State] [DecidableEq Choice]
    (heuristic : State → Int) (getChoices : State → List (Choice × State)) (fuel : Nat)
    (choice : Choice) (e : minimax State Choice)
    (hfail : succeeded (progress heuristic getChoices fuel choice e).1 = false) :
    (progress heuristic getChoices fuel choice e).2.root = e.root ∧
      ((e.heap e.root).children ≠ [] →
        (progress heuristic getChoices fuel choice e).2.heap = e.heap ∧
        (progress heuristic getChoices fuel choice e).2.nodes = e.nodes ∧
        (progress heuristic getChoices fuel choice e).2.next = e.next) := by
  by_cases hchildren : (e.heap e.root).children = []
  · refine ⟨?_, fun h => absurd hchildren h⟩
    cases hcomp : compute heuristic getChoices fuel 1
        ({ e with type_ := !e.type_ } : minimax State Choice) with
    | error err =>
      simp only [progress, hchildren, if_true, hcomp]
    | ok e2 =>
      obtain ⟨p1, p2, p3⟩ :=
        progress_of_search heuristic getChoices fuel choice e e2 hchildren hcomp
      have hr2 := (compute_root heuristic getChoices fuel 1 _ e2 hcomp).1
      by_cases h2 : (e2.heap e2.root).children = []
      · rw [p1 h2]
        exact hr2
      · by_cases hl : progress_loop choice (e2.heap e2.root).choices
            (e2.heap e2.root).children none = none
        · rw [p2 h2 hl]
          exact hr2
        · rw [p3 h2 hl] at hfail
          cases hfail
  · rw [progress_of_children heuristic getChoices fuel choice e hchildren] at hfail ⊢
    cases hl : progress_loop choice (e.heap e.root).choices (e.heap e.root).children none with
    | none => exact ⟨rfl, fun _ => ⟨rfl, rfl, rfl⟩⟩
    | some newRoot =>
      rw [hl] at hfail
      cases hfail

/-- The amended claim C8 at the failing call `progress(5)` on a new engine. -/
theorem progress_failure_frame_witness :
    succeeded (progress by_number one_move 16 5 (minimax.new 0 true)).1 = false ∧
      (progress by_number one_move 16 5 (minimax.new 0 true)).2.root
        = (minimax.new 0 true : minimax Nat Nat).root :=
  ⟨by decide!,
    (progress_failure_frame by_number one_move 16 5 (minimax.new 0 true) (by decide!)).1⟩

/-- C10: on a well-formed engine and for every large enough budget: if the root has no
children and the generator has no move for the state of the root, `progress(choice)`
throws the logic error, whatever `choice`; if the root has a choice after one ply of
expansion but not `choice`, it throws the invalid-argument error. -/
theorem progress_failure_kind [DecidableEq State] [DecidableEq Choice]
    (heuristic : State → Int) (getChoices : State → List (Choice × State)) (choice : Choice)
    (e : minimax State Choice) (hwf : well_formed getChoices e) :
    ∃ N, ∀ fuel, N ≤ fuel →
      ((e.heap e.root).children = [] → getChoices (e.heap e.root).state = [] →
        (progress heuristic getChoices fuel choice e).1 = Except.error Error.logic_error) ∧
      (expanded_choices getChoices e ≠ [] → choice ∉ expanded_choices getChoices e →
        (progress heuristic getChoices fuel choice e).1
          = Except.error Error.invalid_argument) := by
  obtain ⟨N, hN⟩ := progress_outcome heuristic getChoices choice e hwf
  refine ⟨N, fun fuel hfuel => ?_⟩
  obtain ⟨h1, h2, -, -⟩ := hN fuel hfuel
  refine ⟨?_, h2⟩
  intro hchildren hmoves
  apply h1
  rw [expanded_choices_of_leaf getChoices e hchildren, hmoves]
  rfl

/-- The claim C10 at new engines: without moves `progress(3)` throws the logic error,
and with the moves `4` and `6` `progress(5)` throws the invalid-argument error. -/
theorem progress_failure_kind_witness :
    well_formed two_moves (minimax.new 0 true : minimax Nat Nat) ∧
      thrown (progress by_number two_moves 16 5 (minimax.new 0 true)).1
        = some Error.invalid_argument ∧
      thrown (progress by_number two_moves 16 3 (minimax.new 7 true)).1
        = some Error.logic_error ∧
      ∃ N, ∀ fuel, N ≤ fuel →
        (((minimax.new 0 true : minimax Nat Nat).heap
            (minimax.new 0 true : minimax Nat Nat).root).children = [] →
          two_moves ((minimax.new 0 true : minimax Nat Nat).heap
            (minimax.new 0 true : minimax Nat Nat).root).state = [] →
          (progress by_number two_moves fuel 5 (minimax.new 0 true)).1
            = Except.error Error.logic_error) ∧
        (expanded_choices two_moves (minimax.new 0 true : minimax Nat Nat) ≠ [] →
          5 ∉ expanded_choices two_moves (minimax.new 0 true : minimax Nat Nat) →
          (progress by_number two_moves fuel 5 (minimax.new 0 true)).1
            = Except.error Error.invalid_argument) :=
  ⟨well_formed_new two_moves 0 true, by decide!, by decide!,
    progress_failure_kind by_number two_moves 5 (minimax.new 0 true)
      (well_formed_new two_moves 0 true)⟩

/-! ## The invariant `well_formed` -/

theorem well_formed_iff (getChoices : State → List (Choice × State))
    (e : minimax State Choice) :
    well_formed getChoices e ↔ linked e ∧ ∀ p, leaf_ok getChoices (e.heap p) := by
  unfold well_formed linked leaf_ok
  constructor
  · rintro ⟨h1, h2, h3, h4, h5⟩
    exact ⟨⟨h1, h3, h4, h5⟩, h2⟩
  · rintro ⟨⟨h1, h3, h4, h5⟩, h2⟩
    exact ⟨h1, h2, h3, h4, h5⟩

theorem same_links_low_refl (a : node State Choice) : same_links_low a a :=
  ⟨same_links_refl a, fun h => h⟩

theorem same_links_low_trans {a b c : node State Choice} (hab : same_links_low a b)
    (hbc : same_links_low b c) : same_links_low a c :=
  ⟨same_links_trans hab.1 hbc.1, fun h => hab.2 (hbc.2 h)⟩

theorem leaf_ok_of_low (getChoices : State → List (Choice × State))
    {a b : node State Choice} (hab : same_links_low a b) (hb : leaf_ok getChoices b) :
    leaf_ok getChoices a := by
  intro hchildren
  obtain ⟨⟨_, hst, hch, _, _⟩, hlow⟩ := hab
  rcases hb (hch ▸ hchildren) with h | h
  · exact Or.inl (hlow h)
  · exact Or.inr (hst ▸ h)

/-- An engine whose nodes have the links of the nodes of a linked engine is linked. -/
theorem linked_of_same_links (e1 e : minimax State Choice) (hroot : e1.root = e.root)
    (hnodes : e1.nodes = e.nodes) (hnext : e1.next = e.next)
    (hheap : ∀ q, same_links (e1.heap q) (e.heap q)) (hl : linked e) : linked e1 := by
  obtain ⟨h1, h3, h4, h5⟩ := hl
  refine ⟨?_, ?_, ?_, ?_⟩
  · intro p
    rw [(hheap p).2.2.1, (hheap p).2.2.2.1]
    exact h1 p
  · intro p c hc
    rw [(hheap p).2.2.1] at hc
    rw [hnext]
    exact h3 p c hc
  · intro entry hmem
    rw [hnodes] at hmem
    rw [hnext]
    refine ⟨(h4 entry hmem).1, ?_⟩
    have := (h4 entry hmem).2
    simp only [expired] at this ⊢
    rw [(hheap entry.2).2.2.2.2]
    exact this
  · rw [hroot, hnext]
    exact h5

theorem low_store_score (hp : Nat → node State Choice) (p : Nat) (s : Int) (q : Nat) :
    same_links_low (store hp p { hp p with score := s } q) (hp q) := by
  by_cases hq : q = p
  · subst hq
    simp [store, same_links_low, same_links]
  · simp [store, hq, same_links_low, same_links]

theorem low_store_height (hp : Nat → node State Choice) (p x : Nat) (q : Nat) :
    same_links_low (store hp p { hp p with height := min x (hp p).height } q) (hp q) := by
  by_cases hq : q = p
  · subst hq
    simp only [store, if_true, same_links_low, same_links, and_self, true_and]
    intro h
    rw [h]
    exact Nat.min_zero x
  · simp [store, hq, same_links_low, same_links]

theorem low_update_score (hp : Nat → node State Choice) (child parent : Nat)
    (parentType : Bool) (q : Nat) :
    same_links_low (update_score hp child parent parentType q) (hp q) := by
  unfold update_score
  split <;> exact low_store_score hp parent _ q

theorem low_lower_height (hp : Nat → node State Choice) (p childHeight k q : Nat) :
    same_links_low (lower_height hp p childHeight k q) (hp q) := by
  unfold lower_height
  split
  · exact low_store_height hp p _ q
  · exact same_links_low_refl _

theorem low_evaluate_leaf (heuristic : State → Int) (hp : Nat → node State Choice)
    (cur q : Nat) : same_links_low (evaluate_leaf heuristic hp cur q) (hp q) := by
  unfold evaluate_leaf
  split
  · exact low_store_score hp cur _ q
  · exact same_links_low_refl _

theorem low_prune_heights (parent : Nat) (parentType : Bool) :
    ∀ (siblings : List Nat) (hp : Nat → node State Choice) (q : Nat),
      same_links_low (prune_heights parent parentType siblings hp q) (hp q) := by
  intro siblings
  induction siblings with
  | nil => intro hp q; exact same_links_low_refl _
  | cons sib siblings ih =>
    intro hp q
    have hmin : ∀ x, same_links_low
        (store hp parent { hp parent with height := min (hp parent).height x } q) (hp q) := by
      intro x
      rw [Nat.min_comm]
      exact low_store_height hp parent x q
    simp only [prune_heights]
    split_ifs <;>
      first
      | exact hmin _
      | exact same_links_low_trans (ih _ q) (hmin _)
      | exact ih hp q

theorem update_score_gp_low (hp : Nat → node State Choice) (child parent gParent : Nat)
    (parentType : Bool) (q : Nat) :
    same_links_low ((update_score_gp hp child parent gParent parentType).2 q) (hp q) := by
  unfold update_score_gp
  simp only
  split <;> exact low_update_score hp child parent parentType q

/-- The body of the loop of `next_node` changes scores and heights only, never raises a
height from 0, keeps the place of the traversal, and does not lengthen the path. -/
theorem merge_child_low (startNode : Nat) (f : Frame State Choice) (it : child_iter)
    (rest : List child_iter) :
    (∀ q, same_links_low ((merge_child startNode f it rest).mm.heap q) (f.mm.heap q)) ∧
      (merge_child startNode f it rest).mm.root = f.mm.root ∧
      (merge_child startNode f it rest).mm.nodes = f.mm.nodes ∧
      (merge_child startNode f it rest).mm.next = f.mm.next ∧
      (merge_child startNode f it rest).pc = f.pc ∧
      (merge_child startNode f it rest).path.length ≤ rest.length + 1 := by
  unfold merge_child
  cases rest with
  | nil =>
    refine ⟨fun q => ?_, rfl, rfl, rfl, rfl, le_refl _⟩
    exact same_links_low_trans (low_lower_height _ _ _ _ q) (low_update_score _ _ _ _ q)
  | cons it2 rest2 =>
    simp only
    split
    · refine ⟨fun q => ?_, rfl, rfl, rfl, rfl, by simp⟩
      exact same_links_low_trans (low_lower_height _ _ _ _ q)
        (same_links_low_trans (low_prune_heights _ _ _ _ q) (update_score_gp_low _ _ _ _ _ q))
    · refine ⟨fun q => ?_, rfl, rfl, rfl, rfl, by simp⟩
      exact same_links_low_trans (low_lower_height _ _ _ _ q) (update_score_gp_low _ _ _ _ _ q)

theorem return_check_path (depth startNode : Nat) (f : Frame State Choice) :
    (return_check depth startNode f).path = f.path := by
  rcases return_check_cases depth startNode f with h | ⟨c, h⟩ <;> rw [h]
  rfl

theorem return_check_pc (depth startNode : Nat) (f : Frame State Choice)
    (hpc : f.pc ≠ PC.construct) : (return_check depth startNode f).pc ≠ PC.construct := by
  rcases return_check_cases depth startNode f with h | ⟨c, h⟩ <;> rw [h]
  · exact hpc
  · simp only [resume]
    split <;> simp

/-- A frame whose engine has the links of a frame satisfying the invariant, with no
height raised from 0, a path that is not longer and a place other than the
construction loop, satisfies the invariant. -/
theorem frame_ok_of_low (getChoices : State → List (Choice × State)) (depth : Nat)
    (f1 f : Frame State Choice) (hf : frame_ok getChoices depth f)
    (hfpc : f.pc ≠ PC.construct)
    (hheap : ∀ q, same_links_low (f1.mm.heap q) (f.mm.heap q))
    (hroot : f1.mm.root = f.mm.root) (hnodes : f1.mm.nodes = f.mm.nodes)
    (hnext : f1.mm.next = f.mm.next) (hpath : f1.path.length ≤ f.path.length) :
    frame_ok getChoices depth f1 := by
  obtain ⟨hl, hleaf, hlen⟩ := hf
  refine ⟨linked_of_same_links f1.mm f.mm hroot hnodes hnext (fun q => (hheap q).1) hl, ?_,
    le_trans hpath hlen⟩
  intro p
  left
  rcases hleaf p with h | ⟨h, _, _⟩
  · exact leaf_ok_of_low getChoices (hheap p) h
  · exact absurd h hfpc

theorem next_node_step_ok (getChoices : State → List (Choice × State))
    (depth startNode : Nat) (f : Frame State Choice) (hf : frame_ok getChoices depth f)
    (hpc : f.pc = PC.backtrack) :
    frame_ok getChoices depth (next_node_step depth startNode f) := by
  have hfpc : f.pc ≠ PC.construct := by rw [hpc]; simp
  unfold next_node_step
  cases hpath : f.path with
  | nil =>
    simp only
    exact frame_ok_of_low getChoices depth _ f hf hfpc (fun q => same_links_low_refl _)
      rfl rfl rfl (by simp [resume, hpath])
  | cons it rest =>
    simp only
    split
    · exact frame_ok_of_low getChoices depth _ f hf hfpc
        (fun q => same_links_low_refl _) rfl rfl rfl (by simp [hpath])
    · obtain ⟨h1, h2, h3, h4, h5, h6⟩ := merge_child_low startNode f it rest
      refine frame_ok_of_low getChoices depth _ f hf hfpc ?_ ?_ ?_ ?_ ?_
      · rw [return_check_root]
        exact h1
      · rw [return_check_root]
        exact h2
      · rw [return_check_root]
        exact h3
      · rw [return_check_root]
        exact h4
      · rw [return_check_path, hpath]
        simpa using h6

/-- One turn of the loop of `expand` on a linked engine: the engine stays linked, the
nodes other than the expanded one keep `leaf_ok`, and the expanded one has a child. -/
theorem expand_ok [DecidableEq State] (getChoices : State → List (Choice × State))
    (cur : Nat) (childType : Bool) :
    ∀ (moves : List (Choice × State)) (e e1 : minimax State Choice),
      expand cur childType moves e = Except.ok e1 → linked e →
      linked e1 ∧
        (∀ p, p ≠ cur → leaf_ok getChoices (e.heap p) → leaf_ok getChoices (e1.heap p)) ∧
        (moves ≠ [] ∨ (e.heap cur).children ≠ [] → (e1.heap cur).children ≠ []) := by
  intro moves
  induction moves with
  | nil =>
    intro e e1 h hl
    simp only [expand] at h
    cases h
    refine ⟨hl, fun _ _ h => h, ?_⟩
    rintro (h | h)
    · exact absurd rfl h
    · exact h
  | cons mv moves ih =>
    intro e e1 h hl
    obtain ⟨c, s⟩ := mv
    obtain ⟨h1, h3, h4, h5⟩ := hl
    simp only [expand] at h
    split at h
    · rename_i p hfind
      have hmem := find_mem s _ p hfind
      have hp := h4 (s, p) hmem
      split at h
      · cases h
      · obtain ⟨hl2, hleaf2, hne2⟩ := ih _ e1 h (by
          refine ⟨?_, ?_, ?_, h5⟩
          · intro q
            by_cases hq : q = cur <;> by_cases hq2 : q = p <;>
              simp [store, hq, hq2, h1] <;> simp_all
          · intro q x hx
            by_cases hq : q = cur
            · subst hq
              by_cases hq2 : q = p
              · subst hq2
                simp [store] at hx
                rcases hx with hx | hx
                · exact h3 q x hx
                · subst hx
                  exact hp.1
              · simp [store, hq2] at hx
                rcases hx with hx | hx
                · exact h3 q x hx
                · subst hx
                  exact hp.1
            · by_cases hq2 : q = p
              · subst hq2
                simp [store, hq] at hx
                exact h3 q x hx
              · simp [store, hq, hq2] at hx
                exact h3 q x hx
          · intro entry hmem2
            refine ⟨(h4 entry hmem2).1, ?_⟩
            have h0 : (e.heap entry.2).rc ≠ 0 := by simpa [expired] using (h4 entry hmem2).2
            by_cases hq : entry.2 = cur <;> by_cases hq2 : entry.2 = p <;>
              simp [expired, store, hq, hq2] <;> simp_all)
        refine ⟨hl2, ?_, fun _ => hne2 (Or.inr (by simp [store]))⟩
        intro q hq hleaf
        apply hleaf2 q hq
        by_cases hq2 : q = p
        · subst hq2
          simpa [store, hq, leaf_ok] using hleaf
        · simpa [store, hq, hq2, leaf_ok] using hleaf
    · obtain ⟨hl2, hleaf2, hne2⟩ := ih _ e1 h (by
        refine ⟨?_, ?_, ?_, by simp; omega⟩
        · intro q
          by_cases hq : q = cur <;> by_cases hq2 : q = e.next <;>
            simp [store, hq, hq2, h1, node.mk_shared] <;> simp_all
        · intro q x hx
          by_cases hq : q = cur
          · subst hq
            by_cases hq2 : q = e.next
            · simp [store, hq2, node.mk_shared] at hx
              simp
              omega
            · simp [store, hq2] at hx
              rcases hx with hx | hx
              · have := h3 q x hx
                simp
                omega
              · simp
                omega
          · by_cases hq2 : q = e.next
            · subst hq2
              simp [store, hq, node.mk_shared] at hx
            · simp [store, hq, hq2] at hx
              have := h3 q x hx
              simp
              omega
        · intro entry hmem2
          rcases List.mem_append.mp hmem2 with hmem2 | hmem2
          · have h0 : (e.heap entry.2).rc ≠ 0 := by simpa [expired] using (h4 entry hmem2).2
            have hlt := (h4 entry hmem2).1
            refine ⟨by simp; omega, ?_⟩
            by_cases hq : entry.2 = cur <;> by_cases hq2 : entry.2 = e.next <;>
              simp [expired, store, hq, hq2, node.mk_shared] <;> simp_all
          · simp at hmem2
            subst hmem2
            refine ⟨by simp, ?_⟩
            by_cases hq : e.next = cur <;> simp [expired, store, hq, node.mk_shared])
      refine ⟨hl2, ?_, fun _ => hne2 (Or.inr (by simp [store]))⟩
      intro q hq hleaf
      apply hleaf2 q hq
      by_cases hq2 : q = e.next
      · subst hq2
        simp [store, hq, leaf_ok, node.mk_shared]
      · simpa [store, hq, hq2, leaf_ok] using hleaf

theorem usize_sub_of_le (a b : Nat) (hb : b ≤ a) (ha : a < 2 ^ 64) : usize_sub a b = a - b := by
  unfold usize_sub
  have h1 : b % 2 ^ 64 = b := Nat.mod_eq_of_lt (by omega)
  rw [h1]
  have h2 : a + 2 ^ 64 - b = (a - b) + 2 ^ 64 := by omega
  rw [h2, Nat.add_mod_right]
  exact Nat.mod_eq_of_lt (by omega)

/-- Every step of the traversal of `compute(depth)` keeps the invariant. -/
theorem step_ok [DecidableEq State] (heuristic : State → Int)
    (getChoices : State → List (Choice × State)) (depth startNode : Nat)
    (hdepth : depth < 2 ^ 64) (f f1 : Frame State Choice)
    (hf : frame_ok getChoices depth f)
    (h : step heuristic getChoices depth startNode f = Except.ok f1) :
    frame_ok getChoices depth f1 := by
  obtain ⟨hl, hleaf, hlen⟩ := hf
  cases hpc : f.pc with
  | descend =>
    have hfpc : f.pc ≠ PC.construct := by rw [hpc]; simp
    have hleaf1 : ∀ p, leaf_ok getChoices (f.mm.heap p) := by
      intro p
      rcases hleaf p with h1 | ⟨h1, _, _⟩
      · exact h1
      · exact absurd h1 hfpc
    by_cases hlt : (f.mm.heap f.cur).height < usize_sub depth f.path.length
    · rw [step_descend_fire heuristic getChoices depth startNode f hpc hlt] at h
      have hlt2 : f.path.length < depth := by
        rw [usize_sub_of_le depth f.path.length hlen hdepth] at hlt
        omega
      have hl1 : linked ({ f.mm with heap := reset_node f.mm.heap f.cur f.nodeType } :
          minimax State Choice) :=
        linked_of_same_links _ f.mm rfl rfl rfl (fun q => reset_node_links _ _ _ q) hl
      have hleaf2 : ∀ p, p ≠ f.cur →
          leaf_ok getChoices (reset_node f.mm.heap f.cur f.nodeType p) := by
        intro p hp
        have : reset_node f.mm.heap f.cur f.nodeType p = f.mm.heap p := by
          simp [reset_node, store, hp]
        rw [this]
        exact hleaf1 p
      split at h
      · rename_i hch
        cases h
        refine ⟨hl1, ?_, by simp [go_down]; omega⟩
        intro p
        left
        by_cases hp : p = f.cur
        · subst hp
          intro hnil
          exact absurd hnil hch
        · exact hleaf2 p hp
      · cases h
        refine ⟨hl1, ?_, hlen⟩
        intro p
        by_cases hp : p = f.cur
        · exact Or.inr ⟨rfl, hp, hlt2⟩
        · exact Or.inl (hleaf2 p hp)
    · rw [step_descend_stay heuristic getChoices depth startNode f hpc hlt] at h
      cases h
      exact frame_ok_of_low getChoices depth _ f ⟨hl, hleaf, hlen⟩ hfpc
        (fun q => low_evaluate_leaf heuristic f.mm.heap f.cur q) rfl rfl rfl (le_refl _)
  | construct =>
    by_cases hgt : depth > f.path.length
    · cases hexp : expand f.cur (!f.nodeType) (getChoices (f.mm.heap f.cur).state) f.mm with
      | error err =>
        unfold step at h
        rw [hpc] at h
        simp only [hgt, if_true, hexp] at h
        cases h
      | ok e1 =>
        rw [step_construct_expand heuristic getChoices depth startNode f hpc hgt e1 hexp] at h
        obtain ⟨hl2, hleaf2, hne2⟩ := expand_ok getChoices _ _ _ _ _ hexp hl
        have hl3 : linked ({ e1 with heap := mark_visited e1.heap f.cur } :
            minimax State Choice) :=
          linked_of_same_links _ e1 rfl rfl rfl (fun q => mark_visited_links _ _ q) hl2
        have hleaf3 : ∀ p, leaf_ok getChoices (mark_visited e1.heap f.cur p) := by
          intro p
          by_cases hp : p = f.cur
          · subst hp
            intro hnil
            right
            rw [(mark_visited_links e1.heap f.cur f.cur).2.2.1] at hnil
            by_cases hmoves : getChoices (f.mm.heap f.cur).state = []
            · rw [hmoves] at hexp
              simp only [expand] at hexp
              cases hexp
              rw [(mark_visited_links f.mm.heap f.cur f.cur).2.1]
              exact hmoves
            · exact absurd hnil (hne2 (Or.inl hmoves))
          · have : mark_visited e1.heap f.cur p = e1.heap p := by
              simp [mark_visited, store, hp]
            rw [this]
            apply hleaf2 p hp
            rcases hleaf p with h1 | ⟨_, h1, _⟩
            · exact h1
            · exact absurd h1 hp
        split at h
        · cases h
          exact ⟨hl3, fun p => Or.inl (hleaf3 p), hlen⟩
        · cases h
          exact ⟨hl3, fun p => Or.inl (hleaf3 p), by simp [go_down]; omega⟩
    · rw [step_construct_stop heuristic getChoices depth startNode f hpc hgt] at h
      cases h
      refine ⟨hl, ?_, hlen⟩
      intro p
      left
      rcases hleaf p with h1 | ⟨_, _, h1⟩
      · exact h1
      · exact absurd h1 hgt
  | backtrack =>
    rw [step_backtrack heuristic getChoices depth startNode f hpc] at h
    cases h
    exact next_node_step_ok getChoices depth startNode f ⟨hl, hleaf, hlen⟩ hpc
  | finished =>
    rw [step_finished heuristic getChoices depth startNode f hpc] at h
    cases h
    exact ⟨hl, hleaf, hlen⟩

theorem run_ok [DecidableEq State] (heuristic : State → Int)
    (getChoices : State → List (Choice × State)) (depth startNode : Nat)
    (hdepth : depth < 2 ^ 64) :
    ∀ (fuel : Nat) (stale : List Bool) (f : Frame State Choice)
      (e1 : minimax State Choice),
      frame_ok getChoices depth f →
      run heuristic getChoices depth startNode fuel stale f = Except.ok e1 →
      well_formed getChoices e1 := by
  have hdone : ∀ (f : Frame State Choice), frame_ok getChoices depth f → f.pc = PC.finished →
      well_formed getChoices f.mm := by
    intro f hf hpc
    rw [well_formed_iff]
    refine ⟨hf.1, fun p => ?_⟩
    rcases hf.2.1 p with h | ⟨h, _, _⟩
    · exact h
    · rw [hpc] at h
      cases h
  intro fuel
  induction fuel with
  | zero =>
    intro stale f e1 hf h
    simp only [run] at h
    split at h
    · rename_i hpc
      cases h
      exact hdone f hf hpc
    · cases h
  | succ fuel ih =>
    intro stale f e1 hf h
    simp only [run] at h
    split at h
    · rename_i hpc
      cases h
      exact hdone f hf hpc
    · split at h
      · cases h
      · split at h
        · cases h
        · rename_i f2 hs
          exact ih _ f2 e1 (step_ok heuristic getChoices depth startNode hdepth f f2 hf hs) h

/-- A search keeps an engine well formed. -/
theorem well_formed_compute [DecidableEq State] (heuristic : State → Int)
    (getChoices : State → List (Choice × State)) (fuel depth : Nat) (hdepth : depth < 2 ^ 64)
    (e e1 : minimax State Choice) (hwf : well_formed getChoices e)
    (h : compute heuristic getChoices fuel depth e = Except.ok e1) :
    well_formed getChoices e1 := by
  unfold compute at h
  split at h
  · cases h
    exact hwf
  · split at h
    · cases h
    · rw [well_formed_iff] at hwf
      exact run_ok heuristic getChoices depth e.root hdepth fuel _ _ e1
        ⟨hwf.1, fun p => Or.inl (hwf.2 p), Nat.zero_le _⟩ h

theorem progress_loop_mem [DecidableEq Choice] (choice : Choice) :
    ∀ (choices : List Choice) (children : List Nat) (acc : Option Nat) (p : Nat),
      progress_loop choice choices children acc = some p → acc = some p ∨ p ∈ children := by
  intro choices
  induction choices with
  | nil =>
    intro children acc p h
    cases children <;> simp [progress_loop] at h <;> exact Or.inl h
  | cons ch choices ih =>
    intro children acc p h
    cases children with
    | nil =>
      simp [progress_loop] at h
      exact Or.inl h
    | cons q children =>
      simp only [progress_loop] at h
      rcases ih children _ p h with h1 | h1
      · split at h1
        · cases h1
          exact Or.inr (List.mem_cons_self _ _)
        · exact Or.inl h1
      · exact Or.inr (List.mem_cons_of_mem _ h1)

/-- Moving the root of a well-formed engine to one of the children of the root leaves
the engine well formed. -/
theorem well_formed_swap_root (getChoices : State → List (Choice × State))
    (e : minimax State Choice) (newRoot : Nat) (hwf : well_formed getChoices e)
    (hchild : newRoot ∈ (e.heap e.root).children) :
    well_formed getChoices (swap_root e newRoot) := by
  obtain ⟨h1, h2, h3, h4, h5⟩ := hwf
  have hsame : ∀ q, same_but_rc ((swap_root e newRoot).heap q) (e.heap q) := by
    intro q
    exact same_but_rc_trans (release_fields _ _ _ q) (same_but_rc_store e.heap newRoot _ q)
  refine ⟨?_, ?_, ?_, ?_, ?_⟩
  · intro p
    obtain ⟨_, _, _, _, k5, k6⟩ := hsame p
    rw [k5, k6]
    exact h1 p
  · intro p hnil
    obtain ⟨_, k2, _, k4, k5, _⟩ := hsame p
    rw [k4, k2]
    exact h2 p (k5 ▸ hnil)
  · intro p c hc
    obtain ⟨_, _, _, _, k5, _⟩ := hsame p
    rw [k5] at hc
    exact h3 p c hc
  · intro entry hmem
    have hm := List.mem_filter.mp hmem
    refine ⟨(h4 entry hm.1).1, ?_⟩
    simpa using hm.2
  · exact h3 e.root newRoot hchild

/-- The engine after `progress`, whether the call succeeds or fails, is well formed
if the engine before the call is. -/
theorem well_formed_progress [DecidableEq State] [DecidableEq Choice]
    (heuristic : State → Int) (getChoices : State → List (Choice × State)) (fuel : Nat)
    (choice : Choice) (e : minimax State Choice) (hwf : well_formed getChoices e) :
    well_formed getChoices (progress heuristic getChoices fuel choice e).2 := by
  have hwf1 : well_formed getChoices ({ e with type_ := !e.type_ } : minimax State Choice) :=
    hwf
  have hcommit : ∀ (e2 : minimax State Choice), well_formed getChoices e2 →
      well_formed getChoices
        (match progress_loop choice (e2.heap e2.root).choices (e2.heap e2.root).children none
          with
        | none => (Except.error Error.invalid_argument, e2)
        | some newRoot =>
          ((Except.ok ((swap_root e2 newRoot).heap newRoot).state : Except Error State),
            swap_root e2 newRoot)).2 := by
    intro e2 hwf2
    cases hl : progress_loop choice (e2.heap e2.root).choices (e2.heap e2.root).children none
      with
    | none => exact hwf2
    | some newRoot =>
      rcases progress_loop_mem choice _ _ _ _ hl with h | h
      · cases h
      · exact well_formed_swap_root getChoices e2 newRoot hwf2 h
  by_cases hchildren : (e.heap e.root).children = []
  · cases hcomp : compute heuristic getChoices fuel 1
        ({ e with type_ := !e.type_ } : minimax State Choice) with
    | error err =>
      simp only [progress, hchildren, if_true, hcomp]
      exact hwf1
    | ok e2 =>
      have hwf2 := well_formed_compute heuristic getChoices fuel 1 (by norm_num) _ e2 hwf1 hcomp
      by_cases h2 : (e2.heap e2.root).children = []
      · simp only [progress, hchildren, if_true, hcomp, h2]
        exact hwf2
      · simp only [progress, hchildren, if_true, hcomp, h2, if_false]
        exact hcommit e2 hwf2
  · rw [progress_of_children heuristic getChoices fuel choice e hchildren]
    exact hcommit _ hwf1

/-- Every reachable engine is well formed. -/
theorem well_formed_of_reachable [DecidableEq State] [DecidableEq Choice]
    (heuristic : State → Int) (getChoices : State → List (Choice × State))
    (e : minimax State Choice) (h : reachable heuristic getChoices e) :
    well_formed getChoices e := by
  induction h with
  | new start isMax => exact well_formed_new getChoices start isMax
  | compute e e1 fuel depth _ hdepth hcomp ih =>
    exact well_formed_compute heuristic getChoices fuel depth hdepth e e1 ih hcomp
  | progress e fuel choice _ ih =>
    exact well_formed_progress heuristic getChoices fuel choice e ih

/-! ## Evaluations at failing inputs -/

/-- C2 at a failing input: on the tree game `deepening_moves` with a minimizing root,
the calls `compute(3); compute(4); compute(5)` on one engine leave the root with score
5, while a new engine has score 10 after `compute(5)`, which is the minimax value of
depth 5.  In the engine searched three times the node of state `[1]` (address 2, a
maximizing node) has score 5 and the unknown height, although its child of state
`[1, 0]` (address 5) has the same score and height 2: the assertion
`child->height == infinity || child->height+1 == height` of `verifyNode` fails. -/
theorem deepening_unsound :
    score_after (((compute deepening_score deepening_moves 64 3 (minimax.new [] false)).bind
        (compute deepening_score deepening_moves 64 4)).bind
        (compute deepening_score deepening_moves 64 5)) = some 5 ∧
      score_after (compute deepening_score deepening_moves 64 5 (minimax.new [] false))
        = some 10 ∧
      minimax_value deepening_score deepening_moves 5 false [] = 10 ∧
      node_after (((compute deepening_score deepening_moves 64 3 (minimax.new [] false)).bind
        (compute deepening_score deepening_moves 64 4)).bind
        (compute deepening_score deepening_moves 64 5)) 2 = some (5, infinity) ∧
      node_after (((compute deepening_score deepening_moves 64 3 (minimax.new [] false)).bind
        (compute deepening_score deepening_moves 64 4)).bind
        (compute deepening_score deepening_moves 64 5)) 5 = some (5, 2) := by
  decide!

/-- C4 at a failing input: on the game `shared_moves` with a maximizing root,
`compute(4)` on a new engine leaves the root with score 5, while the minimax value of
depth 4 of the unshared game tree is 10.  In that engine the shared node of state 5
(address 5, a maximizing node) has score 5 although its child of state 7 (address 6)
has score 10: the assertion `child->score <= score` of `verifyNode` fails. -/
theorem sharing_unsound :
    score_after (compute shared_score shared_moves 64 4 (minimax.new 0 true)) = some 5 ∧
      minimax_value shared_score shared_moves 4 true 0 = 10 ∧
      node_after (compute shared_score shared_moves 64 4 (minimax.new 0 true)) 5
        = some (5, infinity) ∧
      node_after (compute shared_score shared_moves 64 4 (minimax.new 0 true)) 6
        = some (10, infinity) := by
  decide!

/-! ## The recursive search computes the minimax value -/

theorem merge_eq_fun (type : Bool) :
    (fun a b : Int => if type then max a b else min a b) = merge type := rfl

theorem better_merge {type : Bool} {a b : Int} (x : Int) (h : better type a b = true) :
    better type (merge type a x) b = true := by
  cases type <;> simp [better, merge] at * <;> omega

theorem better_fold {type : Bool} (xs : List Int) :
    ∀ {a b : Int}, better type a b = true → better type (xs.foldl (merge type) a) b = true := by
  induction xs with
  | nil => intro a b h; exact h
  | cons x xs ih => intro a b h; exact ih (better_merge x h)

theorem merge_absorb {type : Bool} {acc v : Int} (h : better (!type) v acc = true) :
    merge type acc v = acc := by
  cases type <;> simp [better, merge] at * <;> omega

theorem merge_seed {type : Bool} {v : Int} (h : scoreMin ≤ v ∧ v ≤ scoreMax) :
    merge type (seed type) v = v := by
  cases type <;> simp [merge, seed] <;> omega

theorem merge_range {type : Bool} {a b : Int} (ha : scoreMin ≤ a ∧ a ≤ scoreMax)
    (hb : scoreMin ≤ b ∧ b ≤ scoreMax) :
    scoreMin ≤ merge type a b ∧ merge type a b ≤ scoreMax := by
  cases type <;> simp [merge] <;> omega

theorem fold_range {type : Bool} (xs : List Int) :
    ∀ {a : Int}, (scoreMin ≤ a ∧ a ≤ scoreMax) → (∀ x ∈ xs, scoreMin ≤ x ∧ x ≤ scoreMax) →
      scoreMin ≤ xs.foldl (merge type) a ∧ xs.foldl (merge type) a ≤ scoreMax := by
  induction xs with
  | nil => intro a ha _; exact ha
  | cons x xs ih =>
    intro a ha hx
    exact ih (merge_range ha (hx x (List.mem_cons_self _ _)))
      (fun y hy => hx y (List.mem_cons_of_mem _ hy))

/-- The minimax value of a state lies in the range of the scores. -/
theorem minimax_value_range (heuristic : State → Int)
    (getChoices : State → List (Choice × State))
    (hrange : ∀ s, scoreMin ≤ heuristic s ∧ heuristic s ≤ scoreMax) :
    ∀ (k : Nat) (type : Bool) (s : State),
      scoreMin ≤ minimax_value heuristic getChoices k type s ∧
        minimax_value heuristic getChoices k type s ≤ scoreMax := by
  intro k
  induction k with
  | zero => intro type s; exact hrange s
  | succ k ih =>
    intro type s
    simp only [minimax_value]
    cases hmoves : getChoices s with
    | nil => exact hrange s
    | cons c cs =>
      simp only [List.map_cons]
      rw [merge_eq_fun]
      apply fold_range _ (ih _ _)
      intro x hx
      obtain ⟨y, _, rfl⟩ := List.mem_map.mp hx
      exact ih _ _

/-- The traversal of the children of a node: an exact result is the node's score
merged with the values of the remaining children, and a pruned node has a value that
crosses the bound. -/
theorem solve_children_sound (child : Option Int → State → Outcome) (value : State → Int)
    (type : Bool) (bound : Option Int)
    (hexact : ∀ acc c v, child (some acc) c = Outcome.exact v → v = value c)
    (hcut : ∀ acc c, child (some acc) c = Outcome.cut → better (!type) (value c) acc = true) :
    ∀ (cs : List State) (acc : Int),
      (∀ v, solve_children child type bound cs acc = Outcome.exact v →
        v = (cs.map value).foldl (merge type) acc) ∧
      (solve_children child type bound cs acc = Outcome.cut →
        ∃ b, bound = some b ∧
          better type ((cs.map value).foldl (merge type) acc) b = true) := by
  intro cs
  induction cs with
  | nil =>
    intro acc
    refine ⟨?_, ?_⟩
    · intro v h
      simp only [solve_children] at h
      cases h
      rfl
    · intro h
      simp only [solve_children] at h
      cases h
  | cons c cs ih =>
    intro acc
    simp only [solve_children, List.map_cons, List.foldl_cons]
    cases hc : child (some acc) c with
    | cut =>
      simp only
      rw [merge_absorb (hcut acc c hc)]
      exact ih acc
    | exact v =>
      have hv := hexact acc c v hc
      subst hv
      simp only
      by_cases hx : (crosses type bound (merge type acc (value c)) && !cs.isEmpty) = true
      · rw [if_pos hx]
        refine ⟨fun v h => (by cases h), fun _ => ?_⟩
        have hcr : crosses type bound (merge type acc (value c)) = true := by
          simp only [Bool.and_eq_true] at hx
          exact hx.1
        cases bound with
        | none => simp [crosses] at hcr
        | some b => exact ⟨b, rfl, better_fold _ hcr⟩
      · rw [if_neg hx]
        exact ih _

/-- The recursive search is sound: an exact result is the minimax value, and a
pruned node has a minimax value that crosses the bound. -/
theorem solve_sound (heuristic : State → Int) (getChoices : State → List (Choice × State))
    (hrange : ∀ s, scoreMin ≤ heuristic s ∧ heuristic s ≤ scoreMax) :
    ∀ (k : Nat) (type : Bool) (bound : Option Int) (s : State),
      (∀ v, solve heuristic getChoices k type bound s = Outcome.exact v →
        v = minimax_value heuristic getChoices k type s) ∧
      (solve heuristic getChoices k type bound s = Outcome.cut →
        ∃ b, bound = some b ∧
          better type (minimax_value heuristic getChoices k type s) b = true) := by
  intro k
  induction k with
  | zero =>
    intro type bound s
    refine ⟨?_, ?_⟩
    · intro v h
      simp only [solve] at h
      cases h
      rfl
    · intro h
      simp only [solve] at h
      cases h
  | succ k ih =>
    intro type bound s
    simp only [solve, minimax_value]
    cases hmoves : getChoices s with
    | nil =>
      refine ⟨?_, ?_⟩
      · intro v h
        cases h
        rfl
      · intro h
        cases h
    | cons c cs =>
      simp only
      have hs := solve_children_sound (solve heuristic getChoices k (!type))
        (minimax_value heuristic getChoices k (!type)) type bound
        (fun acc c v h => (ih (!type) (some acc) c).1 v h)
        (fun acc c h => by
          obtain ⟨b, hb, hbt⟩ := (ih (!type) (some acc) c).2 h
          cases hb
          exact hbt)
        ((c :: cs).map Prod.snd) (seed type)
      have hfold : (((c :: cs).map Prod.snd).map
            (minimax_value heuristic getChoices k (!type))).foldl (merge type) (seed type)
          = (cs.map (fun c => minimax_value heuristic getChoices k (!type) c.2)).foldl
              (fun a b => if type then max a b else min a b)
              (minimax_value heuristic getChoices k (!type) c.2) := by
        simp only [List.map_cons, List.foldl_cons, List.map_map]
        rw [merge_seed (minimax_value_range heuristic getChoices hrange k (!type) c.2)]
        rfl
      rw [hfold] at hs
      exact hs

/-! ## The expansion of a node of a tree-shaped game -/

theorem find_none [DecidableEq State] (key : State) :
    ∀ (tbl : List (State × Nat)), key ∉ tbl.map Prod.fst → find tbl key = none := by
  intro tbl
  induction tbl with
  | nil => intro _; rfl
  | cons kp tbl ih =>
    intro h
    obtain ⟨k, p⟩ := kp
    simp only [List.map_cons, List.mem_cons, not_or] at h
    simp only [find]
    rw [if_neg (fun hk => h.1 hk.symm)]
    exact ih h.2

theorem range_getD (n0 m j : Nat) (hj : j < m) : (List.range' n0 m).getD j 0 = n0 + j := by
  rw [List.getD_eq_getElem?_getD, List.getElem?_range' n0 1 hj]
  simp

theorem range_getLastD (n0 m : Nat) (hm : 0 < m) : (List.range' n0 m).getLastD 0 = n0 + m - 1 := by
  obtain ⟨k, rfl⟩ : ∃ k, m = k + 1 := ⟨m - 1, by omega⟩
  rw [List.range'_concat]
  simp [List.getLastD_eq_getLast?]

theorem range_headD (n0 m : Nat) (hm : 0 < m) : (List.range' n0 m).headD 0 = n0 := by
  obtain ⟨k, rfl⟩ : ∃ k, m = k + 1 := ⟨m - 1, by omega⟩
  rw [List.range'_succ]
  rfl

/-- The expansion of an allocated node when no state of the moves is in the table and
the states are different from each other: every move gets a new node, at the
addresses from `next` on; the expanded node gets these addresses as children and the
moves as choices; nothing else changes below `next`. -/
theorem expand_fresh [DecidableEq State] (cur : Nat) (childType : Bool) :
    ∀ (moves : List (Choice × State)) (e : minimax State Choice), cur < e.next →
      (∀ c ∈ moves, c.2 ∉ e.nodes.map Prod.fst) → (moves.map Prod.snd).Nodup →
      ∃ e1, expand cur childType moves e = Except.ok e1 ∧
        e1.next = e.next + moves.length ∧
        e1.nodes.map Prod.fst = e.nodes.map Prod.fst ++ moves.map Prod.snd ∧
        e1.heap cur = { e.heap cur with
          children := (e.heap cur).children ++ List.range' e.next moves.length,
          choices := (e.heap cur).choices ++ moves.map Prod.fst } ∧
        (∀ (i : Nat) (c : Choice × State), moves[i]? = some c →
          e1.heap (e.next + i) = node.mk_shared c.2 childType) ∧
        (∀ q, q < e.next → q ≠ cur → e1.heap q = e.heap q) := by
  intro moves
  induction moves with
  | nil =>
    intro e _ _ _
    refine ⟨e, rfl, rfl, by simp, by simp, ?_, fun _ _ _ => rfl⟩
    intro i c h
    simp at h
  | cons mv moves ih =>
    intro e hcur hkeys hnodup
    obtain ⟨c, s⟩ := mv
    have hs : s ∉ e.nodes.map Prod.fst := hkeys (c, s) (List.mem_cons_self _ _)
    have hfind := find_none s e.nodes hs
    have hne : cur ≠ e.next := by omega
    simp only [List.map_cons, List.nodup_cons] at hnodup
    obtain ⟨e1, he1, hn1, hk1, hc1, hnew1, hold1⟩ :=
      ih ({ e with
            heap := store (store e.heap e.next (node.mk_shared s childType)) cur
              { store e.heap e.next (node.mk_shared s childType) cur with
                children := (store e.heap e.next (node.mk_shared s childType) cur).children
                  ++ [e.next],
                choices := (store e.heap e.next (node.mk_shared s childType) cur).choices
                  ++ [c] },
            next := e.next + 1, nodes := e.nodes ++ [(s, e.next)] } : minimax State Choice)
        (by simp; omega)
        (by
          intro c2 hc2
          simp only [List.map_append, List.map_cons, List.map_nil, List.mem_append,
            List.mem_singleton, not_or]
          refine ⟨hkeys c2 (List.mem_cons_of_mem _ hc2), ?_⟩
          intro heq
          exact hnodup.1 (heq ▸ List.mem_map_of_mem Prod.snd hc2))
        hnodup.2
    refine ⟨e1, ?_, ?_, ?_, ?_, ?_, ?_⟩
    · simp only [expand, hfind]
      exact he1
    · rw [hn1]
      simp
      omega
    · rw [hk1]
      simp
    · rw [hc1]
      simp [store, hne, List.range'_succ]
    · intro i c2 hi
      cases i with
      | zero =>
        simp at hi
        subst hi
        have := hold1 e.next (by simp) (fun h => hne h.symm)
        rw [Nat.add_zero, this]
        have h2 : e.next ≠ cur := fun h => hne h.symm
        simp [store, h2]
      | succ i =>
        simp at hi
        have := hnew1 i c2 hi
        simp only at this
        rw [show e.next + (i + 1) = e.next + 1 + i by omega]
        exact this
    · intro q hq hqc
      rw [hold1 q (by simp; omega) hqc]
      have h2 : q ≠ e.next := by omega
      simp [store, hqc, h2]

/-! ## Frames of the heap and reachability between frames -/

theorem parent_of_cons (hp : Nat → node State Choice) (startNode : Nat) (it : child_iter)
    (rest : List child_iter) : parent_of hp startNode (it :: rest) = target hp startNode rest := by
  cases rest <;> rfl

theorem kept_refl (n x w : Nat) (hp : Nat → node State Choice) : kept n x w hp hp :=
  fun _ _ _ => ⟨fun _ => rfl, rfl⟩

theorem kept_trans {n x w : Nat} {hp hp1 hp2 : Nat → node State Choice}
    (h1 : kept n x w hp hp1) (h2 : kept n x w hp1 hp2) : kept n x w hp hp2 := by
  intro q hq hx
  obtain ⟨a1, b1⟩ := h1 q hq hx
  obtain ⟨a2, b2⟩ := h2 q hq hx
  refine ⟨fun hw => (a2 hw).trans (a1 hw), ?_⟩
  rw [b2, b1]

theorem kept_mono {n m x w : Nat} {hp hp1 : Nat → node State Choice} (hm : m ≤ n)
    (h : kept n x w hp hp1) : kept m x w hp hp1 :=
  fun q hq hx => h q (by omega) hx

theorem kept_children {n x w : Nat} {hp hp1 : Nat → node State Choice} (h : kept n x w hp hp1)
    (q : Nat) (hq : q < n) (hx : q ≠ x) :
    (hp1 q).children = (hp q).children ∧ (hp1 q).score = (hp q).score ∧
      (hp1 q).state = (hp q).state := by
  have := (h q hq hx).2
  rw [this]
  exact ⟨rfl, rfl, rfl⟩

/-- A change of the heap at the single node `x` is kept. -/
theorem kept_store (n x w : Nat) (hp : Nat → node State Choice) (nd : node State Choice) :
    kept n x w hp (store hp x nd) := by
  intro q _ hx
  simp [store, hx]

theorem deref_congr {hp hp1 : Nat → node State Choice} (it : child_iter)
    (h : (hp1 it.owner).children = (hp it.owner).children) : deref hp1 it = deref hp it := by
  unfold deref
  rw [h]

theorem target_congr {hp hp1 : Nat → node State Choice} (startNode : Nat)
    (path : List child_iter)
    (h : ∀ it ∈ path, (hp1 it.owner).children = (hp it.owner).children) :
    target hp1 startNode path = target hp startNode path := by
  cases path with
  | nil => rfl
  | cons it rest => exact deref_congr it (h it (List.mem_cons_self _ _))

theorem on_path_congr {hp hp1 : Nat → node State Choice} (startNode x : Nat)
    (path : List child_iter)
    (h : ∀ it ∈ path, (hp1 it.owner).children = (hp it.owner).children)
    (hx : on_path hp startNode x path) : on_path hp1 startNode x path := by
  obtain ⟨h1, h2, h3⟩ := hx
  refine ⟨by rw [target_congr startNode path h]; exact h1, h2, ?_⟩
  cases path with
  | nil => trivial
  | cons it rest =>
    simp only at h3 ⊢
    rw [target_congr startNode rest (fun it2 h2 => h it2 (List.mem_cons_of_mem _ h2))]
    exact h3

section reaching

variable [DecidableEq State] (heuristic : State → Int)
  (getChoices : State → List (Choice × State)) (depth startNode : Nat)

theorem safe_steps_add (n m : Nat) :
    ∀ (f f1 : Frame State Choice),
      steps heuristic getChoices depth startNode n f = Except.ok f1 →
      safe_steps heuristic getChoices depth startNode n f →
      safe_steps heuristic getChoices depth startNode m f1 →
      safe_steps heuristic getChoices depth startNode (n + m) f := by
  induction n with
  | zero =>
    intro f f1 h1 _ h3
    simp only [steps] at h1
    cases h1
    rw [Nat.zero_add]
    exact h3
  | succ n ih =>
    intro f f1 h1 h2 h3
    have hnm : n + 1 + m = (n + m) + 1 := by omega
    rw [hnm]
    simp only [steps] at h1
    simp only [safe_steps] at h2 ⊢
    cases hs : step heuristic getChoices depth startNode f with
    | error err => rw [hs] at h1; cases h1
    | ok g =>
      rw [hs] at h1 h2
      exact ⟨h2.1, ih g f1 h1 h2.2 h3⟩

theorem reaches_refl (f : Frame State Choice) :
    reaches heuristic getChoices depth startNode f f := ⟨0, rfl, trivial⟩

theorem reaches_trans {f f1 f2 : Frame State Choice}
    (h1 : reaches heuristic getChoices depth startNode f f1)
    (h2 : reaches heuristic getChoices depth startNode f1 f2) :
    reaches heuristic getChoices depth startNode f f2 := by
  obtain ⟨n, hn, hsn⟩ := h1
  obtain ⟨m, hm, hsm⟩ := h2
  exact ⟨n + m, steps_add heuristic getChoices depth startNode n m f f1 f2 hn hm,
    safe_steps_add heuristic getChoices depth startNode n m f f1 hn hsn hsm⟩

/-- A safe step reaches its result. -/
theorem reaches_safe {f f1 : Frame State Choice} (hs : safe depth f)
    (h : step heuristic getChoices depth startNode f = Except.ok f1) :
    reaches heuristic getChoices depth startNode f f1 :=
  ⟨1, steps_cons heuristic getChoices depth startNode 0 f f1 f1 h rfl,
    safe_steps_cons heuristic getChoices depth startNode 0 f f1 hs h trivial⟩

/-- A step outside the construction loop reaches its result. -/
theorem reaches_step {f f1 : Frame State Choice} (hpc : f.pc ≠ PC.construct)
    (h : step heuristic getChoices depth startNode f = Except.ok f1) :
    reaches heuristic getChoices depth startNode f f1 :=
  reaches_safe heuristic getChoices depth startNode (safe_of_pc depth f hpc) h

/-- A finished frame that is reached is what `run` returns for every large budget. -/
theorem run_of_reaches {f f1 : Frame State Choice}
    (h : reaches heuristic getChoices depth startNode f f1) (hfin : f1.pc = PC.finished) :
    ∃ N, ∀ fuel, N ≤ fuel →
      run heuristic getChoices depth startNode fuel [] f = Except.ok f1.mm := by
  obtain ⟨n, hn, hsn⟩ := h
  exact ⟨n, run_of_steps heuristic getChoices depth startNode n f f1 [] hn hsn
    (fun b hb => (List.not_mem_nil b hb).elim) hfin⟩

end reaching

/-! ## The assignments of `next_node`, one node at a time -/

theorem update_score_eq (hp : Nat → node State Choice) (child parent : Nat) (type : Bool) :
    update_score hp child parent type
      = store hp parent
          { hp parent with score := merge type (hp parent).score (hp child).score } := by
  cases type <;> simp [update_score, merge, MAX]

theorem update_score_gp_eq (hp : Nat → node State Choice) (child parent gParent : Nat)
    (type : Bool) :
    update_score_gp hp child parent gParent type
      = (better type (update_score hp child parent type parent).score
            (update_score hp child parent type gParent).score &&
          decide (child ≠ ((update_score hp child parent type parent).children).getLastD 0),
        update_score hp child parent type) := by
  cases type <;> simp [update_score_gp, better, MAX]

theorem height_only_refl (p : Nat) (hp : Nat → node State Choice) : height_only p hp hp :=
  fun _ => ⟨fun _ => rfl, rfl⟩

theorem height_only_trans {p : Nat} {hp hp1 hp2 : Nat → node State Choice}
    (h1 : height_only p hp hp1) (h2 : height_only p hp1 hp2) : height_only p hp hp2 := by
  intro q
  obtain ⟨a1, b1⟩ := h1 q
  obtain ⟨a2, b2⟩ := h2 q
  refine ⟨fun hq => (a2 hq).trans (a1 hq), ?_⟩
  rw [b2, b1]

theorem height_only_store (p : Nat) (hp : Nat → node State Choice) (ht : Nat) :
    height_only p hp (store hp p { hp p with height := ht }) := by
  intro q
  by_cases hq : q = p
  · subst hq
    simp [store]
  · simp [store, hq]

theorem height_only_lower (hp : Nat → node State Choice) (p childHeight k : Nat) :
    height_only p hp (lower_height hp p childHeight k) := by
  unfold lower_height
  split
  · exact height_only_store p hp _
  · exact height_only_refl p hp

theorem height_only_prune (parent : Nat) (type : Bool) :
    ∀ (siblings : List Nat) (hp : Nat → node State Choice),
      height_only parent hp (prune_heights parent type siblings hp) := by
  intro siblings
  induction siblings with
  | nil => intro hp; exact height_only_refl parent hp
  | cons sib siblings ih =>
    intro hp
    simp only [prune_heights]
    split_ifs <;>
      first
      | exact height_only_store parent hp _
      | exact height_only_trans (height_only_store parent hp _) (ih _)
      | exact ih hp

theorem kept_of_height_only {n x w p : Nat} {hp hp1 : Nat → node State Choice}
    (hp01 : height_only p hp hp1) (hpx : p = x ∨ p = w) : kept n x w hp hp1 := by
  intro q _ hx
  refine ⟨fun hw => (hp01 q).1 ?_, (hp01 q).2⟩
  rcases hpx with h | h
  · rw [h]; exact hx
  · rw [h]; exact hw

theorem height_only_fields {p : Nat} {hp hp1 : Nat → node State Choice}
    (h : height_only p hp hp1) (q : Nat) :
    (hp1 q).children = (hp q).children ∧ (hp1 q).score = (hp q).score := by
  have h2 := (h q).2
  constructor
  · rw [h2]
  · rw [h2]

/-- The body of the loop of `next_node` for the child number `j` of the node `x` the
path leads to, when the children of `x` have the addresses from `n0` on: the score
of the child is merged into the score of `x`, and `x` is pruned when the merged
score crosses the score of its parent and the child is not the last one. -/
theorem merge_child_spec (startNode : Nat) (f1 : Frame State Choice) (x n0 m j n : Nat)
    (path : List child_iter) (type : Bool)
    (hx : on_path f1.mm.heap startNode x path)
    (hch : (f1.mm.heap x).children = List.range' n0 m) (hj : j < m)
    (hty : f1.nodeType = !type) :
    (merge_child startNode f1 ⟨x, j⟩ path).pc = f1.pc ∧
    (merge_child startNode f1 ⟨x, j⟩ path).cur = f1.cur ∧
    (merge_child startNode f1 ⟨x, j⟩ path).mm.next = f1.mm.next ∧
    (merge_child startNode f1 ⟨x, j⟩ path).mm.nodes = f1.mm.nodes ∧
    kept n x (top_owner startNode path) f1.mm.heap
      (merge_child startNode f1 ⟨x, j⟩ path).mm.heap ∧
    ((merge_child startNode f1 ⟨x, j⟩ path).mm.heap x).children = List.range' n0 m ∧
    (if crosses type (bound_of f1.mm.heap path)
          (merge type (f1.mm.heap x).score (f1.mm.heap (n0 + j)).score) && decide (j + 1 ≠ m)
      then
        (merge_child startNode f1 ⟨x, j⟩ path).path = advance path ∧
          (merge_child startNode f1 ⟨x, j⟩ path).nodeType = type
      else
        (merge_child startNode f1 ⟨x, j⟩ path).path = ⟨x, j + 1⟩ :: path ∧
          (merge_child startNode f1 ⟨x, j⟩ path).nodeType = (!type) ∧
          ((merge_child startNode f1 ⟨x, j⟩ path).mm.heap x).score
            = merge type (f1.mm.heap x).score (f1.mm.heap (n0 + j)).score) := by
  have hpar : parent_of f1.mm.heap startNode (⟨x, j⟩ :: path) = x := by
    rw [parent_of_cons]; exact hx.1.symm
  have hder : deref f1.mm.heap ⟨x, j⟩ = n0 + j := by
    simp only [deref]
    rw [hch]
    exact range_getD n0 m j hj
  have hpt : (!f1.nodeType) = type := by rw [hty]; simp
  cases path with
  | nil =>
    have hA : merge_child startNode f1 ⟨x, j⟩ []
        = ⟨⟨lower_height (update_score f1.mm.heap (n0 + j) x type) x
                (f1.mm.heap (n0 + j)).height 1, f1.mm.next, f1.mm.nodes, f1.mm.root,
              f1.mm.type_⟩, [⟨x, j + 1⟩], f1.nodeType, f1.cur, f1.pc⟩ := by
      unfold merge_child
      simp only [hpar, hder, hpt]
    rw [hA]
    have hlow := height_only_lower (update_score f1.mm.heap (n0 + j) x type) x
      (f1.mm.heap (n0 + j)).height 1
    have hfield := height_only_fields hlow x
    have hsc : (update_score f1.mm.heap (n0 + j) x type x)
        = { f1.mm.heap x with
            score := merge type (f1.mm.heap x).score (f1.mm.heap (n0 + j)).score } := by
      rw [update_score_eq]; simp [store]
    refine ⟨rfl, rfl, rfl, rfl, ?_, ?_, ?_⟩
    · refine kept_trans ?_ (kept_of_height_only hlow (Or.inl rfl))
      rw [update_score_eq]
      exact kept_store _ _ _ _ _
    · simp only
      rw [hfield.1, hsc]
      exact hch
    · rw [if_neg (by simp [bound_of, crosses])]
      refine ⟨rfl, hty, ?_⟩
      simp only
      rw [hfield.2, hsc]
  | cons it2 rest2 =>
    have hgp : parent_of f1.mm.heap startNode (it2 :: rest2) = it2.owner := by
      rw [parent_of_cons]; exact hx.2.2.symm
    have hne : it2.owner ≠ x := Nat.ne_of_lt (hx.2.1 it2 (List.mem_cons_self _ _))
    have hsc : (update_score f1.mm.heap (n0 + j) x type x)
        = { f1.mm.heap x with
            score := merge type (f1.mm.heap x).score (f1.mm.heap (n0 + j)).score } := by
      rw [update_score_eq]; simp [store]
    have hsg : (update_score f1.mm.heap (n0 + j) x type it2.owner) = f1.mm.heap it2.owner := by
      rw [update_score_eq]; simp [store, hne]
    have hlast : (List.range' n0 m).getLastD 0 = n0 + m - 1 := range_getLastD n0 m (by omega)
    have hflag : (update_score_gp f1.mm.heap (n0 + j) x it2.owner type).1
        = (crosses type (bound_of f1.mm.heap (it2 :: rest2))
            (merge type (f1.mm.heap x).score (f1.mm.heap (n0 + j)).score) &&
          decide (j + 1 ≠ m)) := by
      rw [update_score_gp_eq]
      simp only [hsc, hsg, hch, hlast, crosses, bound_of]
      congr 1
      apply decide_eq_decide.mpr
      omega
    have hheap : (update_score_gp f1.mm.heap (n0 + j) x it2.owner type).2
        = update_score f1.mm.heap (n0 + j) x type := by
      rw [update_score_gp_eq]
    have hk0 : kept n x it2.owner f1.mm.heap (update_score f1.mm.heap (n0 + j) x type) := by
      rw [update_score_eq]
      exact kept_store _ _ _ _ _
    by_cases hcut : (crosses type (bound_of f1.mm.heap (it2 :: rest2))
            (merge type (f1.mm.heap x).score (f1.mm.heap (n0 + j)).score) &&
          decide (j + 1 ≠ m)) = true
    · have hA : merge_child startNode f1 ⟨x, j⟩ (it2 :: rest2)
          = ⟨⟨lower_height
                  (prune_heights x type
                    (((update_score f1.mm.heap (n0 + j) x type x).children).drop (j + 1))
                    (update_score f1.mm.heap (n0 + j) x type))
                  it2.owner (f1.mm.heap (n0 + j)).height 2, f1.mm.next, f1.mm.nodes,
                f1.mm.root, f1.mm.type_⟩,
              { it2 with idx := it2.idx + 1 } :: rest2, type, f1.cur, f1.pc⟩ := by
        unfold merge_child
        simp only [hpar, hder, hpt, hgp, hflag, hcut, if_true, hheap]
      rw [hA, if_pos hcut]
      have hpr := height_only_prune x type
        (((update_score f1.mm.heap (n0 + j) x type x).children).drop (j + 1))
        (update_score f1.mm.heap (n0 + j) x type)
      have hlow := height_only_lower
        (prune_heights x type
          (((update_score f1.mm.heap (n0 + j) x type x).children).drop (j + 1))
          (update_score f1.mm.heap (n0 + j) x type))
        it2.owner (f1.mm.heap (n0 + j)).height 2
      refine ⟨rfl, rfl, rfl, rfl, ?_, ?_, rfl, rfl⟩
      · exact kept_trans hk0 (kept_trans (kept_of_height_only hpr (Or.inl rfl))
          (kept_of_height_only hlow (Or.inr rfl)))
      · simp only
        rw [(height_only_fields hlow x).1, (height_only_fields hpr x).1, hsc]
        exact hch
    · have hA : merge_child startNode f1 ⟨x, j⟩ (it2 :: rest2)
          = ⟨⟨lower_height (update_score f1.mm.heap (n0 + j) x type) x
                  (f1.mm.heap (n0 + j)).height 1, f1.mm.next, f1.mm.nodes, f1.mm.root,
                f1.mm.type_⟩, ⟨x, j + 1⟩ :: it2 :: rest2, f1.nodeType, f1.cur, f1.pc⟩ := by
        unfold merge_child
        simp only [hpar, hder, hpt, hgp, hflag, hcut, hheap]
        rfl
      rw [hA, if_neg hcut]
      have hlow := height_only_lower (update_score f1.mm.heap (n0 + j) x type) x
        (f1.mm.heap (n0 + j)).height 1
      refine ⟨rfl, rfl, rfl, rfl, ?_, ?_, rfl, hty, ?_⟩
      · exact kept_trans hk0 (kept_of_height_only hlow (Or.inl rfl))
      · simp only
        rw [(height_only_fields hlow x).1, hsc]
        exact hch
      · simp only
        rw [(height_only_fields hlow x).2, hsc]

/-- The test after `++*iter` when the iterator has reached the end of the children. -/
theorem return_check_last (depth startNode : Nat) (f2 : Frame State Choice) (x n0 m : Nat)
    (path : List child_iter) (hpath : f2.path = ⟨x, m⟩ :: path)
    (hx : x = target f2.mm.heap startNode path)
    (hch : (f2.mm.heap x).children = List.range' n0 m) :
    return_check depth startNode f2 = f2 := by
  unfold return_check
  rw [hpath]
  simp only
  rw [parent_of_cons, ← hx, hch]
  simp

/-- The test after `++*iter` when the iterator points at a child that was not visited
yet: the traversal goes on at that child. -/
theorem return_check_next (depth startNode : Nat) (f2 : Frame State Choice) (x n0 m j : Nat)
    (path : List child_iter) (hpath : f2.path = ⟨x, j⟩ :: path)
    (hx : x = target f2.mm.heap startNode path)
    (hch : (f2.mm.heap x).children = List.range' n0 m) (hj : j < m)
    (hfresh : (f2.mm.heap (n0 + j)).height = 0) (hs : startNode < n0) :
    return_check depth startNode f2 = ⟨f2.mm, f2.path, f2.nodeType, n0 + j, PC.descend⟩ := by
  have hder : deref f2.mm.heap ⟨x, j⟩ = n0 + j := by
    simp only [deref]
    rw [hch]
    exact range_getD n0 m j hj
  unfold return_check
  rw [hpath]
  simp only
  rw [parent_of_cons, ← hx, hch, hder, hfresh]
  have hne : j ≠ m := Nat.ne_of_lt hj
  have hsn : startNode ≠ n0 + j := by omega
  simp [hne, resume, hsn, hpath]

theorem produced_list_sub (below : State → List State) :
    ∀ (moves : List (Choice × State)) (c : Choice × State), c ∈ moves →
      c.2 ∈ produced_list below moves ∧ ∀ t ∈ below c.2, t ∈ produced_list below moves := by
  intro moves
  induction moves with
  | nil => intro c hc; cases hc
  | cons c0 cs ih =>
    intro c hc
    simp only [produced_list]
    rcases List.mem_cons.mp hc with h | h
    · subst h
      refine ⟨List.mem_cons_self _ _, fun t ht => ?_⟩
      exact List.mem_cons_of_mem _ (List.mem_append_left _ ht)
    · obtain ⟨h1, h2⟩ := ih c h
      refine ⟨List.mem_cons_of_mem _ (List.mem_append_right _ h1), fun t ht => ?_⟩
      exact List.mem_cons_of_mem _ (List.mem_append_right _ (h2 t ht))

theorem produced_list_states (below : State → List State) :
    ∀ (moves : List (Choice × State)), (produced_list below moves).Nodup →
      (moves.map Prod.snd).Nodup := by
  intro moves
  induction moves with
  | nil => intro _; exact List.nodup_nil
  | cons c0 cs ih =>
    intro h
    simp only [produced_list, List.nodup_cons, List.mem_append, not_or] at h
    obtain ⟨⟨_, h2⟩, h3⟩ := h
    simp only [List.map_cons, List.nodup_cons]
    refine ⟨fun hmem => ?_, ih (List.Nodup.of_append_right h3)⟩
    obtain ⟨c, hc, hcs⟩ := List.mem_map.mp hmem
    apply h2
    rw [← hcs]
    exact (produced_list_sub below cs c hc).1

/-- In a list of produced states without repetition, the states below a move are
not repeated, are not the state of a move, and are not produced by another move. -/
theorem produced_list_cons (below : State → List State) (c : Choice × State)
    (cs : List (Choice × State)) (h : (produced_list below (c :: cs)).Nodup) :
    (below c.2).Nodup ∧ (produced_list below cs).Nodup ∧
      (∀ t ∈ below c.2, t ≠ c.2 ∧ t ∉ produced_list below cs) := by
  simp only [produced_list, List.nodup_cons, List.mem_append, not_or] at h
  obtain ⟨⟨h1, _⟩, h3⟩ := h
  refine ⟨List.Nodup.of_append_left h3, List.Nodup.of_append_right h3, fun t ht => ⟨?_, ?_⟩⟩
  · intro heq
    apply h1
    rw [heq] at ht
    exact ht
  · exact fun hmem => (List.nodup_append.mp h3).2.2 ht hmem

theorem return_check_nodeType (depth startNode : Nat) (f : Frame State Choice) :
    (return_check depth startNode f).nodeType = f.nodeType := by
  rcases return_check_cases depth startNode f with h | ⟨c, h⟩ <;> rw [h]
  rfl

theorem kept_of_child {n m a x w : Nat} {hp hp1 : Nat → node State Choice}
    (h : kept n a x hp hp1) (hm : m ≤ n) (ha : m ≤ a) : kept m x w hp hp1 := by
  intro q hq hqx
  have e := (h q (by omega) (by omega)).1 hqx
  exact ⟨fun _ => e, by rw [e]⟩

theorem bound_of_congr {hp hp1 : Nat → node State Choice} (path : List child_iter)
    (h : ∀ it ∈ path, (hp1 it.owner).score = (hp it.owner).score) :
    bound_of hp1 path = bound_of hp path := by
  cases path with
  | nil => rfl
  | cons it rest =>
    simp only [bound_of]
    rw [h it (List.mem_cons_self _ _)]

theorem top_owner_lt (startNode x n0 : Nat) (path : List child_iter) (hs : startNode < n0)
    (hx : x < n0) (hp : ∀ it ∈ path, it.owner < x) : top_owner startNode path < n0 := by
  cases path with
  | nil => exact hs
  | cons it rest =>
    have := hp it (List.mem_cons_self _ _)
    simp only [top_owner]
    omega

theorem isEmpty_rest (j : Nat) (rest : List (Choice × State)) :
    decide (j + 1 ≠ j + (rest.length + 1)) = !(rest.map Prod.snd).isEmpty := by
  cases rest <;> simp

theorem store_same (hp : Nat → node State Choice) (p : Nat) (nd : node State Choice) :
    store hp p nd p = nd := by
  simp [store]

theorem store_other (hp : Nat → node State Choice) (p q : Nat) (nd : node State Choice)
    (h : q ≠ p) : store hp p nd q = hp q := by
  simp [store, h]

theorem kept_of_eq {n x w : Nat} {hp hp1 : Nat → node State Choice}
    (h : ∀ q, q < n → q ≠ x → hp1 q = hp q) : kept n x w hp hp1 := by
  intro q hq hqx
  have e := h q hq hqx
  exact ⟨fun _ => e, by rw [e]⟩

/-- In a list of produced states without repetition, a state produced below a move
is not the state of a move. -/
theorem produced_list_below (below : State → List State) :
    ∀ (moves : List (Choice × State)), (produced_list below moves).Nodup →
      ∀ c ∈ moves, ∀ t ∈ below c.2, t ∉ moves.map Prod.snd := by
  intro moves
  induction moves with
  | nil => intro _ c hc; cases hc
  | cons c0 cs ih =>
    intro h c hc t ht hmem
    obtain ⟨_, h2, h3⟩ := produced_list_cons below c0 cs h
    have h1 : c0.2 ∉ produced_list below cs := by
      simp only [produced_list, List.nodup_cons, List.mem_append, not_or] at h
      exact h.1.2
    obtain ⟨c1, hc1, hc1t⟩ := List.mem_map.mp hmem
    rcases List.mem_cons.mp hc with hc | hc
    · subst hc
      rcases List.mem_cons.mp hc1 with hc1 | hc1
      · subst hc1
        exact (h3 t ht).1 hc1t.symm
      · apply (h3 t ht).2
        rw [← hc1t]
        exact (produced_list_sub below cs c1 hc1).1
    · have htp := (produced_list_sub below cs c hc).2 t ht
      rcases List.mem_cons.mp hc1 with hc1 | hc1
      · subst hc1
        apply h1
        rw [hc1t]
        exact htp
      · exact ih h2 c hc t ht (List.mem_map.mpr ⟨c1, hc1, hc1t⟩)

section tree_search

variable [DecidableEq State] (heuristic : State → Int)
  (getChoices : State → List (Choice × State)) (depth startNode : Nat)

/-- Once the child number `j` of `x` is accounted for and the iterator has moved
on, the loop over the remaining children goes on from the test for the next
sibling. -/
theorem searches_children_next (k : Nat) (c : Choice × State) (rest : List (Choice × State))
    (ih : searches_children heuristic getChoices depth startNode k rest)
    (f : Frame State Choice) (x n0 j : Nat) (path : List child_iter) (type : Bool)
    (hlen : path.length + 1 + k = depth)
    (hx : on_path f.mm.heap startNode x path)
    (hxn : x < n0) (hsn : startNode < n0) (hnext : n0 + j + (rest.length + 1) ≤ f.mm.next)
    (hfresh : ∀ (i : Nat) (c1 : Choice × State), (c :: rest)[i]? = some c1 →
      f.mm.heap (n0 + j + i) = node.mk_shared c1.2 (!type))
    (hnd : (produced_list (produced getChoices k) (c :: rest)).Nodup)
    (hkeys : ∀ c1 ∈ c :: rest, ∀ t ∈ produced getChoices k c1.2, t ∉ f.mm.nodes.map Prod.fst)
    (f2 : Frame State Choice) (acc2 : Int)
    (hr : reaches heuristic getChoices depth startNode f (return_check depth startNode f2))
    (hpc2 : f2.pc = PC.backtrack) (hpath2 : f2.path = ⟨x, j + 1⟩ :: path)
    (hty2 : f2.nodeType = (!type)) (hn2 : f.mm.next ≤ f2.mm.next)
    (hk2 : ∀ key ∈ f2.mm.nodes.map Prod.fst,
      key ∈ f.mm.nodes.map Prod.fst ∨ key ∈ produced getChoices k c.2)
    (hkept2 : kept n0 x (top_owner startNode path) f.mm.heap f2.mm.heap)
    (hsame2 : ∀ q, n0 + j < q → q < f.mm.next → f2.mm.heap q = f.mm.heap q)
    (hch2 : (f2.mm.heap x).children = List.range' n0 (j + 1 + rest.length))
    (hacc2 : (f2.mm.heap x).score = acc2) :
    ∃ f1, reaches heuristic getChoices depth startNode f f1 ∧
      f.mm.next ≤ f1.mm.next ∧
      (∀ key ∈ f1.mm.nodes.map Prod.fst,
        key ∈ f.mm.nodes.map Prod.fst ∨
          key ∈ produced_list (produced getChoices k) (c :: rest)) ∧
      kept n0 x (top_owner startNode path) f.mm.heap f1.mm.heap ∧
      search_done depth startNode f1 x path type
        (solve_children (solve heuristic getChoices k (!type)) type (bound_of f.mm.heap path)
          (rest.map Prod.snd) acc2) := by
  obtain ⟨_, hnd2, hnd3⟩ := produced_list_cons (produced getChoices k) c rest hnd
  have hown : ∀ it ∈ path, (f2.mm.heap it.owner).children = (f.mm.heap it.owner).children ∧
      (f2.mm.heap it.owner).score = (f.mm.heap it.owner).score := by
    intro it hit
    have hlt := hx.2.1 it hit
    have h := kept_children hkept2 it.owner (by omega) (Nat.ne_of_lt hlt)
    exact ⟨h.1, h.2.1⟩
  have hx2 : on_path f2.mm.heap startNode x path :=
    on_path_congr startNode x path (fun it hit => (hown it hit).1) hx
  have hb2 : bound_of f2.mm.heap path = bound_of f.mm.heap path :=
    bound_of_congr path (fun it hit => (hown it hit).2)
  have hmm : (return_check depth startNode f2).mm = f2.mm := return_check_root _ _ _
  have hfresh2 : ∀ (i : Nat) (c1 : Choice × State), rest[i]? = some c1 →
      f2.mm.heap (n0 + (j + 1) + i) = node.mk_shared c1.2 (!type) := by
    intro i c1 hi
    have hlt : i < rest.length := by
      by_contra hcon
      rw [List.getElem?_eq_none (by omega)] at hi
      cases hi
    have ha : n0 + (j + 1) + i = n0 + j + (i + 1) := by omega
    rw [ha, hsame2 _ (by omega) (by omega)]
    exact hfresh (i + 1) c1 (by simpa using hi)
  have hpc3 : (rest = [] ∧ (return_check depth startNode f2).pc = PC.backtrack) ∨
      (rest ≠ [] ∧ ((return_check depth startNode f2).pc = PC.descend ∨
        (return_check depth startNode f2).pc = PC.construct) ∧
        (return_check depth startNode f2).cur = n0 + (j + 1)) := by
    cases hrest : rest with
    | nil =>
      left
      rw [hrest] at hch2
      rw [return_check_last depth startNode f2 x n0 (j + 1) path hpath2 hx2.1 hch2]
      exact ⟨rfl, hpc2⟩
    | cons c1 rest1 =>
      right
      have hh : (f2.mm.heap (n0 + (j + 1))).height = 0 := by
        have := hfresh2 0 c1 (by rw [hrest]; simp)
        rw [Nat.add_zero] at this
        rw [this]
        rfl
      rw [return_check_next depth startNode f2 x n0 (j + 1 + rest.length) (j + 1) path hpath2
        hx2.1 hch2 (by rw [hrest]; simp) hh hsn]
      exact ⟨by simp, Or.inl rfl, rfl⟩
  have hkeys3 : ∀ c1 ∈ rest, ∀ t ∈ produced getChoices k c1.2,
      t ∉ (return_check depth startNode f2).mm.nodes.map Prod.fst := by
    intro c1 hc1 t ht hmem
    rw [hmm] at hmem
    rcases hk2 t hmem with h | h
    · exact hkeys c1 (List.mem_cons_of_mem _ hc1) t ht h
    · exact (hnd3 t h).2 ((produced_list_sub (produced getChoices k) rest c1 hc1).2 t ht)
  obtain ⟨f3, hr3, hn3, hk3, hkept3, hdone3⟩ :=
    ih (return_check depth startNode f2) x n0 (j + 1) path type acc2
      (by rw [return_check_path]; exact hpath2) hlen
      (by rw [return_check_nodeType]; exact hty2)
      (by rw [hmm]; exact hx2) hxn hsn (by rw [hmm]; omega)
      (by rw [hmm]; exact hch2) (by rw [hmm]; exact hacc2)
      (by rw [hmm]; exact hfresh2) hnd2 hkeys3 hpc3
  rw [hmm] at hn3 hk3 hkept3 hdone3
  rw [hb2] at hdone3
  refine ⟨f3, reaches_trans _ _ _ _ hr hr3, by omega, ?_, kept_trans hkept2 hkept3, hdone3⟩
  intro key hkey
  rcases hk3 key hkey with h | h
  · rcases hk2 key h with h1 | h1
    · exact Or.inl h1
    · right
      simp only [produced_list]
      exact List.mem_cons_of_mem _ (List.mem_append_left _ h1)
  · right
    simp only [produced_list]
    exact List.mem_cons_of_mem _ (List.mem_append_right _ h)

/-- The loop over the children of an expanded node, given the search of one child. -/
theorem searches_children_of (k : Nat)
    (hN : searches heuristic getChoices depth startNode k) :
    ∀ rest, searches_children heuristic getChoices depth startNode k rest := by
  intro rest
  induction rest with
  | nil =>
    intro f x n0 j path type acc hpath hlen hty hx hxn hsn hnext hch hacc hfresh hnd hkeys hpc
    rcases hpc with ⟨_, hpc⟩ | ⟨hne, _⟩
    · refine ⟨⟨f.mm, path, !f.nodeType, f.cur, f.pc⟩, ?_, le_refl _, fun key hk => Or.inl hk,
        kept_refl _ _ _ _, ?_⟩
      · apply reaches_step _ _ _ _ (by rw [hpc]; decide)
        rw [step_backtrack _ _ _ _ _ hpc]
        rw [next_node_step_end depth startNode f ⟨x, j⟩ path hpath
          (by rw [parent_of_cons, ← hx.1, hch]; simp)]
      · simp only [List.map_nil, solve_children, search_done]
        refine ⟨hpc, trivial, ?_, hacc⟩
        rw [hty]; simp
    · exact absurd rfl hne
  | cons c rest ih =>
    intro f x n0 j path type acc hpath hlen hty hx hxn hsn hnext hch hacc hfresh hnd hkeys hpc
    rcases hpc with ⟨hnil, _⟩ | ⟨_, hpc, hcur⟩
    · cases hnil
    simp only [List.length_cons] at hnext hch
    obtain ⟨hnd1, _, _⟩ := produced_list_cons (produced getChoices k) c rest hnd
    have hder : deref f.mm.heap ⟨x, j⟩ = n0 + j := by
      simp only [deref]
      rw [hch]
      exact range_getD _ _ _ (by omega)
    have hf0 : f.mm.heap f.cur = node.mk_shared c.2 (!type) := by
      rw [hcur]
      exact hfresh 0 c (by simp)
    have hxc : on_path f.mm.heap startNode f.cur f.path := by
      rw [hpath, hcur]
      refine ⟨?_, ?_, ?_⟩
      · simp only [target]; exact hder.symm
      · intro it hit
        rcases List.mem_cons.mp hit with h | h
        · subst h; simp only; omega
        · have := hx.2.1 it h; omega
      · exact hx.1
    obtain ⟨f1, hr1, hn1, hk1, hkept1, hdone1⟩ := hN f c.2 (!type) hpc
      (by rw [hpath]; simp only [List.length_cons]; omega) hty hf0 hxc (by rw [hcur]; omega)
      (by omega) hnd1 (hkeys c (List.mem_cons_self _ _))
    rw [hpath, hcur] at hkept1 hdone1
    simp only [bound_of, top_owner, hacc] at hkept1 hdone1
    have hkA : kept n0 x (top_owner startNode path) f.mm.heap f1.mm.heap :=
      kept_of_child hkept1 (by omega) (by omega)
    have hsA : ∀ q, n0 + j < q → q < f.mm.next → f1.mm.heap q = f.mm.heap q := by
      intro q h1 h2
      exact (hkept1 q h2 (by omega)).1 (by omega)
    have hxA : f1.mm.heap x = { f.mm.heap x with height := (f1.mm.heap x).height } :=
      (hkept1 x (by omega) (by omega)).2
    have hchA : (f1.mm.heap x).children = List.range' n0 (j + (rest.length + 1)) := by
      rw [hxA]; exact hch
    have haccA : (f1.mm.heap x).score = acc := by
      rw [hxA]; exact hacc
    have hown : ∀ it ∈ path, (f1.mm.heap it.owner).children = (f.mm.heap it.owner).children ∧
        (f1.mm.heap it.owner).score = (f.mm.heap it.owner).score := by
      intro it hit
      have hlt := hx.2.1 it hit
      have h := kept_children hkA it.owner (by omega) (Nat.ne_of_lt hlt)
      exact ⟨h.1, h.2.1⟩
    have hx1 : on_path f1.mm.heap startNode x path :=
      on_path_congr startNode x path (fun it hit => (hown it hit).1) hx
    have hb1 : bound_of f1.mm.heap path = bound_of f.mm.heap path :=
      bound_of_congr path (fun it hit => (hown it hit).2)
    have hwlt : top_owner startNode path < n0 := top_owner_lt startNode x n0 path hsn hxn hx.2.1
    simp only [List.map_cons, solve_children]
    cases hout : solve heuristic getChoices k (!type) (some acc) c.2 with
    | cut =>
      rw [hout] at hdone1
      simp only [search_done] at hdone1
      obtain ⟨f0, hf1, hpc0, hpath0, hty0⟩ := hdone1
      have hmm : f1.mm = f0.mm := by rw [hf1]; exact return_check_root _ _ _
      rw [hmm] at hn1 hk1 hkA hsA hchA haccA
      rw [hf1] at hr1
      simp only
      exact searches_children_next heuristic getChoices depth startNode k c rest ih f x n0 j path
        type hlen hx hxn hsn hnext hfresh hnd hkeys f0 acc hr1 hpc0 hpath0 hty0 hn1 hk1 hkA hsA
        (by rw [hchA]; congr 1; omega) haccA
    | exact v =>
      rw [hout] at hdone1
      simp only [search_done] at hdone1
      obtain ⟨hpc1, hpath1, hty1, hv⟩ := hdone1
      have hstep : step heuristic getChoices depth startNode f1
          = Except.ok (return_check depth startNode (merge_child startNode f1 ⟨x, j⟩ path)) := by
        rw [step_backtrack _ _ _ _ _ hpc1]
        rw [next_node_step_child depth startNode f1 ⟨x, j⟩ path hpath1
          (by rw [parent_of_cons, ← hx1.1, hchA]; simp)]
      have hr2 := reaches_trans _ _ _ _ hr1 (reaches_step _ _ _ _ (by rw [hpc1]; decide) hstep)
      obtain ⟨mpc, _, mnext, mnodes, mkept, mch, mif⟩ :=
        merge_child_spec startNode f1 x n0 (j + (rest.length + 1)) j f.mm.next path type hx1 hchA
          (by omega) hty1
      rw [hb1, haccA, hv, isEmpty_rest] at mif
      simp only
      by_cases hcut : (crosses type (bound_of f.mm.heap path) (merge type acc v) &&
          !(rest.map Prod.snd).isEmpty) = true
      · rw [if_pos hcut] at mif ⊢
        refine ⟨_, hr2, ?_, ?_, ?_, ?_⟩
        · rw [return_check_root, mnext]; exact hn1
        · intro key hkey
          rw [return_check_root, mnodes] at hkey
          rcases hk1 key hkey with h | h
          · exact Or.inl h
          · right
            simp only [produced_list]
            exact List.mem_cons_of_mem _ (List.mem_append_left _ h)
        · rw [return_check_root]
          exact kept_trans hkA (kept_mono (by omega) mkept)
        · simp only [search_done]
          exact ⟨_, rfl, by rw [mpc]; exact hpc1, mif.1, mif.2⟩
      · rw [if_neg hcut] at mif ⊢
        refine searches_children_next heuristic getChoices depth startNode k c rest ih f x n0 j
          path type hlen hx hxn hsn hnext hfresh hnd hkeys _ (merge type acc v) hr2
          (by rw [mpc]; exact hpc1) mif.1 mif.2.1 (by rw [mnext]; exact hn1)
          (by rw [mnodes]; exact hk1) (kept_trans hkA (kept_mono (by omega) mkept)) ?_
          (by rw [mch]; congr 1; omega) mif.2.2
        intro q h1 h2
        rw [← hsA q h1 h2]
        exact (mkept q h2 (by omega)).1 (by omega)

/-- The step at the head of the descent for a node without children that needs no
further search: the node is scored by the heuristic. -/
theorem step_leaf (f : Frame State Choice) (hpc : f.pc = PC.descend)
    (hnot : ¬ (f.mm.heap f.cur).height < usize_sub depth f.path.length)
    (hch : (f.mm.heap f.cur).children = []) :
    step heuristic getChoices depth startNode f = Except.ok
      ⟨⟨store f.mm.heap f.cur
          { f.mm.heap f.cur with score := heuristic (f.mm.heap f.cur).state },
        f.mm.next, f.mm.nodes, f.mm.root, f.mm.type_⟩, f.path, f.nodeType, f.cur,
        PC.backtrack⟩ := by
  rw [step_descend_stay _ _ _ _ _ hpc hnot]
  simp only [evaluate_leaf, hch, if_true]

/-- A new node at the depth limit is scored by the heuristic, whether the traversal
comes to it at the head of the descent or inside the construction loop. -/
theorem reaches_leaf (f : Frame State Choice) (s : State) (type : Bool)
    (hdepth : depth < 2 ^ 64) (hpc : f.pc = PC.descend ∨ f.pc = PC.construct)
    (hlen : f.path.length = depth) (hf0 : f.mm.heap f.cur = node.mk_shared s type) :
    reaches heuristic getChoices depth startNode f
      ⟨⟨store f.mm.heap f.cur { f.mm.heap f.cur with score := heuristic s },
        f.mm.next, f.mm.nodes, f.mm.root, f.mm.type_⟩, f.path, f.nodeType, f.cur,
        PC.backtrack⟩ := by
  have hsub : usize_sub depth f.path.length = 0 := by
    rw [usize_sub_of_le _ _ (by omega) hdepth]; omega
  have hst : (f.mm.heap f.cur).state = s := by rw [hf0]; rfl
  rcases hpc with hpc | hpc
  · apply reaches_step _ _ _ _ (by rw [hpc]; decide)
    rw [step_leaf heuristic getChoices depth startNode f hpc (by rw [hsub]; omega)
      (by rw [hf0]; rfl), hst]
  · have h1 := step_construct_stop heuristic getChoices depth startNode f hpc (by omega)
    refine reaches_trans _ _ _ _ (reaches_safe _ _ _ _ (fun _ h => absurd h (by omega)) h1) ?_
    apply reaches_step _ _ _ _ (fun h => PC.noConfusion h)
    rw [step_leaf heuristic getChoices depth startNode _ rfl (by simp only; rw [hsub]; omega)
      (by simp only; rw [hf0]; rfl)]
    simp only [hst]

/-- A new node above the depth limit: the traversal comes to the expansion of the
node, having changed nothing but the height of the node. -/
theorem reaches_construct (f : Frame State Choice) (s : State) (type : Bool) (k : Nat)
    (hdepth : depth < 2 ^ 64) (hpc : f.pc = PC.descend ∨ f.pc = PC.construct)
    (hlen : f.path.length + (k + 1) = depth) (hty : f.nodeType = type)
    (hf0 : f.mm.heap f.cur = node.mk_shared s type) :
    ∃ hh, reaches heuristic getChoices depth startNode f
      ⟨⟨store f.mm.heap f.cur { node.mk_shared s type with height := hh },
        f.mm.next, f.mm.nodes, f.mm.root, f.mm.type_⟩, f.path, f.nodeType, f.cur,
        PC.construct⟩ := by
  have hsub : usize_sub depth f.path.length = k + 1 := by
    rw [usize_sub_of_le _ _ (by omega) hdepth]; omega
  rcases hpc with hpc | hpc
  · refine ⟨infinity, ?_⟩
    apply reaches_step _ _ _ _ (by rw [hpc]; decide)
    rw [step_descend_fire heuristic getChoices depth startNode f hpc
      (by rw [hsub, hf0]; simp [node.mk_shared])]
    have hr : reset_node f.mm.heap f.cur f.nodeType
        = store f.mm.heap f.cur { node.mk_shared s type with height := infinity } := by
      simp only [reset_node, hf0, hty]
      rfl
    rw [hr]
    simp [store, node.mk_shared]
  · refine ⟨0, ?_⟩
    have hs : store f.mm.heap f.cur { node.mk_shared s type with height := 0 } = f.mm.heap := by
      funext q
      by_cases hq : q = f.cur
      · subst hq
        simp only [store, if_true]
        rw [hf0]
        rfl
      · simp [store, hq]
    rw [hs]
    have hf : (⟨⟨f.mm.heap, f.mm.next, f.mm.nodes, f.mm.root, f.mm.type_⟩, f.path, f.nodeType,
        f.cur, PC.construct⟩ : Frame State Choice) = f := by
      rw [← hpc]
    rw [hf]
    exact reaches_refl _ _ _ _ f

/-- The traversal of a new node computes what `solve` says, for every number of plies
that are left. -/
theorem searches_all (hdepth : depth < 2 ^ 64) :
    ∀ k, searches heuristic getChoices depth startNode k := by
  intro k
  induction k with
  | zero =>
    intro f s type hpc hlen hty hf0 hxc hcur hs hnd hkeys
    refine ⟨_, reaches_leaf heuristic getChoices depth startNode f s type hdepth hpc
      (by omega) hf0, le_refl _, fun key hk => Or.inl hk, kept_store _ _ _ _ _, ?_⟩
    simp only [solve, search_done]
    exact ⟨trivial, trivial, hty, by rw [store_same]⟩
  | succ k ih =>
    intro f s type hpc hlen hty hf0 hxc hcur hs hnd hkeys
    obtain ⟨hh, hrc⟩ := reaches_construct heuristic getChoices depth startNode f s type k hdepth
      hpc hlen hty hf0
    have hndA : (produced_list (produced getChoices k) (getChoices s)).Nodup := hnd
    have hkeysA : ∀ t ∈ produced_list (produced getChoices k) (getChoices s),
        t ∉ f.mm.nodes.map Prod.fst := hkeys
    obtain ⟨e1, hexp, hnext1, hkeys1, hcur1, hfresh1, hsame1⟩ :=
      expand_fresh f.cur (!type) (getChoices s)
        ⟨store f.mm.heap f.cur { node.mk_shared s type with height := hh }, f.mm.next,
          f.mm.nodes, f.mm.root, f.mm.type_⟩ hcur
        (fun c hc => hkeysA c.2 (produced_list_sub _ _ c hc).1)
        (produced_list_states _ _ hndA)
    simp only [store_same] at hnext1 hkeys1 hcur1 hfresh1 hsame1
    have hstep := step_construct_expand heuristic getChoices depth startNode
      ⟨⟨store f.mm.heap f.cur { node.mk_shared s type with height := hh }, f.mm.next,
          f.mm.nodes, f.mm.root, f.mm.type_⟩, f.path, f.nodeType, f.cur, PC.construct⟩
      rfl (by simp only; omega) e1
      (by simp only [store_same]; rw [hty]; exact hexp)
    simp only at hstep
    have hmcur : mark_visited e1.heap f.cur f.cur
        = { e1.heap f.cur with height := infinity } := by
      simp only [mark_visited, store_same]
    have hmch : (mark_visited e1.heap f.cur f.cur).children
        = List.range' f.mm.next (getChoices s).length := by
      rw [hmcur, hcur1]
      simp [node.mk_shared]
    have hmsc : (mark_visited e1.heap f.cur f.cur).score = seed type := by
      rw [hmcur, hcur1]
      simp [node.mk_shared]
    have hmst : (mark_visited e1.heap f.cur f.cur).state = s := by
      rw [hmcur, hcur1]
      simp [node.mk_shared]
    have hmht : (mark_visited e1.heap f.cur f.cur).height = infinity := by
      rw [hmcur]
    have hmsame : ∀ q, q < f.mm.next → q ≠ f.cur →
        mark_visited e1.heap f.cur q = f.mm.heap q := by
      intro q h1 h2
      simp only [mark_visited]
      rw [store_other _ _ _ _ h2, hsame1 q h1 h2, store_other _ _ _ _ h2]
    have hmfresh : ∀ (i : Nat) (c : Choice × State), (getChoices s)[i]? = some c →
        mark_visited e1.heap f.cur (f.mm.next + i) = node.mk_shared c.2 (!type) := by
      intro i c hi
      simp only [mark_visited]
      rw [store_other _ _ _ _ (by omega)]
      exact hfresh1 i c hi
    rw [hmch] at hstep
    have hsub : usize_sub depth f.path.length = k + 1 := by
      rw [usize_sub_of_le _ _ (by omega) hdepth]; omega
    cases hgs : getChoices s with
    | nil =>
      rw [hgs] at hstep hmch hkeys1 hnext1
      simp only [List.length_nil, List.range'_zero, if_true] at hstep hmch
      have hleaf := step_leaf heuristic getChoices depth startNode
        ⟨⟨mark_visited e1.heap f.cur, e1.next, e1.nodes, e1.root, e1.type_⟩, f.path,
          f.nodeType, f.cur, PC.descend⟩ rfl
        (by simp only; rw [hmht, hsub]; unfold infinity; omega) hmch
      simp only at hleaf
      rw [hmst] at hleaf
      refine ⟨_, reaches_trans _ _ _ _ hrc
        (reaches_trans _ _ _ _ (reaches_safe _ _ _ _ (fun _ _ => by show (store _ _ _ _).children = []; rw [store_same]; rfl) hstep)
          (reaches_step _ _ _ _ (fun h => PC.noConfusion h) hleaf)),
        ?_, ?_, ?_, ?_⟩
      · simp only; omega
      · intro key hkey
        simp only at hkey
        rw [hkeys1] at hkey
        left
        simpa using hkey
      · apply kept_of_eq
        intro q h1 h2
        simp only
        rw [store_other _ _ _ _ h2]
        exact hmsame q h1 h2
      · simp only [solve, hgs, search_done]
        exact ⟨trivial, trivial, hty, by rw [store_same]⟩
    | cons c cs =>
      have hne : List.range' f.mm.next (getChoices s).length ≠ [] := by
        rw [hgs]; simp [List.range'_succ]
      rw [if_neg hne] at hstep
      have hL := searches_children_of heuristic getChoices depth startNode k ih (getChoices s)
        (go_down ⟨⟨mark_visited e1.heap f.cur, e1.next, e1.nodes, e1.root, e1.type_⟩, f.path,
          f.nodeType, f.cur, PC.construct⟩ PC.construct)
        f.cur f.mm.next 0 f.path type (seed type) rfl (by omega)
        (by simp only [go_down]; rw [hty])
        (on_path_congr startNode f.cur f.path
          (fun it hit => by
            have hlt := hxc.2.1 it hit
            simp only [go_down]
            rw [hmsame it.owner (by omega) (by omega)]) hxc)
        hcur hs (by simp only [go_down]; omega)
        (by simp only [go_down, Nat.zero_add]; exact hmch)
        (by simp only [go_down]; exact hmsc)
        (by simp only [go_down, Nat.add_zero]; exact hmfresh)
        hndA
        (by
          intro c1 hc1 t ht hmem
          simp only [go_down] at hmem
          rw [hkeys1] at hmem
          rcases List.mem_append.mp hmem with h | h
          · exact hkeysA t ((produced_list_sub _ _ c1 hc1).2 t ht) h
          · exact produced_list_below _ _ hndA c1 hc1 t ht h)
        (Or.inr ⟨by rw [hgs]; simp, Or.inr rfl, by
          simp only [go_down, Nat.add_zero]
          rw [hmch]
          exact range_headD _ _ (by rw [hgs]; simp)⟩)
      obtain ⟨f1, hr1, hn1, hk1, hkept1, hdone1⟩ := hL
      simp only [go_down] at hn1 hk1 hkept1 hdone1
      refine ⟨f1, reaches_trans _ _ _ _ hrc (reaches_trans _ _ _ _ (reaches_safe _ _ _ _
        (fun _ _ => by show (store _ _ _ _).children = []; rw [store_same]; rfl) hstep) hr1),
        by omega, ?_, ?_, ?_⟩
      · intro key hkey
        rcases hk1 key hkey with h | h
        · rw [hkeys1] at h
          rcases List.mem_append.mp h with h | h
          · exact Or.inl h
          · right
            obtain ⟨c1, hc1, hc1k⟩ := List.mem_map.mp h
            rw [← hc1k]
            exact (produced_list_sub _ _ c1 hc1).1
        · exact Or.inr h
      · exact kept_trans (kept_of_eq hmsame) hkept1
      · have hb : bound_of (mark_visited e1.heap f.cur) f.path = bound_of f.mm.heap f.path :=
          bound_of_congr f.path (fun it hit => by
            have hlt := hxc.2.1 it hit
            rw [hmsame it.owner (by omega) (by omega)])
        rw [hb, hgs] at hdone1
        simp only [solve, hgs]
        exact hdone1

end tree_search

/-! ## The search of a tree-shaped game -/

theorem first_frame_type (e : minimax State Choice) : (first_frame e).nodeType = e.type_ := by
  simp only [first_frame]
  cases e.type_ <;> decide

/-- The claim C1: for a new engine, a depth `d` with `1 ≤ d` that is at most the largest
size of the path vector, so that `path.reserve(d)` does not throw, a
heuristic whose values an `int` holds and a move generator that produces no state
twice within `d` plies of the start state, `compute(d)` returns, and the score of the
root is then the depth-limited minimax value of the start state: the pruning of
`next_node` and `update_score` does not change the value of the root. -/
theorem compute_fresh_tree [DecidableEq State] (heuristic : State → Int)
    (getChoices : State → List (Choice × State)) (start : State) (isMax : Bool) (d : Nat)
    (hd1 : 1 ≤ d) (hmax : d ≤ max_size)
    (hrange : ∀ s, scoreMin ≤ heuristic s ∧ heuristic s ≤ scoreMax)
    (htree : (produced getChoices d start).Nodup) :
    ∃ N, ∀ fuel, N ≤ fuel →
      ∃ e1, compute heuristic getChoices fuel d (minimax.new start isMax) = Except.ok e1 ∧
        e1.score = minimax_value heuristic getChoices d isMax start := by
  have hd2 : d < 2 ^ 64 := lt_of_le_of_lt hmax (by decide)
  obtain ⟨f1, hr1, _, _, _, hdone⟩ :=
    searches_all heuristic getChoices d 0 hd2 d (first_frame (minimax.new start isMax)) start
      isMax (Or.inl rfl) (by simp [first_frame]) (first_frame_type _) rfl
      (show on_path _ 0 0 [] from ⟨rfl, fun it hit => (List.not_mem_nil it hit).elim, trivial⟩)
      Nat.zero_lt_one Nat.zero_lt_one htree
      (fun t _ hmem => (List.not_mem_nil t hmem).elim)
  have hb : bound_of (first_frame (minimax.new start isMax : minimax State Choice)).mm.heap
      (first_frame (minimax.new start isMax : minimax State Choice)).path = none := rfl
  rw [hb] at hdone
  have hsound := solve_sound heuristic getChoices hrange d isMax none start
  cases hout : solve heuristic getChoices d isMax none start with
  | cut =>
    obtain ⟨b, hbb, _⟩ := hsound.2 hout
    cases hbb
  | exact v =>
    rw [hout] at hdone
    simp only [search_done] at hdone
    obtain ⟨hpc1, hpath1, _, hv⟩ := hdone
    have hstep : step heuristic getChoices d 0 f1
        = Except.ok ⟨f1.mm, f1.path, f1.nodeType, 0, PC.finished⟩ := by
      rw [step_backtrack _ _ _ _ _ hpc1, next_node_step_nil d 0 f1 hpath1]
      simp [resume]
    obtain ⟨N, hN⟩ := run_of_reaches heuristic getChoices d 0
      (reaches_trans _ _ _ _ hr1 (reaches_step _ _ _ _ (by rw [hpc1]; decide) hstep)) rfl
    refine ⟨N, fun fuel hfuel => ⟨f1.mm, ?_, ?_⟩⟩
    · have hrun := hN fuel hfuel
      unfold compute
      rw [if_neg (by
        simp only [minimax.new, node.mk_shared, infinity]
        omega), if_neg (Nat.not_lt.mpr hmax)]
      exact hrun
    · have hroot := (run_root heuristic getChoices d 0 fuel _ _ f1.mm (hN fuel hfuel)).1
      simp only [minimax.score]
      rw [hroot]
      simp only [first_frame, minimax.new]
      rw [← hsound.1 v hout]
      exact hv

/-- The claim C1 at the game `deepening_moves` searched three plies deep from a
maximizing root, where the second child of the root is pruned: the search returns
and the score of the root is the minimax value, 100. -/
theorem compute_fresh_tree_witness :
    1 ≤ 3 ∧ 3 ≤ max_size ∧
      (∀ s, scoreMin ≤ deepening_score s ∧ deepening_score s ≤ scoreMax) ∧
      (produced deepening_moves 3 []).Nodup ∧
      minimax_value deepening_score deepening_moves 3 true [] = 100 ∧
      ∃ N, ∀ fuel, N ≤ fuel →
        ∃ e1, compute deepening_score deepening_moves fuel 3 (minimax.new [] true)
            = Except.ok e1 ∧
          e1.score = minimax_value deepening_score deepening_moves 3 true [] :=
  ⟨by decide, by decide,
    fun s => by unfold deepening_score scoreMin scoreMax; split <;> constructor <;> decide,
    by decide, by decide,
    compute_fresh_tree deepening_score deepening_moves [] true 3 (by decide) (by decide)
      (fun s => by unfold deepening_score scoreMin scoreMax; split <;> constructor <;> decide)
      (by decide)⟩

/-! ## The heap after the search of a new tree -/

theorem minimax_value_dead (heuristic : State → Int)
    (getChoices : State → List (Choice × State)) (K : Nat) (type : Bool) (s : State)
    (h : getChoices s = []) : minimax_value heuristic getChoices K type s = heuristic s := by
  cases K with
  | zero => rfl
  | succ K => simp [minimax_value, h]

theorem minimax_value_fold (heuristic : State → Int)
    (getChoices : State → List (Choice × State))
    (hrange : ∀ s, scoreMin ≤ heuristic s ∧ heuristic s ≤ scoreMax)
    (K : Nat) (type : Bool) (s : State) (h : getChoices s ≠ []) :
    minimax_value heuristic getChoices (K + 1) type s
      = ((getChoices s).map (fun c => minimax_value heuristic getChoices K (!type) c.2)).foldl
          (merge type) (seed type) := by
  simp only [minimax_value]
  cases hmoves : getChoices s with
  | nil => exact absurd hmoves h
  | cons c cs =>
    simp only [List.map_cons, List.foldl_cons]
    rw [merge_seed (minimax_value_range heuristic getChoices hrange K (!type) c.2)]
    rfl

theorem lowered_to_refl (bound old : Nat) : lowered_to bound old old := Or.inl rfl

theorem lowered_to_trans {bound a b c : Nat} (h1 : lowered_to bound a b)
    (h2 : lowered_to bound b c) : lowered_to bound a c := by
  rcases h2 with h2 | h2
  · rw [h2]; exact h1
  · exact Or.inr h2

theorem lowered_to_mono {bound bound1 a b : Nat} (hb : bound ≤ bound1)
    (h : lowered_to bound a b) : lowered_to bound1 a b := by
  rcases h with h | h
  · exact Or.inl h
  · exact Or.inr (by omega)

/-- A height lowered to a bound below the unknown height is the unknown height only
if it was so before. -/
theorem lowered_to_unknown {bound a b : Nat} (h : lowered_to bound a b)
    (hb : bound < infinity) (hinf : b = infinity) : a = infinity := by
  rcases h with h | h
  · rw [← h]; exact hinf
  · omega

theorem known_of_known {ht ht1 k K : Nat} (h : known ht1 k K)
    (hinf : ht1 = infinity → ht = infinity) : known ht k K := by
  rcases h with h | ⟨h1, h2⟩
  · exact Or.inl h
  · exact Or.inr ⟨hinf h1, h2⟩

theorem known_succ {ht k K : Nat} (h : known ht (k + 1) K) :
    ∃ K1, K = K1 + 1 ∧ known ht k K1 := by
  rcases h with h | ⟨h1, h2⟩
  · exact ⟨k, h, Or.inl rfl⟩
  · exact ⟨K - 1, by omega, Or.inr ⟨h1, by omega⟩⟩

theorem cached_iff (heuristic : State → Int) (getChoices : State → List (Choice × State))
    (e : Nat) (keys : List State) (nx : Nat) (hp : Nat → node State Choice) (k x : Nat)
    (s : State) (type : Bool) :
    cached heuristic getChoices e keys nx hp k x s type ↔
      x < nx ∧ (hp x).state = s ∧
        (unexpanded getChoices e keys hp k x s type ∨ dead_end heuristic getChoices hp x ∨
          ∃ k1, k = k1 + 1 ∧ expanded heuristic getChoices hp
            (fun a t => cached heuristic getChoices e keys nx hp k1 a t (!type)) k x s type) := by
  cases k with
  | zero =>
    simp only [cached]
    constructor
    · rintro ⟨h1, h2, h3 | h3⟩
      · exact ⟨h1, h2, Or.inl h3⟩
      · exact ⟨h1, h2, Or.inr (Or.inl h3)⟩
    · rintro ⟨h1, h2, h3 | h3 | ⟨k1, h3, _⟩⟩
      · exact ⟨h1, h2, Or.inl h3⟩
      · exact ⟨h1, h2, Or.inr h3⟩
      · omega
  | succ k =>
    simp only [cached]
    constructor
    · rintro ⟨h1, h2, h3 | h3 | h3⟩
      · exact ⟨h1, h2, Or.inl h3⟩
      · exact ⟨h1, h2, Or.inr (Or.inl h3)⟩
      · exact ⟨h1, h2, Or.inr (Or.inr ⟨k, rfl, h3⟩)⟩
    · rintro ⟨h1, h2, h3 | h3 | ⟨k1, h3, h4⟩⟩
      · exact ⟨h1, h2, Or.inl h3⟩
      · exact ⟨h1, h2, Or.inr (Or.inl h3)⟩
      · have hk : k1 = k := by omega
        subst hk
        exact ⟨h1, h2, Or.inr (Or.inr h4)⟩

/-- A searched node of the unknown height has the minimax value as its score, for
the plies it was searched with and for more. -/
theorem cached_settled (heuristic : State → Int) (getChoices : State → List (Choice × State))
    (e : Nat) (keys : List State) (nx : Nat) (hp : Nat → node State Choice) (k x : Nat)
    (s : State) (type : Bool) (h : cached heuristic getChoices e keys nx hp k x s type)
    (hinf : (hp x).height = infinity) :
    ∀ K, k ≤ K → minimax_value heuristic getChoices K type s = (hp x).score := by
  obtain ⟨_, hst, h3 | h3 | ⟨k1, _, h3⟩⟩ := (cached_iff _ _ _ _ _ _ _ _ _ _).mp h
  · obtain ⟨⟨sc, r, hx⟩, _⟩ := h3
    rw [hx] at hinf
    simp [node.mk_shared, infinity] at hinf
  · intro K _
    obtain ⟨h1, _, _, h4⟩ := h3
    rw [hst] at h1 h4
    rw [h4]
    exact minimax_value_dead heuristic getChoices K type s h1
  · exact h3.2.2.choose_spec.2.2.2.1 hinf

/-- A searched node has the unknown height or a height of at most the plies it was
searched with. -/
theorem cached_height (heuristic : State → Int) (getChoices : State → List (Choice × State))
    (e : Nat) (keys : List State) (nx : Nat) (hp : Nat → node State Choice) (k x : Nat)
    (s : State) (type : Bool) (h : cached heuristic getChoices e keys nx hp k x s type)
    (hfin : (hp x).height ≠ infinity) : (hp x).height ≤ k := by
  obtain ⟨_, hst, h3 | h3 | ⟨k1, _, h3⟩⟩ := (cached_iff _ _ _ _ _ _ _ _ _ _).mp h
  · obtain ⟨⟨sc, r, hx⟩, _⟩ := h3
    rw [hx]
    simp [node.mk_shared]
  · exact absurd h3.2.2.1 hfin
  · exact h3.2.2.choose_spec.2.2.2.2 hfin

theorem same_but_rc_eq {a b : node State Choice} (h : same_but_rc a b) :
    a = { b with rc := a.rc } := by
  cases a
  cases b
  simp only [same_but_rc] at h
  obtain ⟨h1, h2, h3, h4, h5, h6⟩ := h
  subst h1 h2 h3 h4 h5 h6
  rfl

theorem same_but_rc_of_eq {a b : node State Choice} (h : a = b) : same_but_rc a b := by
  rw [h]
  exact ⟨rfl, rfl, rfl, rfl, rfl, rfl⟩

/-- The state of a move and the states produced below it are produced below the
state the move is made from. -/
theorem produced_child (getChoices : State → List (Choice × State)) (n : Nat) (s : State)
    (c : Choice × State) (hc : c ∈ getChoices s) :
    c.2 ∈ produced getChoices (n + 1) s ∧
      ∀ t ∈ produced getChoices n c.2, t ∈ produced getChoices (n + 1) s :=
  produced_list_sub (produced getChoices n) (getChoices s) c hc

/-- The description of the heap below a searched node stays true when the nodes
from `x` on whose states are produced below `x` change in their counts only, and
the table gets no new key that is produced below `x`. -/
theorem cached_congr (heuristic : State → Int) (getChoices : State → List (Choice × State))
    (e : Nat) (keys keys1 : List State) (nx nx1 : Nat) (hp hp1 : Nat → node State Choice)
    (hnx : nx ≤ nx1) :
    ∀ (k x : Nat) (s : State) (type : Bool),
      cached heuristic getChoices e keys nx hp k x s type →
      (∀ q, x ≤ q → q < nx →
        ((hp q).state = s ∨ (hp q).state ∈ produced getChoices (k + e) s) →
        same_but_rc (hp1 q) (hp q)) →
      (∀ t ∈ produced getChoices (k + e) s, t ∈ keys1 → t ∈ keys) →
      cached heuristic getChoices e keys1 nx1 hp1 k x s type := by
  intro k
  induction k with
  | zero =>
    intro x s type h hsame hkeys
    obtain ⟨hlt, hst, h3⟩ := h
    have hx := hsame x (le_refl _) hlt (Or.inl hst)
    refine ⟨by omega, hx.2.1.trans hst, ?_⟩
    rcases h3 with ⟨⟨sc, r, hnode⟩, hk⟩ | ⟨d1, d2, d3, d4⟩
    · left
      refine ⟨⟨sc, (hp1 x).rc, ?_⟩, fun t ht hmem => hk t ht (hkeys t ht hmem)⟩
      rw [same_but_rc_eq hx, hnode]
    · right
      refine ⟨?_, hx.2.2.2.2.1.trans d2, hx.2.2.2.1.trans d3, ?_⟩
      · rw [hx.2.1]; exact d1
      · rw [hx.2.2.1, hx.2.1]; exact d4
  | succ k ih =>
    intro x s type h hsame hkeys
    obtain ⟨hlt, hst, h3⟩ := h
    have hx := hsame x (le_refl _) hlt (Or.inl hst)
    refine ⟨by omega, hx.2.1.trans hst, ?_⟩
    rcases h3 with ⟨⟨sc, r, hnode⟩, hk⟩ | ⟨d1, d2, d3, d4⟩ | ⟨c1, c2, n0, c3, c4, c5, c6, c7⟩
    · left
      refine ⟨⟨sc, (hp1 x).rc, ?_⟩, fun t ht hmem => hk t ht (hkeys t ht hmem)⟩
      rw [same_but_rc_eq hx, hnode]
    · right; left
      refine ⟨?_, hx.2.2.2.2.1.trans d2, hx.2.2.2.1.trans d3, ?_⟩
      · rw [hx.2.1]; exact d1
      · rw [hx.2.2.1, hx.2.1]; exact d4
    · right; right
      refine ⟨c1, hx.2.2.2.2.2.trans c2, n0, c3, hx.2.2.2.2.1.trans c4, ?_, ?_, ?_⟩
      · intro i c hi
        have hc : c ∈ getChoices s := List.getElem?_mem hi
        have hprod := produced_child getChoices (k + e) s c hc
        have hdepth : k + 1 + e = k + e + 1 := by omega
        apply ih (n0 + i) c.2 (!type) (c5 i c hi)
        · intro q hq1 hq2 hq3
          apply hsame q (by omega) hq2
          right
          rw [hdepth]
          rcases hq3 with hq3 | hq3
          · rw [hq3]; exact hprod.1
          · exact hprod.2 _ hq3
        · intro t ht hmem
          apply hkeys t _ hmem
          rw [hdepth]
          exact hprod.2 t ht
      · rw [hx.2.2.2.1, hx.2.2.1]; exact c6
      · rw [hx.2.2.2.1]; exact c7

/-- The loop run when a parent is pruned stops at once at a sibling that was not
visited: the height of the parent becomes 0. -/
theorem prune_heights_fresh (x : Nat) (type : Bool) (sib : Nat) (sibs : List Nat)
    (hp : Nat → node State Choice) (h : (hp sib).height = 0) :
    prune_heights x type (sib :: sibs) hp = store hp x { hp x with height := 0 } := by
  have hc : (if (hp sib).score = boolInt type then scoreMax else scoreMin) ≠ 0 := by
    split <;> decide
  simp only [prune_heights]
  rw [if_pos hc, h]
  simp [store]

theorem lower_height_at (hp : Nat → node State Choice) (p ch k : Nat) :
    lower_height hp p ch k p
      = { hp p with height :=
          if ch ≠ infinity then min (usize_add ch k) (hp p).height else (hp p).height } := by
  unfold lower_height
  split
  · simp [store]
  · rfl

theorem lower_height_other (hp : Nat → node State Choice) (p ch k q : Nat) (h : q ≠ p) :
    lower_height hp p ch k q = hp q := by
  unfold lower_height
  split
  · simp [store, h]
  · rfl

/-- The statement that lowers a height by the height of a child: the height stays,
or it becomes at most the child's height plus `k`; it is the unknown height after
the statement only if the child's height is the unknown one. -/
theorem lower_height_lowered (hp : Nat → node State Choice) (p ch k bound : Nat)
    (hch : ch ≠ infinity → ch + k ≤ bound) (hb : bound < infinity) :
    lowered_to bound (hp p).height (lower_height hp p ch k p).height ∧
      ((lower_height hp p ch k p).height = infinity → ch = infinity) := by
  rw [lower_height_at]
  simp only
  have hinf : infinity = 2 ^ 64 - 1 := rfl
  by_cases h : ch = infinity
  · simp [h, lowered_to]
  · have h1 := hch h
    have h2 : usize_add ch k = ch + k := by
      unfold usize_add
      exact Nat.mod_eq_of_lt (by omega)
    rw [if_pos h, h2]
    refine ⟨Or.inr (by omega), fun h3 => ?_⟩
    have : min (ch + k) (hp p).height ≤ ch + k := Nat.min_le_left _ _
    omega

/-- The frame after the body of the loop of `next_node` for the child number `j` of
the node `x`, written out. -/
theorem merge_child_eq (startNode : Nat) (f1 : Frame State Choice) (x n0 m j : Nat)
    (path : List child_iter) (type : Bool)
    (hx : on_path f1.mm.heap startNode x path)
    (hch : (f1.mm.heap x).children = List.range' n0 m) (hj : j < m)
    (hty : f1.nodeType = !type) :
    merge_child startNode f1 ⟨x, j⟩ path
      = if (crosses type (bound_of f1.mm.heap path)
            (merge type (f1.mm.heap x).score (f1.mm.heap (n0 + j)).score) &&
            decide (j + 1 ≠ m)) = true then
          ⟨⟨lower_height
              (prune_heights x type ((List.range' n0 m).drop (j + 1))
                (update_score f1.mm.heap (n0 + j) x type))
              (top_owner startNode path) (f1.mm.heap (n0 + j)).height 2,
            f1.mm.next, f1.mm.nodes, f1.mm.root, f1.mm.type_⟩,
            advance path, type, f1.cur, f1.pc⟩
        else
          ⟨⟨lower_height (update_score f1.mm.heap (n0 + j) x type) x
              (f1.mm.heap (n0 + j)).height 1,
            f1.mm.next, f1.mm.nodes, f1.mm.root, f1.mm.type_⟩,
            ⟨x, j + 1⟩ :: path, !type, f1.cur, f1.pc⟩ := by
  have hpar : parent_of f1.mm.heap startNode (⟨x, j⟩ :: path) = x := by
    rw [parent_of_cons]; exact hx.1.symm
  have hder : deref f1.mm.heap ⟨x, j⟩ = n0 + j := by
    simp only [deref]
    rw [hch]
    exact range_getD n0 m j hj
  have hpt : (!f1.nodeType) = type := by rw [hty]; simp
  cases path with
  | nil =>
    rw [if_neg (by simp [bound_of, crosses])]
    unfold merge_child
    simp only [hpar, hder, hpt]
    rw [hty]
  | cons it2 rest2 =>
    have hgp : parent_of f1.mm.heap startNode (it2 :: rest2) = it2.owner := by
      rw [parent_of_cons]; exact hx.2.2.symm
    have hne : it2.owner ≠ x := Nat.ne_of_lt (hx.2.1 it2 (List.mem_cons_self _ _))
    have hsc : (update_score f1.mm.heap (n0 + j) x type x)
        = { f1.mm.heap x with
            score := merge type (f1.mm.heap x).score (f1.mm.heap (n0 + j)).score } := by
      rw [update_score_eq]; simp [store]
    have hsg : (update_score f1.mm.heap (n0 + j) x type it2.owner) = f1.mm.heap it2.owner := by
      rw [update_score_eq]; simp [store, hne]
    have hlast : (List.range' n0 m).getLastD 0 = n0 + m - 1 := range_getLastD n0 m (by omega)
    have hflag : (update_score_gp f1.mm.heap (n0 + j) x it2.owner type).1
        = (crosses type (bound_of f1.mm.heap (it2 :: rest2))
            (merge type (f1.mm.heap x).score (f1.mm.heap (n0 + j)).score) &&
          decide (j + 1 ≠ m)) := by
      rw [update_score_gp_eq]
      simp only [hsc, hsg, hch, hlast, crosses, bound_of]
      congr 1
      apply decide_eq_decide.mpr
      omega
    have hheap : (update_score_gp f1.mm.heap (n0 + j) x it2.owner type).2
        = update_score f1.mm.heap (n0 + j) x type := by
      rw [update_score_gp_eq]
    have hchA : (update_score f1.mm.heap (n0 + j) x type x).children = List.range' n0 m := by
      rw [hsc]; exact hch
    by_cases hcut : (crosses type (bound_of f1.mm.heap (it2 :: rest2))
            (merge type (f1.mm.heap x).score (f1.mm.heap (n0 + j)).score) &&
          decide (j + 1 ≠ m)) = true
    · rw [if_pos hcut]
      unfold merge_child
      simp only [hpar, hder, hpt, hgp, hflag, hcut, if_true, hheap, hchA]
      rfl
    · rw [if_neg hcut]
      unfold merge_child
      simp only [hpar, hder, hpt, hgp, hflag, hcut, hheap]
      rw [hty]
      rfl

theorem range_drop (n0 m j : Nat) (hj : j < m) :
    (List.range' n0 m).drop j = (n0 + j) :: (List.range' n0 m).drop (j + 1) := by
  rw [List.drop_eq_getElem_cons (by simpa using hj)]
  simp

/-- The heap after the body of the loop of `next_node` for the child number `j` of
the node `x`, when the next child of `x`, if there is one, was not visited yet: a
pruned `x` gets the height 0 and the parent of `x` is lowered by the height of the
child plus 2; otherwise `x` is lowered by the height of the child plus 1. -/
theorem merge_child_first (startNode : Nat) (f1 : Frame State Choice) (x n0 m j : Nat)
    (path : List child_iter) (type : Bool)
    (hx : on_path f1.mm.heap startNode x path)
    (hch : (f1.mm.heap x).children = List.range' n0 m) (hj : j < m)
    (hty : f1.nodeType = !type) (hxn : x < n0)
    (hfresh : j + 1 < m → (f1.mm.heap (n0 + j + 1)).height = 0) :
    if (crosses type (bound_of f1.mm.heap path)
          (merge type (f1.mm.heap x).score (f1.mm.heap (n0 + j)).score) &&
          decide (j + 1 ≠ m)) = true then
      (merge_child startNode f1 ⟨x, j⟩ path).mm.heap x
          = { f1.mm.heap x with
              score := merge type (f1.mm.heap x).score (f1.mm.heap (n0 + j)).score,
              height := 0 } ∧
        (∀ q, q ≠ x → q ≠ top_owner startNode path →
          (merge_child startNode f1 ⟨x, j⟩ path).mm.heap q = f1.mm.heap q) ∧
        (merge_child startNode f1 ⟨x, j⟩ path).mm.heap (top_owner startNode path)
          = lower_height f1.mm.heap (top_owner startNode path) (f1.mm.heap (n0 + j)).height 2
              (top_owner startNode path) ∧
        top_owner startNode path ≠ x
    else
      (merge_child startNode f1 ⟨x, j⟩ path).mm.heap x
          = { f1.mm.heap x with
              score := merge type (f1.mm.heap x).score (f1.mm.heap (n0 + j)).score,
              height := (lower_height f1.mm.heap x (f1.mm.heap (n0 + j)).height 1 x).height } ∧
        (∀ q, q ≠ x → (merge_child startNode f1 ⟨x, j⟩ path).mm.heap q = f1.mm.heap q) := by
  rw [merge_child_eq startNode f1 x n0 m j path type hx hch hj hty]
  have hA : update_score f1.mm.heap (n0 + j) x type
      = store f1.mm.heap x { f1.mm.heap x with
          score := merge type (f1.mm.heap x).score (f1.mm.heap (n0 + j)).score } :=
    update_score_eq _ _ _ _
  by_cases hcut : (crosses type (bound_of f1.mm.heap path)
          (merge type (f1.mm.heap x).score (f1.mm.heap (n0 + j)).score) &&
          decide (j + 1 ≠ m)) = true
  · rw [if_pos hcut, if_pos hcut]
    simp only
    have hj1 : j + 1 < m := by
      simp only [Bool.and_eq_true, decide_eq_true_eq] at hcut
      omega
    have hw : top_owner startNode path ≠ x := by
      cases path with
      | nil => simp [bound_of, crosses] at hcut
      | cons it2 rest2 =>
        exact Nat.ne_of_lt (hx.2.1 it2 (List.mem_cons_self _ _))
    have hsib : (update_score f1.mm.heap (n0 + j) x type (n0 + (j + 1))).height = 0 := by
      rw [hA, store_other _ _ _ _ (by omega)]
      exact hfresh hj1
    rw [range_drop n0 m (j + 1) hj1, prune_heights_fresh _ _ _ _ _ hsib, hA]
    refine ⟨?_, ?_, ?_, hw⟩
    · rw [lower_height_other _ _ _ _ _ (Ne.symm hw), store_same, store_same]
    · intro q hq1 hq2
      rw [lower_height_other _ _ _ _ _ hq2, store_other _ _ _ _ hq1, store_other _ _ _ _ hq1]
    · rw [lower_height_at, lower_height_at, store_other _ _ _ _ hw, store_other _ _ _ _ hw]
  · rw [if_neg hcut, if_neg hcut]
    simp only
    rw [hA]
    refine ⟨?_, ?_⟩
    · rw [lower_height_at, lower_height_at, store_same]
    · intro q hq
      rw [lower_height_other _ _ _ _ _ hq, store_other _ _ _ _ hq]

theorem top_owner_ne (startNode x : Nat) (path : List child_iter) (hne : path ≠ [])
    (hp : ∀ it ∈ path, it.owner < x) : top_owner startNode path ≠ x := by
  cases path with
  | nil => exact absurd rfl hne
  | cons it rest => exact Nat.ne_of_lt (hp it (List.mem_cons_self _ _))

theorem bound_of_some {hp : Nat → node State Choice} {path : List child_iter} {b : Int}
    (h : bound_of hp path = some b) : path ≠ [] := by
  cases path with
  | nil => cases h
  | cons it rest => exact List.cons_ne_nil _ _

theorem produced_list_head (below : State → List State) (c : Choice × State)
    (cs : List (Choice × State)) (h : (produced_list below (c :: cs)).Nodup) :
    ∀ c1 ∈ cs, c1.2 ≠ c.2 ∧ c1.2 ∉ below c.2 := by
  intro c1 hc1
  have hmem := (produced_list_sub below cs c1 hc1).1
  obtain ⟨_, _, h3⟩ := produced_list_cons below c cs h
  simp only [produced_list, List.nodup_cons, List.mem_append, not_or] at h
  refine ⟨fun heq => h.1.2 (heq ▸ hmem), fun hb => (h3 _ hb).2 hmem⟩

theorem better_of_merge {type : Bool} {a b v : Int} (h1 : better type a b = false)
    (h2 : better type (merge type a v) b = true) : better type v b = true := by
  cases type <;> simp [better, merge] at * <;> omega

theorem better_merge_right {type : Bool} {b v : Int} (a : Int) (h : better type v b = true) :
    better type (merge type a v) b = true := by
  cases type <;> simp [better, merge] at * <;> omega

theorem seed_range (type : Bool) : scoreMin ≤ seed type ∧ seed type ≤ scoreMax := by
  cases type <;> simp [seed, scoreMin, scoreMax]

theorem better_seed {type : Bool} {b : Int} (h : scoreMin ≤ b ∧ b ≤ scoreMax) :
    better type (seed type) b = false := by
  cases type <;> simp [better, seed] <;> omega

theorem kept_of_kept_out {n m x w lo hi : Nat} {hp hp1 : Nat → node State Choice}
    (h : kept_out n x w lo hi hp hp1) (hm : m ≤ n) (hlo : m ≤ lo) : kept m x w hp hp1 := by
  intro q hq hqx
  exact h q (by omega) hqx (by omega)

theorem entered_node {f : Frame State Choice} {s : State} {type : Bool}
    (h : entered f s type) :
    ∃ (sc : Int) (r : Nat),
      f.mm.heap f.cur = { node.mk_shared s type with score := sc, rc := r } := by
  rcases h with ⟨_, h⟩ | ⟨_, sc, r, h⟩
  · exact ⟨seed type, 1, by rw [h]; rfl⟩
  · exact ⟨sc, r, h⟩

theorem entered_pc {f : Frame State Choice} {s : State} {type : Bool}
    (h : entered f s type) : f.pc = PC.descend ∨ f.pc = PC.construct := by
  rcases h with ⟨h, _⟩ | ⟨h, _⟩
  · exact Or.inr h
  · exact Or.inl h

section first_search

variable [DecidableEq State] (heuristic : State → Int)
  (getChoices : State → List (Choice × State)) (depth startNode : Nat)

/-- A new node at the depth limit is scored by the heuristic, however it is
entered. -/
theorem reaches_leaf_entered (f : Frame State Choice) (s : State) (type : Bool)
    (hdepth : depth < 2 ^ 64) (hent : entered f s type) (hlen : f.path.length = depth) :
    reaches heuristic getChoices depth startNode f
      ⟨⟨store f.mm.heap f.cur { f.mm.heap f.cur with score := heuristic s },
        f.mm.next, f.mm.nodes, f.mm.root, f.mm.type_⟩, f.path, f.nodeType, f.cur,
        PC.backtrack⟩ := by
  obtain ⟨sc, r, hf0⟩ := entered_node hent
  have hsub : usize_sub depth f.path.length = 0 := by
    rw [usize_sub_of_le _ _ (by omega) hdepth]; omega
  have hst : (f.mm.heap f.cur).state = s := by rw [hf0]; rfl
  rcases entered_pc hent with hpc | hpc
  · apply reaches_step _ _ _ _ (by rw [hpc]; decide)
    rw [step_leaf heuristic getChoices depth startNode f hpc (by rw [hsub]; omega)
      (by rw [hf0]; rfl), hst]
  · have h1 := step_construct_stop heuristic getChoices depth startNode f hpc (by omega)
    refine reaches_trans _ _ _ _ (reaches_safe _ _ _ _ (fun _ h => absurd h (by omega)) h1) ?_
    apply reaches_step _ _ _ _ (fun h => PC.noConfusion h)
    rw [step_leaf heuristic getChoices depth startNode _ rfl (by simp only; rw [hsub]; omega)
      (by simp only; rw [hf0]; rfl)]
    simp only [hst]

/-- A new node above the depth limit: the traversal comes to the expansion of the
node, having changed nothing but its height and its score, which is the seed. -/
theorem reaches_construct_entered (f : Frame State Choice) (s : State) (type : Bool) (k : Nat)
    (hdepth : depth < 2 ^ 64) (hent : entered f s type)
    (hlen : f.path.length + (k + 1) = depth) (hty : f.nodeType = type) :
    ∃ (hh r : Nat), reaches heuristic getChoices depth startNode f
      ⟨⟨store f.mm.heap f.cur { node.mk_shared s type with height := hh, rc := r },
        f.mm.next, f.mm.nodes, f.mm.root, f.mm.type_⟩, f.path, f.nodeType, f.cur,
        PC.construct⟩ := by
  have hsub : usize_sub depth f.path.length = k + 1 := by
    rw [usize_sub_of_le _ _ (by omega) hdepth]; omega
  rcases hent with ⟨hpc, hf0⟩ | ⟨hpc, sc, r, hf0⟩
  · refine ⟨0, 1, ?_⟩
    have hs : store f.mm.heap f.cur { node.mk_shared s type with height := 0, rc := 1 }
        = f.mm.heap := by
      funext q
      by_cases hq : q = f.cur
      · subst hq
        simp only [store, if_true]
        rw [hf0]
        rfl
      · simp [store, hq]
    rw [hs]
    have hf : (⟨⟨f.mm.heap, f.mm.next, f.mm.nodes, f.mm.root, f.mm.type_⟩, f.path, f.nodeType,
        f.cur, PC.construct⟩ : Frame State Choice) = f := by
      rw [← hpc]
    rw [hf]
    exact reaches_refl _ _ _ _ f
  · refine ⟨infinity, r, ?_⟩
    apply reaches_step _ _ _ _ (by rw [hpc]; decide)
    rw [step_descend_fire heuristic getChoices depth startNode f hpc
      (by rw [hsub, hf0]; simp [node.mk_shared])]
    have hr : reset_node f.mm.heap f.cur f.nodeType
        = store f.mm.heap f.cur { node.mk_shared s type with height := infinity, rc := r } := by
      simp only [reset_node, hf0, hty]
      rfl
    rw [hr]
    simp [store, node.mk_shared]

/-- Once the child number `j` of `x` is accounted for in the first search and `x` is
not pruned, the loop over the remaining children goes on from the test for the next
sibling. -/
theorem searches_first_next (e k : Nat) (hdepth : depth < infinity) (c : Choice × State)
    (rest : List (Choice × State))
    (ih : searches_first_children heuristic getChoices depth startNode e k rest)
    (f : Frame State Choice) (x n0 j : Nat) (path : List child_iter) (type : Bool)
    (hlen : path.length + 1 + k = depth)
    (hx : on_path f.mm.heap startNode x path)
    (hxn : x < n0) (hsn : startNode < n0) (hnext : n0 + j + (rest.length + 1) ≤ f.mm.next)
    (hch : (f.mm.heap x).children = List.range' n0 (j + (rest.length + 1)))
    (hfresh : ∀ (i : Nat) (c1 : Choice × State), (c :: rest)[i]? = some c1 →
      f.mm.heap (n0 + j + i) = node.mk_shared c1.2 (!type))
    (hnd : (produced_list (produced getChoices (k + e)) (c :: rest)).Nodup)
    (hkeys : ∀ c1 ∈ c :: rest, ∀ t ∈ produced getChoices (k + e) c1.2,
      t ∉ f.mm.nodes.map Prod.fst)
    (hbound : ∀ b, bound_of f.mm.heap path = some b → scoreMin ≤ b ∧ b ≤ scoreMax)
    (f2 : Frame State Choice)
    (hr : reaches heuristic getChoices depth startNode f (return_check depth startNode f2))
    (hpc2 : f2.pc = PC.backtrack) (hpath2 : f2.path = ⟨x, j + 1⟩ :: path)
    (hty2 : f2.nodeType = (!type)) (hn2 : f.mm.next ≤ f2.mm.next)
    (hk2 : ∀ key ∈ f2.mm.nodes.map Prod.fst,
      key ∈ f.mm.nodes.map Prod.fst ∨ key ∈ produced getChoices (k + e) c.2)
    (hmid : ∀ q, q < f.mm.next → q ≠ x → q ≠ n0 + j → f2.mm.heap q = f.mm.heap q)
    (hx2 : f2.mm.heap x = { f.mm.heap x with
      height := (f2.mm.heap x).height, score := (f2.mm.heap x).score })
    (hc2 : cached heuristic getChoices e (f2.mm.nodes.map Prod.fst) f2.mm.next f2.mm.heap k
      (n0 + j) c.2 (!type))
    (hlow2 : lowered_to (k + 1) (f.mm.heap x).height (f2.mm.heap x).height)
    (hacc2 : scoreMin ≤ (f2.mm.heap x).score ∧ (f2.mm.heap x).score ≤ scoreMax)
    (hncross2 : rest ≠ [] → crosses type (bound_of f.mm.heap path) (f2.mm.heap x).score = false)
    (hsem2 : ∀ K, known (f2.mm.heap x).height k K →
      merge type (f.mm.heap x).score (minimax_value heuristic getChoices K (!type) c.2)
        = (f2.mm.heap x).score) :
    ∃ f1, reaches heuristic getChoices depth startNode f f1 ∧
      f.mm.next ≤ f1.mm.next ∧
      (∀ key ∈ f1.mm.nodes.map Prod.fst,
        key ∈ f.mm.nodes.map Prod.fst ∨
          key ∈ produced_list (produced getChoices (k + e)) (c :: rest)) ∧
      kept_out f.mm.next x (top_owner startNode path) (n0 + j) (n0 + j + (c :: rest).length)
        f.mm.heap f1.mm.heap ∧
      f1.mm.heap x = { f.mm.heap x with
        height := (f1.mm.heap x).height, score := (f1.mm.heap x).score } ∧
      (∀ (i : Nat) (c1 : Choice × State), (c :: rest)[i]? = some c1 →
        cached heuristic getChoices e (f1.mm.nodes.map Prod.fst) f1.mm.next f1.mm.heap k
          (n0 + j + i) c1.2 (!type)) ∧
      lowered_to (k + 1) (f.mm.heap x).height (f1.mm.heap x).height ∧
      first_children_done heuristic getChoices depth startNode k f f1 x path type
        (c :: rest) := by
  obtain ⟨_, hnd2, hnd3⟩ := produced_list_cons (produced getChoices (k + e)) c rest hnd
  have hhead := produced_list_head (produced getChoices (k + e)) c rest hnd
  have hinf : infinity = 2 ^ 64 - 1 := rfl
  have hwlt : top_owner startNode path < n0 := top_owner_lt startNode x n0 path hsn hxn hx.2.1
  have hown : ∀ it ∈ path, f2.mm.heap it.owner = f.mm.heap it.owner := by
    intro it hit
    have hlt := hx.2.1 it hit
    exact hmid it.owner (by omega) (by omega) (by omega)
  have hxB : on_path f2.mm.heap startNode x path :=
    on_path_congr startNode x path (fun it hit => by rw [hown it hit]) hx
  have hb2 : bound_of f2.mm.heap path = bound_of f.mm.heap path :=
    bound_of_congr path (fun it hit => by rw [hown it hit])
  have hmm : (return_check depth startNode f2).mm = f2.mm := return_check_root _ _ _
  have hfresh2 : ∀ (i : Nat) (c1 : Choice × State), rest[i]? = some c1 →
      f2.mm.heap (n0 + (j + 1) + i) = node.mk_shared c1.2 (!type) := by
    intro i c1 hi
    have hlt : i < rest.length := by
      by_contra hcon
      rw [List.getElem?_eq_none (by omega)] at hi
      cases hi
    have ha : n0 + (j + 1) + i = n0 + j + (i + 1) := by omega
    rw [ha, hmid _ (by omega) (by omega) (by omega)]
    exact hfresh (i + 1) c1 (by simpa using hi)
  have hch2 : (f2.mm.heap x).children = List.range' n0 (j + 1 + rest.length) := by
    rw [hx2]
    simp only
    rw [hch]
    congr 1
    omega
  have hpc3 : (rest = [] ∧ (return_check depth startNode f2).pc = PC.backtrack) ∨
      (rest ≠ [] ∧ ((return_check depth startNode f2).pc = PC.descend ∨
        (return_check depth startNode f2).pc = PC.construct) ∧
        (return_check depth startNode f2).cur = n0 + (j + 1)) := by
    cases hrest : rest with
    | nil =>
      left
      rw [hrest] at hch2
      rw [return_check_last depth startNode f2 x n0 (j + 1) path hpath2 hxB.1 hch2]
      exact ⟨rfl, hpc2⟩
    | cons c1 rest1 =>
      right
      have hh : (f2.mm.heap (n0 + (j + 1))).height = 0 := by
        have := hfresh2 0 c1 (by rw [hrest]; simp)
        rw [Nat.add_zero] at this
        rw [this]
        rfl
      rw [return_check_next depth startNode f2 x n0 (j + 1 + rest.length) (j + 1) path hpath2
        hxB.1 hch2 (by rw [hrest]; simp) hh hsn]
      exact ⟨by simp, Or.inl rfl, rfl⟩
  have hkeys3 : ∀ c1 ∈ rest, ∀ t ∈ produced getChoices (k + e) c1.2,
      t ∉ (return_check depth startNode f2).mm.nodes.map Prod.fst := by
    intro c1 hc1 t ht hmem
    rw [hmm] at hmem
    rcases hk2 t hmem with h | h
    · exact hkeys c1 (List.mem_cons_of_mem _ hc1) t ht h
    · exact (hnd3 t h).2 ((produced_list_sub (produced getChoices (k + e)) rest c1 hc1).2 t ht)
  obtain ⟨f3, hr3, hn3, hk3, hkept3, hx3, hc3, hlow3, hdone3⟩ :=
    ih (return_check depth startNode f2) x n0 (j + 1) path type
      (by rw [return_check_path]; exact hpath2) hlen
      (by rw [return_check_nodeType]; exact hty2)
      (by rw [hmm]; exact hxB) hxn hsn (by rw [hmm]; omega)
      (by rw [hmm]; exact hch2)
      (by rw [hmm]; exact hfresh2) hnd2 hkeys3 hpc3
      (by rw [hmm]; exact hacc2)
      (by rw [hmm, hb2]; exact hbound)
      (by rw [hmm, hb2]; exact hncross2)
  unfold first_children_done at hdone3
  rw [hmm] at hn3 hk3 hkept3 hx3 hlow3 hdone3
  have hinblock : ∀ q, n0 + (j + 1) ≤ q → q < n0 + (j + 1) + rest.length →
      ∃ c1 ∈ rest, (f2.mm.heap q).state = c1.2 := by
    intro q h1 h2
    have hlt : q - (n0 + (j + 1)) < rest.length := by omega
    refine ⟨rest[q - (n0 + (j + 1))], List.getElem_mem _, ?_⟩
    have := hfresh2 (q - (n0 + (j + 1))) _ (List.getElem?_eq_getElem hlt)
    have hq : n0 + (j + 1) + (q - (n0 + (j + 1))) = q := by omega
    rw [hq] at this
    rw [this]
    rfl
  refine ⟨f3, reaches_trans _ _ _ _ hr hr3, by omega, ?_, ?_, ?_, ?_,
    lowered_to_trans hlow2 hlow3, ?_⟩
  · intro key hkey
    rcases hk3 key hkey with h | h
    · rcases hk2 key h with h1 | h1
      · exact Or.inl h1
      · right
        simp only [produced_list]
        exact List.mem_cons_of_mem _ (List.mem_append_left _ h1)
    · right
      simp only [produced_list]
      exact List.mem_cons_of_mem _ (List.mem_append_right _ h)
  · intro q hq hqx hblock
    simp only [List.length_cons] at hblock
    have e0 := hmid q hq hqx (by omega)
    have k3 := hkept3 q (by omega) hqx (by omega)
    rw [e0] at k3
    exact k3
  · rw [hx3, hx2]
  · intro i c1 hi
    cases i with
    | zero =>
      have hcc : c = c1 := by simpa using hi
      subst hcc
      apply cached_congr heuristic getChoices e _ _ _ _ _ _ hn3 k (n0 + j) c.2 (!type) hc2
      · intro q hq1 hq2 hq3
        apply same_but_rc_of_eq
        refine (hkept3 q hq2 (by omega) ?_).1 (by omega)
        rintro ⟨h1, h2⟩
        obtain ⟨c1, hc1, hst⟩ := hinblock q h1 h2
        rw [hst] at hq3
        rcases hq3 with hq3 | hq3
        · exact (hhead c1 hc1).1 hq3
        · exact (hhead c1 hc1).2 hq3
      · intro t ht hmem
        rcases hk3 t hmem with h | h
        · exact h
        · exact absurd h (hnd3 t ht).2
    | succ i =>
      have ha : n0 + j + (i + 1) = n0 + (j + 1) + i := by omega
      rw [ha]
      exact hc3 i c1 (by simpa using hi)
  · rcases hdone3 with ⟨p1, p2, p3, p4, p5, p6⟩ | ⟨hf0, ht0, b, hb, hl, hs⟩
    · left
      refine ⟨p1, p2, p3, p4, ?_, ?_⟩
      · intro hne
        rw [p5 hne]
        exact hmid _ (by omega) (top_owner_ne startNode x path hne hx.2.1) (by omega)
      · intro K hK
        have hK2 : known (f2.mm.heap x).height k K :=
          known_of_known hK (fun h => lowered_to_unknown hlow3 (by omega) h)
        rw [p6 K hK]
        simp only [List.map_cons, List.foldl_cons]
        rw [hsem2 K hK2]
    · right
      rw [hb2] at hb
      have hne := bound_of_some hb
      have hw : f2.mm.heap (top_owner startNode path) = f.mm.heap (top_owner startNode path) :=
        hmid _ (by omega) (top_owner_ne startNode x path hne hx.2.1) (by omega)
      rw [hw] at hl
      refine ⟨hf0, ht0, b, hb, hl, ?_⟩
      intro K hK a0
      simp only [List.map_cons, List.foldl_cons]
      exact hs K hK _

/-- The first search of the children of an expanded node, given the first search of
one child. -/
theorem searches_first_children_of (e k : Nat) (hdepth : depth < infinity)
    (hN : searches_first heuristic getChoices depth startNode e k) :
    ∀ rest, searches_first_children heuristic getChoices depth startNode e k rest := by
  intro rest
  induction rest with
  | nil =>
    intro f x n0 j path type hpath hlen hty hx hxn hsn hnext hch hfresh hnd hkeys hpc hacc
      hbound hncross
    rcases hpc with ⟨_, hpc⟩ | ⟨hne, _⟩
    · refine ⟨⟨f.mm, path, !f.nodeType, f.cur, f.pc⟩, ?_, le_refl _, fun key hk => Or.inl hk,
        fun q _ _ _ => ⟨fun _ => rfl, rfl⟩, rfl, ?_, lowered_to_refl _ _, ?_⟩
      · apply reaches_step _ _ _ _ (by rw [hpc]; decide)
        rw [step_backtrack _ _ _ _ _ hpc]
        rw [next_node_step_end depth startNode f ⟨x, j⟩ path hpath
          (by rw [parent_of_cons, ← hx.1, hch]; simp)]
      · intro i c hi
        simp at hi
      · left
        refine ⟨hpc, rfl, by simp only; rw [hty]; simp, hacc, fun _ => rfl, fun K _ => rfl⟩
    · exact absurd rfl hne
  | cons c rest ih =>
    intro f x n0 j path type hpath hlen hty hx hxn hsn hnext hch hfresh hnd hkeys hpc hacc
      hbound hncross
    rcases hpc with ⟨hnil, _⟩ | ⟨_, hpc, hcur⟩
    · cases hnil
    simp only [List.length_cons] at hnext hch
    have hinf : infinity = 2 ^ 64 - 1 := rfl
    obtain ⟨hnd1, _, hnd3⟩ := produced_list_cons (produced getChoices (k + e)) c rest hnd
    have hhead := produced_list_head (produced getChoices (k + e)) c rest hnd
    have hder : deref f.mm.heap ⟨x, j⟩ = n0 + j := by
      simp only [deref]
      rw [hch]
      exact range_getD _ _ _ (by omega)
    have hf0 : f.mm.heap f.cur = node.mk_shared c.2 (!type) := by
      rw [hcur]
      exact hfresh 0 c (by simp)
    have hent : entered f c.2 (!type) := by
      rcases hpc with hpc | hpc
      · exact Or.inr ⟨hpc, seed (!type), 1, by rw [hf0]; rfl⟩
      · exact Or.inl ⟨hpc, hf0⟩
    have hxc : on_path f.mm.heap startNode f.cur f.path := by
      rw [hpath, hcur]
      refine ⟨?_, ?_, ?_⟩
      · simp only [target]; exact hder.symm
      · intro it hit
        rcases List.mem_cons.mp hit with h | h
        · subst h; simp only; omega
        · have := hx.2.1 it h; omega
      · exact hx.1
    obtain ⟨f1, hr1, hn1, hk1, hkept1, hcached1, hdone1⟩ := hN f c.2 (!type) hent
      (by rw [hpath]; simp only [List.length_cons]; omega) hty hxc (by rw [hcur]; omega)
      (by omega) hnd1 (hkeys c (List.mem_cons_self _ _))
      (by
        intro b hb
        rw [hpath] at hb
        simp only [bound_of, Option.some.injEq] at hb
        rw [← hb]
        exact hacc)
    unfold first_done at hdone1
    rw [hpath, hcur] at hkept1 hdone1
    rw [hcur] at hcached1
    simp only [bound_of, top_owner, Option.some.injEq] at hkept1 hdone1
    have hwlt : top_owner startNode path < n0 := top_owner_lt startNode x n0 path hsn hxn hx.2.1
    have hmid1 : ∀ q, q < f.mm.next → q ≠ x → q ≠ n0 + j → f1.mm.heap q = f.mm.heap q := by
      intro q h1 h2 h3
      exact (hkept1 q h1 h3).1 h2
    have hxA : f1.mm.heap x = { f.mm.heap x with height := (f1.mm.heap x).height } :=
      (hkept1 x (by omega) (by omega)).2
    have hchA : (f1.mm.heap x).children = List.range' n0 (j + (rest.length + 1)) := by
      rw [hxA]; exact hch
    have hown : ∀ it ∈ path, f1.mm.heap it.owner = f.mm.heap it.owner := by
      intro it hit
      have hlt := hx.2.1 it hit
      exact hmid1 it.owner (by omega) (by omega) (by omega)
    have hx1 : on_path f1.mm.heap startNode x path :=
      on_path_congr startNode x path (fun it hit => by rw [hown it hit]) hx
    have hb1 : bound_of f1.mm.heap path = bound_of f.mm.heap path :=
      bound_of_congr path (fun it hit => by rw [hown it hit])
    have hk1lt : k + 1 < infinity := by omega
    rcases hdone1 with ⟨hpc1, hpath1, hty1, hvr, hwsame, hsemc⟩ |
        ⟨⟨f0, hf1, hpc0, hpath0, hty0⟩, b, hb, hlowc, hsemc⟩
    · -- the child has an exact score
      have hxe : f1.mm.heap x = f.mm.heap x := hwsame (List.cons_ne_nil _ _)
      have hstep : step heuristic getChoices depth startNode f1
          = Except.ok (return_check depth startNode (merge_child startNode f1 ⟨x, j⟩ path)) := by
        rw [step_backtrack _ _ _ _ _ hpc1]
        rw [next_node_step_child depth startNode f1 ⟨x, j⟩ path hpath1
          (by rw [parent_of_cons, ← hx1.1, hchA]; simp)]
      have hr2 := reaches_trans _ _ _ _ hr1 (reaches_step _ _ _ _ (by rw [hpc1]; decide) hstep)
      obtain ⟨mpc, _, mnext, mnodes, _, _, mif⟩ :=
        merge_child_spec startNode f1 x n0 (j + (rest.length + 1)) j f.mm.next path type hx1 hchA
          (by omega) hty1
      have mfirst := merge_child_first startNode f1 x n0 (j + (rest.length + 1)) j path type hx1
        hchA (by omega) hty1 hxn (by
          intro hlt
          have hl : 0 < rest.length := by omega
          rw [hmid1 _ (by omega) (by omega) (by omega)]
          rw [hfresh 1 rest[0] (by simp [List.getElem?_eq_getElem hl])]
          rfl)
      rw [hb1, hxe] at mif mfirst
      have hchb : (f1.mm.heap (n0 + j)).height ≠ infinity → (f1.mm.heap (n0 + j)).height ≤ k :=
        cached_height heuristic getChoices e _ _ _ k (n0 + j) c.2 (!type) hcached1
      have hcong : ∀ (hp2 : Nat → node State Choice),
          (∀ q, q ≠ x → q ≠ top_owner startNode path → hp2 q = f1.mm.heap q) →
          cached heuristic getChoices e (f1.mm.nodes.map Prod.fst) f1.mm.next hp2 k (n0 + j) c.2
            (!type) := by
        intro hp2 h2
        apply cached_congr heuristic getChoices e _ _ _ _ _ _ (le_refl _) k (n0 + j) c.2 (!type)
          hcached1
        · intro q hq1 _ _
          exact same_but_rc_of_eq (h2 q (by omega) (by omega))
        · intro t _ hmem
          exact hmem
      by_cases hcut : (crosses type (bound_of f.mm.heap path)
          (merge type (f.mm.heap x).score (f1.mm.heap (n0 + j)).score) &&
          decide (j + 1 ≠ j + (rest.length + 1))) = true
      · -- the node `x` is pruned
        rw [if_pos hcut] at mif mfirst
        obtain ⟨mx, mother, mw, hwx⟩ := mfirst
        have hcr : crosses type (bound_of f.mm.heap path)
            (merge type (f.mm.heap x).score (f1.mm.heap (n0 + j)).score) = true := by
          simp only [Bool.and_eq_true] at hcut
          exact hcut.1
        cases hbo : bound_of f.mm.heap path with
        | none => rw [hbo] at hcr; simp [crosses] at hcr
        | some b =>
          rw [hbo] at hcr
          have hne := bound_of_some hbo
          have hpl : 1 ≤ path.length := by
            cases path with
            | nil => exact absurd rfl hne
            | cons it rest2 => simp
          have hw1 : f1.mm.heap (top_owner startNode path) = f.mm.heap (top_owner startNode path) :=
            hmid1 _ (by omega) hwx (by omega)
          have hlw := lower_height_lowered f1.mm.heap (top_owner startNode path)
            (f1.mm.heap (n0 + j)).height 2 (k + 2)
            (fun h => by have := hchb h; omega) (by omega)
          refine ⟨return_check depth startNode (merge_child startNode f1 ⟨x, j⟩ path), hr2,
            ?_, ?_, ?_, ?_, ?_, ?_, ?_⟩
          · rw [return_check_root, mnext]; exact hn1
          · intro key hkey
            rw [return_check_root, mnodes] at hkey
            rcases hk1 key hkey with h | h
            · exact Or.inl h
            · right
              simp only [produced_list]
              exact List.mem_cons_of_mem _ (List.mem_append_left _ h)
          · intro q hq hqx hblock
            simp only [List.length_cons] at hblock
            rw [return_check_root]
            have e0 := hmid1 q hq hqx (by omega)
            by_cases hqw : q = top_owner startNode path
            · subst hqw
              refine ⟨fun h => absurd rfl h, ?_⟩
              rw [mw, lower_height_at, e0]
            · have e1 := mother q hqx hqw
              rw [e1, e0]
              exact ⟨fun _ => rfl, rfl⟩
          · rw [return_check_root, mx]
          · intro i c1 hi
            rw [return_check_root, mnodes, mnext]
            cases i with
            | zero =>
              have hcc : c = c1 := by simpa using hi
              subst hcc
              exact hcong _ mother
            | succ i =>
              have hi2 : rest[i]? = some c1 := by simpa using hi
              have hc1 : c1 ∈ rest := List.getElem?_mem hi2
              have hlt : i < rest.length := by
                by_contra hcon
                rw [List.getElem?_eq_none (by omega)] at hi2
                cases hi2
              have hq : (merge_child startNode f1 ⟨x, j⟩ path).mm.heap (n0 + j + (i + 1))
                  = node.mk_shared c1.2 (!type) := by
                rw [mother _ (by omega) (by omega), hmid1 _ (by omega) (by omega) (by omega)]
                exact hfresh (i + 1) c1 hi
              refine (cached_iff _ _ _ _ _ _ _ _ _ _).mpr ⟨by omega, by rw [hq]; rfl, Or.inl
                ⟨⟨seed (!type), 1, by rw [hq]; rfl⟩, ?_⟩⟩
              intro t ht hmem
              rcases hk1 t hmem with h | h
              · exact hkeys c1 (List.mem_cons_of_mem _ hc1) t ht h
              · exact (hnd3 t h).2
                  ((produced_list_sub (produced getChoices (k + e)) rest c1 hc1).2 t ht)
          · rw [return_check_root, mx]
            exact Or.inr (Nat.zero_le _)
          · right
            refine ⟨⟨_, rfl, by rw [mpc]; exact hpc1, mif.1, mif.2⟩, ?_, b, hbo, ?_, ?_⟩
            · rw [return_check_root, mx]
            · rw [return_check_root, mw, ← hw1]
              exact hlw.1
            · intro K hK a0
              rw [return_check_root, mw] at hK
              have hchild : known (f1.mm.heap (n0 + j)).height k K :=
                known_of_known hK (fun h => hlw.2 h)
              have hv := hsemc K hchild
              simp only [List.map_cons, List.foldl_cons]
              rw [hv]
              apply better_fold
              apply better_merge_right
              have hnc := hncross (List.cons_ne_nil _ _)
              rw [hbo] at hnc
              exact better_of_merge hnc hcr
      · -- the node `x` is not pruned
        rw [if_neg hcut] at mif mfirst
        obtain ⟨mx, mother⟩ := mfirst
        have hlx := lower_height_lowered f1.mm.heap x (f1.mm.heap (n0 + j)).height 1 (k + 1)
          (fun h => by have := hchb h; omega) (by omega)
        refine searches_first_next heuristic getChoices depth startNode e k hdepth c rest ih f x
          n0 j path type hlen hx hxn hsn hnext hch hfresh hnd hkeys hbound
          (merge_child startNode f1 ⟨x, j⟩ path) hr2 (by rw [mpc]; exact hpc1) mif.1 mif.2.1
          (by rw [mnext]; exact hn1) (by rw [mnodes]; exact hk1) ?_ ?_ ?_ ?_ ?_ ?_ ?_
        · intro q h1 h2 h3
          rw [mother q h2]
          exact hmid1 q h1 h2 h3
        · rw [mx]
        · rw [mnodes, mnext]
          exact hcong _ (fun q h1 _ => mother q h1)
        · rw [mx]
          simp only
          rw [← hxe]
          exact hlx.1
        · rw [mx]
          exact merge_range hacc hvr
        · intro hne
          rw [mx]
          simp only
          have hd : decide (j + 1 ≠ j + (rest.length + 1)) = true := by
            cases rest with
            | nil => exact absurd rfl hne
            | cons c1 rest1 => simp
          rw [hd, Bool.and_true] at hcut
          simpa using hcut
        · intro K hK
          rw [mx] at hK ⊢
          simp only at hK ⊢
          have hchild : known (f1.mm.heap (n0 + j)).height k K :=
            known_of_known hK (fun h => hlx.2 h)
          rw [hsemc K hchild]
    · -- the child is pruned
      have hmm : f1.mm = f0.mm := by rw [hf1]; exact return_check_root _ _ _
      rw [hmm] at hn1 hk1 hcached1 hmid1 hxA hlowc hsemc
      rw [hf1] at hr1
      have hsc : (f0.mm.heap x).score = (f.mm.heap x).score := by rw [hxA]
      refine searches_first_next heuristic getChoices depth startNode e k hdepth c rest ih f x
        n0 j path type hlen hx hxn hsn hnext hch hfresh hnd hkeys hbound f0 hr1 hpc0 hpath0
        hty0 hn1 hk1 hmid1 ?_ hcached1 hlowc (by rw [hsc]; exact hacc)
        (fun hne => by rw [hsc]; exact hncross (List.cons_ne_nil _ _)) ?_
      · rw [hxA]
      · intro K hK
        rw [hsc]
        apply merge_absorb
        rw [hb]
        exact hsemc K hK

/-- The first search of a new node, for every number of plies that are left: the
heap below the node is as `cached` says afterwards. -/
theorem searches_first_all (e : Nat) (hdepth : depth < infinity)
    (hrange : ∀ s, scoreMin ≤ heuristic s ∧ heuristic s ≤ scoreMax) :
    ∀ k, searches_first heuristic getChoices depth startNode e k := by
  have hinf : infinity = 2 ^ 64 - 1 := rfl
  have hd64 : depth < 2 ^ 64 := by omega
  intro k
  induction k with
  | zero =>
    intro f s type hent hlen hty hxc hcur hs hnd hkeys hbound
    obtain ⟨sc, r, hf0⟩ := entered_node hent
    refine ⟨_, reaches_leaf_entered heuristic getChoices depth startNode f s type hd64 hent
      (by omega), le_refl _, fun key hk => Or.inl hk, kept_store _ _ _ _ _, ?_, ?_⟩
    · refine ⟨hcur, by simp only; rw [store_same, hf0]; rfl, Or.inl ⟨⟨heuristic s, r, ?_⟩, hkeys⟩⟩
      simp only
      rw [store_same, hf0]
    · left
      refine ⟨rfl, rfl, hty, by simp only; rw [store_same]; exact hrange s, ?_, ?_⟩
      · intro hne
        simp only
        rw [store_other _ _ _ _ (top_owner_ne startNode f.cur f.path hne hxc.2.1)]
      · intro K hK
        simp only at hK ⊢
        rw [store_same] at hK ⊢
        rw [hf0] at hK
        rcases hK with hK | ⟨hK, _⟩
        · rw [hK]; rfl
        · simp [node.mk_shared, infinity] at hK
  | succ k ih =>
    intro f s type hent hlen hty hxc hcur hs hnd hkeys hbound
    obtain ⟨hh, r, hrc⟩ := reaches_construct_entered heuristic getChoices depth startNode f s
      type k hd64 hent hlen hty
    have hd : k + 1 + e = k + e + 1 := by omega
    rw [hd] at hnd hkeys
    have hndA : (produced_list (produced getChoices (k + e)) (getChoices s)).Nodup := hnd
    have hkeysA : ∀ t ∈ produced_list (produced getChoices (k + e)) (getChoices s),
        t ∉ f.mm.nodes.map Prod.fst := hkeys
    obtain ⟨e1, hexp, hnext1, hkeys1, hcur1, hfresh1, hsame1⟩ :=
      expand_fresh f.cur (!type) (getChoices s)
        ⟨store f.mm.heap f.cur { node.mk_shared s type with height := hh, rc := r }, f.mm.next,
          f.mm.nodes, f.mm.root, f.mm.type_⟩ hcur
        (fun c hc => hkeysA c.2 (produced_list_sub _ _ c hc).1)
        (produced_list_states _ _ hndA)
    simp only [store_same] at hnext1 hkeys1 hcur1 hfresh1 hsame1
    have hstep := step_construct_expand heuristic getChoices depth startNode
      ⟨⟨store f.mm.heap f.cur { node.mk_shared s type with height := hh, rc := r }, f.mm.next,
          f.mm.nodes, f.mm.root, f.mm.type_⟩, f.path, f.nodeType, f.cur, PC.construct⟩
      rfl (by simp only; omega) e1
      (by simp only [store_same]; rw [hty]; exact hexp)
    simp only at hstep
    have hmcur : mark_visited e1.heap f.cur f.cur
        = { e1.heap f.cur with height := infinity } := by
      simp only [mark_visited, store_same]
    have hmch : (mark_visited e1.heap f.cur f.cur).children
        = List.range' f.mm.next (getChoices s).length := by
      rw [hmcur, hcur1]
      simp [node.mk_shared]
    have hmcho : (mark_visited e1.heap f.cur f.cur).choices
        = (getChoices s).map Prod.fst := by
      rw [hmcur, hcur1]
      simp [node.mk_shared]
    have hmsc : (mark_visited e1.heap f.cur f.cur).score = seed type := by
      rw [hmcur, hcur1]
      simp [node.mk_shared]
    have hmst : (mark_visited e1.heap f.cur f.cur).state = s := by
      rw [hmcur, hcur1]
      simp [node.mk_shared]
    have hmht : (mark_visited e1.heap f.cur f.cur).height = infinity := by
      rw [hmcur]
    have hmsame : ∀ q, q < f.mm.next → q ≠ f.cur →
        mark_visited e1.heap f.cur q = f.mm.heap q := by
      intro q h1 h2
      simp only [mark_visited]
      rw [store_other _ _ _ _ h2, hsame1 q h1 h2, store_other _ _ _ _ h2]
    have hmfresh : ∀ (i : Nat) (c : Choice × State), (getChoices s)[i]? = some c →
        mark_visited e1.heap f.cur (f.mm.next + i) = node.mk_shared c.2 (!type) := by
      intro i c hi
      simp only [mark_visited]
      rw [store_other _ _ _ _ (by omega)]
      exact hfresh1 i c hi
    rw [hmch] at hstep
    have hsub : usize_sub depth f.path.length = k + 1 := by
      rw [usize_sub_of_le _ _ (by omega) hd64]; omega
    have hb : bound_of (mark_visited e1.heap f.cur) f.path = bound_of f.mm.heap f.path :=
      bound_of_congr f.path (fun it hit => by
        have hlt := hxc.2.1 it hit
        rw [hmsame it.owner (by omega) (by omega)])
    cases hgs : getChoices s with
    | nil =>
      rw [hgs] at hstep hmch hkeys1 hnext1
      simp only [List.length_nil, List.range'_zero, if_true] at hstep hmch
      have hleaf := step_leaf heuristic getChoices depth startNode
        ⟨⟨mark_visited e1.heap f.cur, e1.next, e1.nodes, e1.root, e1.type_⟩, f.path,
          f.nodeType, f.cur, PC.descend⟩ rfl
        (by simp only; rw [hmht, hsub]; omega) hmch
      simp only at hleaf
      rw [hmst] at hleaf
      refine ⟨_, reaches_trans _ _ _ _ hrc
        (reaches_trans _ _ _ _ (reaches_safe _ _ _ _ (fun _ _ => by show (store _ _ _ _).children = []; rw [store_same]; rfl) hstep)
          (reaches_step _ _ _ _ (fun h => PC.noConfusion h) hleaf)),
        ?_, ?_, ?_, ?_, ?_⟩
      · simp only; omega
      · intro key hkey
        simp only at hkey
        rw [hkeys1] at hkey
        left
        simpa using hkey
      · apply kept_of_eq
        intro q h1 h2
        simp only
        rw [store_other _ _ _ _ h2]
        exact hmsame q h1 h2
      · refine (cached_iff _ _ _ _ _ _ _ _ _ _).mpr ⟨by simp only; omega, ?_,
          Or.inr (Or.inl ⟨?_, ?_, ?_, ?_⟩)⟩
        · simp only; rw [store_same]
        · simp only; rw [store_same]; exact hgs
        · simp only; rw [store_same]; exact hmch
        · simp only; rw [store_same]; exact hmht
        · simp only; rw [store_same]
      · left
        refine ⟨rfl, rfl, hty, by simp only; rw [store_same]; exact hrange s, ?_, ?_⟩
        · intro hne
          have hw := top_owner_ne startNode f.cur f.path hne hxc.2.1
          have hwl : top_owner startNode f.path < f.mm.next := by
            have := top_owner_lt startNode f.cur f.mm.next f.path hs hcur hxc.2.1
            exact this
          simp only
          rw [store_other _ _ _ _ hw]
          exact hmsame _ hwl hw
        · intro K _
          simp only
          rw [store_same]
          exact minimax_value_dead heuristic getChoices K type s hgs
    | cons c cs =>
      have hgne : getChoices s ≠ [] := by rw [hgs]; exact List.cons_ne_nil _ _
      have hne : List.range' f.mm.next (getChoices s).length ≠ [] := by
        rw [hgs]; simp [List.range'_succ]
      rw [if_neg hne] at hstep
      have hL := searches_first_children_of heuristic getChoices depth startNode e k hdepth ih
        (getChoices s)
        (go_down ⟨⟨mark_visited e1.heap f.cur, e1.next, e1.nodes, e1.root, e1.type_⟩, f.path,
          f.nodeType, f.cur, PC.construct⟩ PC.construct)
        f.cur f.mm.next 0 f.path type rfl (by omega)
        (by simp only [go_down]; rw [hty])
        (on_path_congr startNode f.cur f.path
          (fun it hit => by
            have hlt := hxc.2.1 it hit
            simp only [go_down]
            rw [hmsame it.owner (by omega) (by omega)]) hxc)
        hcur hs (by simp only [go_down]; omega)
        (by simp only [go_down, Nat.zero_add]; exact hmch)
        (by simp only [go_down, Nat.add_zero]; exact hmfresh)
        hndA
        (by
          intro c1 hc1 t ht hmem
          simp only [go_down] at hmem
          rw [hkeys1] at hmem
          rcases List.mem_append.mp hmem with h | h
          · exact hkeysA t ((produced_list_sub _ _ c1 hc1).2 t ht) h
          · exact produced_list_below _ _ hndA c1 hc1 t ht h)
        (Or.inr ⟨hgne, Or.inr rfl, by
          simp only [go_down, Nat.add_zero]
          rw [hmch]
          exact range_headD _ _ (by rw [hgs]; simp)⟩)
        (by simp only [go_down]; rw [hmsc]; exact seed_range type)
        (by simp only [go_down]; rw [hb]; exact hbound)
        (by
          intro _
          simp only [go_down]
          rw [hb, hmsc]
          cases hbo : bound_of f.mm.heap f.path with
          | none => rfl
          | some b => exact better_seed (hbound b hbo))
      obtain ⟨f1, hr1, hn1, hk1, hkept1, hx1, hc1, hlow1, hdone1⟩ := hL
      unfold first_children_done at hdone1
      simp only [go_down, Nat.add_zero] at hn1 hk1 hkept1 hx1 hc1 hlow1 hdone1
      rw [hb] at hdone1
      have hst1 : (f1.mm.heap f.cur).state = s := by rw [hx1]; exact hmst
      refine ⟨f1, reaches_trans _ _ _ _ hrc (reaches_trans _ _ _ _ (reaches_safe _ _ _ _
        (fun _ _ => by show (store _ _ _ _).children = []; rw [store_same]; rfl) hstep) hr1),
        by omega, ?_, ?_, ?_, ?_⟩
      · intro key hkey
        rw [hd]
        rcases hk1 key hkey with h | h
        · rw [hkeys1] at h
          rcases List.mem_append.mp h with h | h
          · exact Or.inl h
          · right
            obtain ⟨c1, hc1, hc1k⟩ := List.mem_map.mp h
            rw [← hc1k]
            exact (produced_list_sub _ _ c1 hc1).1
        · exact Or.inr h
      · exact kept_trans (kept_of_eq hmsame) (kept_of_kept_out hkept1 (by omega) (le_refl _))
      · refine (cached_iff _ _ _ _ _ _ _ _ _ _).mpr ⟨by omega, hst1,
          Or.inr (Or.inr ⟨k, rfl, hgne, by rw [hx1]; exact hmcho, f.mm.next, hcur,
            by rw [hx1]; exact hmch, hc1, ?_, ?_⟩)⟩
        · intro hi K hK
          rcases hdone1 with ⟨_, _, _, _, _, p6⟩ | ⟨_, hz, _⟩
          · obtain ⟨K1, hK1, hkn⟩ := known_succ (Or.inr ⟨hi, hK⟩ :
              known (f1.mm.heap f.cur).height (k + 1) K)
            rw [hK1, minimax_value_fold heuristic getChoices hrange K1 type s hgne,
              p6 K1 hkn, hmsc]
          · rw [hz] at hi
            simp [infinity] at hi
        · intro hfin
          rw [hmht] at hlow1
          rcases hlow1 with h | h
          · exact absurd h hfin
          · exact h
      · rcases hdone1 with ⟨p1, p2, p3, p4, p5, p6⟩ | ⟨hf0, hz, b, hbb, hl, hsem⟩
        · left
          refine ⟨p1, p2, p3, p4, ?_, ?_⟩
          · intro hne
            have hw := top_owner_ne startNode f.cur f.path hne hxc.2.1
            have hwl : top_owner startNode f.path < f.mm.next :=
              top_owner_lt startNode f.cur f.mm.next f.path hs hcur hxc.2.1
            rw [p5 hne]
            exact hmsame _ hwl hw
          · intro K hK
            obtain ⟨K1, hK1, hkn⟩ := known_succ hK
            rw [hK1, minimax_value_fold heuristic getChoices hrange K1 type s hgne,
              p6 K1 hkn, hmsc]
        · right
          have hne := bound_of_some hbb
          have hw := top_owner_ne startNode f.cur f.path hne hxc.2.1
          have hwl : top_owner startNode f.path < f.mm.next :=
            top_owner_lt startNode f.cur f.mm.next f.path hs hcur hxc.2.1
          rw [hmsame _ hwl hw] at hl
          refine ⟨hf0, b, hbb, hl, ?_⟩
          intro K hK
          obtain ⟨K1, hK1, hkn⟩ := known_succ hK
          rw [hK1, minimax_value_fold heuristic getChoices hrange K1 type s hgne]
          exact hsem K1 hkn (seed type)

end first_search

/-! ## `compute` with an expired marker -/

theorem marker_expired_all (hp : Nat → node State Choice) (path : List Nat)
    (h : ∀ p ∈ path, expired hp p = true) : Marker.expired hp path = (true, []) := by
  induction path with
  | nil => rfl
  | cons front rest ih =>
    unfold Marker.expired
    rw [if_pos (h front (List.mem_cons_self _ _))]
    exact ih (fun p hp1 => h p (List.mem_cons_of_mem _ hp1))

/-- C11: for every depth, `compute(depth, marker)` called with a marker all of whose
recorded nodes are expired throws the invalid-argument error, and the engine after the
call is the engine before it: no node and no table entry is changed. -/
theorem compute_at_expired [DecidableEq State] (heuristic : State → Int)
    (getChoices : State → List (Choice × State)) (fuel depth : Nat) (start : List Nat)
    (e : minimax State Choice) (h : ∀ p ∈ start, expired e.heap p = true) :
    compute_at heuristic getChoices fuel depth start e
      = (Except.error Error.invalid_argument, e) := by
  unfold compute_at
  rw [marker_expired_all e.heap start h]

/-- The claim C11 for a marker made at the root of a new engine with the moves `4` and
`6`, after `progress(4)` has discarded that root: `compute(3, marker)` throws. -/
theorem compute_at_expired_witness :
    (∀ p ∈ Marker.new (minimax.new 0 true : minimax Nat Nat),
        expired (progress by_number two_moves 16 4 (minimax.new 0 true)).2.heap p = true) ∧
      compute_at by_number two_moves 16 3 (Marker.new (minimax.new 0 true : minimax Nat Nat))
          (progress by_number two_moves 16 4 (minimax.new 0 true)).2
        = (Except.error Error.invalid_argument,
            (progress by_number two_moves 16 4 (minimax.new 0 true)).2) :=
  ⟨by decide!, compute_at_expired by_number two_moves 16 3 _ _ (by decide!)⟩

/-! ## Evaluations on small games -/

/-- C13 at a failing input: on the game `back_moves`, whose move from state 1 leads
back to the start state 0, `compute(2)` on a new engine returns with the root at
address 0 holding state 0, its child at address 1, and the child of that child at
address 2 holding state 0 as well: two distinct nodes reachable from the root have
equal states. -/
theorem root_state_twice :
    links_after (compute by_number back_moves 64 2 (minimax.new 0 true)) 0 = some (0, [1]) ∧
      links_after (compute by_number back_moves 64 2 (minimax.new 0 true)) 1 = some (1, [2]) ∧
      links_after (compute by_number back_moves 64 2 (minimax.new 0 true)) 2 = some (0, []) := by
  decide!

/-- C17 at a failing input: on the tree game `pruned_moves` with a maximizing root,
the node of state `[1]`, at address 2, has score -1 and height 1 after `compute(2)`
on a new engine, and height 0 after the following `compute(3)`, which leaves the root
with height 3. -/
theorem height_drops :
    node_after (compute pruned_score pruned_moves 64 2 (minimax.new [] true)) 2
        = some (-1, 1) ∧
      links_after (compute pruned_score pruned_moves 64 2 (minimax.new [] true)) 0
        = some ([], [1, 2]) ∧
      node_after ((compute pruned_score pruned_moves 64 2 (minimax.new [] true)).bind
          (compute pruned_score pruned_moves 64 3)) 2 = some (-3, 0) ∧
      node_after ((compute pruned_score pruned_moves 64 2 (minimax.new [] true)).bind
          (compute pruned_score pruned_moves 64 3)) 0 = some (-2, 3) := by
  decide!

/-- C18 at a failing input: on the game `shared_moves`, in which two move sequences
reach the same state, `compute(4)` on a new maximizing engine returns, and an
assertion of `verify()` about scores fails.  The recursion goes from the root (score
5) into its child at address 2 (score 5, the best of the root) and from there into
the child at address 5 (score 5, the best of address 2), a maximizing node whose
child at address 6 has score 10. -/
theorem verify_fails :
    verify_after shared_score 8 (compute shared_score shared_moves 64 4 (minimax.new 0 true))
        = some false ∧
      links_after (compute shared_score shared_moves 64 4 (minimax.new 0 true)) 0
        = some (0, [1, 2]) ∧
      links_after (compute shared_score shared_moves 64 4 (minimax.new 0 true)) 2
        = some (2, [9, 5]) ∧
      links_after (compute shared_score shared_moves 64 4 (minimax.new 0 true)) 5
        = some (5, [7, 6]) ∧
      node_after (compute shared_score shared_moves 64 4 (minimax.new 0 true)) 0
        = some (5, 4) ∧
      node_after (compute shared_score shared_moves 64 4 (minimax.new 0 true)) 1
        = some (0, 3) ∧
      node_after (compute shared_score shared_moves 64 4 (minimax.new 0 true)) 2
        = some (5, infinity) ∧
      node_after (compute shared_score shared_moves 64 4 (minimax.new 0 true)) 9
        = some (20, infinity) ∧
      node_after (compute shared_score shared_moves 64 4 (minimax.new 0 true)) 5
        = some (5, infinity) ∧
      node_after (compute shared_score shared_moves 64 4 (minimax.new 0 true)) 6
        = some (10, infinity) := by
  decide!

/-- C12 at a failing input: on the game `echo_moves`, after a successful `progress(0)`
on a new engine the root is the node of state 1 (address 1) and is in the table;
`compute(5)` then returns with the root at height 1.  After five steps the construct
loop has reached the root again, four plies down, as the first child of the node of
state 4 (address 5), and expands it a second time; when its children are done, the
next sibling under address 5 is the root once more, with height 1, so `next_node`
returns the start node and the loop of `compute` ends with four iterators still on the
path. -/
theorem root_height_short :
    succeeded (progress by_number echo_moves 64 0 (minimax.new 0 true)).1 = true ∧
      echo_engine.root = 1 ∧ echo_engine.nodes = [(1, 1)] ∧
      height_after (compute by_number echo_moves 64 5 echo_engine) = some 1 ∧
      links_after (compute by_number echo_moves 64 5 echo_engine) 1 = some (1, [2, 3, 2, 3]) ∧
      links_after (compute by_number echo_moves 64 5 echo_engine) 5 = some (4, [1, 1]) ∧
      path_after (steps by_number echo_moves 5 1 5 (first_frame echo_engine))
        = some ([(5, 0), (4, 0), (2, 0), (1, 0)], 1) ∧
      path_after (steps by_number echo_moves 5 1 6 (first_frame echo_engine))
        = some ([(1, 0), (5, 0), (4, 0), (2, 0), (1, 0)], 2) ∧
      path_after (steps by_number echo_moves 5 1 15 (first_frame echo_engine))
        = some ([(5, 0), (4, 0), (2, 0), (1, 0)], 3) ∧
      path_after (steps by_number echo_moves 5 1 16 (first_frame echo_engine))
        = some ([(5, 1), (4, 0), (2, 0), (1, 0)], 1) := by
  decide!

/-! ## Connect 4 -/

/-- C20 at a failing input: the position `wrapped_position` is reached from the empty
board by ten moves that `get_choices` offers, with `end = false` all along; its
bitboards lie within the 42 cells, are disjoint, and neither holds four in a line.
The player to move completes four in a line by a drop in column 5 and by no other
drop, yet `get_choices` returns the single pair of column 4, with `end = true`. -/
theorem false_win_taken :
    play id [5, 0, 0, 6, 6, 4, 5, 4, 5, 4] ⟨false, false, 0, 0⟩ = some wrapped_position ∧
      wrapped_position.end_ = false ∧
      wrapped_position.players0 < 2 ^ 42 ∧ wrapped_position.players1 < 2 ^ 42 ∧
      wrapped_position.players0 &&& wrapped_position.players1 = 0 ∧
      has_four wrapped_position.players0 = false ∧
      has_four wrapped_position.players1 = false ∧
      (List.range 7).map (completes_four wrapped_position)
        = [false, false, false, false, false, true, false] ∧
      check_winner 34091168 3 4 = true ∧
      ∀ shuffle, get_choices shuffle wrapped_position
        = [(4, ⟨true, true, 34091168, 264273⟩)] := by
  refine ⟨by decide!, by decide!, by decide!, by decide!, by decide!, by decide!, by decide!,
    by decide!, by decide!, fun shuffle => ?_⟩
  have hloop : get_choices_loop wrapped_position (List.range 7)
      ⟨!wrapped_position.turn, wrapped_position.end_, wrapped_position.players0,
        wrapped_position.players1⟩ []
      = (some (4, ⟨true, true, 34091168, 264273⟩),
          [(0, ⟨true, false, 553120, 264273⟩), (1, ⟨true, false, 536738, 264273⟩),
            (2, ⟨true, false, 536740, 264273⟩), (3, ⟨true, false, 536744, 264273⟩)]) := by
    decide!
  unfold get_choices
  rw [hloop]
  rfl

theorem lor_two_pow (a k : Nat) (h : a.testBit k = false) : a ||| 2 ^ k = a + 2 ^ k := by
  have ha : a < 2 ^ (a + k + 2) := by
    calc a < 2 ^ a := Nat.lt_two_pow a
      _ ≤ 2 ^ (a + k + 2) := Nat.pow_le_pow_right (by decide) (by omega)
  have hk : 2 ^ k < 2 ^ (a + k + 2) := Nat.pow_lt_pow_right (by decide) (by omega)
  have hs : a + 2 ^ k < 2 ^ (a + k + 2) := by
    have h1 : 2 ^ a ≤ 2 ^ (a + k) := Nat.pow_le_pow_right (by decide) (by omega)
    have h2 : 2 ^ k ≤ 2 ^ (a + k) := Nat.pow_le_pow_right (by decide) (by omega)
    have h3 : 2 ^ (a + k + 2) = 4 * 2 ^ (a + k) := by ring
    have h4 := Nat.lt_two_pow a
    omega
  have hz : BitVec.ofNat (a + k + 2) a &&& BitVec.ofNat (a + k + 2) (2 ^ k) = 0#(a + k + 2) := by
    apply BitVec.eq_of_toNat_eq
    simp only [BitVec.toNat_and, BitVec.toNat_ofNat, Nat.mod_eq_of_lt ha, Nat.mod_eq_of_lt hk,
      Nat.zero_mod]
    apply Nat.eq_of_testBit_eq
    intro i
    rw [Nat.testBit_and, Nat.testBit_two_pow, Nat.zero_testBit]
    by_cases hi : k = i
    · subst hi
      simp [h]
    · simp [hi]
  have := congrArg BitVec.toNat (BitVec.add_eq_or_of_and_eq_zero _ _ hz)
  simp only [BitVec.toNat_add, BitVec.toNat_or, BitVec.toNat_ofNat, Nat.mod_eq_of_lt ha,
    Nat.mod_eq_of_lt hk, Nat.mod_eq_of_lt hs] at this
  exact this.symm

theorem find_range_first (p : Nat → Bool) (n r : Nat) (hr : r < n) (hp : p r = true)
    (hlow : ∀ j, j < r → p j = false) : (List.range n).find? p = some r := by
  rw [List.range_eq_range']
  have key : ∀ m s, s ≤ r → r < s + m → (∀ j, s ≤ j → j < r → p j = false) →
      (List.range' s m).find? p = some r := by
    intro m
    induction m with
    | zero => intro s h1 h2; omega
    | succ m ih =>
      intro s h1 h2 h3
      rw [List.range'_succ, List.find?_cons]
      by_cases hs : s = r
      · subst hs
        rw [hp]
      · rw [h3 s (le_refl s) (by omega)]
        exact ih (s + 1) (by omega) (by omega) (fun j hj1 hj2 => h3 j (by omega) hj2)
  exact key n 0 (Nat.zero_le r) (by omega) (fun j _ hj => hlow j hj)

theorem find_range_none (p : Nat → Bool) (n : Nat) (h : ∀ j, j < n → p j = false) :
    (List.range n).find? p = none := by
  rw [List.find?_eq_none]
  intro x hx
  rw [h x (List.mem_range.mp hx)]
  simp

theorem open_row_spec (board col : Nat) : ∀ fuel k,
    k ≤ open_row fuel (board >>> (col + 7 * k)) k ∧
      (∀ r, k ≤ r → r < open_row fuel (board >>> (col + 7 * k)) k →
        board.testBit (col + 7 * r) = true) ∧
      (open_row fuel (board >>> (col + 7 * k)) k < k + fuel →
        board.testBit (col + 7 * open_row fuel (board >>> (col + 7 * k)) k) = false) := by
  intro fuel
  induction fuel with
  | zero =>
    intro k
    refine ⟨le_refl k, fun r h1 h2 => ?_, fun h => ?_⟩
    · simp only [open_row] at h2
      omega
    · simp only [open_row] at h
      omega
  | succ fuel ih =>
    intro k
    have hbit : (board >>> (col + 7 * k)) &&& 1 = 1 ↔ board.testBit (col + 7 * k) = true := by
      have hz : board.testBit (col + 7 * k) = (board >>> (col + 7 * k)).testBit 0 := by
        rw [Nat.testBit_shiftRight, Nat.add_zero]
      rw [hz, Nat.testBit_zero, Nat.and_one_is_mod, decide_eq_true_eq]
    have hshift : (board >>> (col + 7 * k)) >>> 7 = board >>> (col + 7 * (k + 1)) := by
      rw [← Nat.shiftRight_add]
      congr 1
    by_cases hb : board.testBit (col + 7 * k) = true
    · have hstep : open_row (fuel + 1) (board >>> (col + 7 * k)) k
          = open_row fuel (board >>> (col + 7 * (k + 1))) (k + 1) := by
        rw [open_row, if_pos (hbit.mpr hb), hshift]
      rw [hstep]
      obtain ⟨h1, h2, h3⟩ := ih (k + 1)
      refine ⟨by omega, fun r hr1 hr2 => ?_, fun h => h3 (by omega)⟩
      by_cases hrk : r = k
      · rw [hrk]
        exact hb
      · exact h2 r (by omega) hr2
    · have hstep : open_row (fuel + 1) (board >>> (col + 7 * k)) k = k := by
        rw [open_row, if_neg (fun h => hb (hbit.mp h))]
      rw [hstep]
      refine ⟨le_refl k, fun r h1 h2 => by omega, fun _ => ?_⟩
      simpa using hb

theorem open_row_lowest (board col : Nat) :
    (open_row 10 (board >>> col) 0 ≤ 5 →
        lowest_empty board col = some (open_row 10 (board >>> col) 0)) ∧
      (5 < open_row 10 (board >>> col) 0 → lowest_empty board col = none) := by
  have h := open_row_spec board col 10 0
  simp only [Nat.mul_zero, Nat.add_zero, Nat.zero_add] at h
  obtain ⟨-, h2, h3⟩ := h
  constructor
  · intro hle
    apply find_range_first _ 6 _ (by omega)
    · rw [h3 (by omega)]
      rfl
    · intro j hj
      rw [h2 j (Nat.zero_le j) hj]
      rfl
  · intro hlt
    apply find_range_none
    intro j hj
    rw [h2 j (Nat.zero_le j) (by omega)]
    rfl

theorem set_players_dropped (s next : state) (col row : Nat) (hturn : next.turn = !s.turn)
    (hend : next.end_ = false) (hother : next.players (!s.turn) = s.players (!s.turn)) :
    next.set_players s.turn (s.players s.turn + 2 ^ (col + 7 * row)) = dropped s col row := by
  obtain ⟨t, e, a, b⟩ := s
  obtain ⟨t1, e1, a1, b1⟩ := next
  simp only at hturn hend
  subst hturn hend
  cases t
  · simp only [state.players, Bool.not_false, if_true] at hother
    subst hother
    simp [state.set_players, state.players, dropped]
  · simp only [state.players, Bool.not_true, Bool.false_eq_true, if_false] at hother
    subst hother
    simp [state.set_players, state.players, dropped]

theorem dropped_fields (s : state) (col row : Nat) :
    (dropped s col row).turn = (!s.turn) ∧ (dropped s col row).end_ = false ∧
      (dropped s col row).players (!s.turn) = s.players (!s.turn) ∧
      (dropped s col row).players s.turn = s.players s.turn + 2 ^ (col + 7 * row) := by
  obtain ⟨t, e, a, b⟩ := s
  cases t <;> simp [dropped, state.players]

theorem get_choices_loop_open (s : state)
    (hno : ∀ col < 7, ∀ row < 6, lowest_empty (s.players0 ||| s.players1) col = some row →
      check_winner (s.players s.turn + 2 ^ (col + 7 * row)) row col = false) :
    ∀ (cols : List Nat), (∀ c ∈ cols, c < 7) → ∀ (next : state) (children : List (Nat × state)),
      next.turn = (!s.turn) → next.end_ = false →
      next.players (!s.turn) = s.players (!s.turn) →
      get_choices_loop s cols next children
        = (none, children ++ cols.filterMap (fun col =>
            (lowest_empty (s.players0 ||| s.players1) col).map
              (fun row => (col, dropped s col row)))) := by
  intro cols
  induction cols with
  | nil =>
    intro _ next children _ _ _
    simp [get_choices_loop]
  | cons col rest ih =>
    intro hcols next children hturn hend hother
    have hrest : ∀ c ∈ rest, c < 7 := fun c hc => hcols c (List.mem_cons_of_mem _ hc)
    have hcol : col < 7 := hcols col (List.mem_cons_self _ _)
    obtain ⟨hlow1, hlow2⟩ := open_row_lowest (s.players0 ||| s.players1) col
    rw [get_choices_loop]
    by_cases hfull : open_row 10 ((s.players0 ||| s.players1) >>> col) 0 > 5
    · simp only [hfull, if_true]
      rw [ih hrest next children hturn hend hother, List.filterMap_cons, hlow2 hfull]
      rfl
    · have hle : open_row 10 ((s.players0 ||| s.players1) >>> col) 0 ≤ 5 := by omega
      have hsome := hlow1 hle
      generalize open_row 10 ((s.players0 ||| s.players1) >>> col) 0 = row at hfull hle hsome
      have hclear : (s.players0 ||| s.players1).testBit (col + 7 * row) = false := by
        have := List.find?_some hsome
        simpa using this
      have hold : (s.players s.turn).testBit (col + 7 * row) = false := by
        rw [Nat.testBit_or, Bool.or_eq_false_iff] at hclear
        unfold state.players
        split
        · exact hclear.2
        · exact hclear.1
      have hbit : (1 <<< (col + row * 7)) % 2 ^ 64 = 2 ^ (col + 7 * row) := by
        rw [Nat.one_shiftLeft, Nat.mul_comm row 7]
        exact Nat.mod_eq_of_lt (Nat.pow_lt_pow_right (by decide) (by omega))
      have hnew : s.players s.turn ||| (1 <<< (col + row * 7)) % 2 ^ 64
          = s.players s.turn + 2 ^ (col + 7 * row) := by
        rw [hbit]
        exact lor_two_pow _ _ hold
      simp only [hfull, if_false, hnew]
      rw [hno col hcol row (by omega) hsome]
      simp only [Bool.false_eq_true, if_false]
      rw [set_players_dropped s next col row hturn hend hother]
      obtain ⟨d1, d2, d3, -⟩ := dropped_fields s col row
      have hsame : ({ dropped s col row with end_ := false } : state) = dropped s col row := by
        obtain ⟨t, e, a, b⟩ := s
        cases t <;> simp [dropped]
      rw [hsame, ih hrest (dropped s col row) _ d1 d2 d3, List.filterMap_cons, hsome]
      simp

/-- C19: let `shuffle` return a permutation of its argument.  For every state with
`end = false` whose bitboards lie within the 42 cells and in which no drop of the
player to move makes `check_winner` true, `get_choices` returns, in some order, one
pair for every column 0..6 that is not full and none for a full column; the state of
the pair of column `col` has the turn flipped, `end = false`, the opponent's bitboard
unchanged and the mover's bitboard plus the bit `col + 7 * row`, `row` being the
lowest empty row of the column.  On the empty board it returns 7 pairs, and for a
state with `end = true` it returns none. -/
theorem get_choices_open_columns (shuffle : List (Nat × state) → List (Nat × state))
    (hshuffle : ∀ l, (shuffle l).Perm l) :
    (∀ s : state, s.end_ = false → s.players0 < 2 ^ 42 → s.players1 < 2 ^ 42 →
        (∀ col < 7, ∀ row < 6, lowest_empty (s.players0 ||| s.players1) col = some row →
          check_winner (s.players s.turn + 2 ^ (col + 7 * row)) row col = false) →
        (get_choices shuffle s).Perm (open_columns s)) ∧
      (∀ turn, (get_choices shuffle ⟨turn, false, 0, 0⟩).length = 7) ∧
      (∀ s : state, s.end_ = true → get_choices shuffle s = []) := by
  have hmain : ∀ s : state, s.end_ = false →
      (∀ col < 7, ∀ row < 6, lowest_empty (s.players0 ||| s.players1) col = some row →
        check_winner (s.players s.turn + 2 ^ (col + 7 * row)) row col = false) →
      (get_choices shuffle s).Perm (open_columns s) := by
    intro s hend hno
    have hloop := get_choices_loop_open s hno (List.range 7)
      (fun c hc => List.mem_range.mp hc) ⟨!s.turn, s.end_, s.players0, s.players1⟩ [] rfl hend
      (by cases s.turn <;> rfl)
    unfold get_choices
    rw [if_neg (by simp [hend]), hloop]
    exact hshuffle _
  refine ⟨fun s hend _ _ hno => hmain s hend hno, fun turn => ?_, fun s hend => ?_⟩
  · have hperm := hmain ⟨turn, false, 0, 0⟩ rfl (by cases turn <;> decide!)
    rw [hperm.length_eq]
    cases turn <;> decide!
  · unfold get_choices
    rw [if_pos hend]

/-- The claim C19 for the identity as `shuffle` and the position in which column 3 is
full, the two players alternating in it: the six other columns are returned. -/
theorem get_choices_open_columns_witness :
    (∀ l : List (Nat × state), (id l).Perm l) ∧
      (get_choices id ⟨false, false, 2147614728, 274894685184⟩).Perm
        (open_columns ⟨false, false, 2147614728, 274894685184⟩) ∧
      open_columns ⟨false, false, 2147614728, 274894685184⟩
        = [(0, ⟨true, false, 2147614729, 274894685184⟩),
            (1, ⟨true, false, 2147614730, 274894685184⟩),
            (2, ⟨true, false, 2147614732, 274894685184⟩),
            (4, ⟨true, false, 2147614744, 274894685184⟩),
            (5, ⟨true, false, 2147614760, 274894685184⟩),
            (6, ⟨true, false, 2147614792, 274894685184⟩)] :=
  ⟨fun l => List.Perm.refl l,
    (get_choices_open_columns id (fun l => List.Perm.refl l)).1
      ⟨false, false, 2147614728, 274894685184⟩ rfl (by decide!) (by decide!) (by decide!),
    by decide!⟩

/-! ## Strong counts under `release`, `expand` and `progress` -/

theorem sum_range_update (f g : Nat → Nat) (p0 : Nat) (hfg : ∀ q, q ≠ p0 → f q = g q) :
    ∀ n, p0 < n → ((List.range n).map f).sum + g p0 = ((List.range n).map g).sum + f p0 := by
  intro n
  induction n with
  | zero => intro h; omega
  | succ n ih =>
    intro h
    rw [List.range_succ, List.map_append, List.map_append, List.sum_append, List.sum_append]
    simp only [List.map_cons, List.map_nil, List.sum_cons, List.sum_nil, Nat.add_zero]
    by_cases hn : p0 = n
    · subst hn
      have hsame : (List.range p0).map f = (List.range p0).map g := by
        apply List.map_congr_left
        intro q hq
        exact hfg q (by have := List.mem_range.mp hq; omega)
      rw [hsame]
      omega
    · have := ih (by omega)
      have := hfg n (fun h => hn h.symm)
      omega

theorem indeg_congr (hp1 hp : Nat → node State Choice) (n p : Nat)
    (h : ∀ q, q < n → ((hp1 q).rc = 0 ↔ (hp q).rc = 0) ∧ (hp1 q).children = (hp q).children) :
    indeg hp1 n p = indeg hp n p := by
  unfold indeg
  congr 1
  apply List.map_congr_left
  intro q hq
  obtain ⟨h1, h2⟩ := h q (List.mem_range.mp hq)
  by_cases h0 : (hp q).rc = 0
  · rw [if_pos h0, if_pos (h1.mpr h0)]
  · rw [if_neg h0, if_neg (fun hx => h0 (h1.mp hx)), h2]

theorem indeg_kill (hp : Nat → node State Choice) (n p0 x : Nat) (hp0 : p0 < n)
    (halive : (hp p0).rc ≠ 0) :
    indeg (store hp p0 { hp p0 with rc := 0 }) n x + ((hp p0).children).count x
      = indeg hp n x := by
  unfold indeg
  have h := sum_range_update
    (fun q => if ((store hp p0 { hp p0 with rc := 0 }) q).rc = 0 then 0
      else (((store hp p0 { hp p0 with rc := 0 }) q).children).count x)
    (fun q => if (hp q).rc = 0 then 0 else ((hp q).children).count x) p0
    (fun q hq => by simp [store, hq]) n hp0
  simp only [store, if_true, if_neg halive] at h ⊢
  omega

theorem indeg_ge (hp : Nat → node State Choice) (n q c : Nat) (hq : q < n)
    (halive : (hp q).rc ≠ 0) : ((hp q).children).count c ≤ indeg hp n c := by
  unfold indeg
  have h := List.single_le_sum (fun x _ => Nat.zero_le x)
    (l := (List.range n).map (fun q => if (hp q).rc = 0 then 0 else ((hp q).children).count c))
  have := h (((hp q).children).count c)
    (List.mem_map.mpr ⟨q, List.mem_range.mpr hq, by rw [if_neg halive]⟩)
  exact this

theorem covered_mono (hp : Nat → node State Choice) (n : Nat) (owners fewer : List Nat)
    (hsub : ∀ p, fewer.count p ≤ owners.count p) (h : covered hp n owners) :
    covered hp n fewer := by
  intro p hp1
  have := h p hp1
  have := hsub p
  omega

/-- Releasing the pointers of the work list keeps the strong counts covering the
references that are left, whatever the budget. -/
theorem release_covered (n : Nat) (keep : List Nat) :
    ∀ (fuel : Nat) (work : List Nat) (hp : Nat → node State Choice),
      (∀ q, q < n → ∀ c ∈ (hp q).children, c < n) → (∀ w ∈ work, w < n) →
      covered hp n (work ++ keep) → covered (release fuel work hp) n keep := by
  intro fuel
  induction fuel with
  | zero =>
    intro work hp _ _ h
    have : release 0 work hp = hp := by cases work <;> rfl
    rw [this]
    exact covered_mono hp n _ keep (fun p => by rw [List.count_append]; omega) h
  | succ fuel ih =>
    intro work hp hlinks hwork h
    cases work with
    | nil => exact h
    | cons p work =>
      have hpn : p < n := hwork p (List.mem_cons_self _ _)
      have hwork1 : ∀ w ∈ work, w < n := fun w hw => hwork w (List.mem_cons_of_mem _ hw)
      simp only [release]
      split
      · apply ih work hp hlinks hwork1
        exact covered_mono hp n _ _ (fun x => by
          simp only [List.cons_append, List.count_cons]
          omega) h
      · rename_i halive
        have hstore : (store hp p { hp p with rc := (hp p).rc - 1 } p).rc = (hp p).rc - 1 := by
          simp [store]
        have hchildren : ∀ q, (store hp p { hp p with rc := (hp p).rc - 1 } q).children
            = (hp q).children := by
          intro q
          by_cases hq : q = p
          · subst hq
            simp [store]
          · simp [store, hq]
        have hlinks1 : ∀ q, q < n →
            ∀ c ∈ (store hp p { hp p with rc := (hp p).rc - 1 } q).children, c < n := by
          intro q hq c hc
          rw [hchildren q] at hc
          exact hlinks q hq c hc
        split
        · rename_i hdead
          rw [hstore] at hdead
          have hone : (hp p).rc = 1 := by omega
          apply ih _ _ hlinks1
          · intro w hw
            rcases List.mem_append.mp hw with hw | hw
            · exact hlinks p hpn w hw
            · exact hwork1 w hw
          · intro x hx
            have hk := indeg_kill hp n p x hpn halive
            dsimp only at hk
            have hx0 := h x hx
            have heq : (store hp p { hp p with rc := (hp p).rc - 1 })
                = store hp p { hp p with rc := 0 } := by
              rw [hone]
            rw [heq]
            simp only [List.cons_append, List.count_cons, List.count_append] at hx0 ⊢
            by_cases hxp : x = p
            · subst hxp
              simp only [beq_self_eq_true, if_true] at hx0
              rw [hone] at hx0
              simp only [store, if_true]
              omega
            · have hne : (p == x) = false := by
                simp only [beq_eq_false_iff_ne, ne_eq]
                exact fun h => hxp h.symm
              simp only [hne, Bool.false_eq_true, if_false] at hx0
              simp only [store, if_neg hxp]
              omega
        · rename_i hlive
          rw [hstore] at hlive
          apply ih _ _ hlinks1 hwork1
          intro x hx
          have hx0 := h x hx
          have hi : indeg (store hp p { hp p with rc := (hp p).rc - 1 }) n x = indeg hp n x := by
            apply indeg_congr
            intro q _
            refine ⟨?_, hchildren q⟩
            by_cases hq : q = p
            · subst hq
              rw [hstore]
              constructor
              · intro h0
                exact absurd h0 hlive
              · intro h0
                exact absurd h0 halive
            · simp [store, hq]
          rw [hi]
          simp only [List.cons_append, List.count_cons, List.count_append] at hx0 ⊢
          by_cases hxp : x = p
          · subst hxp
            simp only [beq_self_eq_true, if_true] at hx0
            simp only [store, if_true]
            omega
          · have hne : (p == x) = false := by
              simp only [beq_eq_false_iff_ne, ne_eq]
              exact fun h => hxp h.symm
            simp only [hne, Bool.false_eq_true, if_false] at hx0
            simp only [store, if_neg hxp]
            omega

theorem reach_congr (hp1 hp : Nat → node State Choice)
    (h : ∀ q, (hp1 q).children = (hp q).children) (r p : Nat) (hr : reach hp r p) :
    reach hp1 r p := by
  unfold reach at hr ⊢
  apply Relation.ReflTransGen.mono _ hr
  intro a b hab
  unfold child_link at hab ⊢
  rw [h a]
  exact hab

/-- When the strong counts cover the references, every node reachable from an owner
is allocated and alive. -/
theorem alive_of_covered (hp : Nat → node State Choice) (n r : Nat) (owners : List Nat)
    (hlinks : ∀ q, q < n → ∀ c ∈ (hp q).children, c < n) (hr : r < n) (hown : r ∈ owners)
    (h : covered hp n owners) : ∀ p, reach hp r p → p < n ∧ (hp p).rc ≠ 0 := by
  intro p hreach
  unfold reach at hreach
  induction hreach with
  | refl =>
    refine ⟨hr, ?_⟩
    have h1 := h r hr
    have h2 : 0 < owners.count r := List.count_pos_iff.mpr hown
    omega
  | @tail b c _ hlink ih =>
    obtain ⟨hb, hbalive⟩ := ih
    have hc : c < n := hlinks b hb c hlink
    refine ⟨hc, ?_⟩
    have h1 := h c hc
    have h2 := indeg_ge hp n b c hb hbalive
    have h3 : 0 < ((hp b).children).count c := List.count_pos_iff.mpr hlink
    omega

/-- The root swap of `progress` on an engine whose counts cover its references: the
counts still do, and every node reachable from the new root is alive afterwards and
has kept every field but its count. -/
theorem swap_root_keeps (e : minimax State Choice) (newRoot : Nat) (hl : linked e)
    (hc : counted e) (hchild : newRoot ∈ (e.heap e.root).children) :
    counted (swap_root e newRoot) ∧
      ∀ p, reach e.heap newRoot p →
        expired (swap_root e newRoot).heap p = false ∧
          same_but_rc ((swap_root e newRoot).heap p) (e.heap p) := by
  obtain ⟨-, hlinks, -, hroot⟩ := hl
  have hnew : newRoot < e.next := hlinks e.root newRoot hchild
  have hrootalive : (e.heap e.root).rc ≠ 0 := by
    have := hc e.root hroot
    simp only [List.count_singleton_self] at this
    omega
  have hnewalive : (e.heap newRoot).rc ≠ 0 := by
    have h1 := hc newRoot hnew
    have h2 := indeg_ge e.heap e.next e.root newRoot hroot hrootalive
    have h3 : 0 < ((e.heap e.root).children).count newRoot := List.count_pos_iff.mpr hchild
    omega
  have hfields : ∀ q, same_but_rc ((swap_root e newRoot).heap q) (e.heap q) := fun q =>
    same_but_rc_trans (release_fields _ _ _ q) (same_but_rc_store e.heap newRoot _ q)
  have hch1 : ∀ q, (store e.heap newRoot { e.heap newRoot with rc := (e.heap newRoot).rc + 1 }
      q).children = (e.heap q).children := fun q => (same_but_rc_store e.heap newRoot _ q).2.2.2.2.1
  have hcov1 : covered (store e.heap newRoot
      { e.heap newRoot with rc := (e.heap newRoot).rc + 1 }) e.next ([e.root] ++ [newRoot]) := by
    intro x hx
    have hi : indeg (store e.heap newRoot
        { e.heap newRoot with rc := (e.heap newRoot).rc + 1 }) e.next x = indeg e.heap e.next x := by
      apply indeg_congr
      intro q _
      refine ⟨?_, hch1 q⟩
      by_cases hq : q = newRoot
      · subst hq
        simp only [store, if_true]
        constructor
        · intro h0
          omega
        · intro h0
          exact absurd h0 hnewalive
      · simp [store, hq]
    have hx0 := hc x hx
    rw [hi]
    simp only [List.singleton_append, List.count_cons, List.count_nil] at hx0 ⊢
    by_cases hxn : x = newRoot
    · subst hxn
      simp only [store, if_true, beq_self_eq_true]
      omega
    · have hne : (newRoot == x) = false := by
        simp only [beq_eq_false_iff_ne, ne_eq]
        exact fun h => hxn h.symm
      simp only [store, if_neg hxn, hne, Bool.false_eq_true, if_false]
      omega
  have hcov : covered (swap_root e newRoot).heap e.next [newRoot] :=
    release_covered e.next [newRoot] _ [e.root] _
      (fun q hq c hcq => hlinks q c (by rw [hch1 q] at hcq; exact hcq))
      (fun w hw => by
        rw [List.mem_singleton] at hw
        rw [hw]
        exact hroot) hcov1
  refine ⟨hcov, fun p hreach => ?_⟩
  have hreach1 : reach (swap_root e newRoot).heap newRoot p :=
    reach_congr _ _ (fun q => (hfields q).2.2.2.2.1) newRoot p hreach
  have halive := alive_of_covered (swap_root e newRoot).heap e.next newRoot [newRoot]
    (fun q _ c hcq => hlinks q c (by rw [(hfields q).2.2.2.2.1] at hcq; exact hcq))
    hnew (List.mem_singleton_self _) hcov p hreach1
  refine ⟨?_, hfields p⟩
  simp only [expired, beq_eq_false_iff_ne, ne_eq]
  exact halive.2

theorem counted_of_same_links (e1 e : minimax State Choice) (hroot : e1.root = e.root)
    (hnext : e1.next = e.next) (hheap : ∀ q, same_links (e1.heap q) (e.heap q))
    (hc : counted e) : counted e1 := by
  intro p hp
  rw [hnext] at hp ⊢
  rw [hroot]
  have hi : indeg e1.heap e.next p = indeg e.heap e.next p := by
    apply indeg_congr
    intro q _
    obtain ⟨_, _, h3, _, h5⟩ := hheap q
    rw [h3, h5]
    exact ⟨Iff.rfl, rfl⟩
  rw [hi, (hheap p).2.2.2.2]
  exact hc p hp

theorem indeg_succ (hp : Nat → node State Choice) (n x : Nat) :
    indeg hp (n + 1) x
      = indeg hp n x + (if (hp n).rc = 0 then 0 else ((hp n).children).count x) := by
  unfold indeg
  rw [List.range_succ, List.map_append, List.sum_append]
  simp

theorem indeg_zero (hp : Nat → node State Choice) (n x : Nat)
    (h : ∀ q, q < n → x ∉ (hp q).children) : indeg hp n x = 0 := by
  unfold indeg
  apply List.sum_eq_zero
  intro y hy
  obtain ⟨q, hq, rfl⟩ := List.mem_map.mp hy
  split
  · rfl
  · exact List.count_eq_zero.mpr (h q (List.mem_range.mp hq))

/-- A new child link to `p` raises the number of links to `p` by at most one and the
number of links to other nodes not at all. -/
theorem indeg_add_link (hp : Nat → node State Choice) (n cur p x : Nat) (cs : List Choice) :
    indeg (store hp cur { hp cur with children := (hp cur).children ++ [p], choices := cs }) n x
      ≤ indeg hp n x + (if x = p then 1 else 0) := by
  by_cases hcur : cur < n
  · have h := sum_range_update
      (fun q => if ((store hp cur
          { hp cur with children := (hp cur).children ++ [p], choices := cs }) q).rc = 0 then 0
        else (((store hp cur
          { hp cur with children := (hp cur).children ++ [p], choices := cs }) q).children).count x)
      (fun q => if (hp q).rc = 0 then 0 else ((hp q).children).count x) cur
      (fun q hq => by simp [store, hq]) n hcur
    unfold indeg
    simp only [store, if_true, List.count_append, List.count_cons, List.count_nil] at h ⊢
    by_cases hx : x = p
    · subst hx
      simp only [beq_self_eq_true, if_true] at h ⊢
      split at h <;> omega
    · have hne : (p == x) = false := by
        simp only [beq_eq_false_iff_ne, ne_eq]
        exact fun h => hx h.symm
      simp only [hne, Bool.false_eq_true, if_false, if_neg hx] at h ⊢
      split at h <;> omega
  · have hi : indeg (store hp cur
        { hp cur with children := (hp cur).children ++ [p], choices := cs }) n x = indeg hp n x := by
      apply indeg_congr
      intro q hq
      have : q ≠ cur := by omega
      simp [store, this]
    rw [hi]
    omega

theorem expand_cons [DecidableEq State] (cur : Nat) (childType : Bool) (mv : Choice × State)
    (more : List (Choice × State)) (e : minimax State Choice) :
    expand cur childType (mv :: more) e
      = match expand cur childType [mv] e with
        | Except.error err => Except.error err
        | Except.ok e1 => expand cur childType more e1 := by
  obtain ⟨c, s⟩ := mv
  simp only [expand]
  split
  · split <;> rfl
  · rfl

theorem rc_add_link (hp : Nat → node State Choice) (cur x : Nat) (ch : List Nat)
    (cs : List Choice) :
    (store hp cur { hp cur with children := ch, choices := cs } x).rc = (hp x).rc := by
  by_cases hx : x = cur
  · subst hx
    simp [store]
  · simp [store, hx]

theorem rc_store (hp : Nat → node State Choice) (p r x : Nat) :
    (store hp p { hp p with rc := r } x).rc = if x = p then r else (hp x).rc := by
  by_cases hx : x = p
  · subst hx
    simp [store]
  · simp [store, hx]

/-- One turn of the loop of `expand` keeps the strong counts covering the references. -/
theorem expand_one_counted [DecidableEq State] (cur : Nat) (childType : Bool)
    (mv : Choice × State) (e e1 : minimax State Choice)
    (h : expand cur childType [mv] e = Except.ok e1) (hl : linked e) (hc : counted e) :
    counted e1 := by
  obtain ⟨c, s⟩ := mv
  obtain ⟨-, hlinks, -, hroot⟩ := hl
  simp only [expand] at h
  split at h
  · rename_i p hfind
    split at h
    · cases h
    · rename_i hexp
      have halive : (e.heap p).rc ≠ 0 := by simpa [expired] using hexp
      cases h
      intro x hx
      have hx0 := hc x hx
      have h2 : indeg (store e.heap p { e.heap p with rc := (e.heap p).rc + 1 }) e.next x
          = indeg e.heap e.next x := by
        apply indeg_congr
        intro q _
        by_cases hq : q = p
        · subst hq
          simp only [store, if_true, and_true]
          constructor
          · intro h0
            omega
          · intro h0
            exact absurd h0 halive
        · simp [store, hq]
      show indeg _ e.next x + [e.root].count x ≤ _
      refine le_trans (Nat.add_le_add_right (indeg_add_link _ e.next cur p x _) _) ?_
      rw [rc_add_link, rc_store, h2]
      by_cases hxp : x = p
      · subst hxp
        rw [if_pos rfl, if_pos rfl]
        omega
      · rw [if_neg hxp, if_neg hxp]
        omega
  · rename_i hfind
    cases h
    intro x hx
    have h2 := indeg_succ (store e.heap e.next (node.mk_shared s childType)) e.next x
    have h2b : (if ((store e.heap e.next (node.mk_shared s childType)) e.next).rc = 0 then 0
        else (((store e.heap e.next (node.mk_shared s childType)) e.next).children).count x)
        = 0 := by
      simp [store, node.mk_shared]
    have h4 : indeg (store e.heap e.next (node.mk_shared s childType)) e.next x
        = indeg e.heap e.next x := by
      apply indeg_congr
      intro q hq
      have : q ≠ e.next := by omega
      simp [store, this]
    have hx1 : x < e.next + 1 := hx
    show indeg _ (e.next + 1) x + [e.root].count x ≤ _
    refine le_trans (Nat.add_le_add_right (indeg_add_link _ (e.next + 1) cur e.next x _) _) ?_
    rw [rc_add_link, h2, h2b, h4]
    by_cases hxn : x = e.next
    · have hz : indeg e.heap e.next x = 0 := by
        apply indeg_zero
        intro q _ hmem
        have := hlinks q x hmem
        omega
      have hnr : [e.root].count x = 0 := by
        rw [List.count_eq_zero, List.mem_singleton]
        omega
      rw [hz, hnr, if_pos hxn]
      subst hxn
      simp [store, node.mk_shared]
    · have hxlt : x < e.next := by omega
      have hx0 := hc x hxlt
      have hrc : (store e.heap e.next (node.mk_shared s childType) x).rc = (e.heap x).rc := by
        simp [store, hxn]
      rw [hrc, if_neg hxn]
      omega

/-- The loop of `expand` keeps the strong counts covering the references. -/
theorem expand_counted [DecidableEq State] (cur : Nat) (childType : Bool) :
    ∀ (moves : List (Choice × State)) (e e1 : minimax State Choice),
      expand cur childType moves e = Except.ok e1 → linked e → counted e → counted e1 := by
  intro moves
  induction moves with
  | nil =>
    intro e e1 h _ hc
    simp only [expand] at h
    cases h
    exact hc
  | cons mv moves ih =>
    intro e e1 h hl hc
    rw [expand_cons] at h
    cases hone : expand cur childType [mv] e with
    | error err =>
      rw [hone] at h
      cases h
    | ok e2 =>
      rw [hone] at h
      exact ih e2 e1 h
        (expand_ok (fun _ => ([] : List (Choice × State))) cur childType _ _ _ hone hl).1
        (expand_one_counted cur childType mv e e2 hone hl hc)

theorem counted_new (start : State) (isMax : Bool) :
    counted (minimax.new start isMax : minimax State Choice) := by
  intro p hp
  have hp0 : p = 0 := by
    simp only [minimax.new] at hp
    omega
  subst hp0
  simp [minimax.new, node.mk_shared, indeg]

/-- Every step of the traversal of `compute(depth)` keeps the strong counts covering
the references. -/
theorem step_counted [DecidableEq State] (heuristic : State → Int)
    (getChoices : State → List (Choice × State)) (depth startNode : Nat)
    (f f1 : Frame State Choice) (hf : frame_ok getChoices depth f) (hc : counted f.mm)
    (h : step heuristic getChoices depth startNode f = Except.ok f1) : counted f1.mm := by
  obtain ⟨hl, -, -⟩ := hf
  cases hpc : f.pc with
  | descend =>
    by_cases hlt : (f.mm.heap f.cur).height < usize_sub depth f.path.length
    · rw [step_descend_fire heuristic getChoices depth startNode f hpc hlt] at h
      have hc1 : counted ({ f.mm with heap := reset_node f.mm.heap f.cur f.nodeType } :
          minimax State Choice) :=
        counted_of_same_links _ f.mm rfl rfl (fun q => reset_node_links _ _ _ q) hc
      split at h
      · cases h
        exact hc1
      · cases h
        exact hc1
    · rw [step_descend_stay heuristic getChoices depth startNode f hpc hlt] at h
      cases h
      exact counted_of_same_links _ f.mm rfl rfl
        (fun q => same_links_evaluate_leaf heuristic f.mm.heap f.cur q) hc
  | construct =>
    by_cases hgt : depth > f.path.length
    · cases hexp : expand f.cur (!f.nodeType) (getChoices (f.mm.heap f.cur).state) f.mm with
      | error err =>
        unfold step at h
        rw [hpc] at h
        simp only [hgt, if_true, hexp] at h
        cases h
      | ok e1 =>
        rw [step_construct_expand heuristic getChoices depth startNode f hpc hgt e1 hexp] at h
        have hc2 := expand_counted _ _ _ _ _ hexp hl hc
        have hc3 : counted ({ e1 with heap := mark_visited e1.heap f.cur } :
            minimax State Choice) :=
          counted_of_same_links _ e1 rfl rfl (fun q => mark_visited_links _ _ q) hc2
        split at h
        · cases h
          exact hc3
        · cases h
          exact hc3
    · rw [step_construct_stop heuristic getChoices depth startNode f hpc hgt] at h
      cases h
      exact hc
  | backtrack =>
    rw [step_backtrack heuristic getChoices depth startNode f hpc] at h
    cases h
    unfold next_node_step
    cases hpath : f.path with
    | nil => exact hc
    | cons it rest =>
      simp only
      split
      · exact hc
      · obtain ⟨h1, h2, -, h4, -, -⟩ := merge_child_low startNode f it rest
        rw [return_check_root]
        exact counted_of_same_links _ f.mm h2 h4 (fun q => (h1 q).1) hc
  | finished =>
    rw [step_finished heuristic getChoices depth startNode f hpc] at h
    cases h
    exact hc

theorem run_counted [DecidableEq State] (heuristic : State → Int)
    (getChoices : State → List (Choice × State)) (depth startNode : Nat)
    (hdepth : depth < 2 ^ 64) :
    ∀ (fuel : Nat) (stale : List Bool) (f : Frame State Choice)
      (e1 : minimax State Choice),
      frame_ok getChoices depth f → counted f.mm →
      run heuristic getChoices depth startNode fuel stale f = Except.ok e1 → counted e1 := by
  intro fuel
  induction fuel with
  | zero =>
    intro stale f e1 _ hc h
    simp only [run] at h
    split at h
    · cases h
      exact hc
    · cases h
  | succ fuel ih =>
    intro stale f e1 hf hc h
    simp only [run] at h
    split at h
    · cases h
      exact hc
    · split at h
      · cases h
      · split at h
        · cases h
        · rename_i f2 hs
          exact ih _ f2 e1 (step_ok heuristic getChoices depth startNode hdepth f f2 hf hs)
            (step_counted heuristic getChoices depth startNode f f2 hf hc hs) h

/-- A search keeps the strong counts covering the references. -/
theorem counted_compute [DecidableEq State] (heuristic : State → Int)
    (getChoices : State → List (Choice × State)) (fuel depth : Nat) (hdepth : depth < 2 ^ 64)
    (e e1 : minimax State Choice) (hwf : well_formed getChoices e) (hc : counted e)
    (h : compute heuristic getChoices fuel depth e = Except.ok e1) : counted e1 := by
  unfold compute at h
  split at h
  · cases h
    exact hc
  · split at h
    · cases h
    · rw [well_formed_iff] at hwf
      exact run_counted heuristic getChoices depth e.root hdepth fuel _ _ e1
        ⟨hwf.1, fun p => Or.inl (hwf.2 p), Nat.zero_le _⟩ hc h

/-- The engine after `progress`, whether the call succeeds or fails, has strong counts
that cover its references if the engine before the call is well formed and has. -/
theorem counted_progress [DecidableEq State] [DecidableEq Choice]
    (heuristic : State → Int) (getChoices : State → List (Choice × State)) (fuel : Nat)
    (choice : Choice) (e : minimax State Choice) (hwf : well_formed getChoices e)
    (hc : counted e) : counted (progress heuristic getChoices fuel choice e).2 := by
  have hwf1 : well_formed getChoices ({ e with type_ := !e.type_ } : minimax State Choice) :=
    hwf
  have hc1 : counted ({ e with type_ := !e.type_ } : minimax State Choice) := hc
  have hcommit : ∀ (e2 : minimax State Choice), well_formed getChoices e2 → counted e2 →
      counted
        (match progress_loop choice (e2.heap e2.root).choices (e2.heap e2.root).children none
          with
        | none => (Except.error Error.invalid_argument, e2)
        | some newRoot =>
          ((Except.ok ((swap_root e2 newRoot).heap newRoot).state : Except Error State),
            swap_root e2 newRoot)).2 := by
    intro e2 hwf2 hc2
    cases hl : progress_loop choice (e2.heap e2.root).choices (e2.heap e2.root).children none
      with
    | none => exact hc2
    | some newRoot =>
      rcases progress_loop_mem choice _ _ _ _ hl with h | h
      · cases h
      · exact (swap_root_keeps e2 newRoot ((well_formed_iff getChoices e2).mp hwf2).1 hc2 h).1
  by_cases hchildren : (e.heap e.root).children = []
  · cases hcomp : compute heuristic getChoices fuel 1
        ({ e with type_ := !e.type_ } : minimax State Choice) with
    | error err =>
      simp only [progress, hchildren, if_true, hcomp]
      exact hc1
    | ok e2 =>
      have hwf2 := well_formed_compute heuristic getChoices fuel 1 (by norm_num) _ e2 hwf1 hcomp
      have hc2 := counted_compute heuristic getChoices fuel 1 (by norm_num) _ e2 hwf1 hc1 hcomp
      by_cases h2 : (e2.heap e2.root).children = []
      · simp only [progress, hchildren, if_true, hcomp, h2]
        exact hc2
      · simp only [progress, hchildren, if_true, hcomp, h2, if_false]
        exact hcommit e2 hwf2 hc2
  · rw [progress_of_children heuristic getChoices fuel choice e hchildren]
    exact hcommit _ hwf1 hc1

/-- In every reachable engine the strong counts cover the references. -/
theorem counted_of_reachable [DecidableEq State] [DecidableEq Choice]
    (heuristic : State → Int) (getChoices : State → List (Choice × State))
    (e : minimax State Choice) (h : reachable heuristic getChoices e) : counted e := by
  induction h with
  | new start isMax => exact counted_new start isMax
  | compute e e1 fuel depth hr hdepth hcomp ih =>
    exact counted_compute heuristic getChoices fuel depth hdepth e e1
      (well_formed_of_reachable heuristic getChoices e hr) ih hcomp
  | progress e fuel choice hr ih =>
    exact counted_progress heuristic getChoices fuel choice e
      (well_formed_of_reachable heuristic getChoices e hr) ih

theorem reachable_searched [DecidableEq State] [DecidableEq Choice] (heuristic : State → Int)
    (getChoices : State → List (Choice × State)) (fuel depth : Nat) (hdepth : depth < 2 ^ 64)
    (start : State) (isMax : Bool) :
    reachable heuristic getChoices (searched heuristic getChoices fuel depth start isMax) := by
  unfold searched
  cases h : compute heuristic getChoices fuel depth (minimax.new start isMax) with
  | error err => exact reachable.new start isMax
  | ok e => exact reachable.compute _ e fuel depth (reachable.new start isMax) hdepth h

/-- C16: on an engine reached by calls of `compute` and `progress` whose root has
children, a successful `progress(choice)` makes one of these children the root, and
every node reachable from it through child links is alive after the call and has the
same mark, state, score, height, children and choices as before. -/
theorem progress_keeps_below [DecidableEq State] [DecidableEq Choice]
    (heuristic : State → Int) (getChoices : State → List (Choice × State)) (fuel : Nat)
    (choice : Choice) (e : minimax State Choice) (hreach : reachable heuristic getChoices e)
    (hchildren : (e.heap e.root).children ≠ [])
    (hok : succeeded (progress heuristic getChoices fuel choice e).1 = true) :
    (progress heuristic getChoices fuel choice e).2.root ∈ (e.heap e.root).children ∧
      ∀ p, reach e.heap (progress heuristic getChoices fuel choice e).2.root p →
        expired (progress heuristic getChoices fuel choice e).2.heap p = false ∧
          same_but_rc ((progress heuristic getChoices fuel choice e).2.heap p) (e.heap p) := by
  have hwf := well_formed_of_reachable heuristic getChoices e hreach
  have hc := counted_of_reachable heuristic getChoices e hreach
  have hl : linked ({ e with type_ := !e.type_ } : minimax State Choice) :=
    ((well_formed_iff getChoices e).mp hwf).1
  have hc1 : counted ({ e with type_ := !e.type_ } : minimax State Choice) := hc
  rw [progress_of_children heuristic getChoices fuel choice e hchildren] at hok ⊢
  cases hloop : progress_loop choice (e.heap e.root).choices (e.heap e.root).children none with
  | none =>
    simp only [hloop] at hok
    cases hok
  | some newRoot =>
    simp only [hloop]
    rcases progress_loop_mem choice _ _ _ _ hloop with h | h
    · cases h
    · exact ⟨h, (swap_root_keeps ({ e with type_ := !e.type_ } : minimax State Choice)
        newRoot hl hc1 h).2⟩

/-- The claim C16 on the game `shared_moves` searched three plies deep: `progress(0)`
moves the root to the node of state 1, at address 1. -/
theorem progress_keeps_below_witness :
    reachable shared_score shared_moves (searched shared_score shared_moves 64 3 0 true) ∧
      ((searched shared_score shared_moves 64 3 0 true).heap
        (searched shared_score shared_moves 64 3 0 true).root).children ≠ [] ∧
      succeeded (progress shared_score shared_moves 64 0
        (searched shared_score shared_moves 64 3 0 true)).1 = true ∧
      (progress shared_score shared_moves 64 0
        (searched shared_score shared_moves 64 3 0 true)).2.root = 1 ∧
      ∀ p, reach (searched shared_score shared_moves 64 3 0 true).heap
          (progress shared_score shared_moves 64 0
            (searched shared_score shared_moves 64 3 0 true)).2.root p →
        expired (progress shared_score shared_moves 64 0
            (searched shared_score shared_moves 64 3 0 true)).2.heap p = false ∧
          same_but_rc ((progress shared_score shared_moves 64 0
              (searched shared_score shared_moves 64 3 0 true)).2.heap p)
            ((searched shared_score shared_moves 64 3 0 true).heap p) :=
  ⟨reachable_searched shared_score shared_moves 64 3 (by decide) 0 true, by decide!, by decide!,
    by decide!,
    (progress_keeps_below shared_score shared_moves 64 0
      (searched shared_score shared_moves 64 3 0 true)
      (reachable_searched shared_score shared_moves 64 3 (by decide) 0 true)
      (by decide!) (by decide!)).2⟩

/-! ## Exact strong counts and the purge of the table -/

theorem live_links_congr (hp1 hp : Nat → node State Choice) (n : Nat)
    (h : ∀ q, q < n → ((hp1 q).rc = 0 ↔ (hp q).rc = 0) ∧ (hp1 q).children = (hp q).children) :
    live_links hp1 n = live_links hp n := by
  unfold live_links
  congr 1
  apply List.map_congr_left
  intro q hq
  obtain ⟨h1, h2⟩ := h q (List.mem_range.mp hq)
  by_cases h0 : (hp q).rc = 0
  · rw [if_pos h0, if_pos (h1.mpr h0)]
  · rw [if_neg h0, if_neg (fun hx => h0 (h1.mp hx)), h2]

theorem live_links_kill (hp : Nat → node State Choice) (n p0 : Nat) (hp0 : p0 < n)
    (halive : (hp p0).rc ≠ 0) :
    live_links (store hp p0 { hp p0 with rc := 0 }) n + ((hp p0).children).length
      = live_links hp n := by
  unfold live_links
  have h := sum_range_update
    (fun q => if ((store hp p0 { hp p0 with rc := 0 }) q).rc = 0 then 0
      else (((store hp p0 { hp p0 with rc := 0 }) q).children).length)
    (fun q => if (hp q).rc = 0 then 0 else ((hp q).children).length) p0
    (fun q hq => by simp [store, hq]) n hp0
  simp only [store, if_true, if_neg halive] at h ⊢
  omega

/-- With exact strong counts and a budget of one step for every pending release and
every child link of a live node, the release runs to its end and leaves the strong
counts exact. -/
theorem release_balanced (n : Nat) (keep : List Nat) :
    ∀ (fuel : Nat) (work : List Nat) (hp : Nat → node State Choice),
      (∀ q, q < n → ∀ c ∈ (hp q).children, c < n) → (∀ w ∈ work, w < n) →
      balanced hp n (work ++ keep) → work.length + live_links hp n ≤ fuel →
      balanced (release fuel work hp) n keep := by
  intro fuel
  induction fuel with
  | zero =>
    intro work hp _ _ h hfuel
    have hw : work = [] := List.eq_nil_of_length_eq_zero (by omega)
    subst hw
    exact h
  | succ fuel ih =>
    intro work hp hlinks hwork h hfuel
    cases work with
    | nil => exact h
    | cons p work =>
      have hpn : p < n := hwork p (List.mem_cons_self _ _)
      have hwork1 : ∀ w ∈ work, w < n := fun w hw => hwork w (List.mem_cons_of_mem _ hw)
      have halive : (hp p).rc ≠ 0 := by
        have := h p hpn
        simp only [List.cons_append, List.count_cons_self] at this
        omega
      simp only [release, if_neg halive]
      have hstore : (store hp p { hp p with rc := (hp p).rc - 1 } p).rc = (hp p).rc - 1 := by
        simp [store]
      have hchildren : ∀ q, (store hp p { hp p with rc := (hp p).rc - 1 } q).children
          = (hp q).children := by
        intro q
        by_cases hq : q = p
        · subst hq
          simp [store]
        · simp [store, hq]
      have hlinks1 : ∀ q, q < n →
          ∀ c ∈ (store hp p { hp p with rc := (hp p).rc - 1 } q).children, c < n := by
        intro q hq c hc
        rw [hchildren q] at hc
        exact hlinks q hq c hc
      simp only [List.length_cons] at hfuel
      split
      · rename_i hdead
        rw [hstore] at hdead
        have hone : (hp p).rc = 1 := by omega
        have heq : (store hp p { hp p with rc := (hp p).rc - 1 })
            = store hp p { hp p with rc := 0 } := by
          rw [hone]
        have hll := live_links_kill hp n p hpn halive
        apply ih _ _ hlinks1
        · intro w hw
          rcases List.mem_append.mp hw with hw | hw
          · exact hlinks p hpn w hw
          · exact hwork1 w hw
        · intro x hx
          have hk := indeg_kill hp n p x hpn halive
          dsimp only at hk
          have hx0 := h x hx
          rw [heq]
          simp only [List.cons_append, List.count_cons, List.count_append] at hx0 ⊢
          by_cases hxp : x = p
          · subst hxp
            simp only [beq_self_eq_true, if_true] at hx0
            rw [hone] at hx0
            simp only [store, if_true]
            omega
          · have hne : (p == x) = false := by
              simp only [beq_eq_false_iff_ne, ne_eq]
              exact fun h => hxp h.symm
            simp only [hne, Bool.false_eq_true, if_false] at hx0
            simp only [store, if_neg hxp]
            omega
        · rw [heq, List.length_append]
          omega
      · rename_i hlive
        rw [hstore] at hlive
        have hcongr : ∀ q, q < n →
            ((store hp p { hp p with rc := (hp p).rc - 1 } q).rc = 0 ↔ (hp q).rc = 0) ∧
              (store hp p { hp p with rc := (hp p).rc - 1 } q).children = (hp q).children := by
          intro q _
          refine ⟨?_, hchildren q⟩
          by_cases hq : q = p
          · subst hq
            rw [hstore]
            constructor
            · intro h0
              exact absurd h0 hlive
            · intro h0
              exact absurd h0 halive
          · simp [store, hq]
        apply ih _ _ hlinks1 hwork1
        · intro x hx
          have hx0 := h x hx
          rw [indeg_congr _ hp n x hcongr]
          simp only [List.cons_append, List.count_cons, List.count_append] at hx0 ⊢
          by_cases hxp : x = p
          · subst hxp
            simp only [beq_self_eq_true, if_true] at hx0
            simp only [store, if_true]
            omega
          · have hne : (p == x) = false := by
              simp only [beq_eq_false_iff_ne, ne_eq]
              exact fun h => hxp h.symm
            simp only [hne, Bool.false_eq_true, if_false] at hx0
            simp only [store, if_neg hxp]
            omega
        · rw [live_links_congr _ hp n hcongr]
          omega

theorem live_links_le (hp hp0 : Nat → node State Choice)
    (h : ∀ q, (hp q).children = (hp0 q).children) :
    ∀ n, live_links hp n ≤ ((List.range n).map (fun p => ((hp0 p).children).length + 1)).sum := by
  intro n
  induction n with
  | zero => simp [live_links]
  | succ n ih =>
    unfold live_links at ih ⊢
    rw [List.range_succ, List.map_append, List.map_append, List.sum_append, List.sum_append]
    simp only [List.map_cons, List.map_nil, List.sum_cons, List.sum_nil, Nat.add_zero]
    rw [h n]
    split <;> omega

theorem indeg_pos (hp : Nat → node State Choice) (n p : Nat) (h : 0 < indeg hp n p) :
    ∃ q, q < n ∧ (hp q).rc ≠ 0 ∧ p ∈ (hp q).children := by
  by_contra hno
  have hz : indeg hp n p = 0 := by
    unfold indeg
    apply List.sum_eq_zero
    intro y hy
    obtain ⟨q, hq, rfl⟩ := List.mem_map.mp hy
    split
    · rfl
    · rename_i halive
      apply List.count_eq_zero.mpr
      intro hmem
      exact hno ⟨q, List.mem_range.mp hq, halive, hmem⟩
  omega

/-- With exact strong counts in an acyclic graph, the live nodes are the nodes
reachable from the owner. -/
theorem alive_iff_reach (hp : Nat → node State Choice) (n r : Nat)
    (hlinks : ∀ q, q < n → ∀ c ∈ (hp q).children, c < n) (hr : r < n)
    (hbal : balanced hp n [r]) (rank : Nat → Nat)
    (hrank : ∀ q, q < n → ∀ c ∈ (hp q).children, rank q < rank c) :
    ∀ p, p < n → ((hp p).rc ≠ 0 ↔ reach hp r p) := by
  have hcov : covered hp n [r] := fun p hp1 => le_of_eq (hbal p hp1).symm
  intro p hp1
  constructor
  · intro halive
    have key : ∀ k p, rank p ≤ k → p < n → (hp p).rc ≠ 0 → reach hp r p := by
      intro k
      induction k with
      | zero =>
        intro p hk hpn hpa
        by_cases hpr : p = r
        · rw [hpr]
          exact Relation.ReflTransGen.refl
        · have h1 := hbal p hpn
          have h2 : [r].count p = 0 := by
            rw [List.count_eq_zero, List.mem_singleton]
            exact hpr
          obtain ⟨q, hq, _, hmem⟩ := indeg_pos hp n p (by omega)
          have := hrank q hq p hmem
          omega
      | succ k ih =>
        intro p hk hpn hpa
        by_cases hpr : p = r
        · rw [hpr]
          exact Relation.ReflTransGen.refl
        · have h1 := hbal p hpn
          have h2 : [r].count p = 0 := by
            rw [List.count_eq_zero, List.mem_singleton]
            exact hpr
          obtain ⟨q, hq, hqa, hmem⟩ := indeg_pos hp n p (by omega)
          have hlt := hrank q hq p hmem
          exact Relation.ReflTransGen.tail (ih q (by omega) hq hqa) hmem
    exact key (rank p) p (le_refl _) hp1 halive
  · intro hreach
    exact (alive_of_covered hp n r [r] hlinks hr (List.mem_singleton_self _) hcov p hreach).2

/-- The root swap of `progress` on an acyclic engine with exact strong counts: the
counts stay exact, the live nodes are the nodes reachable from the new root, and the
table keeps the entries of these nodes and no others. -/
theorem swap_root_purges (e : minimax State Choice) (newRoot : Nat) (hl : linked e)
    (hex : exact e) (hacyc : acyclic e) (hchild : newRoot ∈ (e.heap e.root).children) :
    exact (swap_root e newRoot) ∧
      (∀ p, p < e.next →
        (expired (swap_root e newRoot).heap p = false ↔ reach e.heap newRoot p)) ∧
      ∀ entry, entry ∈ (swap_root e newRoot).nodes ↔
        entry ∈ e.nodes ∧ reach e.heap newRoot entry.2 := by
  obtain ⟨rank, hrank⟩ := hacyc
  obtain ⟨-, hlinks, htable, hroot⟩ := hl
  have hnew : newRoot < e.next := hlinks e.root newRoot hchild
  have hne : newRoot ≠ e.root := by
    have := hrank e.root hroot newRoot hchild
    intro h
    rw [h] at this
    omega
  have hrootalive : (e.heap e.root).rc ≠ 0 := by
    have := hex e.root hroot
    simp only [List.count_singleton_self] at this
    omega
  have hnewalive : (e.heap newRoot).rc ≠ 0 := by
    have h1 := hex newRoot hnew
    have h2 := indeg_ge e.heap e.next e.root newRoot hroot hrootalive
    have h3 : 0 < ((e.heap e.root).children).count newRoot := List.count_pos_iff.mpr hchild
    omega
  have hfields : ∀ q, same_but_rc ((swap_root e newRoot).heap q) (e.heap q) := fun q =>
    same_but_rc_trans (release_fields _ _ _ q) (same_but_rc_store e.heap newRoot _ q)
  have hch1 : ∀ q, (store e.heap newRoot { e.heap newRoot with rc := (e.heap newRoot).rc + 1 }
      q).children = (e.heap q).children := fun q => (same_but_rc_store e.heap newRoot _ q).2.2.2.2.1
  have hcongr : ∀ q, q < e.next →
      ((store e.heap newRoot { e.heap newRoot with rc := (e.heap newRoot).rc + 1 } q).rc = 0 ↔
        (e.heap q).rc = 0) ∧
      (store e.heap newRoot { e.heap newRoot with rc := (e.heap newRoot).rc + 1 } q).children
        = (e.heap q).children := by
    intro q _
    refine ⟨?_, hch1 q⟩
    by_cases hq : q = newRoot
    · subst hq
      simp only [store, if_true]
      constructor
      · intro h0
        omega
      · intro h0
        exact absurd h0 hnewalive
    · simp [store, hq]
  have hbal1 : balanced (store e.heap newRoot
      { e.heap newRoot with rc := (e.heap newRoot).rc + 1 }) e.next ([e.root] ++ [newRoot]) := by
    intro x hx
    have hx0 := hex x hx
    rw [indeg_congr _ e.heap e.next x hcongr]
    simp only [List.singleton_append, List.count_cons, List.count_nil] at hx0 ⊢
    by_cases hxn : x = newRoot
    · subst hxn
      simp only [store, if_true, beq_self_eq_true]
      omega
    · have hne : (newRoot == x) = false := by
        simp only [beq_eq_false_iff_ne, ne_eq]
        exact fun h => hxn h.symm
      simp only [store, if_neg hxn, hne, Bool.false_eq_true, if_false]
      omega
  have hbudget : [e.root].length + live_links (store e.heap newRoot
      { e.heap newRoot with rc := (e.heap newRoot).rc + 1 }) e.next ≤ release_budget e := by
    have := live_links_le (store e.heap newRoot
      { e.heap newRoot with rc := (e.heap newRoot).rc + 1 }) e.heap hch1 e.next
    unfold release_budget
    simp only [List.length_singleton]
    dsimp only at this
    omega
  have hbal : balanced (swap_root e newRoot).heap e.next [newRoot] :=
    release_balanced e.next [newRoot] _ [e.root] _
      (fun q hq c hcq => hlinks q c (by rw [hch1 q] at hcq; exact hcq))
      (fun w hw => by
        rw [List.mem_singleton] at hw
        rw [hw]
        exact hroot) hbal1 hbudget
  have hchf : ∀ q, ((swap_root e newRoot).heap q).children = (e.heap q).children :=
    fun q => (hfields q).2.2.2.2.1
  have hiff : ∀ p, p < e.next →
      (expired (swap_root e newRoot).heap p = false ↔ reach e.heap newRoot p) := by
    intro p hp1
    have h1 := alive_iff_reach (swap_root e newRoot).heap e.next newRoot
      (fun q _ c hcq => hlinks q c (by rw [hchf q] at hcq; exact hcq)) hnew hbal rank
      (fun q hq c hcq => hrank q hq c (by rw [hchf q] at hcq; exact hcq)) p hp1
    simp only [expired, beq_eq_false_iff_ne, ne_eq]
    constructor
    · intro h
      exact reach_congr _ _ (fun q => (hchf q).symm) newRoot p (h1.mp h)
    · intro h
      exact h1.mpr (reach_congr _ _ hchf newRoot p h)
  refine ⟨hbal, hiff, ?_⟩
  intro entry
  show entry ∈ e.nodes.filter (fun entry => !expired (swap_root e newRoot).heap entry.2) ↔ _
  rw [List.mem_filter]
  constructor
  · rintro ⟨hmem, hexp⟩
    refine ⟨hmem, (hiff entry.2 (htable entry hmem).1).mp ?_⟩
    simpa using hexp
  · rintro ⟨hmem, hreach⟩
    refine ⟨hmem, ?_⟩
    have := (hiff entry.2 (htable entry hmem).1).mpr hreach
    simp [this]

/-! ## The path of the traversal and exact strong counts -/

theorem deref_mem (hp : Nat → node State Choice) (it : child_iter) (h : inside hp it) :
    deref hp it ∈ (hp it.owner).children := by
  unfold deref
  unfold inside at h
  rw [List.getD_eq_getElem _ _ h]
  exact List.getElem_mem h

theorem deref_grown (n : Nat) (hp hp1 : Nat → node State Choice) (it : child_iter)
    (hg : grown n hp hp1) (hown : it.owner < n) (h : inside hp it) :
    deref hp1 it = deref hp it := by
  unfold deref
  unfold inside at h
  obtain ⟨t, ht⟩ := hg it.owner hown
  rw [← ht, List.getD_append _ _ _ _ h]

theorem inside_grown (n : Nat) (hp hp1 : Nat → node State Choice) (it : child_iter)
    (hg : grown n hp hp1) (hown : it.owner < n) (h : inside hp it) : inside hp1 it := by
  unfold inside at h ⊢
  exact lt_of_lt_of_le h (hg it.owner hown).length_le

theorem reach_lt (hp : Nat → node State Choice) (n r : Nat)
    (hlinks : ∀ q, q < n → ∀ c ∈ (hp q).children, c < n) (hr : r < n) :
    ∀ p, reach hp r p → p < n := by
  intro p hreach
  unfold reach at hreach
  induction hreach with
  | refl => exact hr
  | @tail b c _ hlink ih => exact hlinks b ih c hlink

/-- The owners of the iterators of a chained path are reachable from the start. -/
theorem chained_reach (hp : Nat → node State Choice) (startNode : Nat) :
    ∀ (path : List child_iter), chained hp startNode path →
      (∀ it ∈ path.tail, inside hp it) → ∀ it ∈ path, reach hp startNode it.owner := by
  intro path
  induction path with
  | nil => intro _ _ it hit; cases hit
  | cons it rest ih =>
    intro hch hin it1 hit1
    obtain ⟨hown, hrest⟩ := hch
    simp only [List.tail_cons] at hin
    have hrec := ih hrest (fun x hx => hin x (List.mem_of_mem_tail hx))
    rcases List.mem_cons.mp hit1 with h | h
    · rw [h, hown]
      cases rest with
      | nil => exact Relation.ReflTransGen.refl
      | cons it2 rest2 =>
        exact Relation.ReflTransGen.tail (hrec it2 (List.mem_cons_self _ _))
          (deref_mem hp it2 (hin it2 (List.mem_cons_self _ _)))
    · exact hrec it1 h

/-- The node a chained path leads to is reachable from the start. -/
theorem target_reach (hp : Nat → node State Choice) (startNode : Nat)
    (path : List child_iter) (hch : chained hp startNode path)
    (hin : ∀ it ∈ path, inside hp it) : reach hp startNode (target hp startNode path) := by
  cases path with
  | nil => exact Relation.ReflTransGen.refl
  | cons it rest =>
    exact Relation.ReflTransGen.tail
      (chained_reach hp startNode (it :: rest) hch
        (fun x hx => hin x (List.mem_of_mem_tail hx)) it (List.mem_cons_self _ _))
      (deref_mem hp it (hin it (List.mem_cons_self _ _)))

theorem target_grown (n : Nat) (hp hp1 : Nat → node State Choice) (startNode : Nat)
    (path : List child_iter) (hg : grown n hp hp1)
    (hown : ∀ it ∈ path.head?, it.owner < n ∧ inside hp it) :
    target hp1 startNode path = target hp startNode path := by
  cases path with
  | nil => rfl
  | cons it rest =>
    obtain ⟨h1, h2⟩ := hown it (by simp)
    exact deref_grown n hp hp1 it hg h1 h2

theorem chained_grown (n : Nat) (hp hp1 : Nat → node State Choice) (startNode : Nat)
    (hg : grown n hp hp1) :
    ∀ (path : List child_iter), chained hp startNode path →
      (∀ it ∈ path.tail, it.owner < n ∧ inside hp it) → chained hp1 startNode path := by
  intro path
  induction path with
  | nil => intro _ _; trivial
  | cons it rest ih =>
    intro hch hin
    obtain ⟨hown, hrest⟩ := hch
    simp only [List.tail_cons] at hin
    refine ⟨?_, ih hrest (fun x hx => hin x (List.mem_of_mem_tail hx))⟩
    rw [hown]
    exact (target_grown n hp hp1 startNode rest hg (fun x hx => hin x (by
      cases rest with
      | nil => simp at hx
      | cons a b =>
        simp only [List.head?_cons, Option.mem_def, Option.some.injEq] at hx
        rw [← hx]
        exact List.mem_cons_self _ _))).symm

theorem grown_refl (n : Nat) (hp : Nat → node State Choice) : grown n hp hp :=
  fun _ _ => List.prefix_refl _

theorem grown_trans (n n1 : Nat) (hp hp1 hp2 : Nat → node State Choice) (hn : n ≤ n1)
    (h1 : grown n hp hp1) (h2 : grown n1 hp1 hp2) : grown n hp hp2 :=
  fun q hq => List.IsPrefix.trans (h1 q hq) (h2 q (by omega))

theorem grown_of_eq (n : Nat) (hp hp1 : Nat → node State Choice)
    (h : ∀ q, (hp1 q).children = (hp q).children) : grown n hp hp1 := by
  intro q _
  rw [h q]

theorem children_add_link (hp : Nat → node State Choice) (cur q : Nat) (ch : List Nat)
    (cs : List Choice) :
    (store hp cur { hp cur with children := ch, choices := cs } q).children
      = if q = cur then ch else (hp q).children := by
  by_cases hq : q = cur
  · subst hq
    simp [store]
  · simp [store, hq]

theorem expand_one_grown [DecidableEq State] (cur : Nat) (childType : Bool)
    (mv : Choice × State) (e e1 : minimax State Choice)
    (h : expand cur childType [mv] e = Except.ok e1) :
    grown e.next e.heap e1.heap ∧ e.next ≤ e1.next := by
  obtain ⟨c, s⟩ := mv
  simp only [expand] at h
  split at h
  · rename_i p hfind
    split at h
    · cases h
    · cases h
      refine ⟨?_, le_refl _⟩
      intro q _
      show _ <+: (store _ cur _ q).children
      rw [children_add_link]
      have hsame : ∀ x, (store e.heap p { e.heap p with rc := (e.heap p).rc + 1 } x).children
          = (e.heap x).children := fun x => (same_but_rc_store e.heap p _ x).2.2.2.2.1
      split
      · rename_i hq
        rw [hsame, hq]
        exact List.prefix_append _ _
      · rw [hsame]
  · cases h
    refine ⟨?_, Nat.le_succ _⟩
    intro q hq
    have hne : q ≠ e.next := by omega
    show _ <+: (store _ cur _ q).children
    rw [children_add_link]
    split
    · rename_i hq1
      rw [← hq1]
      simp only [store, if_neg hne]
      exact List.prefix_append _ _
    · simp only [store, if_neg hne]
      exact List.prefix_refl _

theorem expand_grown [DecidableEq State] (cur : Nat) (childType : Bool) :
    ∀ (moves : List (Choice × State)) (e e1 : minimax State Choice),
      expand cur childType moves e = Except.ok e1 →
      grown e.next e.heap e1.heap ∧ e.next ≤ e1.next := by
  intro moves
  induction moves with
  | nil =>
    intro e e1 h
    simp only [expand] at h
    cases h
    exact ⟨grown_refl _ _, le_refl _⟩
  | cons mv moves ih =>
    intro e e1 h
    rw [expand_cons] at h
    cases hone : expand cur childType [mv] e with
    | error err =>
      rw [hone] at h
      cases h
    | ok e2 =>
      rw [hone] at h
      obtain ⟨h1, h2⟩ := expand_one_grown cur childType mv e e2 hone
      obtain ⟨h3, h4⟩ := ih e2 e1 h
      exact ⟨grown_trans _ _ _ _ _ h2 h1 h3, le_trans h2 h4⟩

theorem merge_child_path (startNode : Nat) (f : Frame State Choice) (it : child_iter)
    (rest : List child_iter) :
    (merge_child startNode f it rest).path = { it with idx := it.idx + 1 } :: rest ∨
      ∃ it2 rest2, rest = it2 :: rest2 ∧
        (merge_child startNode f it rest).path = { it2 with idx := it2.idx + 1 } :: rest2 := by
  unfold merge_child
  cases rest with
  | nil => left; rfl
  | cons it2 rest2 =>
    simp only
    split
    · right
      exact ⟨it2, rest2, rfl, rfl⟩
    · left
      rfl

theorem return_check_spec (depth startNode : Nat) (f : Frame State Choice) :
    return_check depth startNode f = f ∨
      ∃ it rest, f.path = it :: rest ∧
        it.idx ≠ ((f.mm.heap (parent_of f.mm.heap startNode f.path)).children).length ∧
        return_check depth startNode f = resume startNode f (deref f.mm.heap it) := by
  unfold return_check
  cases hpath : f.path with
  | nil => left; rfl
  | cons it rest =>
    simp only
    split
    · rename_i hc
      right
      exact ⟨it, rest, rfl, hc.1, rfl⟩
    · left
      rfl

theorem headD_eq_deref (hp : Nat → node State Choice) (cur : Nat) :
    ((hp cur).children).headD 0 = deref hp { owner := cur, idx := 0 } := by
  unfold deref
  cases (hp cur).children <;> rfl

theorem chained_same (hp hp1 : Nat → node State Choice) (startNode : Nat)
    (h : ∀ q, (hp1 q).children = (hp q).children) :
    ∀ (path : List child_iter), chained hp startNode path → chained hp1 startNode path := by
  intro path
  induction path with
  | nil => intro _; trivial
  | cons it rest ih =>
    intro hch
    exact ⟨by rw [target_congr startNode rest (fun x _ => h x.owner)]; exact hch.1, ih hch.2⟩

theorem inside_same (hp hp1 : Nat → node State Choice)
    (h : ∀ q, (hp1 q).children = (hp q).children) (it : child_iter) (hin : inside hp it) :
    inside hp1 it := by
  unfold inside at hin ⊢
  rw [h]
  exact hin

/-- A chained path all of whose iterators point at children, with `at` the node the
path leads to, satisfies the invariant at every place of the traversal. -/
theorem walk_descend (startNode : Nat) (f : Frame State Choice)
    (hch : chained f.mm.heap startNode f.path) (hin : ∀ it ∈ f.path, inside f.mm.heap it)
    (hcur : f.cur = target f.mm.heap startNode f.path) : walk_ok startNode f := by
  refine ⟨hch, fun it hit => hin it (List.mem_of_mem_tail hit), fun _ => ⟨hcur, ?_⟩, fun _ => ?_⟩
  · intro it hit
    exact hin it (List.mem_of_mem_head? hit)
  · intro it hit
    exact le_of_lt (hin it (List.mem_of_mem_head? hit))

theorem walk_all_inside (startNode : Nat) (f : Frame State Choice) (hw : walk_ok startNode f)
    (hpc : f.pc = PC.descend ∨ f.pc = PC.construct) : ∀ it ∈ f.path, inside f.mm.heap it := by
  obtain ⟨-, htail, hd, -⟩ := hw
  intro it hit
  cases hpath : f.path with
  | nil => rw [hpath] at hit; cases hit
  | cons a rest =>
    rw [hpath] at hit htail
    rcases List.mem_cons.mp hit with h | h
    · rw [h]
      exact (hd hpc).2 a (by rw [hpath]; simp)
    · exact htail it (by simpa using h)

/-- The push of `at->children.begin()` on the path, from a node with children. -/
theorem walk_go_down (startNode : Nat) (f : Frame State Choice) (pc : PC)
    (hch : chained f.mm.heap startNode f.path) (hin : ∀ it ∈ f.path, inside f.mm.heap it)
    (hcur : f.cur = target f.mm.heap startNode f.path)
    (hne : (f.mm.heap f.cur).children ≠ []) : walk_ok startNode (go_down f pc) := by
  apply walk_descend
  · exact ⟨hcur, hch⟩
  · intro it hit
    rcases List.mem_cons.mp hit with h | h
    · rw [h]
      exact List.length_pos.mpr hne
    · exact hin it h
  · exact headD_eq_deref f.mm.heap f.cur

theorem walk_resume (depth startNode : Nat) (f : Frame State Choice)
    (hw : walk_ok startNode f) (hpc : f.pc = PC.backtrack) :
    walk_ok startNode (return_check depth startNode f) := by
  rcases return_check_spec depth startNode f with h | ⟨it, rest, hpath, hidx, h⟩
  · rw [h]
    exact hw
  · rw [h]
    obtain ⟨hch, htail, -, hb⟩ := hw
    have hown : parent_of f.mm.heap startNode f.path = it.owner := by
      rw [hpath, parent_of_cons]
      rw [hpath] at hch
      exact hch.1.symm
    rw [hown] at hidx
    have hle := hb hpc it (by rw [hpath]; simp)
    have hin : inside f.mm.heap it := by
      unfold inside
      omega
    refine ⟨hch, htail, fun _ => ⟨?_, ?_⟩, ?_⟩
    · show deref f.mm.heap it = target f.mm.heap startNode f.path
      rw [hpath]
      rfl
    · intro it1 hit1
      have : it1 = it := by
        have h1 : (resume startNode f (deref f.mm.heap it)).path = it :: rest := hpath
        rw [h1] at hit1
        simpa using hit1.symm
      rw [this]
      exact hin
    · intro _ it1 hit1
      have : it1 = it := by
        have h1 : (resume startNode f (deref f.mm.heap it)).path = it :: rest := hpath
        rw [h1] at hit1
        simpa using hit1.symm
      rw [this]
      exact hle

/-- The body of the loop of `next_node` keeps the invariant about the path. -/
theorem merge_child_walk (startNode : Nat) (f : Frame State Choice) (it : child_iter)
    (rest : List child_iter) (hpath : f.path = it :: rest) (hw : walk_ok startNode f)
    (hpc : f.pc = PC.backtrack)
    (hidx : it.idx ≠ ((f.mm.heap (parent_of f.mm.heap startNode f.path)).children).length) :
    walk_ok startNode (merge_child startNode f it rest) := by
  obtain ⟨hch, htail, -, hb⟩ := hw
  obtain ⟨h1, -, -, -, h5, -⟩ := merge_child_low startNode f it rest
  have hsame : ∀ q, ((merge_child startNode f it rest).mm.heap q).children
      = (f.mm.heap q).children := fun q => (h1 q).1.2.2.1
  have hpc2 : (merge_child startNode f it rest).pc = PC.backtrack := by rw [h5, hpc]
  rw [hpath] at hch htail
  simp only [List.tail_cons] at htail
  have hown : parent_of f.mm.heap startNode f.path = it.owner := by
    rw [hpath, parent_of_cons]
    exact hch.1.symm
  rw [hown] at hidx
  have hle := hb hpc it (by rw [hpath]; simp)
  have hnd : ¬ ((merge_child startNode f it rest).pc = PC.descend ∨
      (merge_child startNode f it rest).pc = PC.construct) := by
    rw [hpc2]
    simp
  rcases merge_child_path startNode f it rest with hp1 | ⟨it2, rest2, hrest, hp1⟩
  · refine ⟨?_, ?_, fun h => absurd h hnd, ?_⟩
    · rw [hp1]
      exact ⟨by
        show it.owner = _
        rw [target_congr startNode rest (fun x _ => hsame x.owner)]
        exact hch.1, chained_same _ _ startNode hsame rest hch.2⟩
    · rw [hp1]
      intro x hx
      exact inside_same _ _ hsame x (htail x (by simpa using hx))
    · intro _ x hx
      rw [hp1] at hx
      have : x = { it with idx := it.idx + 1 } := by simpa using hx.symm
      rw [this, hsame]
      show it.idx + 1 ≤ ((f.mm.heap it.owner).children).length
      omega
  · subst hrest
    obtain ⟨-, hch2⟩ := hch
    refine ⟨?_, ?_, fun h => absurd h hnd, ?_⟩
    · rw [hp1]
      exact ⟨by
        show it2.owner = _
        rw [target_congr startNode rest2 (fun x _ => hsame x.owner)]
        exact hch2.1, chained_same _ _ startNode hsame rest2 hch2.2⟩
    · rw [hp1]
      intro x hx
      exact inside_same _ _ hsame x (htail x (List.mem_cons_of_mem _ (by simpa using hx)))
    · intro _ x hx
      rw [hp1] at hx
      have : x = { it2 with idx := it2.idx + 1 } := by simpa using hx.symm
      rw [this, hsame]
      have := htail it2 (List.mem_cons_self _ _)
      unfold inside at this
      show it2.idx + 1 ≤ ((f.mm.heap it2.owner).children).length
      omega

/-- Every step of the traversal keeps the invariant about the path. -/
theorem step_walk [DecidableEq State] (heuristic : State → Int)
    (getChoices : State → List (Choice × State)) (depth startNode : Nat)
    (f f1 : Frame State Choice) (hl : linked f.mm) (hs : startNode < f.mm.next)
    (hw : walk_ok startNode f)
    (h : step heuristic getChoices depth startNode f = Except.ok f1) :
    walk_ok startNode f1 := by
  cases hpc : f.pc with
  | descend =>
    have hin := walk_all_inside startNode f hw (Or.inl hpc)
    have hcur := (hw.2.2.1 (Or.inl hpc)).1
    have hsame : ∀ q, (reset_node f.mm.heap f.cur f.nodeType q).children
        = (f.mm.heap q).children := fun q => (reset_node_links _ _ _ q).2.2.1
    by_cases hlt : (f.mm.heap f.cur).height < usize_sub depth f.path.length
    · rw [step_descend_fire heuristic getChoices depth startNode f hpc hlt] at h
      have hch1 := chained_same _ _ startNode hsame f.path hw.1
      have hin1 : ∀ it ∈ f.path, inside (reset_node f.mm.heap f.cur f.nodeType) it :=
        fun it hit => inside_same _ _ hsame it (hin it hit)
      have hcur1 : f.cur = target (reset_node f.mm.heap f.cur f.nodeType) startNode f.path := by
        rw [target_congr startNode f.path (fun x _ => hsame x.owner)]
        exact hcur
      split at h
      · rename_i hne
        cases h
        exact walk_go_down startNode _ PC.descend hch1 hin1 hcur1 hne
      · cases h
        exact walk_descend startNode _ hch1 hin1 hcur1
    · rw [step_descend_stay heuristic getChoices depth startNode f hpc hlt] at h
      cases h
      have hsame2 : ∀ q, (evaluate_leaf heuristic f.mm.heap f.cur q).children
          = (f.mm.heap q).children := fun q => (same_links_evaluate_leaf _ _ _ q).2.2.1
      exact walk_descend startNode _ (chained_same _ _ startNode hsame2 f.path hw.1)
        (fun it hit => inside_same _ _ hsame2 it (hin it hit))
        (by
          show f.cur = target (evaluate_leaf heuristic f.mm.heap f.cur) startNode f.path
          rw [target_congr startNode f.path (fun x _ => hsame2 x.owner)]
          exact hcur)
  | construct =>
    have hin := walk_all_inside startNode f hw (Or.inr hpc)
    have hcur := (hw.2.2.1 (Or.inr hpc)).1
    by_cases hgt : depth > f.path.length
    · cases hexp : expand f.cur (!f.nodeType) (getChoices (f.mm.heap f.cur).state) f.mm with
      | error err =>
        unfold step at h
        rw [hpc] at h
        simp only [hgt, if_true, hexp] at h
        cases h
      | ok e1 =>
        rw [step_construct_expand heuristic getChoices depth startNode f hpc hgt e1 hexp] at h
        obtain ⟨hg, -⟩ := expand_grown _ _ _ _ _ hexp
        have hg1 : grown f.mm.next f.mm.heap (mark_visited e1.heap f.cur) :=
          grown_trans _ _ _ _ _ (le_refl _) hg
            (grown_of_eq _ _ _ (fun q => (mark_visited_links _ _ q).2.2.1))
        have hown : ∀ it ∈ f.path, it.owner < f.mm.next := fun it hit =>
          reach_lt f.mm.heap f.mm.next startNode (fun q _ c hc => hl.2.1 q c hc) hs _
            (chained_reach f.mm.heap startNode f.path hw.1
              (fun x hx => hin x (List.mem_of_mem_tail hx)) it hit)
        have hch1 : chained (mark_visited e1.heap f.cur) startNode f.path :=
          chained_grown _ _ _ startNode hg1 f.path hw.1
            (fun x hx => ⟨hown x (List.mem_of_mem_tail hx), hin x (List.mem_of_mem_tail hx)⟩)
        have hin1 : ∀ it ∈ f.path, inside (mark_visited e1.heap f.cur) it :=
          fun it hit => inside_grown _ _ _ it hg1 (hown it hit) (hin it hit)
        have hcur1 : f.cur = target (mark_visited e1.heap f.cur) startNode f.path := by
          rw [target_grown _ _ _ startNode f.path hg1 (fun x hx =>
            ⟨hown x (List.mem_of_mem_head? hx), hin x (List.mem_of_mem_head? hx)⟩)]
          exact hcur
        split at h
        · cases h
          exact walk_descend startNode _ hch1 hin1 hcur1
        · rename_i hne
          cases h
          exact walk_go_down startNode _ PC.construct hch1 hin1 hcur1 hne
    · rw [step_construct_stop heuristic getChoices depth startNode f hpc hgt] at h
      cases h
      exact walk_descend startNode _ hw.1 hin hcur
  | backtrack =>
    rw [step_backtrack heuristic getChoices depth startNode f hpc] at h
    cases h
    unfold next_node_step
    cases hpath : f.path with
    | nil =>
      simp only
      have hfin : (resume startNode f startNode).pc = PC.finished := by simp [resume]
      refine ⟨?_, ?_, fun h => ?_, fun h => ?_⟩
      · show chained f.mm.heap startNode f.path
        exact hw.1
      · exact hw.2.1
      · rw [hfin] at h
        rcases h with h | h <;> cases h
      · rw [hfin] at h
        cases h
    | cons it rest =>
      simp only
      split
      · obtain ⟨hch, htail, -, -⟩ := hw
        rw [hpath] at hch htail
        simp only [List.tail_cons] at htail
        refine ⟨hch.2, fun x hx => htail x (List.mem_of_mem_tail hx), fun h => ?_, fun _ => ?_⟩
        · rcases h with h | h
          · have : f.pc = PC.descend := h
            rw [hpc] at this
            cases this
          · have : f.pc = PC.construct := h
            rw [hpc] at this
            cases this
        · intro x hx
          exact le_of_lt (htail x (List.mem_of_mem_head? hx))
      · rename_i hidx
        have hidx1 : it.idx ≠
            ((f.mm.heap (parent_of f.mm.heap startNode f.path)).children).length := by
          rw [hpath]
          exact hidx
        have hw2 := merge_child_walk startNode f it rest hpath hw hpc hidx1
        have hpc2 : (merge_child startNode f it rest).pc = PC.backtrack := by
          rw [(merge_child_low startNode f it rest).2.2.2.2.1, hpc]
        exact walk_resume depth startNode _ hw2 hpc2
  | finished =>
    rw [step_finished heuristic getChoices depth startNode f hpc] at h
    cases h
    exact hw

theorem exact_of_same_links (e1 e : minimax State Choice) (hroot : e1.root = e.root)
    (hnext : e1.next = e.next) (hheap : ∀ q, same_links (e1.heap q) (e.heap q))
    (hc : exact e) : exact e1 := by
  intro p hp
  rw [hnext] at hp ⊢
  rw [hroot]
  have hi : indeg e1.heap e.next p = indeg e.heap e.next p := by
    apply indeg_congr
    intro q _
    obtain ⟨_, _, h3, _, h5⟩ := hheap q
    rw [h3, h5]
    exact ⟨Iff.rfl, rfl⟩
  rw [hi, (hheap p).2.2.2.2]
  exact hc p hp

/-- A new child link to `p` from a live node raises the number of links to `p` by one
and the number of links to other nodes not at all. -/
theorem indeg_add_link_eq (hp : Nat → node State Choice) (n cur p x : Nat) (cs : List Choice)
    (hcur : cur < n) (halive : (hp cur).rc ≠ 0) :
    indeg (store hp cur { hp cur with children := (hp cur).children ++ [p], choices := cs }) n x
      = indeg hp n x + (if x = p then 1 else 0) := by
  have h := sum_range_update
    (fun q => if ((store hp cur
        { hp cur with children := (hp cur).children ++ [p], choices := cs }) q).rc = 0 then 0
      else (((store hp cur
        { hp cur with children := (hp cur).children ++ [p], choices := cs }) q).children).count x)
    (fun q => if (hp q).rc = 0 then 0 else ((hp q).children).count x) cur
    (fun q hq => by simp [store, hq]) n hcur
  unfold indeg
  simp only [store, if_true, List.count_append, List.count_cons, List.count_nil, if_neg halive]
    at h ⊢
  by_cases hx : x = p
  · subst hx
    simp only [beq_self_eq_true, if_true] at h ⊢
    omega
  · have hne : (p == x) = false := by
      simp only [beq_eq_false_iff_ne, ne_eq]
      exact fun h => hx h.symm
    simp only [hne, Bool.false_eq_true, if_false, if_neg hx] at h ⊢
    omega

/-- One turn of the loop of `expand` at a live node keeps the strong counts exact. -/
theorem expand_one_exact [DecidableEq State] (cur : Nat) (childType : Bool)
    (mv : Choice × State) (e e1 : minimax State Choice)
    (h : expand cur childType [mv] e = Except.ok e1) (hl : linked e) (hc : exact e)
    (hcur : cur < e.next) (halive : (e.heap cur).rc ≠ 0) :
    exact e1 ∧ cur < e1.next ∧ (e1.heap cur).rc ≠ 0 := by
  obtain ⟨c, s⟩ := mv
  obtain ⟨-, hlinks, -, hroot⟩ := hl
  simp only [expand] at h
  split at h
  · rename_i p hfind
    split at h
    · cases h
    · rename_i hexp
      have hpalive : (e.heap p).rc ≠ 0 := by simpa [expired] using hexp
      cases h
      have hcur1 : (store e.heap p { e.heap p with rc := (e.heap p).rc + 1 } cur).rc ≠ 0 := by
        rw [rc_store]
        split <;> omega
      refine ⟨?_, hcur, ?_⟩
      · intro x hx
        have hx0 := hc x hx
        have h2 : indeg (store e.heap p { e.heap p with rc := (e.heap p).rc + 1 }) e.next x
            = indeg e.heap e.next x := by
          apply indeg_congr
          intro q _
          by_cases hq : q = p
          · subst hq
            simp only [store, if_true, and_true]
            constructor
            · intro h0
              omega
            · intro h0
              exact absurd h0 hpalive
          · simp [store, hq]
        show _ = indeg _ e.next x + [e.root].count x
        rw [indeg_add_link_eq _ e.next cur p x _ hcur hcur1, rc_add_link, rc_store, h2]
        by_cases hxp : x = p
        · subst hxp
          rw [if_pos rfl, if_pos rfl]
          omega
        · rw [if_neg hxp, if_neg hxp]
          omega
      · show (store _ cur _ cur).rc ≠ 0
        rw [rc_add_link]
        exact hcur1
  · rename_i hfind
    cases h
    have hne : cur ≠ e.next := by omega
    have hcur1 : (store e.heap e.next (node.mk_shared s childType) cur).rc ≠ 0 := by
      simp only [store, if_neg hne]
      exact halive
    refine ⟨?_, Nat.lt_succ_of_lt hcur, ?_⟩
    · intro x hx
      have h2 := indeg_succ (store e.heap e.next (node.mk_shared s childType)) e.next x
      have h2b : (if ((store e.heap e.next (node.mk_shared s childType)) e.next).rc = 0 then 0
          else (((store e.heap e.next (node.mk_shared s childType)) e.next).children).count x)
          = 0 := by
        simp [store, node.mk_shared]
      have h4 : indeg (store e.heap e.next (node.mk_shared s childType)) e.next x
          = indeg e.heap e.next x := by
        apply indeg_congr
        intro q hq
        have : q ≠ e.next := by omega
        simp [store, this]
      have hx1 : x < e.next + 1 := hx
      show _ = indeg _ (e.next + 1) x + [e.root].count x
      rw [indeg_add_link_eq _ (e.next + 1) cur e.next x _ (Nat.lt_succ_of_lt hcur) hcur1,
        rc_add_link, h2, h2b, h4]
      by_cases hxn : x = e.next
      · have hz : indeg e.heap e.next x = 0 := by
          apply indeg_zero
          intro q _ hmem
          have := hlinks q x hmem
          omega
        have hnr : [e.root].count x = 0 := by
          rw [List.count_eq_zero, List.mem_singleton]
          omega
        rw [hz, hnr, if_pos hxn]
        subst hxn
        simp [store, node.mk_shared]
      · have hxlt : x < e.next := by omega
        have hx0 := hc x hxlt
        have hrc : (store e.heap e.next (node.mk_shared s childType) x).rc = (e.heap x).rc := by
          simp [store, hxn]
        rw [hrc, if_neg hxn]
        omega
    · show (store _ cur _ cur).rc ≠ 0
      rw [rc_add_link]
      exact hcur1

/-- The loop of `expand` at a live node keeps the strong counts exact. -/
theorem expand_exact [DecidableEq State] (cur : Nat) (childType : Bool) :
    ∀ (moves : List (Choice × State)) (e e1 : minimax State Choice),
      expand cur childType moves e = Except.ok e1 → linked e → exact e →
      cur < e.next → (e.heap cur).rc ≠ 0 → exact e1 := by
  intro moves
  induction moves with
  | nil =>
    intro e e1 h _ hc _ _
    simp only [expand] at h
    cases h
    exact hc
  | cons mv moves ih =>
    intro e e1 h hl hc hcur halive
    rw [expand_cons] at h
    cases hone : expand cur childType [mv] e with
    | error err =>
      rw [hone] at h
      cases h
    | ok e2 =>
      rw [hone] at h
      obtain ⟨h1, h2, h3⟩ := expand_one_exact cur childType mv e e2 hone hl hc hcur halive
      exact ih e2 e1 h
        (expand_ok (fun _ => ([] : List (Choice × State))) cur childType _ _ _ hone hl).1
        h1 h2 h3

theorem exact_new (start : State) (isMax : Bool) :
    exact (minimax.new start isMax : minimax State Choice) := by
  intro p hp
  have hp0 : p = 0 := by
    simp only [minimax.new] at hp
    omega
  subst hp0
  simp [minimax.new, node.mk_shared, indeg]

theorem covered_of_balanced (hp : Nat → node State Choice) (n : Nat) (owners : List Nat)
    (h : balanced hp n owners) : covered hp n owners :=
  fun p hp1 => le_of_eq (h p hp1).symm

/-- Every step of the traversal of `compute(depth)` from the root keeps the strong
counts exact. -/
theorem step_exact [DecidableEq State] (heuristic : State → Int)
    (getChoices : State → List (Choice × State)) (depth : Nat)
    (f f1 : Frame State Choice) (hf : frame_ok getChoices depth f)
    (hw : walk_ok f.mm.root f) (hc : exact f.mm)
    (h : step heuristic getChoices depth f.mm.root f = Except.ok f1) : exact f1.mm := by
  obtain ⟨hl, -, -⟩ := hf
  cases hpc : f.pc with
  | descend =>
    by_cases hlt : (f.mm.heap f.cur).height < usize_sub depth f.path.length
    · rw [step_descend_fire heuristic getChoices depth f.mm.root f hpc hlt] at h
      have hc1 : exact ({ f.mm with heap := reset_node f.mm.heap f.cur f.nodeType } :
          minimax State Choice) :=
        exact_of_same_links _ f.mm rfl rfl (fun q => reset_node_links _ _ _ q) hc
      split at h
      · cases h
        exact hc1
      · cases h
        exact hc1
    · rw [step_descend_stay heuristic getChoices depth f.mm.root f hpc hlt] at h
      cases h
      exact exact_of_same_links _ f.mm rfl rfl
        (fun q => same_links_evaluate_leaf heuristic f.mm.heap f.cur q) hc
  | construct =>
    by_cases hgt : depth > f.path.length
    · cases hexp : expand f.cur (!f.nodeType) (getChoices (f.mm.heap f.cur).state) f.mm with
      | error err =>
        unfold step at h
        rw [hpc] at h
        simp only [hgt, if_true, hexp] at h
        cases h
      | ok e1 =>
        rw [step_construct_expand heuristic getChoices depth f.mm.root f hpc hgt e1 hexp] at h
        have hin := walk_all_inside f.mm.root f hw (Or.inr hpc)
        have hcur := (hw.2.2.1 (Or.inr hpc)).1
        have hreach : reach f.mm.heap f.mm.root f.cur := by
          rw [hcur]
          exact target_reach f.mm.heap f.mm.root f.path hw.1 hin
        obtain ⟨hlt, halive⟩ := alive_of_covered f.mm.heap f.mm.next f.mm.root [f.mm.root]
          (fun q _ c hcq => hl.2.1 q c hcq) hl.2.2.2 (List.mem_singleton_self _)
          (covered_of_balanced _ _ _ hc) f.cur hreach
        have hc2 := expand_exact _ _ _ _ _ hexp hl hc hlt halive
        have hc3 : exact ({ e1 with heap := mark_visited e1.heap f.cur } :
            minimax State Choice) :=
          exact_of_same_links _ e1 rfl rfl (fun q => mark_visited_links _ _ q) hc2
        split at h
        · cases h
          exact hc3
        · cases h
          exact hc3
    · rw [step_construct_stop heuristic getChoices depth f.mm.root f hpc hgt] at h
      cases h
      exact hc
  | backtrack =>
    rw [step_backtrack heuristic getChoices depth f.mm.root f hpc] at h
    cases h
    unfold next_node_step
    cases hpath : f.path with
    | nil => exact hc
    | cons it rest =>
      simp only
      split
      · exact hc
      · obtain ⟨h1, h2, -, h4, -, -⟩ := merge_child_low f.mm.root f it rest
        rw [return_check_root]
        exact exact_of_same_links _ f.mm h2 h4 (fun q => (h1 q).1) hc
  | finished =>
    rw [step_finished heuristic getChoices depth f.mm.root f hpc] at h
    cases h
    exact hc

theorem run_exact [DecidableEq State] (heuristic : State → Int)
    (getChoices : State → List (Choice × State)) (depth startNode : Nat)
    (hdepth : depth < 2 ^ 64) :
    ∀ (fuel : Nat) (stale : List Bool) (f : Frame State Choice)
      (e1 : minimax State Choice),
      frame_ok getChoices depth f → startNode = f.mm.root → walk_ok startNode f → exact f.mm →
      run heuristic getChoices depth startNode fuel stale f = Except.ok e1 → exact e1 := by
  intro fuel
  induction fuel with
  | zero =>
    intro stale f e1 _ _ _ hc h
    simp only [run] at h
    split at h
    · cases h
      exact hc
    · cases h
  | succ fuel ih =>
    intro stale f e1 hf hs hw hc h
    simp only [run] at h
    split at h
    · cases h
      exact hc
    · split at h
      · cases h
      · split at h
        · cases h
        · rename_i f2 hstep
          have hroot := (step_root heuristic getChoices depth startNode f f2 hstep).1
          subst hs
          exact ih _ f2 e1 (step_ok heuristic getChoices depth _ hdepth f f2 hf hstep)
            hroot.symm
            (step_walk heuristic getChoices depth _ f f2 hf.1 hf.1.2.2.2 hw hstep)
            (step_exact heuristic getChoices depth f f2 hf hw hc hstep) h

/-- A search keeps the strong counts exact. -/
theorem exact_compute [DecidableEq State] (heuristic : State → Int)
    (getChoices : State → List (Choice × State)) (fuel depth : Nat) (hdepth : depth < 2 ^ 64)
    (e e1 : minimax State Choice) (hwf : well_formed getChoices e) (hc : exact e)
    (h : compute heuristic getChoices fuel depth e = Except.ok e1) : exact e1 := by
  unfold compute at h
  split at h
  · cases h
    exact hc
  · split at h
    · cases h
    · rw [well_formed_iff] at hwf
      exact run_exact heuristic getChoices depth e.root hdepth fuel _ _ e1
        ⟨hwf.1, fun p => Or.inl (hwf.2 p), Nat.zero_le _⟩ rfl
        (walk_descend e.root (first_frame e) trivial
          (fun it hit => by cases hit) rfl) hc h

/-- The root swap of `progress` keeps the strong counts exact. -/
theorem swap_root_exact (e : minimax State Choice) (newRoot : Nat) (hl : linked e)
    (hex : exact e) (hchild : newRoot ∈ (e.heap e.root).children) :
    exact (swap_root e newRoot) := by
  obtain ⟨-, hlinks, -, hroot⟩ := hl
  have hnew : newRoot < e.next := hlinks e.root newRoot hchild
  have hrootalive : (e.heap e.root).rc ≠ 0 := by
    have := hex e.root hroot
    simp only [List.count_singleton_self] at this
    omega
  have hnewalive : (e.heap newRoot).rc ≠ 0 := by
    have h1 := hex newRoot hnew
    have h2 := indeg_ge e.heap e.next e.root newRoot hroot hrootalive
    have h3 : 0 < ((e.heap e.root).children).count newRoot := List.count_pos_iff.mpr hchild
    omega
  have hch1 : ∀ q, (store e.heap newRoot { e.heap newRoot with rc := (e.heap newRoot).rc + 1 }
      q).children = (e.heap q).children := fun q => (same_but_rc_store e.heap newRoot _ q).2.2.2.2.1
  have hcongr : ∀ q, q < e.next →
      ((store e.heap newRoot { e.heap newRoot with rc := (e.heap newRoot).rc + 1 } q).rc = 0 ↔
        (e.heap q).rc = 0) ∧
      (store e.heap newRoot { e.heap newRoot with rc := (e.heap newRoot).rc + 1 } q).children
        = (e.heap q).children := by
    intro q _
    refine ⟨?_, hch1 q⟩
    by_cases hq : q = newRoot
    · subst hq
      simp only [store, if_true]
      constructor
      · intro h0
        omega
      · intro h0
        exact absurd h0 hnewalive
    · simp [store, hq]
  have hbal1 : balanced (store e.heap newRoot
      { e.heap newRoot with rc := (e.heap newRoot).rc + 1 }) e.next ([e.root] ++ [newRoot]) := by
    intro x hx
    have hx0 := hex x hx
    rw [indeg_congr _ e.heap e.next x hcongr]
    simp only [List.singleton_append, List.count_cons, List.count_nil] at hx0 ⊢
    by_cases hxn : x = newRoot
    · subst hxn
      simp only [store, if_true, beq_self_eq_true]
      omega
    · have hne : (newRoot == x) = false := by
        simp only [beq_eq_false_iff_ne, ne_eq]
        exact fun h => hxn h.symm
      simp only [store, if_neg hxn, hne, Bool.false_eq_true, if_false]
      omega
  have hbudget : [e.root].length + live_links (store e.heap newRoot
      { e.heap newRoot with rc := (e.heap newRoot).rc + 1 }) e.next ≤ release_budget e := by
    have := live_links_le (store e.heap newRoot
      { e.heap newRoot with rc := (e.heap newRoot).rc + 1 }) e.heap hch1 e.next
    unfold release_budget
    simp only [List.length_singleton]
    dsimp only at this
    omega
  exact release_balanced e.next [newRoot] _ [e.root] _
    (fun q hq c hcq => hlinks q c (by rw [hch1 q] at hcq; exact hcq))
    (fun w hw => by
      rw [List.mem_singleton] at hw
      rw [hw]
      exact hroot) hbal1 hbudget

/-- The engine after `progress`, whether the call succeeds or fails, has exact strong
counts if the engine before the call is well formed and has. -/
theorem exact_progress [DecidableEq State] [DecidableEq Choice]
    (heuristic : State → Int) (getChoices : State → List (Choice × State)) (fuel : Nat)
    (choice : Choice) (e : minimax State Choice) (hwf : well_formed getChoices e)
    (hc : exact e) : exact (progress heuristic getChoices fuel choice e).2 := by
  have hwf1 : well_formed getChoices ({ e with type_ := !e.type_ } : minimax State Choice) :=
    hwf
  have hc1 : exact ({ e with type_ := !e.type_ } : minimax State Choice) := hc
  have hcommit : ∀ (e2 : minimax State Choice), well_formed getChoices e2 → exact e2 →
      exact
        (match progress_loop choice (e2.heap e2.root).choices (e2.heap e2.root).children none
          with
        | none => (Except.error Error.invalid_argument, e2)
        | some newRoot =>
          ((Except.ok ((swap_root e2 newRoot).heap newRoot).state : Except Error State),
            swap_root e2 newRoot)).2 := by
    intro e2 hwf2 hc2
    cases hl : progress_loop choice (e2.heap e2.root).choices (e2.heap e2.root).children none
      with
    | none => exact hc2
    | some newRoot =>
      rcases progress_loop_mem choice _ _ _ _ hl with h | h
      · cases h
      · exact swap_root_exact e2 newRoot ((well_formed_iff getChoices e2).mp hwf2).1 hc2 h
  by_cases hchildren : (e.heap e.root).children = []
  · cases hcomp : compute heuristic getChoices fuel 1
        ({ e with type_ := !e.type_ } : minimax State Choice) with
    | error err =>
      simp only [progress, hchildren, if_true, hcomp]
      exact hc1
    | ok e2 =>
      have hwf2 := well_formed_compute heuristic getChoices fuel 1 (by norm_num) _ e2 hwf1 hcomp
      have hc2 := exact_compute heuristic getChoices fuel 1 (by norm_num) _ e2 hwf1 hc1 hcomp
      by_cases h2 : (e2.heap e2.root).children = []
      · simp only [progress, hchildren, if_true, hcomp, h2]
        exact hc2
      · simp only [progress, hchildren, if_true, hcomp, h2, if_false]
        exact hcommit e2 hwf2 hc2
  · rw [progress_of_children heuristic getChoices fuel choice e hchildren]
    exact hcommit _ hwf1 hc1

/-- In every reachable engine the strong counts are exact. -/
theorem exact_of_reachable [DecidableEq State] [DecidableEq Choice]
    (heuristic : State → Int) (getChoices : State → List (Choice × State))
    (e : minimax State Choice) (h : reachable heuristic getChoices e) : exact e := by
  induction h with
  | new start isMax => exact exact_new start isMax
  | compute e e1 fuel depth hr hdepth hcomp ih =>
    exact exact_compute heuristic getChoices fuel depth hdepth e e1
      (well_formed_of_reachable heuristic getChoices e hr) ih hcomp
  | progress e fuel choice hr ih =>
    exact exact_progress heuristic getChoices fuel choice e
      (well_formed_of_reachable heuristic getChoices e hr) ih

/-- C15, as stated, fails: on a new engine with the moves `4` and `6`, whose graph is
acyclic and whose table is empty, `progress(4)` succeeds and leaves a table with the
entry of the new root, which the table did not have before the call. -/
theorem progress_adds_entry :
    acyclic (minimax.new 0 true : minimax Nat Nat) ∧
      (minimax.new 0 true : minimax Nat Nat).nodes = [] ∧
      succeeded (progress by_number two_moves 16 4 (minimax.new 0 true)).1 = true ∧
      (progress by_number two_moves 16 4 (minimax.new 0 true)).2.root = 1 ∧
      (progress by_number two_moves 16 4 (minimax.new 0 true)).2.nodes = [(1, 1)] :=
  ⟨⟨fun _ => 0, fun q _ c hc => by simp [minimax.new, node.mk_shared] at hc⟩, rfl, by decide!,
    by decide!, by decide!⟩

/-- C15 (amended): on an engine reached by calls of `compute` and `progress` whose
graph is acyclic and whose root has children, after a successful `progress(choice)`
the table is a part of the table before the call, in the same order, and an entry is
in it if and only if it was in the table before the call and its node is reachable
from the new root through child links. -/
theorem progress_purges [DecidableEq State] [DecidableEq Choice]
    (heuristic : State → Int) (getChoices : State → List (Choice × State)) (fuel : Nat)
    (choice : Choice) (e : minimax State Choice) (hreach : reachable heuristic getChoices e)
    (hacyc : acyclic e) (hchildren : (e.heap e.root).children ≠ [])
    (hok : succeeded (progress heuristic getChoices fuel choice e).1 = true) :
    ((progress heuristic getChoices fuel choice e).2.nodes).Sublist e.nodes ∧
      ∀ entry, entry ∈ (progress heuristic getChoices fuel choice e).2.nodes ↔
        entry ∈ e.nodes ∧
          reach e.heap (progress heuristic getChoices fuel choice e).2.root entry.2 := by
  have hwf := well_formed_of_reachable heuristic getChoices e hreach
  have hex := exact_of_reachable heuristic getChoices e hreach
  have hl : linked ({ e with type_ := !e.type_ } : minimax State Choice) :=
    ((well_formed_iff getChoices e).mp hwf).1
  have hex1 : exact ({ e with type_ := !e.type_ } : minimax State Choice) := hex
  have hacyc1 : acyclic ({ e with type_ := !e.type_ } : minimax State Choice) := hacyc
  rw [progress_of_children heuristic getChoices fuel choice e hchildren] at hok ⊢
  cases hloop : progress_loop choice (e.heap e.root).choices (e.heap e.root).children none with
  | none =>
    simp only [hloop] at hok
    cases hok
  | some newRoot =>
    simp only [hloop]
    rcases progress_loop_mem choice _ _ _ _ hloop with h | h
    · cases h
    · refine ⟨?_, (swap_root_purges ({ e with type_ := !e.type_ } : minimax State Choice)
        newRoot hl hex1 hacyc1 h).2.2⟩
      show (e.nodes.filter _).Sublist e.nodes
      exact List.filter_sublist _

/-- The amended claim C15 on the game `shared_moves` searched three plies deep, where
`progress(1)` moves the root to the node of state 2, at address 2. -/
theorem progress_purges_witness :
    reachable shared_score shared_moves (searched shared_score shared_moves 64 3 0 true) ∧
      acyclic (searched shared_score shared_moves 64 3 0 true) ∧
      ((searched shared_score shared_moves 64 3 0 true).heap
        (searched shared_score shared_moves 64 3 0 true).root).children ≠ [] ∧
      succeeded (progress shared_score shared_moves 64 1
        (searched shared_score shared_moves 64 3 0 true)).1 = true ∧
      (progress shared_score shared_moves 64 1
        (searched shared_score shared_moves 64 3 0 true)).2.root = 2 ∧
      ∀ entry, entry ∈ (progress shared_score shared_moves 64 1
          (searched shared_score shared_moves 64 3 0 true)).2.nodes ↔
        entry ∈ (searched shared_score shared_moves 64 3 0 true).nodes ∧
          reach (searched shared_score shared_moves 64 3 0 true).heap
            (progress shared_score shared_moves 64 1
              (searched shared_score shared_moves 64 3 0 true)).2.root entry.2 :=
  ⟨reachable_searched shared_score shared_moves 64 3 (by decide) 0 true,
    ⟨fun p => p, by decide!⟩, by decide!, by decide!, by decide!,
    (progress_purges shared_score shared_moves 64 1
      (searched shared_score shared_moves 64 3 0 true)
      (reachable_searched shared_score shared_moves 64 3 (by decide) 0 true)
      ⟨fun p => p, by decide!⟩ (by decide!) (by decide!)).2⟩

/-! ## The marking loop of `collect_garbage` -/

theorem mark_loop_dangles (hp : Nat → node State Choice) (r c : Nat)
    (hm : (hp c).mark = false) :
    ∀ (k j fuel : Nat), ((hp r).children)[j + k]? = some c → k < fuel →
      mark_loop fuel 1 hp [{ owner := r, idx := j }]
        = Except.error Error.undefined_behaviour := by
  intro k
  induction k with
  | zero =>
    intro j fuel hj hfuel
    obtain ⟨fuel, rfl⟩ : ∃ n, fuel = n + 1 := ⟨fuel - 1, by omega⟩
    have hlt : j < ((hp r).children).length := by
      by_contra h
      rw [List.getElem?_eq_none (by omega)] at hj
      cases hj
    have hd : deref hp { owner := r, idx := j } = c := by
      unfold deref
      simp only [List.getD, Nat.add_zero] at hj ⊢
      rw [List.get?_eq_getElem?, hj]
      rfl
    simp only [mark_loop]
    rw [if_neg (by omega), hd, hm]
    simp
  | succ k ih =>
    intro j fuel hj hfuel
    obtain ⟨fuel, rfl⟩ : ∃ n, fuel = n + 1 := ⟨fuel - 1, by omega⟩
    have hlt : j < ((hp r).children).length := by
      by_contra h
      rw [List.getElem?_eq_none (by omega)] at hj
      cases hj
    simp only [mark_loop]
    rw [if_neg (by omega)]
    by_cases hmark : (hp (deref hp { owner := r, idx := j })).mark = true
    · rw [if_pos hmark]
      exact ih (j + 1) fuel (by rwa [show j + 1 + k = j + (k + 1) by omega]) (by omega)
    · rw [if_neg hmark]
      simp

theorem children_le_budget (e : minimax State Choice) (hroot : e.root < e.next) :
    ((e.heap e.root).children).length < release_budget e := by
  unfold release_budget
  have h := List.single_le_sum (l := (List.range e.next).map
      (fun p => ((e.heap p).children).length + 1)) (fun x _ => Nat.zero_le x)
    (((e.heap e.root).children).length + 1)
    (List.mem_map.mpr ⟨e.root, List.mem_range.mpr hroot, rfl⟩)
  omega

theorem collect_garbage_unmarked_child (e : minimax State Choice) (i c : Nat)
    (hroot : e.root < e.next) (hi : ((e.heap e.root).children)[i]? = some c)
    (hc : c ≠ e.root) (hm : (e.heap c).mark = false) :
    collect_garbage e = Except.error Error.undefined_behaviour := by
  have hlt : i < ((e.heap e.root).children).length := by
    by_contra h
    rw [List.getElem?_eq_none (by omega)] at hi
    cases hi
  have hb := children_le_budget e hroot
  have h := mark_loop_dangles (store e.heap e.root { e.heap e.root with mark := true }) e.root c
    (by rw [store_other _ _ _ _ hc]; exact hm) i 0 (release_budget e)
    (by rw [store_same]; simpa using hi) (by omega)
  unfold collect_garbage
  simp only
  rw [show capacity_after 0 0 = 1 from rfl, h]

theorem clean_of_same_links (e1 e : minimax State Choice) (hnodes : e1.nodes = e.nodes)
    (hheap : ∀ q, same_links (e1.heap q) (e.heap q)) (hc : clean e) : clean e1 := by
  refine ⟨fun p => ?_, ?_⟩
  · rw [(hheap p).1]
    exact hc.1 p
  · rw [hnodes]
    exact hc.2

theorem clean_new (start : State) (isMax : Bool) :
    clean (minimax.new start isMax : minimax State Choice) :=
  ⟨fun _ => rfl, List.nodup_nil⟩

theorem expand_one_clean [DecidableEq State] (cur : Nat) (childType : Bool)
    (mv : Choice × State) (e e1 : minimax State Choice)
    (h : expand cur childType [mv] e = Except.ok e1) (hl : linked e) (hc : clean e) :
    clean e1 := by
  obtain ⟨c, s⟩ := mv
  obtain ⟨-, -, htable, -⟩ := hl
  obtain ⟨hmarks, hnd⟩ := hc
  simp only [expand] at h
  split at h
  · rename_i p hfind
    split at h
    · cases h
    · cases h
      refine ⟨fun q => ?_, hnd⟩
      show (store _ cur _ q).mark = false
      by_cases hq : q = cur <;> by_cases hq2 : q = p <;> simp [store, hq, hq2, hmarks] <;>
        simp_all
  · cases h
    refine ⟨fun q => ?_, ?_⟩
    · show (store _ cur _ q).mark = false
      by_cases hq : q = cur <;> by_cases hq2 : q = e.next <;>
        simp [store, hq, hq2, hmarks, node.mk_shared] <;> simp_all [node.mk_shared]
    · show ((e.nodes ++ [(s, e.next)]).map Prod.snd).Nodup
      rw [List.map_append, List.nodup_append]
      refine ⟨hnd, by simp, ?_⟩
      intro a ha hb
      simp only [List.map_cons, List.map_nil, List.mem_singleton] at hb
      obtain ⟨entry, hmem, heq⟩ := List.mem_map.mp ha
      have := (htable entry hmem).1
      omega

theorem expand_clean [DecidableEq State] (cur : Nat) (childType : Bool) :
    ∀ (moves : List (Choice × State)) (e e1 : minimax State Choice),
      expand cur childType moves e = Except.ok e1 → linked e → clean e → clean e1 := by
  intro moves
  induction moves with
  | nil =>
    intro e e1 h _ hc
    simp only [expand] at h
    cases h
    exact hc
  | cons mv moves ih =>
    intro e e1 h hl hc
    rw [expand_cons] at h
    cases hone : expand cur childType [mv] e with
    | error err =>
      rw [hone] at h
      cases h
    | ok e2 =>
      rw [hone] at h
      exact ih e2 e1 h
        (expand_ok (fun _ => ([] : List (Choice × State))) cur childType _ _ _ hone hl).1
        (expand_one_clean cur childType mv e e2 hone hl hc)

/-- Every step of the traversal of `compute(depth)` leaves the nodes unmarked and the
table with one entry for a node at most. -/
theorem step_clean [DecidableEq State] (heuristic : State → Int)
    (getChoices : State → List (Choice × State)) (depth startNode : Nat)
    (f f1 : Frame State Choice) (hf : frame_ok getChoices depth f) (hc : clean f.mm)
    (h : step heuristic getChoices depth startNode f = Except.ok f1) : clean f1.mm := by
  obtain ⟨hl, -, -⟩ := hf
  cases hpc : f.pc with
  | descend =>
    by_cases hlt : (f.mm.heap f.cur).height < usize_sub depth f.path.length
    · rw [step_descend_fire heuristic getChoices depth startNode f hpc hlt] at h
      have hc1 : clean ({ f.mm with heap := reset_node f.mm.heap f.cur f.nodeType } :
          minimax State Choice) :=
        clean_of_same_links _ f.mm rfl (fun q => reset_node_links _ _ _ q) hc
      split at h
      · cases h
        exact hc1
      · cases h
        exact hc1
    · rw [step_descend_stay heuristic getChoices depth startNode f hpc hlt] at h
      cases h
      exact clean_of_same_links _ f.mm rfl
        (fun q => same_links_evaluate_leaf heuristic f.mm.heap f.cur q) hc
  | construct =>
    by_cases hgt : depth > f.path.length
    · cases hexp : expand f.cur (!f.nodeType) (getChoices (f.mm.heap f.cur).state) f.mm with
      | error err =>
        unfold step at h
        rw [hpc] at h
        simp only [hgt, if_true, hexp] at h
        cases h
      | ok e1 =>
        rw [step_construct_expand heuristic getChoices depth startNode f hpc hgt e1 hexp] at h
        have hc2 := expand_clean _ _ _ _ _ hexp hl hc
        have hc3 : clean ({ e1 with heap := mark_visited e1.heap f.cur } :
            minimax State Choice) :=
          clean_of_same_links _ e1 rfl (fun q => mark_visited_links _ _ q) hc2
        split at h
        · cases h
          exact hc3
        · cases h
          exact hc3
    · rw [step_construct_stop heuristic getChoices depth startNode f hpc hgt] at h
      cases h
      exact hc
  | backtrack =>
    rw [step_backtrack heuristic getChoices depth startNode f hpc] at h
    cases h
    unfold next_node_step
    cases hpath : f.path with
    | nil => exact hc
    | cons it rest =>
      simp only
      split
      · exact hc
      · obtain ⟨h1, -, h3, -, -, -⟩ := merge_child_low startNode f it rest
        rw [return_check_root]
        exact clean_of_same_links _ f.mm h3 (fun q => (h1 q).1) hc
  | finished =>
    rw [step_finished heuristic getChoices depth startNode f hpc] at h
    cases h
    exact hc

theorem run_clean [DecidableEq State] (heuristic : State → Int)
    (getChoices : State → List (Choice × State)) (depth startNode : Nat)
    (hdepth : depth < 2 ^ 64) :
    ∀ (fuel : Nat) (stale : List Bool) (f : Frame State Choice)
      (e1 : minimax State Choice),
      frame_ok getChoices depth f → clean f.mm →
      run heuristic getChoices depth startNode fuel stale f = Except.ok e1 → clean e1 := by
  intro fuel
  induction fuel with
  | zero =>
    intro stale f e1 _ hc h
    simp only [run] at h
    split at h
    · cases h
      exact hc
    · cases h
  | succ fuel ih =>
    intro stale f e1 hf hc h
    simp only [run] at h
    split at h
    · cases h
      exact hc
    · split at h
      · cases h
      · split at h
        · cases h
        · rename_i f2 hs
          exact ih _ f2 e1 (step_ok heuristic getChoices depth startNode hdepth f f2 hf hs)
            (step_clean heuristic getChoices depth startNode f f2 hf hc hs) h

theorem clean_compute [DecidableEq State] (heuristic : State → Int)
    (getChoices : State → List (Choice × State)) (fuel depth : Nat) (hdepth : depth < 2 ^ 64)
    (e e1 : minimax State Choice) (hwf : well_formed getChoices e) (hc : clean e)
    (h : compute heuristic getChoices fuel depth e = Except.ok e1) : clean e1 := by
  unfold compute at h
  split at h
  · cases h
    exact hc
  · split at h
    · cases h
    · rw [well_formed_iff] at hwf
      exact run_clean heuristic getChoices depth e.root hdepth fuel _ _ e1
        ⟨hwf.1, fun p => Or.inl (hwf.2 p), Nat.zero_le _⟩ hc h

theorem clean_swap_root (e : minimax State Choice) (newRoot : Nat) (hc : clean e) :
    clean (swap_root e newRoot) := by
  refine ⟨fun p => ?_, ?_⟩
  · have h : same_but_rc ((swap_root e newRoot).heap p) (e.heap p) :=
      same_but_rc_trans (release_fields _ _ _ p) (same_but_rc_store e.heap newRoot _ p)
    rw [h.1]
    exact hc.1 p
  · show ((e.nodes.filter _).map Prod.snd).Nodup
    exact List.Nodup.sublist ((List.filter_sublist _).map _) hc.2

theorem clean_progress [DecidableEq State] [DecidableEq Choice]
    (heuristic : State → Int) (getChoices : State → List (Choice × State)) (fuel : Nat)
    (choice : Choice) (e : minimax State Choice) (hwf : well_formed getChoices e)
    (hc : clean e) : clean (progress heuristic getChoices fuel choice e).2 := by
  have hwf1 : well_formed getChoices ({ e with type_ := !e.type_ } : minimax State Choice) :=
    hwf
  have hc1 : clean ({ e with type_ := !e.type_ } : minimax State Choice) := hc
  have hcommit : ∀ (e2 : minimax State Choice), clean e2 →
      clean
        (match progress_loop choice (e2.heap e2.root).choices (e2.heap e2.root).children none
          with
        | none => (Except.error Error.invalid_argument, e2)
        | some newRoot =>
          ((Except.ok ((swap_root e2 newRoot).heap newRoot).state : Except Error State),
            swap_root e2 newRoot)).2 := by
    intro e2 hc2
    cases hl : progress_loop choice (e2.heap e2.root).choices (e2.heap e2.root).children none
      with
    | none => exact hc2
    | some newRoot => exact clean_swap_root e2 newRoot hc2
  by_cases hchildren : (e.heap e.root).children = []
  · cases hcomp : compute heuristic getChoices fuel 1
        ({ e with type_ := !e.type_ } : minimax State Choice) with
    | error err =>
      simp only [progress, hchildren, if_true, hcomp]
      exact hc1
    | ok e2 =>
      have hc2 := clean_compute heuristic getChoices fuel 1 (by norm_num) _ e2 hwf1 hc1 hcomp
      by_cases h2 : (e2.heap e2.root).children = []
      · simp only [progress, hchildren, if_true, hcomp, h2]
        exact hc2
      · simp only [progress, hchildren, if_true, hcomp, h2, if_false]
        exact hcommit e2 hc2
  · rw [progress_of_children heuristic getChoices fuel choice e hchildren]
    exact hcommit _ hc1

/-- In every reachable engine no node is marked and the table has one entry for a node
at most. -/
theorem clean_of_reachable [DecidableEq State] [DecidableEq Choice]
    (heuristic : State → Int) (getChoices : State → List (Choice × State))
    (e : minimax State Choice) (h : reachable heuristic getChoices e) : clean e := by
  induction h with
  | new start isMax => exact clean_new start isMax
  | compute e e1 fuel depth hr hdepth hcomp ih =>
    exact clean_compute heuristic getChoices fuel depth hdepth e e1
      (well_formed_of_reachable heuristic getChoices e hr) ih hcomp
  | progress e fuel choice hr ih =>
    exact clean_progress heuristic getChoices fuel choice e
      (well_formed_of_reachable heuristic getChoices e hr) ih

/-- C14 at its failing inputs: on every engine reached by calls of `compute` and
`progress` whose root has a child other than the root itself, `collect_garbage()` has
undefined behaviour.  No node of such an engine is marked, so the marking loop comes to
an unmarked child of the root and pushes its range; `path` holds the range of the root
and has the capacity 1, so `path.emplace_back` reallocates it, and `++begin` goes
through the reference `begin` into the storage that was freed. -/
theorem collect_garbage_dangles [DecidableEq State] [DecidableEq Choice]
    (heuristic : State → Int) (getChoices : State → List (Choice × State))
    (e : minimax State Choice) (hreach : reachable heuristic getChoices e) (c : Nat)
    (hc : c ∈ (e.heap e.root).children) (hne : c ≠ e.root) :
    collect_garbage e = Except.error Error.undefined_behaviour := by
  have hwf := well_formed_of_reachable heuristic getChoices e hreach
  have hcl := clean_of_reachable heuristic getChoices e hreach
  obtain ⟨i, hi⟩ := List.mem_iff_getElem?.mp hc
  exact collect_garbage_unmarked_child e i c ((well_formed_iff getChoices e).mp hwf).1.2.2.2 hi
    hne (hcl.1 c)

/-- C14 at the engine after `compute(1)` on a new engine for the state 0 of the game
`one_move`: its root (address 0) has one child, the node of the state 1 (address 1),
which has no children, and `collect_garbage()` has undefined behaviour. -/
theorem collect_garbage_dangles_witness :
    reachable by_number one_move (searched by_number one_move 64 1 0 true) ∧
      (searched by_number one_move 64 1 0 true).root = 0 ∧
      ((searched by_number one_move 64 1 0 true).heap 0).children = [1] ∧
      ((searched by_number one_move 64 1 0 true).heap 1).children = [] ∧
      collect_garbage (searched by_number one_move 64 1 0 true)
        = Except.error Error.undefined_behaviour :=
  ⟨reachable_searched by_number one_move 64 1 (by decide) 0 true, by decide!, by decide!,
    by decide!,
    collect_garbage_dangles by_number one_move (searched by_number one_move 64 1 0 true)
      (reachable_searched by_number one_move 64 1 (by decide) 0 true) 1 (by decide!)
      (by decide!)⟩

/-- C22 at a failing input: on the tree game `pruned_moves`, after `compute(3)` on a new
maximizing engine, `progress(1)` to the pruned node of state `[1]` and `compute(1)`, no
assertion of `verify()` about scores fails and an assertion about heights fails: the root
(address 2) has score -3 and height 1, and its child of state `[1, 0]` (address 3), which
has the best score -3, has height 1 as well, not 0. -/
theorem height_assert_fails :
    node_after (compute pruned_score pruned_moves 64 3 (minimax.new [] true)) 2 = some (-3, 0) ∧
      node_after (compute pruned_score pruned_moves 64 3 (minimax.new [] true)) 3
        = some (-3, 1) ∧
      succeeded (progress pruned_score pruned_moves 64 1
        (searched pruned_score pruned_moves 64 3 [] true)).1 = true ∧
      pruned_engine.root = 2 ∧
      links_after (compute pruned_score pruned_moves 64 1 pruned_engine) 2 = some ([1], [3, 4]) ∧
      node_after (compute pruned_score pruned_moves 64 1 pruned_engine) 2 = some (-3, 1) ∧
      node_after (compute pruned_score pruned_moves 64 1 pruned_engine) 3 = some (-3, 1) ∧
      node_after (compute pruned_score pruned_moves 64 1 pruned_engine) 4 = some (-1, 0) ∧
      verify_after pruned_score 8 (compute pruned_score pruned_moves 64 1 pruned_engine)
        = some true ∧
      verify_heights_after 8 (compute pruned_score pruned_moves 64 1 pruned_engine)
        = some false := by
  decide!

/-! ## `score_board`, `check_winner` and the lines of the board -/

/-- C21 at a failing input: the first player holds the cells 0 to 3 of row 0 and the
second player the cells 0 to 3 of row 1, so both have four in a horizontal line, on
disjoint bitboards within the 42 cells.  `score_board` throws nothing and returns
19996: the loop over the rows ends after row 0, the last row in which the first player
has a piece, so `lost` is never set. -/
theorem both_win_returns :
    has_four 15 = true ∧ has_four 1920 = true ∧ 15 < 2 ^ 42 ∧ 1920 < 2 ^ 42 ∧
      15 &&& 1920 = 0 ∧
      count_rows 10 15 1920 ⟨0, false, false⟩ = ⟨14, true, false⟩ ∧
      (count_board ⟨false, false, 15, 1920⟩).lost = false ∧
      thrown (score_board ⟨false, false, 15, 1920⟩) = none ∧
      returned (score_board ⟨false, false, 15, 1920⟩) = some 19996 := by
  decide!

/-- C25 at a failing input: the position after the moves 0, 3, 1, 0, 2, 1, 4, 2, 5, 3
from the empty board, each of them offered by `get_choices`.  The first player holds the
cells 0, 1, 2, 4, 5 of row 0 and no line of four; the second player holds the cell 3 of
row 0 and the cells 0 to 3 of row 1, a horizontal line of four.  `score_board` returns
-15, which is not below `-threshhold`. -/
theorem lost_not_seen :
    play id [0, 3, 1, 0, 2, 1, 4, 2, 5, 3] ⟨false, false, 0, 0⟩ = some ⟨false, true, 55, 1928⟩ ∧
      55 < 2 ^ 42 ∧ 1928 < 2 ^ 42 ∧ 55 &&& 1928 = 0 ∧
      has_four 55 = false ∧ has_four 1928 = true ∧
      count_rows 10 55 1928 ⟨0, false, false⟩ = ⟨0, false, false⟩ ∧
      returned (score_board ⟨false, true, 55, 1928⟩) = some (-15) ∧
      ¬ ((-15 : Int) < -Connect4.threshhold) := by
  decide!

/-- C24 at a failing input: the board with the four cells (column, row) (0, 1), (6, 1),
(5, 2) and (4, 3), which are the bits 7, 13, 19 and 25, holds no four cells in a line,
and `check_winner(board, 3, 4)`, called for its cell of row 3 and column 4, returns
`true`. -/
theorem check_winner_wraps :
    (34087040 : Nat) = 2 ^ 7 + 2 ^ 13 + 2 ^ 19 + 2 ^ 25 ∧ 34087040 < 2 ^ 42 ∧
      Nat.testBit 34087040 (4 + 7 * 3) = true ∧ has_four 34087040 = false ∧
      ((34087040 >>> 4) >>> (7 * 0)) &&& BACKWARD_DIAG_MASK = BACKWARD_DIAG_MASK ∧
      check_winner 34087040 3 4 = true := by
  decide!

/-! ## The turns of the marking loop of `collect_garbage` -/

/-- The method `collect_garbage()` on an engine whose root has no children, the engine
after `compute(3)` on the game `cycle_moves` and `progress(1)` to the node of the state
3: the marking loop pushes no range, the call returns, and the entry of the root is the
only entry left in the table. -/
theorem collect_garbage_leaf_root :
    (progress by_number cycle_moves 64 1 (searched by_number cycle_moves 64 3 0 true)).2.nodes
        = [(1, 1), (3, 2), (2, 3)] ∧
      ((collect_garbage
        (progress by_number cycle_moves 64 1
          (searched by_number cycle_moves 64 3 0 true)).2).toOption.map (fun e1 => e1.nodes))
        = some [(3, 2)] := by
  decide!

/-- C26 at a failing input: the engine after `compute(3)` on a new engine for the state 0
of the game `cycle_moves`, in which the nodes of the states 1 and 2 (addresses 1 and 3)
hold each other.  It has four nodes, none of them marked, and the root has the
children 1 and 2.  The first turn of the marking loop finds the child 1 unmarked and
pushes its range; `path` has the capacity 1 and holds the range of the root, so it is
reallocated and `++begin` goes through a dangling reference: the loop has undefined
behaviour in its first turn, and so has `collect_garbage()`. -/
theorem collect_garbage_undefined :
    (searched by_number cycle_moves 64 3 0 true).next = 4 ∧
      (searched by_number cycle_moves 64 3 0 true).root = 0 ∧
      (∀ p, p < 4 → ((searched by_number cycle_moves 64 3 0 true).heap p).mark = false) ∧
      ((searched by_number cycle_moves 64 3 0 true).heap 0).children = [1, 2] ∧
      ((searched by_number cycle_moves 64 3 0 true).heap 1).children = [3] ∧
      ((searched by_number cycle_moves 64 3 0 true).heap 3).children = [1] ∧
      capacity_after 0 0 = 1 ∧
      thrown (mark_loop 1 (capacity_after 0 0)
          (store (searched by_number cycle_moves 64 3 0 true).heap 0
            { (searched by_number cycle_moves 64 3 0 true).heap 0 with mark := true })
          [{ owner := 0, idx := 0 }])
        = some Error.undefined_behaviour ∧
      thrown (collect_garbage (searched by_number cycle_moves 64 3 0 true))
        = some Error.undefined_behaviour := by
  decide!

/-! ## Nodes without children after `compute` -/

section leaves

variable [DecidableEq State] (heuristic : State → Int)
  (getChoices : State → List (Choice × State)) (depth startNode : Nat)

/-- The last of `k + 1` steps is a step from the frame after `k` steps. -/
theorem steps_last :
    ∀ (k : Nat) (f f2 : Frame State Choice),
      steps heuristic getChoices depth startNode (k + 1) f = Except.ok f2 →
      ∃ f1, steps heuristic getChoices depth startNode k f = Except.ok f1 ∧
        step heuristic getChoices depth startNode f1 = Except.ok f2 := by
  intro k
  induction k with
  | zero =>
    intro f f2 h
    simp only [steps] at h
    cases hs : step heuristic getChoices depth startNode f with
    | error err => rw [hs] at h; cases h
    | ok f1 =>
      rw [hs] at h
      simp only at h
      cases h
      exact ⟨f, rfl, hs⟩
  | succ k ih =>
    intro f f2 h
    rw [steps] at h
    cases hs : step heuristic getChoices depth startNode f with
    | error err => rw [hs] at h; cases h
    | ok f1 =>
      rw [hs] at h
      simp only at h
      obtain ⟨f3, h3, h4⟩ := ih f1 f2 h
      refine ⟨f3, ?_, h4⟩
      rw [steps, hs]
      exact h3

/-- A run that returns has reached a finished frame. -/
theorem steps_of_run :
    ∀ (fuel : Nat) (stale : List Bool) (f : Frame State Choice) (e1 : minimax State Choice),
      run heuristic getChoices depth startNode fuel stale f = Except.ok e1 →
      ∃ n f1, steps heuristic getChoices depth startNode n f = Except.ok f1 ∧
        f1.pc = PC.finished ∧ f1.mm = e1 := by
  intro fuel
  induction fuel with
  | zero =>
    intro stale f e1 h
    simp only [run] at h
    split at h
    · rename_i hpc
      cases h
      exact ⟨0, f, rfl, hpc, rfl⟩
    · cases h
  | succ fuel ih =>
    intro stale f e1 h
    simp only [run] at h
    split at h
    · rename_i hpc
      cases h
      exact ⟨0, f, rfl, hpc, rfl⟩
    · split at h
      · cases h
      · cases hs : step heuristic getChoices depth startNode f with
        | error err => rw [hs] at h; cases h
        | ok f1 =>
          rw [hs] at h
          simp only at h
          obtain ⟨n, f2, h2, hpc, hmm⟩ := ih _ f1 e1 h
          exact ⟨n + 1, f2, steps_cons heuristic getChoices depth startNode n f f1 f2 hs h2,
            hpc, hmm⟩

end leaves

theorem merge_child_others (startNode : Nat) (f : Frame State Choice) (it : child_iter)
    (rest : List child_iter) (q : Nat)
    (h1 : q ≠ parent_of f.mm.heap startNode (it :: rest))
    (h2 : q ≠ parent_of f.mm.heap startNode rest) :
    (merge_child startNode f it rest).mm.heap q = f.mm.heap q ∧
      (merge_child startNode f it rest).cur = f.cur := by
  unfold merge_child
  cases rest with
  | nil =>
    refine ⟨?_, rfl⟩
    simp only
    rw [lower_height_other _ _ _ _ _ h1, update_score_eq, store_other _ _ _ _ h1]
  | cons it2 rest2 =>
    simp only
    split
    · refine ⟨?_, rfl⟩
      simp only
      rw [lower_height_other _ _ _ _ _ h2, ((height_only_prune _ _ _ _) q).1 h1,
        update_score_gp_eq]
      simp only
      rw [update_score_eq, store_other _ _ _ _ h1]
    · refine ⟨?_, rfl⟩
      simp only
      rw [lower_height_other _ _ _ _ _ h1, update_score_gp_eq]
      simp only
      rw [update_score_eq, store_other _ _ _ _ h1]

/-- What an expansion of `cur` does to another node: it leaves every field but the
strong count, or the node is a new one, with height 0 and no children. -/
theorem expand_others [DecidableEq State] (cur : Nat) (childType : Bool) :
    ∀ (moves : List (Choice × State)) (e e1 : minimax State Choice),
      expand cur childType moves e = Except.ok e1 → cur < e.next →
      ∀ q, q ≠ cur → same_but_rc (e1.heap q) (e.heap q) ∨
        (e.next ≤ q ∧ (e1.heap q).height = 0 ∧ (e1.heap q).children = []) := by
  intro moves
  induction moves with
  | nil =>
    intro e e1 h _ q _
    simp only [expand] at h
    cases h
    exact Or.inl (same_but_rc_refl _)
  | cons mv more ih =>
    intro e e1 h hcur q hq
    obtain ⟨c, s⟩ := mv
    simp only [expand] at h
    split at h
    · rename_i p hfind
      split at h
      · cases h
      · have hstep : ∀ x, x ≠ cur → same_but_rc
            ((store (store e.heap p { e.heap p with rc := (e.heap p).rc + 1 }) cur
              { store e.heap p { e.heap p with rc := (e.heap p).rc + 1 } cur with
                children := (store e.heap p { e.heap p with rc := (e.heap p).rc + 1 } cur).children
                  ++ [p],
                choices := (store e.heap p { e.heap p with rc := (e.heap p).rc + 1 } cur).choices
                  ++ [c] }) x) (e.heap x) := by
          intro x hx
          rw [store_other _ _ _ _ hx]
          exact same_but_rc_store e.heap p _ x
        rcases ih _ e1 h hcur q hq with h1 | ⟨h1, h2, h3⟩
        · exact Or.inl (same_but_rc_trans h1 (hstep q hq))
        · exact Or.inr ⟨h1, h2, h3⟩
    · rename_i hfind
      rcases ih _ e1 h (by show cur < e.next + 1; omega) q hq with h1 | ⟨h1, h2, h3⟩
      · simp only at h1
        rw [store_other _ _ _ _ hq] at h1
        by_cases hqn : q = e.next
        · right
          refine ⟨by omega, ?_, ?_⟩
          · rw [h1.2.2.2.1, hqn, store_same]
            rfl
          · rw [h1.2.2.2.2.1, hqn, store_same]
            rfl
        · left
          rw [store_other _ _ _ _ hqn] at h1
          exact h1
      · simp only at h1
        exact Or.inr ⟨by omega, h2, h3⟩

theorem reset_node_fields (hp : Nat → node State Choice) (cur : Nat) (type : Bool) (q : Nat) :
    (reset_node hp cur type q).children = (hp q).children ∧
      (reset_node hp cur type q).state = (hp q).state ∧
      (q ≠ cur → reset_node hp cur type q = hp q) ∧
      (reset_node hp cur type cur).height = infinity := by
  unfold reset_node
  refine ⟨?_, ?_, fun h => store_other _ _ _ _ h, by rw [store_same]⟩
  · by_cases h : q = cur
    · subst h; rw [store_same]
    · rw [store_other _ _ _ _ h]
  · by_cases h : q = cur
    · subst h; rw [store_same]
    · rw [store_other _ _ _ _ h]

theorem mark_visited_fields (hp : Nat → node State Choice) (cur : Nat) (q : Nat) :
    (mark_visited hp cur q).children = (hp q).children ∧
      (mark_visited hp cur q).state = (hp q).state ∧
      (mark_visited hp cur q).score = (hp q).score ∧
      (q ≠ cur → mark_visited hp cur q = hp q) ∧
      (mark_visited hp cur cur).height = infinity := by
  unfold mark_visited
  refine ⟨?_, ?_, ?_, fun h => store_other _ _ _ _ h, by rw [store_same]⟩ <;>
  · by_cases h : q = cur
    · subst h; rw [store_same]
    · rw [store_other _ _ _ _ h]

theorem evaluate_leaf_fields (heuristic : State → Int) (hp : Nat → node State Choice)
    (cur : Nat) (q : Nat) :
    (evaluate_leaf heuristic hp cur q).children = (hp q).children ∧
      (evaluate_leaf heuristic hp cur q).state = (hp q).state ∧
      (evaluate_leaf heuristic hp cur q).height = (hp q).height ∧
      (q ≠ cur → evaluate_leaf heuristic hp cur q = hp q) ∧
      ((hp cur).children = [] →
        (evaluate_leaf heuristic hp cur cur).score = heuristic (hp cur).state) := by
  unfold evaluate_leaf
  split
  · rename_i hc
    refine ⟨?_, ?_, ?_, fun h => store_other _ _ _ _ h, fun _ => by rw [store_same]⟩ <;>
    · by_cases h : q = cur
      · subst h; rw [store_same]
      · rw [store_other _ _ _ _ h]
  · rename_i hc
    exact ⟨rfl, rfl, rfl, fun _ => rfl, fun h => absurd h hc⟩

/-- A node whose score, state and height a step leaves alone keeps what `leaf_at` says,
when the step adds to the visited nodes only the node `at` it is about to work on, and
adds it to the expanded nodes only if it had the unknown height. -/
theorem leaf_at_keep (heuristic : State → Int) (depth : Nat) (V X V1 X1 : Nat → Prop)
    (f f1 : Frame State Choice) (p : Nat)
    (hscore : (f1.mm.heap p).score = (f.mm.heap p).score)
    (hstate : (f1.mm.heap p).state = (f.mm.heap p).state)
    (hheight : (f1.mm.heap p).height = (f.mm.heap p).height)
    (hV : V1 p → V p ∨ pending f1 p) (hX : X1 p ↔ X p)
    (hpend : pending f p → pending f1 p) (hexp : expanding depth f p → expanding depth f1 p)
    (h : leaf_at heuristic depth V X f p) : leaf_at heuristic depth V1 X1 f1 p := by
  obtain ⟨h1, h2, h3⟩ := h
  refine ⟨fun hv => ?_, fun hx => ?_, fun hx => ?_⟩
  · rcases hV hv with hv | hv
    · rcases h1 hv with hs | hs
      · left
        rw [hscore, hstate]
        exact hs
      · exact Or.inr (hpend hs)
    · exact Or.inr hv
  · rw [hheight]
    exact h2 (hX.mp hx)
  · rcases h3 (fun hx1 => hx (hX.mpr hx1)) with hz | hz
    · left
      rw [hheight]
      exact hz
    · exact Or.inr (hexp hz)

/-- While the traversal descends or constructs, the node `at` is an allocated node. -/
theorem cur_allocated (startNode : Nat) (f : Frame State Choice) (hl : linked f.mm)
    (hw : walk_ok startNode f) (hs : startNode < f.mm.next)
    (hpc : f.pc = PC.descend ∨ f.pc = PC.construct) : f.cur < f.mm.next := by
  obtain ⟨-, -, hd, -⟩ := hw
  obtain ⟨hcur, hin⟩ := hd hpc
  rw [hcur]
  cases hpath : f.path with
  | nil => exact hs
  | cons it rest =>
    rw [hpath] at hin
    exact hl.2.1 it.owner _ (deref_mem f.mm.heap it (hin it (by simp)))

section leaf_steps

variable [DecidableEq State] (heuristic : State → Int)
  (getChoices : State → List (Choice × State)) (depth startNode : Nat)

theorem leaf_inv_descend (hd : depth < 2 ^ 64) (V X : Nat → Prop) (f f1 : Frame State Choice)
    (hfo : frame_ok getChoices depth f) (hpc : f.pc = PC.descend)
    (hinv : leaf_inv heuristic depth V X f)
    (hcur1 : f1.pc = PC.descend ∨ f1.pc = PC.construct → f1.cur < f1.mm.next)
    (hstep : step heuristic getChoices depth startNode f = Except.ok f1) :
    leaf_inv heuristic depth (fun p => V p ∨ p = f1.cur)
      (fun p => X p ∨ expanding depth f p) f1 := by
  obtain ⟨hVn, hXn, hVc, hleaf⟩ := hinv
  have hnx : ∀ p, ¬ expanding depth f p := fun p h => by
    have := h.2.1
    rw [hpc] at this
    cases this
  have hXiff : ∀ p, (X p ∨ expanding depth f p) ↔ X p :=
    fun p => ⟨fun h => h.elim id (fun h => absurd h (hnx p)), Or.inl⟩
  by_cases hlt : (f.mm.heap f.cur).height < usize_sub depth f.path.length
  · rw [step_descend_fire heuristic getChoices depth startNode f hpc hlt] at hstep
    have hlen : f.path.length < depth := by
      rw [usize_sub_of_le depth f.path.length hfo.2.2 hd] at hlt
      omega
    have hf1 := Except.ok.inj hstep
    clear hstep
    split at hf1
    · rename_i hne
      subst hf1
      have hne0 : (f.mm.heap f.cur).children ≠ [] := by
        rw [(reset_node_fields f.mm.heap f.cur f.nodeType f.cur).1] at hne
        exact hne
      refine ⟨fun p hp => ?_, fun p hp => hXn p ((hXiff p).mp hp), Or.inr rfl, fun p hp => ?_⟩
      · rcases hp with hp | hp
        · exact hVn p hp
        · rw [hp]
          exact hcur1 (Or.inl rfl)
      · have hp0 : (f.mm.heap p).children = [] := by
          rw [← (reset_node_fields f.mm.heap f.cur f.nodeType p).1]
          exact hp
        have hpc0 : p ≠ f.cur := fun h => hne0 (h ▸ hp0)
        have heq : reset_node f.mm.heap f.cur f.nodeType p = f.mm.heap p :=
          (reset_node_fields f.mm.heap f.cur f.nodeType p).2.2.1 hpc0
        refine leaf_at_keep heuristic depth V X _ _ f _ p
          (by show (reset_node _ _ _ p).score = _; rw [heq])
          (by show (reset_node _ _ _ p).state = _; rw [heq])
          (by show (reset_node _ _ _ p).height = _; rw [heq])
          (fun hv => ?_) (hXiff p) (fun h => absurd h.1 (Ne.symm hpc0))
          (fun h => absurd h (hnx p)) (hleaf p hp0)
        rcases hv with hv | hv
        · exact Or.inl hv
        · exact Or.inr ⟨hv.symm, Or.inl rfl⟩
    · rename_i hne
      subst hf1
      have hc0 : (f.mm.heap f.cur).children = [] := by
        rw [(reset_node_fields f.mm.heap f.cur f.nodeType f.cur).1] at hne
        exact not_not.mp hne
      refine ⟨fun p hp => ?_, fun p hp => hXn p ((hXiff p).mp hp), Or.inr rfl, fun p hp => ?_⟩
      · rcases hp with hp | hp
        · exact hVn p hp
        · rw [hp]
          exact hVn _ hVc
      · have hp0 : (f.mm.heap p).children = [] := by
          rw [← (reset_node_fields f.mm.heap f.cur f.nodeType p).1]
          exact hp
        by_cases hpc0 : p = f.cur
        · subst hpc0
          refine ⟨fun _ => Or.inr ⟨rfl, Or.inr rfl⟩, fun _ => ?_, fun _ => Or.inr ⟨rfl, rfl, hlen⟩⟩
          exact (reset_node_fields f.mm.heap f.cur f.nodeType f.cur).2.2.2
        · have heq : reset_node f.mm.heap f.cur f.nodeType p = f.mm.heap p :=
            (reset_node_fields f.mm.heap f.cur f.nodeType p).2.2.1 hpc0
          refine leaf_at_keep heuristic depth V X _ _ f _ p
            (by show (reset_node _ _ _ p).score = _; rw [heq])
            (by show (reset_node _ _ _ p).state = _; rw [heq])
            (by show (reset_node _ _ _ p).height = _; rw [heq])
            (fun hv => ?_) (hXiff p) (fun h => absurd h.1 (Ne.symm hpc0))
            (fun h => absurd h (hnx p)) (hleaf p hp0)
          rcases hv with hv | hv
          · exact Or.inl hv
          · exact absurd hv hpc0
  · rw [step_descend_stay heuristic getChoices depth startNode f hpc hlt] at hstep
    have hf1 := Except.ok.inj hstep
    clear hstep
    subst hf1
    refine ⟨fun p hp => ?_, fun p hp => hXn p ((hXiff p).mp hp), Or.inr rfl, fun p hp => ?_⟩
    · rcases hp with hp | hp
      · exact hVn p hp
      · rw [hp]
        exact hVn _ hVc
    · obtain ⟨e1, e2, e3, e4, e5⟩ := evaluate_leaf_fields heuristic f.mm.heap f.cur p
      have hp0 : (f.mm.heap p).children = [] := by
        rw [← e1]
        exact hp
      obtain ⟨h1, h2, h3⟩ := hleaf p hp0
      by_cases hpc0 : p = f.cur
      · subst hpc0
        refine ⟨fun _ => Or.inl ?_, fun hx => ?_, fun hx => Or.inl ?_⟩
        · show (evaluate_leaf heuristic f.mm.heap f.cur f.cur).score
            = heuristic (evaluate_leaf heuristic f.mm.heap f.cur f.cur).state
          rw [e2]
          exact e5 hp0
        · show (evaluate_leaf heuristic f.mm.heap f.cur f.cur).height = _
          rw [e3]
          exact h2 ((hXiff _).mp hx)
        · show (evaluate_leaf heuristic f.mm.heap f.cur f.cur).height = _
          rw [e3]
          rcases h3 (fun hx1 => hx (Or.inl hx1)) with hz | hz
          · exact hz
          · exact absurd hz (hnx _)
      · have heq := e4 hpc0
        refine leaf_at_keep heuristic depth V X _ _ f _ p
          (by show (evaluate_leaf _ _ _ p).score = _; rw [heq])
          (by show (evaluate_leaf _ _ _ p).state = _; rw [heq])
          (by show (evaluate_leaf _ _ _ p).height = _; rw [heq])
          (fun hv => ?_) (hXiff p) (fun h => absurd h.1 (Ne.symm hpc0))
          (fun h => absurd h (hnx p)) ⟨h1, h2, h3⟩
        rcases hv with hv | hv
        · exact Or.inl hv
        · exact absurd hv hpc0

end leaf_steps

section leaf_steps2

variable [DecidableEq State] (heuristic : State → Int)
  (getChoices : State → List (Choice × State)) (depth startNode : Nat)

theorem leaf_inv_construct (V X : Nat → Prop) (f f1 : Frame State Choice)
    (hpc : f.pc = PC.construct)
    (hinv : leaf_inv heuristic depth V X f)
    (hcur1 : f1.pc = PC.descend ∨ f1.pc = PC.construct → f1.cur < f1.mm.next)
    (hstep : step heuristic getChoices depth startNode f = Except.ok f1) :
    leaf_inv heuristic depth (fun p => V p ∨ p = f1.cur)
      (fun p => X p ∨ expanding depth f p) f1 := by
  obtain ⟨hVn, hXn, hVc, hleaf⟩ := hinv
  by_cases hgt : depth > f.path.length
  · cases hexp : expand f.cur (!f.nodeType) (getChoices (f.mm.heap f.cur).state) f.mm with
    | error err =>
      unfold step at hstep
      rw [hpc] at hstep
      simp only [hgt, if_true, hexp] at hstep
      cases hstep
    | ok e1 =>
      rw [step_construct_expand heuristic getChoices depth startNode f hpc hgt e1 hexp] at hstep
      have hf1 := Except.ok.inj hstep
      clear hstep
      have hoth := expand_others f.cur (!f.nodeType) (getChoices (f.mm.heap f.cur).state)
        f.mm e1 hexp (hVn _ hVc)
      have hgrow := (expand_grown f.cur (!f.nodeType) (getChoices (f.mm.heap f.cur).state)
        f.mm e1 hexp).2
      have hXiff : ∀ p, p ≠ f.cur → ((X p ∨ expanding depth f p) ↔ X p) :=
        fun p hp => ⟨fun h => h.elim id (fun h => absurd h.1.symm hp), Or.inl⟩
      -- what holds for every node without children other than `at`
      have hother : ∀ (g : Frame State Choice), g.mm.heap = mark_visited e1.heap f.cur →
          (g.cur = f.cur ∨ g.pc = PC.construct) →
          ∀ p, p ≠ f.cur → (g.mm.heap p).children = [] →
            leaf_at heuristic depth (fun p => V p ∨ p = g.cur)
              (fun p => X p ∨ expanding depth f p) g p := by
        intro g hg hgc p hpc0 hp
        have heq : g.mm.heap p = e1.heap p := by
          rw [hg]
          exact (mark_visited_fields e1.heap f.cur p).2.2.2.1 hpc0
        rcases hoth p hpc0 with hsame | ⟨hnew, hh, hc⟩
        · have hp0 : (f.mm.heap p).children = [] := by
            rw [← hsame.2.2.2.2.1, ← heq]
            exact hp
          refine leaf_at_keep heuristic depth V X _ _ f g p
            (by rw [heq]; exact hsame.2.2.1) (by rw [heq]; exact hsame.2.1)
            (by rw [heq]; exact hsame.2.2.2.1)
            (fun hv => ?_) (hXiff p hpc0) (fun h => absurd h.1 (Ne.symm hpc0))
            (fun h => absurd h.1 (Ne.symm hpc0)) (hleaf p hp0)
          rcases hv with hv | hv
          · exact Or.inl hv
          · rcases hgc with hgc | hgc
            · exact absurd (hv.trans hgc) hpc0
            · exact Or.inr ⟨hv.symm, Or.inr hgc⟩
        · refine ⟨fun hv => ?_, fun hx => ?_, fun _ => Or.inl (by rw [heq]; exact hh)⟩
          · rcases hv with hv | hv
            · have := hVn p hv
              omega
            · rcases hgc with hgc | hgc
              · exact absurd (hv.trans hgc) hpc0
              · exact Or.inr ⟨hv.symm, Or.inr hgc⟩
          · have := hXn p ((hXiff p hpc0).mp hx)
            omega
      split at hf1
      · rename_i hdead
        subst hf1
        refine ⟨fun p hp => ?_, fun p hp => ?_, Or.inr rfl, fun p hp => ?_⟩
        · show p < e1.next
          rcases hp with hp | hp
          · have := hVn p hp
            omega
          · rw [hp]
            have := hVn _ hVc
            exact Nat.lt_of_lt_of_le this hgrow
        · show p < e1.next
          rcases hp with hp | hp
          · have := hXn p hp
            omega
          · rw [← hp.1]
            have := hVn _ hVc
            exact Nat.lt_of_lt_of_le this hgrow
        · by_cases hpc0 : p = f.cur
          · subst hpc0
            refine ⟨fun _ => Or.inr ⟨rfl, Or.inl rfl⟩, fun _ => ?_,
              fun hx => absurd (Or.inr ⟨rfl, hpc, hgt⟩) hx⟩
            exact (mark_visited_fields e1.heap f.cur f.cur).2.2.2.2
          · exact hother
              { f with mm := { e1 with heap := mark_visited e1.heap f.cur }, pc := PC.descend }
              rfl (Or.inl rfl) p hpc0 hp
      · rename_i hlive
        subst hf1
        refine ⟨fun p hp => ?_, fun p hp => ?_, Or.inr rfl, fun p hp => ?_⟩
        · rcases hp with hp | hp
          · have := hVn p hp
            show p < e1.next
            omega
          · rw [hp]
            exact hcur1 (Or.inr rfl)
        · show p < e1.next
          rcases hp with hp | hp
          · have := hXn p hp
            omega
          · rw [← hp.1]
            have := hVn _ hVc
            exact Nat.lt_of_lt_of_le this hgrow
        · have hpc0 : p ≠ f.cur := by
            intro h
            rw [h] at hp
            exact hlive hp
          exact hother
            (go_down { f with mm := { e1 with heap := mark_visited e1.heap f.cur } } PC.construct)
            rfl (Or.inr rfl) p hpc0 hp
  · rw [step_construct_stop heuristic getChoices depth startNode f hpc hgt] at hstep
    have hf1 := Except.ok.inj hstep
    clear hstep
    subst hf1
    have hnx : ∀ p, ¬ expanding depth f p := fun p h => hgt h.2.2
    have hXiff : ∀ p, (X p ∨ expanding depth f p) ↔ X p :=
      fun p => ⟨fun h => h.elim id (fun h => absurd h (hnx p)), Or.inl⟩
    refine ⟨fun p hp => ?_, fun p hp => hXn p ((hXiff p).mp hp), Or.inr rfl, fun p hp => ?_⟩
    · rcases hp with hp | hp
      · exact hVn p hp
      · rw [hp]
        exact hVn _ hVc
    · refine leaf_at_keep heuristic depth V X _ _ f _ p rfl rfl rfl
        (fun hv => ?_) (hXiff p) (fun h => ⟨h.1, Or.inl rfl⟩)
        (fun h => absurd h (hnx p)) (hleaf p hp)
      rcases hv with hv | hv
      · exact Or.inl hv
      · rw [hv]
        exact Or.inl hVc

end leaf_steps2

theorem merge_child_cur (startNode : Nat) (f : Frame State Choice) (it : child_iter)
    (rest : List child_iter) : (merge_child startNode f it rest).cur = f.cur := by
  unfold merge_child
  cases rest with
  | nil => rfl
  | cons it2 rest2 =>
    simp only
    split <;> rfl

/-- The nodes whose score or height `merge_child` can change have children. -/
theorem merged_have_children (startNode : Nat) (f : Frame State Choice) (it : child_iter)
    (rest : List child_iter) (hpath : f.path = it :: rest) (hw : walk_ok startNode f)
    (hpc : f.pc = PC.backtrack)
    (hidx : it.idx ≠ ((f.mm.heap (parent_of f.mm.heap startNode f.path)).children).length) :
    (f.mm.heap (parent_of f.mm.heap startNode (it :: rest))).children ≠ [] ∧
      (f.mm.heap (parent_of f.mm.heap startNode rest)).children ≠ [] := by
  obtain ⟨hch, htail, -, hb⟩ := hw
  rw [hpath] at hch htail hidx
  have hown : parent_of f.mm.heap startNode (it :: rest) = it.owner := by
    rw [parent_of_cons]
    exact hch.1.symm
  have hle := hb hpc it (by rw [hpath]; simp)
  rw [hown] at hidx
  have h1 : (f.mm.heap it.owner).children ≠ [] := by
    intro h
    rw [h] at hidx hle
    simp only [List.length_nil] at hidx hle
    omega
  refine ⟨by rw [hown]; exact h1, ?_⟩
  cases rest with
  | nil =>
    have : parent_of f.mm.heap startNode ([] : List child_iter) = it.owner := hch.1.symm
    rw [this]
    exact h1
  | cons it2 rest2 =>
    have hown2 : parent_of f.mm.heap startNode (it2 :: rest2) = it2.owner := by
      rw [parent_of_cons]
      exact hch.2.1.symm
    rw [hown2]
    have hin : inside f.mm.heap it2 := htail it2 (by simp)
    intro h
    unfold inside at hin
    rw [h] at hin
    simp at hin

theorem return_check_mm (depth startNode : Nat) (f : Frame State Choice) :
    (return_check depth startNode f).mm = f.mm ∧
      ((return_check depth startNode f).cur = f.cur ∧
          (return_check depth startNode f).pc = f.pc ∨
        (return_check depth startNode f).cur = startNode ∨
        (return_check depth startNode f).pc = PC.descend) := by
  rcases return_check_cases depth startNode f with h | ⟨c, h⟩
  · rw [h]
    exact ⟨rfl, Or.inl ⟨rfl, rfl⟩⟩
  · rw [h]
    refine ⟨rfl, Or.inr ?_⟩
    simp only [resume]
    by_cases hc : startNode = c
    · exact Or.inl hc.symm
    · right
      rw [if_neg hc]

section leaf_steps3

variable [DecidableEq State] (heuristic : State → Int)
  (getChoices : State → List (Choice × State)) (depth startNode : Nat)

theorem leaf_inv_backtrack (V X : Nat → Prop) (f f1 : Frame State Choice)
    (hw : walk_ok startNode f) (hVs : V startNode) (hpc : f.pc = PC.backtrack)
    (hinv : leaf_inv heuristic depth V X f)
    (hcur1 : f1.pc = PC.descend ∨ f1.pc = PC.construct → f1.cur < f1.mm.next)
    (hstep : step heuristic getChoices depth startNode f = Except.ok f1) :
    leaf_inv heuristic depth (fun p => V p ∨ p = f1.cur)
      (fun p => X p ∨ expanding depth f p) f1 := by
  obtain ⟨hVn, hXn, hVc, hleaf⟩ := hinv
  rw [step_backtrack heuristic getChoices depth startNode f hpc] at hstep
  have hf1 := Except.ok.inj hstep
  clear hstep
  have hnx : ∀ p, ¬ expanding depth f p := fun p h => by
    have := h.2.1
    rw [hpc] at this
    cases this
  have hnp : ∀ p, ¬ pending f p := fun p h => by
    rcases h.2 with h | h <;> rw [hpc] at h <;> cases h
  have hXiff : ∀ p, (X p ∨ expanding depth f p) ↔ X p :=
    fun p => ⟨fun h => h.elim id (fun h => absurd h (hnx p)), Or.inl⟩
  -- it is enough that the step keeps the nodes without children and moves `at` to a
  -- visited node or to a node that it will work on
  have hkey : f1.mm.next = f.mm.next →
      (f1.cur = f.cur ∨ f1.cur = startNode ∨ f1.pc = PC.descend) →
      (∀ p, (f1.mm.heap p).children = [] →
        (f.mm.heap p).children = [] ∧ f1.mm.heap p = f.mm.heap p) →
      leaf_inv heuristic depth (fun p => V p ∨ p = f1.cur)
        (fun p => X p ∨ expanding depth f p) f1 := by
    intro hnext hcur hsame
    have hV1 : ∀ p, V p ∨ p = f1.cur → V p ∨ pending f1 p := by
      intro p hv
      rcases hv with hv | hv
      · exact Or.inl hv
      · rcases hcur with hc | hc | hc
        · rw [hv, hc]
          exact Or.inl hVc
        · rw [hv, hc]
          exact Or.inl hVs
        · exact Or.inr ⟨hv.symm, Or.inl hc⟩
    refine ⟨fun p hp => ?_, fun p hp => ?_, Or.inr rfl, fun p hp => ?_⟩
    · rcases hp with hp | hp
      · rw [hnext]
        exact hVn p hp
      · rw [hp]
        rcases hcur with hc | hc | hc
        · rw [hc, hnext]
          exact hVn _ hVc
        · rw [hc, hnext]
          exact hVn _ hVs
        · exact hcur1 (Or.inl hc)
    · rw [hnext]
      exact hXn p ((hXiff p).mp hp)
    · obtain ⟨hp0, heq⟩ := hsame p hp
      exact leaf_at_keep heuristic depth V X _ _ f f1 p (by rw [heq]) (by rw [heq])
        (by rw [heq]) (hV1 p) (hXiff p) (fun h => absurd h (hnp p))
        (fun h => absurd h (hnx p)) (hleaf p hp0)
  unfold next_node_step at hf1
  cases hpath : f.path with
  | nil =>
    rw [hpath] at hf1
    simp only at hf1
    subst hf1
    exact hkey rfl (Or.inr (Or.inl rfl)) (fun p hp => ⟨hp, rfl⟩)
  | cons it rest =>
    rw [hpath] at hf1
    simp only at hf1
    split at hf1
    · subst hf1
      exact hkey rfl (Or.inl rfl) (fun p hp => ⟨hp, rfl⟩)
    · rename_i hidx
      rw [← hpath] at hidx
      obtain ⟨hc1, hc2⟩ := merged_have_children startNode f it rest hpath hw hpc hidx
      obtain ⟨hlow, -, -, hnext, hmpc, -⟩ := merge_child_low startNode f it rest
      obtain ⟨hmm, hrc⟩ := return_check_mm depth startNode (merge_child startNode f it rest)
      subst hf1
      refine hkey (by rw [hmm]; exact hnext) ?_ (fun p hp => ?_)
      · rcases hrc with ⟨h, -⟩ | h | h
        · left
          rw [h]
          exact merge_child_cur startNode f it rest
        · exact Or.inr (Or.inl h)
        · exact Or.inr (Or.inr h)
      · rw [hmm] at hp ⊢
        have hp0 : (f.mm.heap p).children = [] := by
          rw [← (hlow p).1.2.2.1]
          exact hp
        have h1 : p ≠ parent_of f.mm.heap startNode (it :: rest) := fun h => hc1 (h ▸ hp0)
        have h2 : p ≠ parent_of f.mm.heap startNode rest := fun h => hc2 (h ▸ hp0)
        exact ⟨hp0, (merge_child_others startNode f it rest p h1 h2).1⟩

end leaf_steps3

theorem leaf_inv_congr (heuristic : State → Int) (depth : Nat) (V X V1 X1 : Nat → Prop)
    (f : Frame State Choice) (hV : ∀ p, V1 p ↔ V p) (hX : ∀ p, X1 p ↔ X p)
    (h : leaf_inv heuristic depth V X f) : leaf_inv heuristic depth V1 X1 f := by
  obtain ⟨h1, h2, h3, h4⟩ := h
  refine ⟨fun p hp => h1 p ((hV p).mp hp), fun p hp => h2 p ((hX p).mp hp), (hV _).mpr h3,
    fun p hp => ?_⟩
  obtain ⟨a, b, c⟩ := h4 p hp
  exact ⟨fun hv => a ((hV p).mp hv), fun hx => b ((hX p).mp hx),
    fun hx => c (fun hx1 => hx ((hX p).mpr hx1))⟩

section leaf_run

variable [DecidableEq State] (heuristic : State → Int)
  (getChoices : State → List (Choice × State)) (depth startNode : Nat)

/-- Every step of the traversal keeps the invariant about the nodes without children,
with the new node `at` among the visited nodes and the expanded node among the expanded
ones. -/
theorem step_leaf_inv (hd : depth < 2 ^ 64) (V X : Nat → Prop) (f f1 : Frame State Choice)
    (hfo : frame_ok getChoices depth f) (hw : walk_ok startNode f) (hVs : V startNode)
    (hinv : leaf_inv heuristic depth V X f)
    (hcur1 : f1.pc = PC.descend ∨ f1.pc = PC.construct → f1.cur < f1.mm.next)
    (hstep : step heuristic getChoices depth startNode f = Except.ok f1) :
    leaf_inv heuristic depth (fun p => V p ∨ p = f1.cur)
      (fun p => X p ∨ expanding depth f p) f1 := by
  cases hpc : f.pc with
  | descend =>
    exact leaf_inv_descend heuristic getChoices depth startNode hd V X f f1 hfo hpc hinv hcur1
      hstep
  | construct =>
    exact leaf_inv_construct heuristic getChoices depth startNode V X f f1 hpc hinv hcur1 hstep
  | backtrack =>
    exact leaf_inv_backtrack heuristic getChoices depth startNode V X f f1 hw hVs hpc hinv
      hcur1 hstep
  | finished =>
    rw [step_finished heuristic getChoices depth startNode f hpc] at hstep
    have hf1 := Except.ok.inj hstep
    subst hf1
    refine leaf_inv_congr heuristic depth V X _ _ f (fun p => ?_) (fun p => ?_) hinv
    · exact ⟨fun h => h.elim id (fun h => h ▸ hinv.2.2.1), Or.inl⟩
    · refine ⟨fun h => h.elim id (fun h => ?_), Or.inl⟩
      have := h.2.1
      rw [hpc] at this
      cases this

/-- The invariants of the traversal in every frame that `compute(depth)` reaches on a new
engine: the visited nodes are the nodes `at` of the frames so far and the expanded nodes
the ones for which the move generator was called. -/
theorem steps_leaf_inv (hd : depth < 2 ^ 64) (start : State) (isMax : Bool) :
    ∀ (k : Nat) (f : Frame State Choice),
      steps heuristic getChoices depth 0 k
        (first_frame (minimax.new start isMax : minimax State Choice)) = Except.ok f →
      frame_ok getChoices depth f ∧ walk_ok 0 f ∧ f.mm.root = 0 ∧
        leaf_inv heuristic depth
          (fun p => ∃ j g, j ≤ k ∧ steps heuristic getChoices depth 0 j
            (first_frame (minimax.new start isMax : minimax State Choice)) = Except.ok g ∧
            g.cur = p)
          (fun p => ∃ j g, j < k ∧ steps heuristic getChoices depth 0 j
            (first_frame (minimax.new start isMax : minimax State Choice)) = Except.ok g ∧
            expanding depth g p) f := by
  intro k
  induction k with
  | zero =>
    intro f h
    have hf := Except.ok.inj h
    subst hf
    have hwf := well_formed_new getChoices start isMax
    rw [well_formed_iff] at hwf
    refine ⟨⟨hwf.1, fun p => Or.inl (hwf.2 p), Nat.zero_le _⟩,
      walk_descend 0 _ trivial (fun it hit => by cases hit) rfl, rfl, ?_, ?_, ?_, ?_⟩
    · rintro p ⟨j, g, hj, hg, hp⟩
      have hj0 : j = 0 := by omega
      subst hj0
      have := Except.ok.inj hg
      subst this
      rw [← hp]
      show (0 : Nat) < 1
      omega
    · rintro p ⟨j, g, hj, -⟩
      omega
    · exact ⟨0, _, le_refl _, rfl, rfl⟩
    · intro p hp
      refine ⟨?_, ?_, fun _ => Or.inl rfl⟩
      · rintro ⟨j, g, hj, hg, hp1⟩
        have hj0 : j = 0 := by omega
        subst hj0
        have := Except.ok.inj hg
        subst this
        exact Or.inr ⟨hp1, Or.inl rfl⟩
      · rintro ⟨j, g, hj, -⟩
        omega
  | succ k ih =>
    intro f1 h
    obtain ⟨f, hk, hstep⟩ := steps_last heuristic getChoices depth 0 k _ f1 h
    obtain ⟨hfo, hw, hroot, hinv⟩ := ih f hk
    have hfo1 := step_ok heuristic getChoices depth 0 hd f f1 hfo hstep
    have hs : 0 < f.mm.next := by
      have := hfo.1.2.2.2
      rw [hroot] at this
      exact this
    have hw1 := step_walk heuristic getChoices depth 0 f f1 hfo.1 hs hw hstep
    have hroot1 : f1.mm.root = 0 := by
      rw [(step_root heuristic getChoices depth 0 f f1 hstep).1, hroot]
    have hs1 : 0 < f1.mm.next := by
      have := hfo1.1.2.2.2
      rw [hroot1] at this
      exact this
    refine ⟨hfo1, hw1, hroot1, ?_⟩
    have hnew := step_leaf_inv heuristic getChoices depth 0 hd _ _ f f1 hfo hw
      ⟨0, _, Nat.zero_le _, rfl, rfl⟩ hinv
      (fun hpc => cur_allocated 0 f1 hfo1.1 hw1 hs1 hpc) hstep
    refine leaf_inv_congr heuristic depth _ _ _ _ f1 (fun p => ?_) (fun p => ?_) hnew
    · constructor
      · rintro ⟨j, g, hj, hg, hp⟩
        by_cases hjk : j = k + 1
        · subst hjk
          rw [h] at hg
          have := Except.ok.inj hg
          subst this
          exact Or.inr hp.symm
        · exact Or.inl ⟨j, g, by omega, hg, hp⟩
      · rintro (⟨j, g, hj, hg, hp⟩ | hp)
        · exact ⟨j, g, by omega, hg, hp⟩
        · exact ⟨k + 1, f1, le_refl _, h, hp.symm⟩
    · constructor
      · rintro ⟨j, g, hj, hg, hp⟩
        by_cases hjk : j = k
        · subst hjk
          rw [hk] at hg
          have := Except.ok.inj hg
          subst this
          exact Or.inr hp
        · exact Or.inl ⟨j, g, by omega, hg, hp⟩
      · rintro (⟨j, g, hj, hg, hp⟩ | hp)
        · exact ⟨j, g, by omega, hg, hp⟩
        · exact ⟨k, f, by omega, hk, hp⟩

end leaf_run

theorem kept_off_of_kept {n x w : Nat} {hp hp1 : Nat → node State Choice} (below : List State)
    (h : kept n x w hp hp1) : kept_off n x w below hp hp1 :=
  fun q hq hqx _ => h q hq hqx

theorem kept_off_refl (n x w : Nat) (below : List State) (hp : Nat → node State Choice) :
    kept_off n x w below hp hp :=
  fun _ _ _ _ => ⟨fun _ => rfl, rfl⟩

theorem usize_sub_lt (a b : Nat) : usize_sub a b < 2 ^ 64 := by
  unfold usize_sub
  exact Nat.mod_lt _ (by decide)

section second_search

variable [DecidableEq State] (heuristic : State → Int)
  (getChoices : State → List (Choice × State)) (depth startNode : Nat)

/-- A later search does not enter a searched node of the unknown height: its score,
which is its minimax value for the plies that are left, is kept. -/
theorem again_settled (e k : Nat) (f : Frame State Choice) (s : State) (type : Bool)
    (hpc : f.pc = PC.descend) (hty : f.nodeType = type)
    (hc : cached heuristic getChoices e (f.mm.nodes.map Prod.fst) f.mm.next f.mm.heap k f.cur s
      type)
    (hinf : (f.mm.heap f.cur).height = infinity) :
    ∃ f1, reaches heuristic getChoices depth startNode f f1 ∧
      f.mm.next ≤ f1.mm.next ∧
      (∀ key ∈ f1.mm.nodes.map Prod.fst,
        key ∈ f.mm.nodes.map Prod.fst ∨ key ∈ produced getChoices (k + e) s) ∧
      kept_off f.mm.next f.cur (top_owner startNode f.path) (produced getChoices (k + e) s)
        f.mm.heap f1.mm.heap ∧
      again_done heuristic getChoices depth startNode (k + e) f f1 s type := by
  have hval := cached_settled heuristic getChoices e _ _ _ k f.cur s type hc hinf (k + e)
    (Nat.le_add_right _ _)
  have hstay : ¬ (f.mm.heap f.cur).height < usize_sub depth f.path.length := by
    have := usize_sub_lt depth f.path.length
    rw [hinf]
    simp only [infinity]
    omega
  have hleaf : evaluate_leaf heuristic f.mm.heap f.cur = f.mm.heap := by
    funext q
    unfold evaluate_leaf
    split
    · rename_i hch
      by_cases hq : q = f.cur
      · subst hq
        rw [store_same]
        obtain ⟨_, hst, h3 | h3 | ⟨k1, _, h3⟩⟩ := (cached_iff _ _ _ _ _ _ _ _ _ _).mp hc
        · obtain ⟨⟨sc, r, hx⟩, _⟩ := h3
          rw [hx] at hinf
          simp [node.mk_shared, infinity] at hinf
        · rw [← h3.2.2.2]
        · obtain ⟨c1, _, n0, _, c4, _⟩ := h3
          rw [c4] at hch
          have := congrArg List.length hch
          rw [List.length_range'] at this
          exact absurd (List.length_eq_zero.mp this) c1
      · rw [store_other _ _ _ _ hq]
    · rfl
  refine ⟨{ f with mm := { f.mm with heap := evaluate_leaf heuristic f.mm.heap f.cur },
                   pc := PC.backtrack },
    reaches_step _ _ _ _ (by rw [hpc]; decide)
      (step_descend_stay heuristic getChoices depth startNode f hpc hstay),
    le_refl _, fun key hk => Or.inl hk, ?_, ?_⟩
  · simp only
    rw [hleaf]
    exact kept_off_refl _ _ _ _ _
  · left
    refine ⟨rfl, rfl, hty, fun _ => ?_, ?_⟩
    · simp only
      rw [hleaf]
    · simp only
      rw [hleaf]
      exact hval.symm

/-- A later search of a node that was not expanded is a first search of it. -/
theorem again_unexpanded (e k : Nat) (hdepth : depth < infinity)
    (hrange : ∀ s, scoreMin ≤ heuristic s ∧ heuristic s ≤ scoreMax)
    (f : Frame State Choice) (s : State) (type : Bool)
    (hpc : f.pc = PC.descend) (hlen : f.path.length + (k + e) = depth)
    (hty : f.nodeType = type)
    (hx : on_path f.mm.heap startNode f.cur f.path) (hs : startNode ≤ f.cur)
    (hcur : f.cur < f.mm.next)
    (hun : unexpanded getChoices e (f.mm.nodes.map Prod.fst) f.mm.heap k f.cur s type)
    (hnd : (produced getChoices (k + e) s).Nodup)
    (hbound : ∀ b, bound_of f.mm.heap f.path = some b → scoreMin ≤ b ∧ b ≤ scoreMax) :
    ∃ f1, reaches heuristic getChoices depth startNode f f1 ∧
      f.mm.next ≤ f1.mm.next ∧
      (∀ key ∈ f1.mm.nodes.map Prod.fst,
        key ∈ f.mm.nodes.map Prod.fst ∨ key ∈ produced getChoices (k + e) s) ∧
      kept_off f.mm.next f.cur (top_owner startNode f.path) (produced getChoices (k + e) s)
        f.mm.heap f1.mm.heap ∧
      again_done heuristic getChoices depth startNode (k + e) f f1 s type := by
  obtain ⟨⟨sc, r, hnode⟩, hkeys⟩ := hun
  obtain ⟨f1, hr1, hn1, hk1, hkept1, _, hdone1⟩ :=
    searches_first_all heuristic getChoices depth startNode 0 hdepth hrange (k + e) f s type
      (Or.inr ⟨hpc, sc, r, hnode⟩) hlen hty hx hcur (by omega) hnd hkeys hbound
  refine ⟨f1, hr1, hn1, hk1, kept_off_of_kept _ hkept1, ?_⟩
  rcases hdone1 with ⟨p1, p2, p3, _, p5, p6⟩ | ⟨hf0, b, hb, _, hsem⟩
  · exact Or.inl ⟨p1, p2, p3, p5, (p6 (k + e) (Or.inl rfl)).symm⟩
  · exact Or.inr ⟨hf0, b, hb, hsem (k + e) (Or.inl rfl)⟩

end second_search

/-- The test after `++*iter` when the iterator points at a child whose height is at
most the plies left for it: the traversal goes on at that child. -/
theorem return_check_resume (depth startNode : Nat) (f2 : Frame State Choice) (x n0 m j : Nat)
    (path : List child_iter) (hpath : f2.path = ⟨x, j⟩ :: path)
    (hx : x = target f2.mm.heap startNode path)
    (hch : (f2.mm.heap x).children = List.range' n0 m) (hj : j < m)
    (hlow : (f2.mm.heap (n0 + j)).height ≤ usize_sub depth (path.length + 1))
    (hs : startNode < n0) :
    return_check depth startNode f2 = ⟨f2.mm, f2.path, f2.nodeType, n0 + j, PC.descend⟩ := by
  have hder : deref f2.mm.heap ⟨x, j⟩ = n0 + j := by
    simp only [deref]
    rw [hch]
    exact range_getD n0 m j hj
  unfold return_check
  rw [hpath]
  simp only
  rw [parent_of_cons, ← hx, hch, hder]
  have hne : j ≠ m := Nat.ne_of_lt hj
  have hsn : startNode ≠ n0 + j := by omega
  simp [hne, resume, hsn, hpath, hlow]

/-- The test after `++*iter` when the iterator points at a child whose height is
above the plies left for it: the loop of `next_node` goes on with that child. -/
theorem return_check_stay (depth startNode : Nat) (f2 : Frame State Choice) (x n0 m j : Nat)
    (path : List child_iter) (hpath : f2.path = ⟨x, j⟩ :: path)
    (hx : x = target f2.mm.heap startNode path)
    (hch : (f2.mm.heap x).children = List.range' n0 m) (hj : j < m)
    (hhigh : ¬ (f2.mm.heap (n0 + j)).height ≤ usize_sub depth (path.length + 1)) :
    return_check depth startNode f2 = f2 := by
  have hder : deref f2.mm.heap ⟨x, j⟩ = n0 + j := by
    simp only [deref]
    rw [hch]
    exact range_getD n0 m j hj
  unfold return_check
  rw [hpath]
  simp only
  rw [parent_of_cons, ← hx, hch, hder]
  simp [hhigh]

/-- In a list of produced states without repetition, the states produced by the
later moves are not the state of the first move and are not produced below it. -/
theorem produced_list_apart (below : State → List State) (c : Choice × State)
    (cs : List (Choice × State)) (h : (produced_list below (c :: cs)).Nodup) :
    ∀ t ∈ produced_list below cs, t ≠ c.2 ∧ t ∉ below c.2 := by
  intro t ht
  obtain ⟨_, _, h3⟩ := produced_list_cons below c cs h
  simp only [produced_list, List.nodup_cons, List.mem_append, not_or] at h
  exact ⟨fun heq => h.1.2 (heq ▸ ht), fun hb => (h3 t hb).2 ht⟩

theorem produced_list_tail (below : State → List State) (c : Choice × State)
    (cs : List (Choice × State)) (t : State) (h : t ∈ produced_list below cs) :
    t ∈ produced_list below (c :: cs) := by
  simp only [produced_list]
  exact List.mem_cons_of_mem _ (List.mem_append_right _ h)

theorem produced_list_first (below : State → List State) (c : Choice × State)
    (cs : List (Choice × State)) :
    c.2 ∈ produced_list below (c :: cs) ∧
      ∀ t ∈ below c.2, t ∈ produced_list below (c :: cs) :=
  produced_list_sub below (c :: cs) c (List.mem_cons_self _ _)

section second_search_loop

variable [DecidableEq State] (heuristic : State → Int)
  (getChoices : State → List (Choice × State)) (depth startNode : Nat)

/-- Once the child number `j` of `x` is accounted for in a later search and `x` is
not pruned, the loop over the remaining children goes on from the test for the next
sibling: a sibling of the unknown height is not entered. -/
theorem searches_again_next (e k : Nat) (hdepth : depth < infinity) (c : Choice × State)
    (rest : List (Choice × State))
    (ih : searches_again_children heuristic getChoices depth startNode e k rest)
    (f : Frame State Choice) (x n0 j : Nat) (path : List child_iter) (type : Bool)
    (hpath : f.path = ⟨x, j⟩ :: path)
    (hlen : path.length + 1 + (k + e) = depth)
    (hx : on_path f.mm.heap startNode x path)
    (hxn : x < n0) (hsn : startNode ≤ x) (hnext : n0 + j + (rest.length + 1) ≤ f.mm.next)
    (hch : (f.mm.heap x).children = List.range' n0 (j + (rest.length + 1)))
    (hnd : (produced_list (produced getChoices (k + e)) (c :: rest)).Nodup)
    (hout : ∀ it ∈ f.path,
      (f.mm.heap it.owner).state ∉ produced_list (produced getChoices (k + e)) (c :: rest))
    (htail : ∀ (i : Nat) (c1 : Choice × State), rest[i]? = some c1 →
      cached heuristic getChoices e (f.mm.nodes.map Prod.fst) f.mm.next f.mm.heap k
        (n0 + (j + 1) + i) c1.2 (!type))
    (hbound : ∀ b, bound_of f.mm.heap path = some b → scoreMin ≤ b ∧ b ≤ scoreMax)
    (f2 : Frame State Choice)
    (hr : reaches heuristic getChoices depth startNode f (return_check depth startNode f2))
    (hpc2 : f2.pc = PC.backtrack) (hpath2 : f2.path = ⟨x, j + 1⟩ :: path)
    (hty2 : f2.nodeType = (!type)) (hn2 : f.mm.next ≤ f2.mm.next)
    (hk2 : ∀ key ∈ f2.mm.nodes.map Prod.fst,
      key ∈ f.mm.nodes.map Prod.fst ∨ key ∈ produced getChoices (k + e) c.2)
    (hmid : ∀ q, q < f.mm.next → q ≠ x → (f.mm.heap q).state ≠ c.2 →
      (f.mm.heap q).state ∉ produced getChoices (k + e) c.2 → f2.mm.heap q = f.mm.heap q)
    (hx2 : f2.mm.heap x = { f.mm.heap x with
      height := (f2.mm.heap x).height, score := (f2.mm.heap x).score })
    (hacc2 : scoreMin ≤ (f2.mm.heap x).score ∧ (f2.mm.heap x).score ≤ scoreMax)
    (hncross2 : rest ≠ [] → crosses type (bound_of f.mm.heap path) (f2.mm.heap x).score = false)
    (hsem2 : merge type (f.mm.heap x).score
        (minimax_value heuristic getChoices (k + e) (!type) c.2) = (f2.mm.heap x).score) :
    ∃ f1, reaches heuristic getChoices depth startNode f f1 ∧
      f.mm.next ≤ f1.mm.next ∧
      (∀ key ∈ f1.mm.nodes.map Prod.fst,
        key ∈ f.mm.nodes.map Prod.fst ∨
          key ∈ produced_list (produced getChoices (k + e)) (c :: rest)) ∧
      kept_off f.mm.next x (top_owner startNode path)
        (produced_list (produced getChoices (k + e)) (c :: rest)) f.mm.heap f1.mm.heap ∧
      f1.mm.heap x = { f.mm.heap x with
        height := (f1.mm.heap x).height, score := (f1.mm.heap x).score } ∧
      again_children_done heuristic getChoices depth startNode (k + e) f f1 x path type
        (c :: rest) := by
  obtain ⟨_, hnd2, hnd3⟩ := produced_list_cons (produced getChoices (k + e)) c rest hnd
  have hapart := produced_list_apart (produced getChoices (k + e)) c rest hnd
  have hfirst := produced_list_first (produced getChoices (k + e)) c rest
  have hinf : infinity = 2 ^ 64 - 1 := rfl
  have hd64 : depth < 2 ^ 64 := by omega
  have hsn0 : startNode < n0 := by omega
  have hown : ∀ it ∈ path, f2.mm.heap it.owner = f.mm.heap it.owner := by
    intro it hit
    have hlt := hx.2.1 it hit
    have ho := hout it (by rw [hpath]; exact List.mem_cons_of_mem _ hit)
    exact hmid it.owner (by omega) (by omega) (fun h => ho (h ▸ hfirst.1))
      (fun h => ho (hfirst.2 _ h))
  have hxB : on_path f2.mm.heap startNode x path :=
    on_path_congr startNode x path (fun it hit => by rw [hown it hit]) hx
  have hb2 : bound_of f2.mm.heap path = bound_of f.mm.heap path :=
    bound_of_congr path (fun it hit => by rw [hown it hit])
  have hmm : (return_check depth startNode f2).mm = f2.mm := return_check_root _ _ _
  have hch2 : (f2.mm.heap x).children = List.range' n0 (j + 1 + rest.length) := by
    rw [hx2]
    simp only
    rw [hch]
    congr 1
    omega
  have hstx : (f2.mm.heap x).state = (f.mm.heap x).state := by rw [hx2]
  have htail2 : ∀ (i : Nat) (c1 : Choice × State), rest[i]? = some c1 →
      cached heuristic getChoices e (f2.mm.nodes.map Prod.fst) f2.mm.next f2.mm.heap k
        (n0 + (j + 1) + i) c1.2 (!type) := by
    intro i c1 hi
    have hc1 : c1 ∈ rest := List.getElem?_mem hi
    have hsub := produced_list_sub (produced getChoices (k + e)) rest c1 hc1
    apply cached_congr heuristic getChoices e _ _ _ _ _ _ hn2 k _ c1.2 (!type) (htail i c1 hi)
    · intro q hq1 hq2 hq3
      apply same_but_rc_of_eq
      have hin : (f.mm.heap q).state ∈ produced_list (produced getChoices (k + e)) rest := by
        rcases hq3 with hq3 | hq3
        · rw [hq3]; exact hsub.1
        · exact hsub.2 _ hq3
      exact hmid q hq2 (by omega) (hapart _ hin).1 (hapart _ hin).2
    · intro t ht hmem
      rcases hk2 t hmem with h | h
      · exact h
      · exact absurd h (hapart t (hsub.2 t ht)).2
  have hout2 : ∀ it ∈ (return_check depth startNode f2).path,
      ((return_check depth startNode f2).mm.heap it.owner).state
        ∉ produced_list (produced getChoices (k + e)) rest := by
    intro it hit hmem
    rw [return_check_path, hpath2] at hit
    rw [hmm] at hmem
    rcases List.mem_cons.mp hit with h | h
    · subst h
      simp only at hmem
      rw [hstx] at hmem
      exact hout ⟨x, j⟩ (by rw [hpath]; exact List.mem_cons_self _ _)
        (produced_list_tail _ c rest _ hmem)
    · rw [hown it h] at hmem
      exact hout it (by rw [hpath]; exact List.mem_cons_of_mem _ h)
        (produced_list_tail _ c rest _ hmem)
  have hsub1 : usize_sub depth (path.length + 1) = k + e := by
    rw [usize_sub_of_le _ _ (by omega) hd64]; omega
  have hmode : ((return_check depth startNode f2).pc = PC.backtrack ∨
        (rest ≠ [] ∧ (return_check depth startNode f2).pc = PC.descend ∧
          (return_check depth startNode f2).cur = n0 + (j + 1))) ∧
      (∀ c1, rest[0]? = some c1 → (return_check depth startNode f2).pc = PC.backtrack →
        (f2.mm.heap (n0 + (j + 1))).score
          = minimax_value heuristic getChoices (k + e) (!type) c1.2) := by
    cases hrest : rest with
    | nil =>
      rw [hrest] at hch2
      rw [return_check_last depth startNode f2 x n0 (j + 1) path hpath2 hxB.1 hch2]
      exact ⟨Or.inl hpc2, fun c1 h1 => by simp at h1⟩
    | cons c1 rest1 =>
      have hc0 := htail2 0 c1 (by rw [hrest]; simp)
      rw [Nat.add_zero] at hc0
      by_cases hlow : (f2.mm.heap (n0 + (j + 1))).height ≤ usize_sub depth (path.length + 1)
      · rw [return_check_resume depth startNode f2 x n0 (j + 1 + rest.length) (j + 1) path hpath2
          hxB.1 hch2 (by rw [hrest]; simp) hlow hsn0]
        exact ⟨Or.inr ⟨List.cons_ne_nil _ _, rfl, rfl⟩, fun c2 _ h2 => by cases h2⟩
      · rw [return_check_stay depth startNode f2 x n0 (j + 1 + rest.length) (j + 1) path hpath2
          hxB.1 hch2 (by rw [hrest]; simp) hlow]
        refine ⟨Or.inl hpc2, fun c2 h2 _ => ?_⟩
        have hcc : c1 = c2 := by simpa using h2
        subst hcc
        have hi : (f2.mm.heap (n0 + (j + 1))).height = infinity := by
          by_contra hfin
          have := cached_height heuristic getChoices e _ _ _ k _ c1.2 (!type) hc0 hfin
          omega
        exact (cached_settled heuristic getChoices e _ _ _ k _ c1.2 (!type) hc0 hi (k + e)
          (Nat.le_add_right _ _)).symm
  obtain ⟨f3, hr3, hn3, hk3, hkept3, hx3, hdone3⟩ :=
    ih (return_check depth startNode f2) x n0 (j + 1) path type
      (by rw [return_check_path]; exact hpath2) hlen
      (by rw [return_check_nodeType]; exact hty2)
      (by rw [hmm]; exact hxB) hxn hsn (by rw [hmm]; omega)
      (by rw [hmm]; exact hch2) hnd2 hout2
      (by rw [hmm]; exact fun i c1 hi _ => htail2 i c1 hi)
      (by rw [hmm]; exact hmode.2)
      hmode.1
      (by rw [hmm]; exact hacc2)
      (by rw [hmm, hb2]; exact hbound)
      (by rw [hmm, hb2]; exact hncross2)
  unfold again_children_done at hdone3
  rw [hmm] at hn3 hk3 hkept3 hx3 hdone3
  have hwlt : top_owner startNode path < n0 := top_owner_lt startNode x n0 path hsn0 hxn hx.2.1
  have hwsame : path ≠ [] →
      f2.mm.heap (top_owner startNode path) = f.mm.heap (top_owner startNode path) := by
    intro hne
    cases path with
    | nil => exact absurd rfl hne
    | cons it rest2 => exact hown it (List.mem_cons_self _ _)
  refine ⟨f3, reaches_trans _ _ _ _ hr hr3, by omega, ?_, ?_, ?_, ?_⟩
  · intro key hkey
    rcases hk3 key hkey with h | h
    · rcases hk2 key h with h1 | h1
      · exact Or.inl h1
      · exact Or.inr (hfirst.2 _ h1)
    · exact Or.inr (produced_list_tail _ c rest _ h)
  · intro q hq hqx hst
    have e0 := hmid q hq hqx (fun h => hst (h ▸ hfirst.1)) (fun h => hst (hfirst.2 _ h))
    have k3 := hkept3 q (by omega) hqx (by
      rw [e0]
      exact fun h => hst (produced_list_tail _ c rest _ h))
    rw [e0] at k3
    exact k3
  · rw [hx3, hx2]
  · rcases hdone3 with ⟨p1, p2, p3, p5, p6⟩ | ⟨hf0, b, hb, hs⟩
    · left
      refine ⟨p1, p2, p3, ?_, ?_⟩
      · intro hne
        rw [p5 hne]
        exact hwsame hne
      · rw [p6]
        simp only [List.map_cons, List.foldl_cons]
        rw [hsem2]
    · right
      rw [hb2] at hb
      refine ⟨hf0, b, hb, ?_⟩
      intro a0
      simp only [List.map_cons, List.foldl_cons]
      exact hs _

end second_search_loop

theorem same_links_eq {a b : node State Choice} (h : same_links a b) :
    a = { b with height := a.height, score := a.score } := by
  cases a
  cases b
  simp only [same_links] at h
  obtain ⟨h1, h2, h3, h4, h5⟩ := h
  subst h1 h2 h3 h4 h5
  rfl

/-- The body of the loop of `next_node` for the child number `j` of the node `x`
changes no other node when `x` is not pruned. -/
theorem merge_child_rest (startNode : Nat) (f1 : Frame State Choice) (x n0 m j : Nat)
    (path : List child_iter) (type : Bool)
    (hx : on_path f1.mm.heap startNode x path)
    (hch : (f1.mm.heap x).children = List.range' n0 m) (hj : j < m)
    (hty : f1.nodeType = !type)
    (hno : ¬ (crosses type (bound_of f1.mm.heap path)
          (merge type (f1.mm.heap x).score (f1.mm.heap (n0 + j)).score) &&
          decide (j + 1 ≠ m)) = true) :
    ∀ q, q ≠ x → (merge_child startNode f1 ⟨x, j⟩ path).mm.heap q = f1.mm.heap q := by
  intro q hq
  rw [merge_child_eq startNode f1 x n0 m j path type hx hch hj hty, if_neg hno]
  simp only
  rw [lower_height_other _ _ _ _ _ hq, update_score_eq, store_other _ _ _ _ hq]

section second_search_merge

variable [DecidableEq State] (heuristic : State → Int)
  (getChoices : State → List (Choice × State)) (depth startNode : Nat)

/-- The loop of `next_node` in a later search, at a child of `x` whose score is its
minimax value: the score is merged into the score of `x`, which is pruned or goes on
with its next child. -/
theorem searches_again_merge (e k : Nat) (hdepth : depth < infinity)
    (hrange : ∀ s, scoreMin ≤ heuristic s ∧ heuristic s ≤ scoreMax)
    (c : Choice × State) (rest : List (Choice × State))
    (ih : searches_again_children heuristic getChoices depth startNode e k rest)
    (f : Frame State Choice) (x n0 j : Nat) (path : List child_iter) (type : Bool)
    (hpath : f.path = ⟨x, j⟩ :: path)
    (hlen : path.length + 1 + (k + e) = depth)
    (hx : on_path f.mm.heap startNode x path)
    (hxn : x < n0) (hsn : startNode ≤ x) (hnext : n0 + j + (rest.length + 1) ≤ f.mm.next)
    (hch : (f.mm.heap x).children = List.range' n0 (j + (rest.length + 1)))
    (hnd : (produced_list (produced getChoices (k + e)) (c :: rest)).Nodup)
    (hout : ∀ it ∈ f.path,
      (f.mm.heap it.owner).state ∉ produced_list (produced getChoices (k + e)) (c :: rest))
    (htail : ∀ (i : Nat) (c1 : Choice × State), rest[i]? = some c1 →
      cached heuristic getChoices e (f.mm.nodes.map Prod.fst) f.mm.next f.mm.heap k
        (n0 + (j + 1) + i) c1.2 (!type))
    (hbound : ∀ b, bound_of f.mm.heap path = some b → scoreMin ≤ b ∧ b ≤ scoreMax)
    (hacc : scoreMin ≤ (f.mm.heap x).score ∧ (f.mm.heap x).score ≤ scoreMax)
    (hncross : crosses type (bound_of f.mm.heap path) (f.mm.heap x).score = false)
    (fB : Frame State Choice)
    (hr : reaches heuristic getChoices depth startNode f fB)
    (hpcB : fB.pc = PC.backtrack) (hpathB : fB.path = ⟨x, j⟩ :: path)
    (htyB : fB.nodeType = (!type)) (hnB : f.mm.next ≤ fB.mm.next)
    (hkB : ∀ key ∈ fB.mm.nodes.map Prod.fst,
      key ∈ f.mm.nodes.map Prod.fst ∨ key ∈ produced getChoices (k + e) c.2)
    (hmidB : ∀ q, q < f.mm.next → q ≠ x → (f.mm.heap q).state ≠ c.2 →
      (f.mm.heap q).state ∉ produced getChoices (k + e) c.2 → fB.mm.heap q = f.mm.heap q)
    (hxB : fB.mm.heap x = f.mm.heap x)
    (hv : (fB.mm.heap (n0 + j)).score
      = minimax_value heuristic getChoices (k + e) (!type) c.2) :
    ∃ f1, reaches heuristic getChoices depth startNode f f1 ∧
      f.mm.next ≤ f1.mm.next ∧
      (∀ key ∈ f1.mm.nodes.map Prod.fst,
        key ∈ f.mm.nodes.map Prod.fst ∨
          key ∈ produced_list (produced getChoices (k + e)) (c :: rest)) ∧
      kept_off f.mm.next x (top_owner startNode path)
        (produced_list (produced getChoices (k + e)) (c :: rest)) f.mm.heap f1.mm.heap ∧
      f1.mm.heap x = { f.mm.heap x with
        height := (f1.mm.heap x).height, score := (f1.mm.heap x).score } ∧
      again_children_done heuristic getChoices depth startNode (k + e) f f1 x path type
        (c :: rest) := by
  have hfirst := produced_list_first (produced getChoices (k + e)) c rest
  have hown : ∀ it ∈ path, fB.mm.heap it.owner = f.mm.heap it.owner := by
    intro it hit
    have hlt := hx.2.1 it hit
    have ho := hout it (by rw [hpath]; exact List.mem_cons_of_mem _ hit)
    exact hmidB it.owner (by omega) (by omega) (fun h => ho (h ▸ hfirst.1))
      (fun h => ho (hfirst.2 _ h))
  have hx1 : on_path fB.mm.heap startNode x path :=
    on_path_congr startNode x path (fun it hit => by rw [hown it hit]) hx
  have hb1 : bound_of fB.mm.heap path = bound_of f.mm.heap path :=
    bound_of_congr path (fun it hit => by rw [hown it hit])
  have hchB : (fB.mm.heap x).children = List.range' n0 (j + (rest.length + 1)) := by
    rw [hxB]; exact hch
  have hstep : step heuristic getChoices depth startNode fB
      = Except.ok (return_check depth startNode (merge_child startNode fB ⟨x, j⟩ path)) := by
    rw [step_backtrack _ _ _ _ _ hpcB]
    rw [next_node_step_child depth startNode fB ⟨x, j⟩ path hpathB
      (by rw [parent_of_cons, ← hx1.1, hchB]; simp)]
  have hr2 := reaches_trans _ _ _ _ hr (reaches_step _ _ _ _ (by rw [hpcB]; decide) hstep)
  obtain ⟨mpc, _, mnext, mnodes, mkept, _, mif⟩ :=
    merge_child_spec startNode fB x n0 (j + (rest.length + 1)) j f.mm.next path type hx1 hchB
      (by omega) htyB
  have mrest := merge_child_rest startNode fB x n0 (j + (rest.length + 1)) j path type hx1 hchB
      (by omega) htyB
  have mx : (merge_child startNode fB ⟨x, j⟩ path).mm.heap x
      = { f.mm.heap x with
          height := ((merge_child startNode fB ⟨x, j⟩ path).mm.heap x).height,
          score := ((merge_child startNode fB ⟨x, j⟩ path).mm.heap x).score } := by
    have h := same_links_eq ((merge_child_low startNode fB ⟨x, j⟩ path).1 x).1
    rw [hxB] at h
    exact h
  rw [hb1, hxB, hv] at mif mrest
  have hvr := minimax_value_range heuristic getChoices hrange (k + e) (!type) c.2
  by_cases hcut : (crosses type (bound_of f.mm.heap path)
      (merge type (f.mm.heap x).score (minimax_value heuristic getChoices (k + e) (!type) c.2)) &&
      decide (j + 1 ≠ j + (rest.length + 1))) = true
  · -- the node `x` is pruned
    rw [if_pos hcut] at mif
    have hcr : crosses type (bound_of f.mm.heap path)
        (merge type (f.mm.heap x).score
          (minimax_value heuristic getChoices (k + e) (!type) c.2)) = true := by
      simp only [Bool.and_eq_true] at hcut
      exact hcut.1
    cases hbo : bound_of f.mm.heap path with
    | none => rw [hbo] at hcr; simp [crosses] at hcr
    | some b =>
      rw [hbo] at hcr hncross
      refine ⟨return_check depth startNode (merge_child startNode fB ⟨x, j⟩ path), hr2,
        ?_, ?_, ?_, ?_, ?_⟩
      · rw [return_check_root, mnext]; exact hnB
      · intro key hkey
        rw [return_check_root, mnodes] at hkey
        rcases hkB key hkey with h | h
        · exact Or.inl h
        · exact Or.inr (hfirst.2 _ h)
      · intro q hq hqx hst
        rw [return_check_root]
        have e0 := hmidB q hq hqx (fun h => hst (h ▸ hfirst.1)) (fun h => hst (hfirst.2 _ h))
        have k1 := mkept q hq hqx
        rw [e0] at k1
        exact k1
      · rw [return_check_root]
        exact mx
      · right
        refine ⟨⟨_, rfl, by rw [mpc]; exact hpcB, mif.1, mif.2⟩, b, hbo, ?_⟩
        intro a0
        simp only [List.map_cons, List.foldl_cons]
        apply better_fold
        apply better_merge_right
        exact better_of_merge hncross hcr
  · -- the node `x` is not pruned
    rw [if_neg hcut] at mif
    have mother := mrest hcut
    refine searches_again_next heuristic getChoices depth startNode e k hdepth c rest ih f x
      n0 j path type hpath hlen hx hxn hsn hnext hch hnd hout htail hbound
      (merge_child startNode fB ⟨x, j⟩ path) hr2 (by rw [mpc]; exact hpcB) mif.1 mif.2.1
      (by rw [mnext]; exact hnB) (by rw [mnodes]; exact hkB) ?_ mx ?_ ?_ ?_
    · intro q h1 h2 h3 h4
      rw [mother q h2]
      exact hmidB q h1 h2 h3 h4
    · rw [mif.2.2]
      exact merge_range hacc hvr
    · intro hne
      rw [mif.2.2]
      have hd : decide (j + 1 ≠ j + (rest.length + 1)) = true := by
        cases rest with
        | nil => exact absurd rfl hne
        | cons c1 rest1 => simp
      rw [hd, Bool.and_true] at hcut
      simpa using hcut
    · exact mif.2.2.symm

end second_search_merge

section second_search_children

variable [DecidableEq State] (heuristic : State → Int)
  (getChoices : State → List (Choice × State)) (depth startNode : Nat)

/-- A later search of the children of an expanded node, given the later search of one
child. -/
theorem searches_again_children_of (e k : Nat) (hdepth : depth < infinity)
    (hrange : ∀ s, scoreMin ≤ heuristic s ∧ heuristic s ≤ scoreMax)
    (hN : searches_again heuristic getChoices depth startNode e k) :
    ∀ rest, searches_again_children heuristic getChoices depth startNode e k rest := by
  intro rest
  induction rest with
  | nil =>
    intro f x n0 j path type hpath hlen hty hx hxn hsn hnext hch hnd hout hpend hfinal hmode
      hacc hbound hncross
    rcases hmode with hpc | ⟨hne, _⟩
    · refine ⟨⟨f.mm, path, !f.nodeType, f.cur, f.pc⟩, ?_, le_refl _, fun key hk => Or.inl hk,
        fun q _ _ _ => ⟨fun _ => rfl, rfl⟩, rfl, ?_⟩
      · apply reaches_step _ _ _ _ (by rw [hpc]; decide)
        rw [step_backtrack _ _ _ _ _ hpc]
        rw [next_node_step_end depth startNode f ⟨x, j⟩ path hpath
          (by rw [parent_of_cons, ← hx.1, hch]; simp)]
      · left
        exact ⟨hpc, rfl, by simp only; rw [hty]; simp, fun _ => rfl, rfl⟩
    · exact absurd rfl hne
  | cons c rest ih =>
    intro f x n0 j path type hpath hlen hty hx hxn hsn hnext hch hnd hout hpend hfinal hmode
      hacc hbound hncross
    simp only [List.length_cons] at hnext hch
    obtain ⟨hnd1, _, hnd3⟩ := produced_list_cons (produced getChoices (k + e)) c rest hnd
    have hfirst := produced_list_first (produced getChoices (k + e)) c rest
    have hnc := hncross (List.cons_ne_nil _ _)
    have htail : ∀ (i : Nat) (c1 : Choice × State), rest[i]? = some c1 →
        cached heuristic getChoices e (f.mm.nodes.map Prod.fst) f.mm.next f.mm.heap k
          (n0 + (j + 1) + i) c1.2 (!type) := by
      intro i c1 hi
      have ha : n0 + (j + 1) + i = n0 + j + (i + 1) := by omega
      rw [ha]
      exact hpend (i + 1) c1 (by simpa using hi) (fun h => absurd h (Nat.succ_ne_zero i))
    rcases hmode with hpc | ⟨_, hpc, hcur⟩
    · -- the child under the iterator has its score already
      exact searches_again_merge heuristic getChoices depth startNode e k hdepth hrange c rest ih
        f x n0 j path type hpath hlen hx hxn hsn hnext hch hnd hout htail hbound hacc hnc
        f (reaches_refl _ _ _ _ f) hpc hpath hty (le_refl _) (fun key hk => Or.inl hk)
        (fun q _ _ _ _ => rfl) rfl (hfinal c (by simp) hpc)
    · -- the child under the iterator is searched
      have hder : deref f.mm.heap ⟨x, j⟩ = n0 + j := by
        simp only [deref]
        rw [hch]
        exact range_getD _ _ _ (by omega)
      have hcc := hpend 0 c (by simp) (fun _ => hpc)
      rw [Nat.add_zero, ← hcur] at hcc
      have hstc : (f.mm.heap f.cur).state = c.2 :=
        ((cached_iff _ _ _ _ _ _ _ _ _ _).mp hcc).2.1
      have hxc : on_path f.mm.heap startNode f.cur f.path := by
        rw [hpath, hcur]
        refine ⟨?_, ?_, ?_⟩
        · simp only [target]; exact hder.symm
        · intro it hit
          rcases List.mem_cons.mp hit with h | h
          · subst h; simp only; omega
          · have := hx.2.1 it h; omega
        · exact hx.1
      obtain ⟨f1, hr1, hn1, hk1, hkept1, hdone1⟩ := hN f c.2 (!type) hpc
        (by rw [hpath]; simp only [List.length_cons]; omega) hty hxc (by rw [hcur]; omega) hcc
        hnd1 (fun h => (hnd3 _ h).1 rfl)
        (fun it hit => ⟨fun h => hout it hit (h ▸ hfirst.1),
          fun h => hout it hit (hfirst.2 _ h)⟩)
        (by
          intro b hb
          rw [hpath] at hb
          simp only [bound_of, Option.some.injEq] at hb
          rw [← hb]
          exact hacc)
      unfold again_done at hdone1
      rw [hpath] at hkept1 hdone1
      simp only [bound_of, top_owner, Option.some.injEq] at hkept1 hdone1
      have hxst : (f.mm.heap x).state ∉ produced getChoices (k + e) c.2 :=
        fun h => hout ⟨x, j⟩ (by rw [hpath]; exact List.mem_cons_self _ _) (hfirst.2 _ h)
      have hmid1 : ∀ q, q < f.mm.next → q ≠ x → (f.mm.heap q).state ≠ c.2 →
          (f.mm.heap q).state ∉ produced getChoices (k + e) c.2 →
          f1.mm.heap q = f.mm.heap q := by
        intro q h1 h2 h3 h4
        exact (hkept1 q h1 (fun h => h3 (h ▸ hstc)) h4).1 h2
      have hxA : f1.mm.heap x = { f.mm.heap x with height := (f1.mm.heap x).height } :=
        (hkept1 x (by omega) (by omega) hxst).2
      rcases hdone1 with ⟨hpc1, hpath1, hty1, hwsame, hval⟩ |
          ⟨⟨f0, hf1, hpc0, hpath0, hty0⟩, b, hb, hbetter⟩
      · -- the child has an exact score
        rw [hcur] at hval
        exact searches_again_merge heuristic getChoices depth startNode e k hdepth hrange c rest
          ih f x n0 j path type hpath hlen hx hxn hsn hnext hch hnd hout htail hbound hacc hnc
          f1 hr1 hpc1 hpath1 hty1 hn1 hk1 hmid1
          (hwsame (List.cons_ne_nil _ _)) hval
      · -- the child is pruned
        have hmm : f1.mm = f0.mm := by rw [hf1]; exact return_check_root _ _ _
        rw [hmm] at hn1 hk1 hmid1 hxA
        rw [hf1] at hr1
        have hsc : (f0.mm.heap x).score = (f.mm.heap x).score := by rw [hxA]
        refine searches_again_next heuristic getChoices depth startNode e k hdepth c rest ih f x
          n0 j path type hpath hlen hx hxn hsn hnext hch hnd hout htail hbound f0 hr1 hpc0
          (by rw [hpath0]; rfl)
          hty0 hn1 hk1 hmid1 ?_ (by rw [hsc]; exact hacc)
          (fun hne => by rw [hsc]; exact hnc) ?_
        · rw [hxA]
        · rw [hsc]
          apply merge_absorb
          rw [hb]
          exact hbetter

end second_search_children

theorem reset_node_at (hp : Nat → node State Choice) (cur : Nat) (type : Bool) :
    reset_node hp cur type cur = { hp cur with height := infinity, score := seed type } := by
  simp only [reset_node, store_same]

theorem reset_node_other (hp : Nat → node State Choice) (cur : Nat) (type : Bool) (q : Nat)
    (h : q ≠ cur) : reset_node hp cur type q = hp q := by
  simp only [reset_node]
  exact store_other _ _ _ _ h

section second_search_all

variable [DecidableEq State] (heuristic : State → Int)
  (getChoices : State → List (Choice × State)) (depth startNode : Nat)

/-- A later search of a searched node with more plies than the first search had, for
every number of plies of the first search: a node of the unknown height keeps its
score, a node that was not expanded is searched as a new node, and every other node
is reset and its children are searched again. -/
theorem searches_again_all (e : Nat) (he : 1 ≤ e) (hdepth : depth < infinity)
    (hrange : ∀ s, scoreMin ≤ heuristic s ∧ heuristic s ≤ scoreMax) :
    ∀ k, searches_again heuristic getChoices depth startNode e k := by
  have hinf : infinity = 2 ^ 64 - 1 := rfl
  have hd64 : depth < 2 ^ 64 := by omega
  intro k
  induction k with
  | zero =>
    intro f s type hpc hlen hty hx hs hc hnd hself hout hbound
    obtain ⟨hlt, hst, h3 | h3 | ⟨k1, hk, _⟩⟩ := (cached_iff _ _ _ _ _ _ _ _ _ _).mp hc
    · exact again_unexpanded heuristic getChoices depth startNode e 0 hdepth hrange f s type hpc
        hlen hty hx hs hlt h3 hnd hbound
    · exact again_settled heuristic getChoices depth startNode e 0 f s type hpc hty hc h3.2.2.1
    · omega
  | succ k ih =>
    intro f s type hpc hlen hty hx hs hc hnd hself hout hbound
    obtain ⟨hlt, hst, h3 | h3 | ⟨k1, hk, h3⟩⟩ := (cached_iff _ _ _ _ _ _ _ _ _ _).mp hc
    · exact again_unexpanded heuristic getChoices depth startNode e (k + 1) hdepth hrange f s
        type hpc hlen hty hx hs hlt h3 hnd hbound
    · exact again_settled heuristic getChoices depth startNode e (k + 1) f s type hpc hty hc
        h3.2.2.1
    · have hkk : k1 = k := by omega
      subst hkk
      by_cases hht : (f.mm.heap f.cur).height = infinity
      · exact again_settled heuristic getChoices depth startNode e (k1 + 1) f s type hpc hty hc
          hht
      obtain ⟨hgne, _, n0, hxn, hch, hchildren, _, hfin⟩ := h3
      have hhk := hfin hht
      have hd : k1 + 1 + e = k1 + e + 1 := by omega
      rw [hd] at hnd hself hout ⊢
      have hndA : (produced_list (produced getChoices (k1 + e)) (getChoices s)).Nodup := hnd
      have hsub : usize_sub depth f.path.length = k1 + 1 + e := by
        rw [usize_sub_of_le _ _ (by omega) hd64]; omega
      have hlenpos : 0 < (getChoices s).length := List.length_pos.mpr hgne
      have hrch : (reset_node f.mm.heap f.cur f.nodeType f.cur).children
          = List.range' n0 (getChoices s).length := by
        rw [reset_node_at]; exact hch
      have hrne : (reset_node f.mm.heap f.cur f.nodeType f.cur).children ≠ [] := by
        rw [hrch]
        intro h
        have := congrArg List.length h
        rw [List.length_range', List.length_nil] at this
        omega
      have hstep := step_descend_fire heuristic getChoices depth startNode f hpc
        (by rw [hsub]; omega)
      rw [if_pos hrne] at hstep
      have hnlast : n0 + (getChoices s).length ≤ f.mm.next := by
        have hlast : (getChoices s).length - 1 < (getChoices s).length := by omega
        have hi : (getChoices s)[(getChoices s).length - 1]?
            = some (getChoices s)[(getChoices s).length - 1] :=
          List.getElem?_eq_getElem hlast
        have := ((cached_iff _ _ _ _ _ _ _ _ _ _).mp (hchildren _ _ hi)).1
        omega
      have hother : ∀ it ∈ f.path,
          reset_node f.mm.heap f.cur f.nodeType it.owner = f.mm.heap it.owner := by
        intro it hit
        have hlt2 := hx.2.1 it hit
        exact reset_node_other _ _ _ _ (by omega)
      have hb : bound_of (reset_node f.mm.heap f.cur f.nodeType) f.path
          = bound_of f.mm.heap f.path :=
        bound_of_congr f.path (fun it hit => by rw [hother it hit])
      have hL := searches_again_children_of heuristic getChoices depth startNode e k1 hdepth
        hrange ih (getChoices s)
        (go_down { f with mm := { f.mm with heap := reset_node f.mm.heap f.cur f.nodeType } }
          PC.descend)
        f.cur n0 0 f.path type rfl (by omega)
        (by simp only [go_down]; rw [hty])
        (on_path_congr startNode f.cur f.path
          (fun it hit => by simp only [go_down]; rw [hother it hit]) hx)
        hxn hs (by simp only [go_down]; omega)
        (by simp only [go_down, Nat.zero_add]; exact hrch)
        hndA
        (by
          intro it hit
          simp only [go_down] at hit ⊢
          rcases List.mem_cons.mp hit with h | h
          · subst h
            simp only
            rw [reset_node_at]
            simp only
            rw [hst]
            exact hself
          · rw [hother it h]
            exact (hout it h).2)
        (by
          intro i c hi _
          simp only [go_down, Nat.add_zero]
          apply cached_congr heuristic getChoices e _ _ _ _ _ _ (le_refl _) k1 (n0 + i) c.2
            (!type) (hchildren i c hi)
          · intro q hq1 _ _
            exact same_but_rc_of_eq (reset_node_other _ _ _ _ (by omega))
          · intro t _ hmem
            exact hmem)
        (by
          intro c _ hpcb
          simp [go_down] at hpcb)
        (Or.inr ⟨hgne, rfl, by
          simp only [go_down, Nat.add_zero]
          rw [hrch]
          exact range_headD _ _ hlenpos⟩)
        (by
          simp only [go_down]
          rw [reset_node_at, hty]
          exact seed_range type)
        (by simp only [go_down]; rw [hb]; exact hbound)
        (by
          intro _
          simp only [go_down]
          rw [hb, reset_node_at, hty]
          simp only
          cases hbo : bound_of f.mm.heap f.path with
          | none => rfl
          | some b => exact better_seed (hbound b hbo))
      obtain ⟨f1, hr1, hn1, hk1, hkept1, hx1, hdone1⟩ := hL
      unfold again_children_done at hdone1
      simp only [go_down] at hn1 hk1 hkept1 hx1 hdone1
      rw [hb] at hdone1
      have hsc0 : (reset_node f.mm.heap f.cur f.nodeType f.cur).score = seed type := by
        rw [reset_node_at, hty]
      rw [hsc0] at hdone1
      have hwsame : f.path ≠ [] →
          reset_node f.mm.heap f.cur f.nodeType (top_owner startNode f.path)
            = f.mm.heap (top_owner startNode f.path) := by
        intro hne
        exact reset_node_other _ _ _ _ (top_owner_ne startNode f.cur f.path hne hx.2.1)
      refine ⟨f1, reaches_trans _ _ _ _ (reaches_step _ _ _ _ (by rw [hpc]; decide) hstep) hr1, hn1, hk1, ?_, ?_⟩
      · intro q hq hqx hqst
        have e0 : reset_node f.mm.heap f.cur f.nodeType q = f.mm.heap q :=
          reset_node_other _ _ _ _ hqx
        have k3 := hkept1 q hq hqx (by rw [e0]; exact hqst)
        rw [e0] at k3
        exact k3
      · rcases hdone1 with ⟨p1, p2, p3, p5, p6⟩ | ⟨hf0, b, hbb, hsem⟩
        · left
          refine ⟨p1, p2, p3, ?_, ?_⟩
          · intro hne
            rw [p5 hne]
            exact hwsame hne
          · rw [p6, minimax_value_fold heuristic getChoices hrange (k1 + e) type s hgne]
        · right
          refine ⟨hf0, b, hbb, ?_⟩
          rw [minimax_value_fold heuristic getChoices hrange (k1 + e) type s hgne]
          exact hsem (seed type)

end second_search_all

/-- In a list of produced states without repetition, the states produced below a move
are produced once, and the state of the move is not among them. -/
theorem produced_list_mem (below : State → List State) :
    ∀ (moves : List (Choice × State)), (produced_list below moves).Nodup →
      ∀ c ∈ moves, (below c.2).Nodup ∧ c.2 ∉ below c.2 := by
  intro moves
  induction moves with
  | nil =>
    intro _ c hc
    cases hc
  | cons c0 cs ih =>
    intro h c hc
    obtain ⟨h1, h2, h3⟩ := produced_list_cons below c0 cs h
    rcases List.mem_cons.mp hc with heq | hmem
    · subst heq
      exact ⟨h1, fun hin => (h3 _ hin).1 rfl⟩
    · exact ih h2 c hmem

/-- The end of `progress` changes no field of any node but its count `rc`, keeps the
allocation mark, and adds no entry to the table. -/
theorem swap_root_fields (e : minimax State Choice) (newRoot : Nat) :
    (∀ q, same_but_rc ((swap_root e newRoot).heap q) (e.heap q)) ∧
      (swap_root e newRoot).next = e.next ∧ (swap_root e newRoot).root = newRoot ∧
      (swap_root e newRoot).type_ = e.type_ ∧
      ∀ key ∈ (swap_root e newRoot).nodes.map Prod.fst, key ∈ e.nodes.map Prod.fst := by
  refine ⟨fun q => ?_, rfl, rfl, rfl, ?_⟩
  · simp only [swap_root]
    exact same_but_rc_trans (release_fields _ _ _ q) (same_but_rc_store _ _ _ q)
  · intro key hkey
    simp only [swap_root, List.mem_map] at hkey ⊢
    obtain ⟨entry, hentry, hk⟩ := hkey
    exact ⟨entry, (List.mem_filter.mp hentry).1, hk⟩

section second_compute

variable [DecidableEq State] (heuristic : State → Int)
  (getChoices : State → List (Choice × State))

/-- The first `compute(d)` of a new engine over a tree-shaped game returns, and the
heap is then as `cached` says for the root searched with `d` plies. -/
theorem compute_fresh_cached (start : State) (isMax : Bool) (d e : Nat)
    (hd1 : 1 ≤ d) (hmax : d ≤ max_size)
    (hrange : ∀ s, scoreMin ≤ heuristic s ∧ heuristic s ≤ scoreMax)
    (htree : (produced getChoices (d + e) start).Nodup) :
    ∃ N e1, (∀ fuel, N ≤ fuel →
        compute heuristic getChoices fuel d (minimax.new start isMax) = Except.ok e1) ∧
      e1.root = 0 ∧ e1.type_ = isMax ∧
      cached heuristic getChoices e (e1.nodes.map Prod.fst) e1.next e1.heap d 0 start isMax := by
  have hd2 : d < infinity := lt_of_le_of_lt hmax (by decide)
  obtain ⟨f1, hr1, _, _, _, hcached, hdone⟩ :=
    searches_first_all heuristic getChoices d 0 e hd2 hrange d
      (first_frame (minimax.new start isMax)) start isMax
      (Or.inr ⟨rfl, seed isMax, 1, rfl⟩) (by simp [first_frame]) (first_frame_type _)
      (show on_path _ 0 0 [] from ⟨rfl, fun it hit => (List.not_mem_nil it hit).elim, trivial⟩)
      Nat.zero_lt_one Nat.zero_lt_one htree
      (fun t _ hmem => (List.not_mem_nil t hmem).elim)
      (fun b hb => by cases hb)
  rcases hdone with ⟨hpc1, hpath1, _⟩ | ⟨_, b, hb, _⟩
  · have hstep : step heuristic getChoices d 0 f1
        = Except.ok ⟨f1.mm, f1.path, f1.nodeType, 0, PC.finished⟩ := by
      rw [step_backtrack _ _ _ _ _ hpc1, next_node_step_nil d 0 f1 hpath1]
      simp [resume]
    obtain ⟨N, hN⟩ := run_of_reaches heuristic getChoices d 0
      (reaches_trans _ _ _ _ hr1 (reaches_step _ _ _ _ (by rw [hpc1]; decide) hstep)) rfl
    have hcomp : ∀ fuel, N ≤ fuel →
        compute heuristic getChoices fuel d (minimax.new start isMax) = Except.ok f1.mm := by
      intro fuel hfuel
      unfold compute
      rw [if_neg (by
        simp only [minimax.new, node.mk_shared, infinity]
        omega), if_neg (Nat.not_lt.mpr hmax)]
      exact hN fuel hfuel
    have hroot := run_root heuristic getChoices d 0 N _ _ f1.mm (hN N (le_refl _))
    exact ⟨N, f1.mm, hcomp, hroot.1, hroot.2, hcached⟩
  · cases hb

/-- A `compute(depth)` of an engine whose root was searched before with fewer plies,
in a game that is tree-shaped below the state of the root: the call returns and the
score of the root is the minimax value of its state for `depth` plies. -/
theorem compute_cached (e k depth : Nat) (he : 1 ≤ e) (hk : k + e = depth)
    (hmax : depth ≤ max_size)
    (hrange : ∀ s, scoreMin ≤ heuristic s ∧ heuristic s ≤ scoreMax)
    (eng : minimax State Choice) (s : State)
    (hc : cached heuristic getChoices e (eng.nodes.map Prod.fst) eng.next eng.heap k eng.root s
      eng.type_)
    (hnd : (produced getChoices (k + e) s).Nodup)
    (hself : s ∉ produced getChoices (k + e) s) :
    ∃ N, ∀ fuel, N ≤ fuel →
      ∃ e3, compute heuristic getChoices fuel depth eng = Except.ok e3 ∧
        e3.score = minimax_value heuristic getChoices depth eng.type_ s := by
  have hdepth : depth < infinity := lt_of_le_of_lt hmax (by decide)
  by_cases hret : (eng.heap eng.root).height ≥ depth ∨ (eng.heap eng.root).height = infinity
  · refine ⟨0, fun fuel _ => ⟨eng, ?_, ?_⟩⟩
    · unfold compute
      rw [if_pos hret]
    · have hi : (eng.heap eng.root).height = infinity := by
        by_contra hfin
        have := cached_height heuristic getChoices e _ _ _ k _ s _ hc hfin
        rcases hret with h | h
        · omega
        · exact hfin h
      simp only [minimax.score]
      exact (cached_settled heuristic getChoices e _ _ _ k _ s _ hc hi depth (by omega)).symm
  · obtain ⟨f1, hr1, _, _, _, hdone⟩ :=
      searches_again_all heuristic getChoices depth eng.root e he hdepth hrange k
        (first_frame eng) s eng.type_ rfl (by simp only [first_frame, List.length_nil]; omega)
        (first_frame_type _)
        (show on_path _ eng.root eng.root [] from
          ⟨rfl, fun it hit => (List.not_mem_nil it hit).elim, trivial⟩)
        (le_refl _) hc hnd hself
        (fun it hit => (List.not_mem_nil it hit).elim)
        (fun b hb => by cases hb)
    rcases hdone with ⟨hpc1, hpath1, _, _, hval⟩ | ⟨_, b, hb, _⟩
    · have hstep : step heuristic getChoices depth eng.root f1
          = Except.ok ⟨f1.mm, f1.path, f1.nodeType, eng.root, PC.finished⟩ := by
        rw [step_backtrack _ _ _ _ _ hpc1, next_node_step_nil depth eng.root f1 hpath1]
        simp [resume]
      obtain ⟨N, hN⟩ := run_of_reaches heuristic getChoices depth eng.root
        (reaches_trans _ _ _ _ hr1 (reaches_step _ _ _ _ (by rw [hpc1]; decide) hstep)) rfl
      refine ⟨N, fun fuel hfuel => ⟨f1.mm, ?_, ?_⟩⟩
      · unfold compute
        rw [if_neg hret, if_neg (Nat.not_lt.mpr hmax)]
        exact hN fuel hfuel
      · have hroot := (run_root heuristic getChoices depth eng.root fuel _ _ f1.mm
          (hN fuel hfuel)).1
        simp only [minimax.score]
        rw [hroot]
        simp only [first_frame]
        rw [hk] at hval
        exact hval
    · cases hb

end second_compute

theorem root_step [DecidableEq State] (heuristic : State → Int)
    (getChoices : State → List (Choice × State)) (d : Nat) (start : State) (isMax : Bool)
    (hd : 0 < d) (hd64 : d < 2 ^ 64) :
    ∃ g, steps heuristic getChoices d 0 1
      (first_frame (minimax.new start isMax : minimax State Choice)) = Except.ok g ∧
      g.cur = 0 ∧ g.pc = PC.construct ∧ g.path.length < d := by
  have hsub : usize_sub d 0 = d := by
    rw [usize_sub_of_le _ _ (Nat.zero_le _) hd64]
    rfl
  have hlt : ((first_frame (minimax.new start isMax : minimax State Choice)).mm.heap
      (first_frame (minimax.new start isMax : minimax State Choice)).cur).height
      < usize_sub d (first_frame (minimax.new start isMax : minimax State Choice)).path.length := by
    show (0 : Nat) < usize_sub d 0
    rw [hsub]
    exact hd
  have hstep := step_descend_fire heuristic getChoices d 0
    (first_frame (minimax.new start isMax : minimax State Choice)) rfl hlt
  rw [if_neg (by
    intro h
    exact h rfl)] at hstep
  exact ⟨_, steps_cons heuristic getChoices d 0 0 _ _ _ hstep rfl, rfl, rfl, hd⟩

/-- After `compute(d)` with `d >= 1` on a new engine the root has children unless the
move generator has no move for its state. -/
theorem root_expanded [DecidableEq State] (heuristic : State → Int)
    (getChoices : State → List (Choice × State)) (fuel d : Nat) (start : State) (isMax : Bool)
    (e1 : minimax State Choice) (hd : 0 < d) (hd64 : d < 2 ^ 64)
    (hok : compute heuristic getChoices fuel d (minimax.new start isMax) = Except.ok e1)
    (hchild : (e1.heap 0).children = []) : getChoices (e1.heap 0).state = [] := by
  have hwf1 := well_formed_compute heuristic getChoices fuel d hd64 _ e1
    (well_formed_new getChoices start isMax) hok
  unfold compute at hok
  rw [if_neg (by
    show ¬ ((0 : Nat) ≥ d ∨ (0 : Nat) = infinity)
    have := infinity_pos
    omega)] at hok
  split at hok
  · cases hok
  obtain ⟨n, fn, hn, hfin, hmm⟩ := steps_of_run heuristic getChoices d 0 fuel _ _ e1 hok
  subst hmm
  have hlate := steps_add heuristic getChoices d 0 n 2 _ fn fn hn
    (steps_finished heuristic getChoices d 0 2 fn hfin)
  obtain ⟨g, hg, hg1, hg2, hg3⟩ := root_step heuristic getChoices d start isMax hd hd64
  obtain ⟨-, -, -, hinv⟩ := steps_leaf_inv heuristic getChoices d hd64 start isMax (n + 2) fn
    hlate
  have hh := (hinv.2.2.2 0 hchild).2.1 ⟨1, g, by omega, hg, hg1, hg2, hg3⟩
  rcases hwf1.2.1 0 hchild with h0 | h0
  · rw [hh] at h0
    have := infinity_pos
    omega
  · exact h0

/-- Two calls of `compute` with increasing depths on a new engine over a tree-shaped
game whose start state is not produced again: the second call returns, and the score
of the root is the minimax value of the start state for the second depth. -/
theorem deepening_twice [DecidableEq State] (heuristic : State → Int)
    (getChoices : State → List (Choice × State)) (start : State) (isMax : Bool)
    (d deeper : Nat) (hd1 : 1 ≤ d) (hd2 : d < deeper) (hd3 : deeper ≤ max_size)
    (hrange : ∀ s, scoreMin ≤ heuristic s ∧ heuristic s ≤ scoreMax)
    (htree : (produced getChoices deeper start).Nodup)
    (hstart : start ∉ produced getChoices deeper start) :
    ∃ N, ∀ fuel, N ≤ fuel →
      ∃ e1 e2, compute heuristic getChoices fuel d (minimax.new start isMax) = Except.ok e1 ∧
        compute heuristic getChoices fuel deeper e1 = Except.ok e2 ∧
        e2.score = minimax_value heuristic getChoices deeper isMax start := by
  have hde : d + (deeper - d) = deeper := by omega
  obtain ⟨N1, e1, hcomp1, hroot1, htype1, hcached⟩ :=
    compute_fresh_cached heuristic getChoices start isMax d (deeper - d) hd1 (by omega)
      hrange (by rw [hde]; exact htree)
  rw [← hroot1, ← htype1] at hcached
  obtain ⟨N2, hN2⟩ := compute_cached heuristic getChoices (deeper - d) d deeper (by omega) hde
    hd3 hrange e1 start hcached (by rw [hde]; exact htree) (by rw [hde]; exact hstart)
  refine ⟨max N1 N2, fun fuel hfuel => ?_⟩
  obtain ⟨e2, hc2, hs2⟩ := hN2 fuel (by omega)
  rw [htype1] at hs2
  exact ⟨e1, e2, hcomp1 fuel (by omega), hc2, hs2⟩

/-- The claim C3: for a new engine, depths `d` and `deeper` with `1 ≤ d ≤ deeper` and
`deeper` at most the largest size of the path vector, a heuristic whose values
an `int` holds and a move generator that produces no state twice within `deeper + 1`
plies of the start state, `compute(d)` returns, the choices stored with the children
of the root are then the choices of the moves of the start state, and for every
choice `c` among them `progress(c)` returns the state of the child, the following
`compute(deeper)` returns, and the score of the root is then the score of the root of
a new engine made for the child's state with the opposite type after its
`compute(deeper)`, which is the minimax value of the child's state. -/
theorem progress_keeps_search [DecidableEq State] [DecidableEq Choice]
    (heuristic : State → Int) (getChoices : State → List (Choice × State)) (start : State)
    (isMax : Bool) (d deeper : Nat) (c : Choice)
    (hd1 : 1 ≤ d) (hd2 : d ≤ deeper) (hd3 : deeper ≤ max_size)
    (hrange : ∀ s, scoreMin ≤ heuristic s ∧ heuristic s ≤ scoreMax)
    (htree : (produced getChoices (deeper + 1) start).Nodup) :
    ∃ N, ∀ fuel, N ≤ fuel →
      ∃ e1, compute heuristic getChoices fuel d (minimax.new start isMax) = Except.ok e1 ∧
        (e1.heap e1.root).choices = (getChoices start).map Prod.fst ∧
        (c ∈ (e1.heap e1.root).choices →
          ∃ s e3 e4, (progress heuristic getChoices fuel c e1).1 = Except.ok s ∧
            compute heuristic getChoices fuel deeper (progress heuristic getChoices fuel c e1).2
              = Except.ok e3 ∧
            compute heuristic getChoices fuel deeper (minimax.new s (!isMax)) = Except.ok e4 ∧
            e3.score = e4.score ∧
            e3.score = minimax_value heuristic getChoices deeper (!isMax) s) := by
  have hinf : infinity = 2 ^ 64 - 1 := rfl
  have hd4 : deeper < 2 ^ 64 - 1 := lt_of_le_of_lt hd3 (by decide)
  have hde : d + (deeper - d + 1) = deeper + 1 := by omega
  obtain ⟨N1, e1, hcomp1, hroot1, htype1, hcached⟩ :=
    compute_fresh_cached heuristic getChoices start isMax d (deeper - d + 1) hd1 (by omega)
      hrange (by rw [hde]; exact htree)
  have hwf : well_formed getChoices e1 :=
    well_formed_compute heuristic getChoices N1 d (by omega) _ e1
      (well_formed_new getChoices start isMax) (hcomp1 N1 (le_refl _))
  have hst : (e1.heap 0).state = start := ((cached_iff _ _ _ _ _ _ _ _ _ _).mp hcached).2.1
  have hleaf : (e1.heap 0).children = [] →
      (e1.heap 0).choices = [] ∧ getChoices start = [] := by
    intro hch0
    have hlen := hwf.1 0
    rw [hch0] at hlen
    have hg := root_expanded heuristic getChoices N1 d start isMax e1 (by omega) (by omega)
      (hcomp1 N1 (le_refl _)) hch0
    rw [hst] at hg
    exact ⟨List.length_eq_zero.mp hlen.symm, hg⟩
  have hchoices : (e1.heap e1.root).choices = (getChoices start).map Prod.fst := by
    rw [hroot1]
    obtain ⟨_, _, h3 | h3 | ⟨k1, hk, h3⟩⟩ := (cached_iff _ _ _ _ _ _ _ _ _ _).mp hcached
    · obtain ⟨⟨sc, r, hx⟩, _⟩ := h3
      obtain ⟨h1, h2⟩ := hleaf (by rw [hx]; rfl)
      rw [h1, h2]
      rfl
    · obtain ⟨h1, h2⟩ := hleaf h3.2.1
      rw [h1, h2]
      rfl
    · exact h3.2.1
  by_cases hmem : c ∈ (e1.heap e1.root).choices
  · rw [hroot1] at hmem
    obtain ⟨_, _, h3 | h3 | ⟨k1, hk, h3⟩⟩ := (cached_iff _ _ _ _ _ _ _ _ _ _).mp hcached
    · obtain ⟨⟨sc, r, hx⟩, _⟩ := h3
      rw [hx] at hmem
      simp [node.mk_shared] at hmem
    · rw [(hleaf h3.2.1).1] at hmem
      cases hmem
    · obtain ⟨hgne, hcho, n0, hxn, hch, hchildren, _, _⟩ := h3
      have hke : k1 + (deeper - d + 1) = deeper := by omega
      have hlenpos : 0 < (getChoices start).length := List.length_pos.mpr hgne
      have hcne : (e1.heap e1.root).children ≠ [] := by
        rw [hroot1, hch]
        intro h
        have := congrArg List.length h
        rw [List.length_range', List.length_nil] at this
        omega
      obtain ⟨i, p, hi, _, hp, hloop⟩ :=
        (progress_loop_none c (e1.heap 0).choices (e1.heap 0).children (hwf.1 0)).2 hmem
      rw [hcho] at hi
      rw [hch] at hp
      obtain ⟨ci, hci, hcic⟩ : ∃ ci, (getChoices start)[i]? = some ci ∧ ci.1 = c := by
        rw [List.getElem?_map] at hi
        cases hg : (getChoices start)[i]? with
        | none => rw [hg] at hi; cases hi
        | some ci =>
          rw [hg] at hi
          exact ⟨ci, rfl, by simpa using hi⟩
      have hilt : i < (getChoices start).length := by
        by_contra hcon
        rw [List.getElem?_eq_none (by omega)] at hci
        cases hci
      have hpi : p = n0 + i := by
        rw [List.getElem?_range' _ _ hilt] at hp
        simp only [Option.some.injEq] at hp
        omega
      subst hpi
      have hcim : ci ∈ getChoices start := List.getElem?_mem hci
      have hcc := hchildren i ci hci
      obtain ⟨hsame, hnext2, hroot2, htype2, hkeys2⟩ :=
        swap_root_fields ({ e1 with type_ := !e1.type_ } : minimax State Choice) (n0 + i)
      have hc2 : cached heuristic getChoices (deeper - d + 1)
          ((swap_root ({ e1 with type_ := !e1.type_ } : minimax State Choice) (n0 + i)).nodes.map
            Prod.fst)
          (swap_root ({ e1 with type_ := !e1.type_ } : minimax State Choice) (n0 + i)).next
          (swap_root ({ e1 with type_ := !e1.type_ } : minimax State Choice) (n0 + i)).heap k1
          (swap_root ({ e1 with type_ := !e1.type_ } : minimax State Choice) (n0 + i)).root ci.2
          (swap_root ({ e1 with type_ := !e1.type_ } : minimax State Choice) (n0 + i)).type_ := by
        rw [hroot2, htype2]
        simp only
        rw [htype1]
        exact cached_congr heuristic getChoices (deeper - d + 1) _ _ _ _ _ _ (le_of_eq hnext2.symm)
          k1 (n0 + i) ci.2 (!isMax) hcc (fun q _ _ _ => hsame q) (fun t _ hm => hkeys2 t hm)
      have htreeA : (produced_list (produced getChoices deeper) (getChoices start)).Nodup := htree
      obtain ⟨hndc, hselfc⟩ := produced_list_mem (produced getChoices deeper) (getChoices start)
        htreeA ci hcim
      obtain ⟨N2, hN2⟩ := compute_cached heuristic getChoices (deeper - d + 1) k1 deeper
        (by omega) hke hd3 hrange _ ci.2 hc2 (by rw [hke]; exact hndc) (by rw [hke]; exact hselfc)
      obtain ⟨N4, hN4⟩ := compute_fresh_tree heuristic getChoices ci.2 (!isMax) deeper
        (by omega) (by omega) hrange hndc
      refine ⟨max N1 (max N2 N4), fun fuel hfuel =>
        ⟨e1, hcomp1 fuel (by omega), hchoices, fun _ => ?_⟩⟩
      have hprog : progress heuristic getChoices fuel c e1
          = (Except.ok ((swap_root ({ e1 with type_ := !e1.type_ } : minimax State Choice)
                (n0 + i)).heap (n0 + i)).state,
              swap_root ({ e1 with type_ := !e1.type_ } : minimax State Choice) (n0 + i)) := by
        rw [progress_of_children heuristic getChoices fuel c e1 hcne, hroot1, hloop]
      have hstate : ((swap_root ({ e1 with type_ := !e1.type_ } : minimax State Choice)
          (n0 + i)).heap (n0 + i)).state = ci.2 := by
        rw [(hsame (n0 + i)).2.1]
        exact ((cached_iff _ _ _ _ _ _ _ _ _ _).mp hcc).2.1
      obtain ⟨e3, hc3, hs3⟩ := hN2 fuel (by omega)
      obtain ⟨e4, hc4, hs4⟩ := hN4 fuel (by omega)
      rw [htype2] at hs3
      simp only at hs3
      rw [htype1] at hs3
      refine ⟨ci.2, e3, e4, ?_, ?_, hc4, by rw [hs3, hs4], hs3⟩
      · rw [hprog]
        simp only
        rw [hstate]
      · rw [hprog]
        exact hc3
  · exact ⟨N1, fun fuel hfuel => ⟨e1, hcomp1 fuel hfuel, hchoices, fun h => absurd h hmem⟩⟩

/-- The claim C3 at the game `deepening_moves`: after a search of two plies from a
maximizing root the move 1 is committed and three plies are searched; the root has
the score that a new engine for the state `[1]` with a minimizing root has after a
search of three plies. -/
theorem progress_keeps_search_witness :
    1 ≤ 2 ∧ 2 ≤ 3 ∧ 3 ≤ max_size ∧
      (∀ s, scoreMin ≤ deepening_score s ∧ deepening_score s ≤ scoreMax) ∧
      (produced deepening_moves (3 + 1) []).Nodup ∧
      (deepening_moves []).map Prod.fst = [0, 1] ∧
      ∃ N, ∀ fuel, N ≤ fuel →
        ∃ e1, compute deepening_score deepening_moves fuel 2 (minimax.new [] true)
            = Except.ok e1 ∧
          (e1.heap e1.root).choices = (deepening_moves []).map Prod.fst ∧
          (1 ∈ (e1.heap e1.root).choices →
            ∃ s e3 e4, (progress deepening_score deepening_moves fuel 1 e1).1 = Except.ok s ∧
              compute deepening_score deepening_moves fuel 3
                  (progress deepening_score deepening_moves fuel 1 e1).2 = Except.ok e3 ∧
              compute deepening_score deepening_moves fuel 3 (minimax.new s (!true))
                = Except.ok e4 ∧
              e3.score = e4.score ∧
              e3.score = minimax_value deepening_score deepening_moves 3 (!true) s) :=
  ⟨by decide, by decide, by decide,
    fun s => by unfold deepening_score scoreMin scoreMax; split <;> constructor <;> decide,
    by decide, by decide,
    progress_keeps_search deepening_score deepening_moves [] true 2 3 1 (by decide) (by decide)
      (by decide)
      (fun s => by unfold deepening_score scoreMin scoreMax; split <;> constructor <;> decide)
      (by decide)⟩

/-! ## Nodes without children after `compute` on a tree-shaped game -/

end Minimax
